import Mathlib

/-!
# powerslider/merkle-tree: a shallow embedding

The Go package keeps its tree as heap objects linked by pointers
(`Node.Parent`, `Node.Left`, `Node.Right`, `Node.Tree`) and mutates them in
place (`leafNodes[left].Parent = n`, `t.Root = root`).  The embedding keeps
that shape: a `Heap` holds every allocated `Node` and every allocated
`MerkleTree`, a pointer is `Option Nat` (`none` is Go's `nil`, `some a` is
the object allocated as number `a`), and each function of the package is
a function on heaps.

* A function that can return a Go `error` returns `Res α`; `Fault.err e`
  is the returned error value `e`.  A nil dereference (a run-time panic)
  is `Fault.crash`.  Recursion and loops that follow pointers take a fuel
  argument and answer `Fault.outOfFuel` when it is used up.
* Byte strings are values (`List (Fin 256)`); `append(a, b...)` is `a ++ b`
  and `bytes.Equal` is equality.
* `hash.Hash` and the payload implementations live outside the package:
  they enter as the functions they compute.
-/

set_option autoImplicit false

namespace merkletree

/-! ## Data model -/

/-- Byte strings, Go's `[]byte` read as a value. -/
abbrev Bytes := List (Fin 256)

/-- Go's `error` values, identified by their message. -/
abbrev Error := String

/-- Ways in which a call does not return a value. -/
inductive Fault where
  /-- A Go `error` came back as the last result. -/
  | err (e : Error)
  /-- A nil pointer or nil interface was dereferenced, or an index was out of range. -/
  | crash
  /-- The fuel of the embedding ran out (the Go code would still be running). -/
  | outOfFuel
  deriving DecidableEq, Repr

/-- Result of a call: a value, or a `Fault`. -/
abbrev Res (α : Type) := Except Fault α

/-- Results of code outside the package (a value or a Go `error`) read as a `Res`. -/
def liftE {α : Type} : Except Error α → Res α
  | .ok a => .ok a
  | .error e => .error (.err e)

/-- hash_functions.go: `HashFunc` with its method `Calculate`.  The `hash.Hash`
object behind it is external; `Calculate payload` is `Sum(nil)` after
`Write(payload)`, or the error of `Write`. -/
structure HashFunc where
  Calculate : Bytes → Except Error Bytes

/-- payloads.go: the `Payload` interface.  `P` is the type of all non-nil
payload values; a nil interface value is `none : Option P`. -/
class Payload (P : Type) where
  CalculateHash : P → Except Error Bytes
  Equals : P → P → Except Error Bool

/-- Pointers: `none` is `nil`. -/
abbrev Ptr := Option Nat

/-- node.go: `Node`. -/
structure Node (P : Type) where
  Tree : Ptr
  Parent : Ptr
  Left : Ptr
  Right : Ptr
  isLeaf : Bool
  isDuplicate : Bool
  Hash : Bytes
  Payload : Option P

/-- merkle_tree.go: `MerkleTree`. -/
structure MerkleTree where
  Root : Ptr
  Leafs : List Ptr
  MerkleRootHash : Bytes
  HashFunc : HashFunc

/-- The objects allocated so far; object number `a` is at position `a`. -/
structure Heap (P : Type) where
  nodes : List (Node P)
  trees : List MerkleTree

variable {P : Type}

/-- Dereference a `*Node`. -/
def Heap.node (h : Heap P) : Ptr → Res (Node P)
  | none => .error .crash
  | some a =>
    match h.nodes[a]? with
    | none => .error .crash
    | some n => .ok n

/-- Dereference a `*MerkleTree`. -/
def Heap.tree (h : Heap P) : Ptr → Res MerkleTree
  | none => .error .crash
  | some a =>
    match h.trees[a]? with
    | none => .error .crash
    | some t => .ok t

/-- Allocation `&Node{...}`: the new object gets the next number. -/
def Heap.newNode (h : Heap P) (n : Node P) : Ptr × Heap P :=
  (some h.nodes.length, { h with nodes := h.nodes ++ [n] })

/-- Allocation `&MerkleTree{...}`. -/
def Heap.newTree (h : Heap P) (t : MerkleTree) : Ptr × Heap P :=
  (some h.trees.length, { h with trees := h.trees ++ [t] })

/-- The assignment `x.Parent = n` for a pointer `x` that was dereferenced
just before (so it cannot fault here). -/
def Heap.setParent (h : Heap P) (x : Ptr) (n : Ptr) : Heap P :=
  match x with
  | none => h
  | some a =>
    match h.nodes[a]? with
    | none => h
    | some nd => { h with nodes := h.nodes.set a { nd with Parent := n } }

/-- The three assignments `m.Root = root; m.Leafs = leafs; m.MerkleRootHash = hash`
on a tree pointer that is known to be valid. -/
def Heap.setTree (h : Heap P) (m : Ptr) (root : Ptr) (leafs : List Ptr) (hash : Bytes) : Heap P :=
  match m with
  | none => h
  | some a =>
    match h.trees[a]? with
    | none => h
    | some t =>
      let t1 : MerkleTree := { t with Root := root, Leafs := leafs, MerkleRootHash := hash }
      { h with trees := h.trees.set a t1 }

/-- The payload interface value of a node, dereferenced for a method call. -/
def payloadOf (n : Node P) : Res P :=
  match n.Payload with
  | none => .error .crash
  | some p => .ok p

/-! ## node.go -/

/-- node.go `verifyNode`: walks down from `n`, hashing the payloads of the
leaves and recombining them level by level. -/
def verifyNode [Payload P] (h : Heap P) : Nat → Ptr → Res Bytes
  | 0, _ => .error .outOfFuel
  | fuel + 1, n => do
    let node ← h.node n
    if node.isLeaf then
      let p ← payloadOf node
      liftE (Payload.CalculateHash p)
    else
      let rightBytes ← verifyNode h fuel node.Right
      let leftBytes ← verifyNode h fuel node.Left
      let t ← h.tree node.Tree
      liftE (t.HashFunc.Calculate (leftBytes ++ rightBytes))

/-- node.go `CalculateNodeHash`. -/
def CalculateNodeHash [Payload P] (h : Heap P) (n : Ptr) : Res Bytes := do
  let node ← h.node n
  if node.isLeaf then
    let p ← payloadOf node
    liftE (Payload.CalculateHash p)
  else
    let t ← h.tree node.Tree
    let l ← h.node node.Left
    let r ← h.node node.Right
    liftE (t.HashFunc.Calculate (l.Hash ++ r.Hash))

/-! ## merkle_tree.go: construction -/

/-- The message of the error of `constructTreeFromPayloads` on an empty list. -/
def emptyPayloadError : Error := "error: cannot construct tree with no payload"

/-- Body of the loop of `constructNonLeafTreeLevelsFromLeafNodes` for one pair
`(left, right)`: hash the two stored digests, allocate the parent, link the
children to it.  Returns the new node. -/
def foldPair (tree : Ptr) (left right : Ptr) (h : Heap P) : Res Ptr × Heap P :=
  match h.tree tree, h.node left, h.node right with
  | .ok t, .ok ln, .ok rn =>
    match t.HashFunc.Calculate (ln.Hash ++ rn.Hash) with
    | .error e => (.error (.err e), h)
    | .ok hashBytes =>
      let (n, h1) := h.newNode
        { Left := left, Right := right, Hash := hashBytes, Tree := tree,
          Parent := none, isLeaf := false, isDuplicate := false, Payload := none }
      (.ok n, (h1.setParent left n).setParent right n)
  | _, _, _ => (.error .crash, h)

/-- The loop `for i := 0; i < len(leafNodes); i += 2` of
`constructNonLeafTreeLevelsFromLeafNodes`.  The third argument is
`leafNodes[i:]`, so `i+1 == len(leafNodes)` is the case of one remaining
entry; `len` is `len(leafNodes)`, `nodes` the slice built so far.  The
result is `Sum.inl n` for the `return n, nil` inside the loop and
`Sum.inr nodes` when the loop runs to its end. -/
def foldLevel (tree : Ptr) (len : Nat) :
    List Ptr → List Ptr → Heap P → Res (Ptr ⊕ List Ptr) × Heap P
  | [], nodes, h => (.ok (.inr nodes), h)
  | [x], nodes, h =>
    match foldPair tree x x h with
    | (.error e, h1) => (.error e, h1)
    | (.ok n, h1) =>
      if len = 2 then (.ok (.inl n), h1) else (.ok (.inr (nodes ++ [n])), h1)
  | x :: y :: rest, nodes, h =>
    match foldPair tree x y h with
    | (.error e, h1) => (.error e, h1)
    | (.ok n, h1) =>
      if len = 2 then (.ok (.inl n), h1) else foldLevel tree len rest (nodes ++ [n]) h1

/-- merkle_tree.go `constructNonLeafTreeLevelsFromLeafNodes`. -/
def constructNonLeafTreeLevelsFromLeafNodes (tree : Ptr) :
    Nat → List Ptr → Heap P → Res Ptr × Heap P
  | 0, _, h => (.error .outOfFuel, h)
  | fuel + 1, leafNodes, h =>
    match foldLevel tree leafNodes.length leafNodes [] h with
    | (.error e, h1) => (.error e, h1)
    | (.ok (.inl n), h1) => (.ok n, h1)
    | (.ok (.inr nodes), h1) => constructNonLeafTreeLevelsFromLeafNodes tree fuel nodes h1

/-- The loop `for _, p := range pp` of `constructTreeFromPayloads`; the
second argument is `leafNodes` so far. -/
def makeLeafNodes [Payload P] (tree : Ptr) :
    List (Option P) → List Ptr → Heap P → Res (List Ptr) × Heap P
  | [], leafNodes, h => (.ok leafNodes, h)
  | none :: _, _, h => (.error .crash, h)
  | some p :: pp, leafNodes, h =>
    match Payload.CalculateHash p with
    | .error e => (.error (.err e), h)
    | .ok hash =>
      let (n, h1) := h.newNode
        { Hash := hash, Payload := some p, isLeaf := true, Tree := tree,
          Parent := none, Left := none, Right := none, isDuplicate := false }
      makeLeafNodes tree pp (leafNodes ++ [n]) h1

/-- The block `if leafNodesAreOddNumber { ... }` of `constructTreeFromPayloads`. -/
def duplicateLastLeaf (tree : Ptr) (leafNodes : List Ptr) (h : Heap P) :
    Res (List Ptr) × Heap P :=
  if leafNodes.length % 2 = 1 then
    match leafNodes[leafNodes.length - 1]? with
    | none => (.error .crash, h)
    | some lastLeafNode =>
      match h.node lastLeafNode with
      | .error e => (.error e, h)
      | .ok last =>
        let (duplicateLeafNode, h1) := h.newNode
          { Hash := last.Hash, Payload := last.Payload, isLeaf := true, isDuplicate := true,
            Tree := tree, Parent := none, Left := none, Right := none }
        (.ok (leafNodes ++ [duplicateLeafNode]), h1)
  else (.ok leafNodes, h)

/-- merkle_tree.go `constructTreeFromPayloads`. -/
def constructTreeFromPayloads [Payload P] (fuel : Nat) (pp : List (Option P)) (tree : Ptr)
    (h : Heap P) : Res (Ptr × List Ptr) × Heap P :=
  if pp.length = 0 then (.error (.err emptyPayloadError), h)
  else
    match makeLeafNodes tree pp [] h with
    | (.error e, h1) => (.error e, h1)
    | (.ok leafNodes0, h1) =>
      match duplicateLastLeaf tree leafNodes0 h1 with
      | (.error e, h2) => (.error e, h2)
      | (.ok leafNodes, h2) =>
        match constructNonLeafTreeLevelsFromLeafNodes tree fuel leafNodes h2 with
        | (.error e, h3) => (.error e, h3)
        | (.ok root, h3) => (.ok (root, leafNodes), h3)

/-- The tail shared by `NewTree` and `RebuildTreeWith`: on success store the
root, the leaves and `root.Hash` in the tree object. -/
def installTree (m : Ptr) (r : Res (Ptr × List Ptr) × Heap P) : Res Unit × Heap P :=
  match r with
  | (.error e, h1) => (.error e, h1)
  | (.ok (root, leafs), h1) =>
    match h1.node root with
    | .error e => (.error e, h1)
    | .ok rn => (.ok (), h1.setTree m root leafs rn.Hash)

/-- merkle_tree.go `NewTree`.  Returns the pointer to the new tree, or the
fault (Go: `nil, err`). -/
def NewTree [Payload P] (fuel : Nat) (pp : List (Option P)) (hashFunc : HashFunc)
    (h : Heap P) : Res Ptr × Heap P :=
  let (t, h0) := h.newTree { HashFunc := hashFunc, Root := none, Leafs := [], MerkleRootHash := [] }
  match installTree t (constructTreeFromPayloads fuel pp t h0) with
  | (.error e, h1) => (.error e, h1)
  | (.ok _, h1) => (.ok t, h1)

/-- merkle_tree.go `RebuildTreeWith`. -/
def RebuildTreeWith [Payload P] (fuel : Nat) (m : Ptr) (pp : List (Option P))
    (h : Heap P) : Res Unit × Heap P :=
  installTree m (constructTreeFromPayloads fuel pp m h)

/-- The loop of `RebuildTree` collecting `n.Payload` of every leaf. -/
def leafPayloads (h : Heap P) : List Ptr → Res (List (Option P))
  | [] => .ok []
  | n :: ns => do
    let node ← h.node n
    let rest ← leafPayloads h ns
    pure (node.Payload :: rest)

/-- merkle_tree.go `RebuildTree`. -/
def RebuildTree [Payload P] (fuel : Nat) (m : Ptr) (h : Heap P) : Res Unit × Heap P :=
  match h.tree m with
  | .error e => (.error e, h)
  | .ok t =>
    match leafPayloads h t.Leafs with
    | .error e => (.error e, h)
    | .ok pp => RebuildTreeWith fuel m pp h

/-! ## merkle_tree.go: verification and proofs -/

/-- merkle_tree.go `VerifyTree`. -/
def VerifyTree [Payload P] (fuel : Nat) (m : Ptr) (h : Heap P) : Res Bool := do
  let t ← h.tree m
  let calculatedMerkleRoot ← verifyNode h fuel t.Root
  pure (decide (t.MerkleRootHash = calculatedMerkleRoot))

/-- The loop `for currentParent != nil` of `VerifyPayload`. -/
def verifyParents [Payload P] (h : Heap P) (hashFunc : HashFunc) : Nat → Ptr → Res Bool
  | 0, _ => .error .outOfFuel
  | _ + 1, none => .ok true
  | fuel + 1, some a => do
    let currentParent ← h.node (some a)
    let rightBytes ← CalculateNodeHash h currentParent.Right
    let leftBytes ← CalculateNodeHash h currentParent.Left
    let hashBytes ← liftE (hashFunc.Calculate (leftBytes ++ rightBytes))
    if hashBytes ≠ currentParent.Hash then .ok false
    else verifyParents h hashFunc fuel currentParent.Parent

/-- The loop `for _, l := range m.Leafs` of `VerifyPayload`. -/
def verifyPayloadScan [Payload P] (h : Heap P) (hashFunc : HashFunc) (fuel : Nat) (payload : P) :
    List Ptr → Res Bool
  | [] => .ok false
  | l :: ls => do
    let leaf ← h.node l
    let lp ← payloadOf leaf
    let ok ← liftE (Payload.Equals lp payload)
    if ok then verifyParents h hashFunc fuel leaf.Parent
    else verifyPayloadScan h hashFunc fuel payload ls

/-- merkle_tree.go `VerifyPayload`. -/
def VerifyPayload [Payload P] (fuel : Nat) (m : Ptr) (payload : P) (h : Heap P) : Res Bool := do
  let t ← h.tree m
  verifyPayloadScan h t.HashFunc fuel payload t.Leafs

/-- The loop `for currentParent != nil` of `GetMerklePath`, with the two
slices it appends to. -/
def merklePathLoop (h : Heap P) :
    Nat → Ptr → Ptr → List Bytes → List Int → Res (List Bytes × List Int)
  | 0, _, _, _, _ => .error .outOfFuel
  | _ + 1, _, none, merklePath, index => .ok (merklePath, index)
  | fuel + 1, current, some a, merklePath, index => do
    let currentParent ← h.node (some a)
    let left ← h.node currentParent.Left
    let cur ← h.node current
    if left.Hash = cur.Hash then
      let right ← h.node currentParent.Right
      merklePathLoop h fuel (some a) currentParent.Parent
        (merklePath ++ [right.Hash]) (index ++ [1])
    else
      merklePathLoop h fuel (some a) currentParent.Parent
        (merklePath ++ [left.Hash]) (index ++ [0])

/-- The loop `for _, current := range m.Leafs` of `GetMerklePath`. -/
def merklePathScan [Payload P] (h : Heap P) (fuel : Nat) (payload : P) :
    List Ptr → Res (List Bytes × List Int)
  | [] => .ok ([], [])
  | current :: rest => do
    let leaf ← h.node current
    let lp ← payloadOf leaf
    let ok ← liftE (Payload.Equals lp payload)
    if ok then merklePathLoop h fuel current leaf.Parent [] []
    else merklePathScan h fuel payload rest

/-- merkle_tree.go `GetMerklePath`. -/
def GetMerklePath [Payload P] (fuel : Nat) (m : Ptr) (payload : P) (h : Heap P) :
    Res (List Bytes × List Int) := do
  let t ← h.tree m
  merklePathScan h fuel payload t.Leafs

/-! ## Invariants of the construction -/

/-- The stored digest behind a pointer (empty when the pointer is invalid). -/
def hashAt (h : Heap P) (x : Ptr) : Bytes :=
  match h.node x with
  | .ok n => n.Hash
  | .error _ => []

/-- The node allocated by the loop body for the pair `(a, b)` with digest `d`. -/
def pairNode (t : Ptr) (a b : Nat) (d : Bytes) : Node P :=
  { Left := some a, Right := some b, Hash := d, Tree := t,
    Parent := none, isLeaf := false, isDuplicate := false, Payload := none }

/-- Local consistency of the node `n` stored at address `a`, relative to the
construction that started at address `N` for the tree `t` with hash `hf`. -/
structure NodeOK [Payload P] (hf : HashFunc) (t : Ptr) (N : Nat) (h : Heap P) (a : Nat)
    (n : Node P) : Prop where
  tree : n.Tree = t
  leaf : n.isLeaf = true → n.Left = none ∧ n.Right = none ∧
    ∃ p, n.Payload = some p ∧ Payload.CalculateHash p = .ok n.Hash
  inner : n.isLeaf = false → n.Payload = none ∧ n.isDuplicate = false ∧
    ∃ l r ln rn, n.Left = some l ∧ n.Right = some r ∧ N ≤ l ∧ l < a ∧ N ≤ r ∧ r < a ∧
      h.nodes[l]? = some ln ∧ h.nodes[r]? = some rn ∧
      hf.Calculate (ln.Hash ++ rn.Hash) = .ok n.Hash
  parent : ∀ p, n.Parent = some p → a < p ∧
    ∃ pn, h.nodes[p]? = some pn ∧ pn.isLeaf = false ∧ (pn.Left = some a ∨ pn.Right = some a)

/-- Every node allocated from address `N` on is locally consistent. -/
structure Built [Payload P] (hf : HashFunc) (t : Ptr) (N : Nat) (h : Heap P) : Prop where
  tree : ∃ tr, h.tree t = .ok tr ∧ tr.HashFunc = hf
  base : N ≤ h.nodes.length
  nodes : ∀ a n, N ≤ a → h.nodes[a]? = some n → NodeOK hf t N h a n

/-- The heap `h1` comes from `h` by allocations and by assignments to
`Parent` fields of nodes at addresses from `N` on. -/
structure Grows (N : Nat) (h h1 : Heap P) : Prop where
  trees : h1.trees = h.trees
  length : h.nodes.length ≤ h1.nodes.length
  below : ∀ c n, c < N → h.nodes[c]? = some n → h1.nodes[c]? = some n
  keep : ∀ (c : Nat) (n : Node P), h.nodes[c]? = some n →
    ∃ n1 : Node P, h1.nodes[c]? = some n1 ∧ n1 = { n with Parent := n1.Parent }

/-- Every pointer of the list is a valid address from `N` on. -/
def Level (N : Nat) (h : Heap P) (lv : List Ptr) : Prop :=
  ∀ x ∈ lv, ∃ a, x = some a ∧ N ≤ a ∧ a < h.nodes.length

/-- Every node from `N` on that has no parent satisfies `S`. -/
def Tops (N : Nat) (h : Heap P) (S : Ptr → Prop) : Prop :=
  ∀ a n, N ≤ a → h.nodes[a]? = some n → n.Parent = none → S (some a)

/-- The heap after the loop body ran on the pair `(a, b)`, address by address. -/
def PairStep (h h1 : Heap P) (t : Ptr) (a b : Nat) (d : Bytes) : Prop :=
  h1.trees = h.trees ∧ h1.nodes.length = h.nodes.length + 1 ∧
  ∀ c, h1.nodes[c]? =
    if c = h.nodes.length then some (pairNode t a b d)
    else (h.nodes[c]?).map
      (fun nd => if c = a ∨ c = b then { nd with Parent := some h.nodes.length } else nd)

/-! ## The reference fold over digests -/

/-- The digests of the payloads, in order (the first failure wins). -/
def leafDigests [Payload P] : List P → Except Error (List Bytes)
  | [] => .ok []
  | p :: pp => do
    let d ← Payload.CalculateHash p
    let ds ← leafDigests pp
    pure (d :: ds)

/-- The last digest appended once more when the list has odd length. -/
def padOdd (L : List Bytes) : List Bytes :=
  if L.length % 2 = 1 then
    match L.getLast? with
    | some d => L ++ [d]
    | none => L
  else L

/-- The next level: entry `k` is `H(level[2k] ++ level[2k+1])`, the last entry
of an odd-length level being paired with itself. -/
def pairDigests (hf : HashFunc) : List Bytes → Except Error (List Bytes)
  | [] => .ok []
  | [x] => do
    let d ← hf.Calculate (x ++ x)
    pure [d]
  | x :: y :: rest => do
    let d ← hf.Calculate (x ++ y)
    let ds ← pairDigests hf rest
    pure (d :: ds)

/-- The reference root `R(level)`, with fuel: `H(level[0] ++ level[1])` when the
level has two entries, and otherwise `R` of the next level. -/
def refRootAux (hf : HashFunc) : Nat → List Bytes → Res Bytes
  | 0, _ => .error .outOfFuel
  | fuel + 1, level =>
    match level with
    | [x, y] => liftE (hf.Calculate (x ++ y))
    | _ => do
      let next ← liftE (pairDigests hf level)
      refRootAux hf fuel next

/-- The reference root `R(level)`; the length of the level is fuel enough. -/
def refRoot (hf : HashFunc) (level : List Bytes) : Res Bytes :=
  refRootAux hf level.length level

/-- The pointers to `k` nodes allocated one after the other on top of `h`. -/
def freshPtrs (h : Heap P) (k : Nat) : List Ptr :=
  (List.range' h.nodes.length k).map some

/-- The leaf allocated for payload `p` with digest `d`. -/
def leafNode (t : Ptr) (p : P) (d : Bytes) (dup : Bool) : Node P :=
  { Hash := d, Payload := some p, isLeaf := true, Tree := t,
    Parent := none, Left := none, Right := none, isDuplicate := dup }

/-- One leaf per payload, as allocated by the loop over the payloads. -/
def realLeaves (t : Ptr) (pp : List P) (ds : List Bytes) : List (Node P) :=
  List.zipWith (fun p d => leafNode t p d false) pp ds

/-- The leaves allocated for the payloads `pp` with digests `ds`, before any
parent is assigned: one per payload, and a duplicate of the last one when
their number is odd. -/
def leafLayer (t : Ptr) (pp : List P) (ds : List Bytes) : List (Node P) :=
  if (realLeaves t pp ds).length % 2 = 1 then
    match (realLeaves t pp ds).getLast? with
    | some l => realLeaves t pp ds ++ [{ l with isDuplicate := true }]
    | none => realLeaves t pp ds
  else realLeaves t pp ds

/-- The heap `h1` is `h` with nodes allocated on top. -/
def Extends (h h1 : Heap P) : Prop :=
  h1.trees = h.trees ∧ ∃ extra, h1.nodes = h.nodes ++ extra

/-- What `constructTreeFromPayloads` leaves on the heap when it returns the
root `r` for the payloads `pp` (with digests `ds`), having started to
allocate at address `N`. -/
structure Constructed [Payload P] (hf : HashFunc) (t : Ptr) (pp : List P) (ds : List Bytes)
    (N : Nat) (r : Nat) (h : Heap P) : Prop where
  digests : leafDigests pp = .ok ds
  built : Built hf t N h
  last : h.nodes.length = r + 1
  above : N + (leafLayer t pp ds).length ≤ r
  rootNode : ∃ rn, h.nodes[r]? = some rn ∧ refRoot hf (padOdd ds) = .ok rn.Hash ∧
    rn.Parent = none ∧ rn.isLeaf = false
  tops : Tops N h (fun x => x = some r)
  leaves : ∀ (i : Nat) (nd : Node P), (leafLayer t pp ds)[i]? = some nd →
    ∃ n1 : Node P, h.nodes[N + i]? = some n1 ∧ n1 = { nd with Parent := n1.Parent }

/-- The state right after `NewTree` (or a rebuild) returned the tree `m` for
the payloads `pp`: the nodes are as `constructTreeFromPayloads` left them and
the tree object points to them. -/
structure FreshTree [Payload P] (hf : HashFunc) (pp : List P) (ds : List Bytes)
    (N : Nat) (r : Nat) (m : Ptr) (h : Heap P) : Prop where
  nodes : Constructed hf m pp ds N r h
  tree : ∃ tr rn, h.tree m = .ok tr ∧ tr.HashFunc = hf ∧ tr.Root = some r ∧
    tr.Leafs = (List.range' N (leafLayer m pp ds).length).map some ∧
    h.nodes[r]? = some rn ∧ tr.MerkleRootHash = rn.Hash

/-! ## Tampering with stored digests -/

/-- The assignment `x.Hash = b` made from outside the package. -/
def Heap.setHash (h : Heap P) (x : Ptr) (b : Bytes) : Heap P :=
  match x with
  | none => h
  | some a =>
    match h.nodes[a]? with
    | none => h
    | some nd => { h with nodes := h.nodes.set a { nd with Hash := b } }

/-- The assignment `m.MerkleRootHash = b` made from outside the package. -/
def Heap.setMerkleRootHash (h : Heap P) (m : Ptr) (b : Bytes) : Heap P :=
  match m with
  | none => h
  | some a =>
    match h.trees[a]? with
    | none => h
    | some t => { h with trees := h.trees.set a { t with MerkleRootHash := b } }

/-- The heap `h1` is `h` up to the stored `Hash` of the nodes and the stored
`MerkleRootHash` of the trees, which may hold any values. -/
structure HashTampered (h h1 : Heap P) : Prop where
  nodesLen : h1.nodes.length = h.nodes.length
  node : ∀ (a : Nat) (n : Node P), h.nodes[a]? = some n →
    ∃ n1 : Node P, h1.nodes[a]? = some n1 ∧ n1 = { n with Hash := n1.Hash }
  treesLen : h1.trees.length = h.trees.length
  tree : ∀ (a : Nat) (t : MerkleTree), h.trees[a]? = some t →
    ∃ t1 : MerkleTree, h1.trees[a]? = some t1 ∧
      t1 = { t with MerkleRootHash := t1.MerkleRootHash }

/-- The digests `Payload.CalculateHash()` of a list of payload interface values. -/
def payloadDigests [Payload P] : List (Option P) → Res (List Bytes)
  | [] => .ok []
  | none :: _ => .error .crash
  | some p :: pp => do
    let d ← liftE (Payload.CalculateHash p)
    let ds ← payloadDigests pp
    pure (d :: ds)

/-- The root digest re-derived from the current payloads of the leaves of the
tree `m`, without looking at any node above them or at any stored digest: the
reference fold `refRoot` of the digests `Payload.CalculateHash()` of the
payloads found in `m.Leafs`, in order. -/
def rederivedRoot [Payload P] (h : Heap P) (m : Ptr) : Res Bytes := do
  let t ← h.tree m
  let pp ← leafPayloads h t.Leafs
  let ds ← payloadDigests pp
  refRoot t.HashFunc ds

/-! ## Proof replay and leaf scan -/

/-- Proof replay (the loop of `TestMerkleTreeGetMerklePath`): starting from
`running`, for each sibling and direction in order, `running` becomes
`H(running ++ sibling)` when the direction is 1 and `H(sibling ++ running)`
otherwise.  A direction list shorter than the sibling list is an index out of
range. -/
def replayPath (hf : HashFunc) : Bytes → List Bytes → List Int → Res Bytes
  | running, [], _ => .ok running
  | _, _ :: _, [] => .error .crash
  | running, s :: merklePath, d :: index => do
    let next ← liftE (hf.Calculate (if d = 1 then running ++ s else s ++ running))
    replayPath hf next merklePath index

/-- The common shape of the two loops over `m.Leafs`: compare the payload of
each leaf with the candidate, stop at the first failure or the first match. -/
def scanLeafs {α : Type} [Payload P] (h : Heap P) (payload : P)
    (found : Ptr → Node P → Res α) (notFound : Res α) : List Ptr → Res α
  | [] => notFound
  | l :: ls => do
    let leaf ← h.node l
    let lp ← payloadOf leaf
    let ok ← liftE (Payload.Equals lp payload)
    if ok then found l leaf else scanLeafs h payload found notFound ls

/-! ## A tree's cached root digest as a result -/

/-- The `MerkleRootHash` of the tree a construction returned, or its fault. -/
def builtRootHash (r : Res Ptr × Heap P) : Res Bytes := do
  let m ← r.1
  let t ← r.2.tree m
  pure t.MerkleRootHash

/-! ## Concrete payloads and a concrete hash, for worked examples -/

/-- A payload identified by a number.  `Equals` is structural equality, as
`reflect.DeepEqual` in payloads.go; the digest is one byte. -/
structure Tx where
  id : Nat
  deriving DecidableEq

instance : Payload Tx where
  CalculateHash p := .ok [Fin.ofNat p.id]
  Equals a b := .ok (decide (a = b))

/-- A payload of one of several kinds, whose `Equals` asserts that the other
payload is of its own kind and returns an error when it is not. -/
structure KindTx where
  kind : Nat
  id : Nat
  deriving DecidableEq

instance : Payload KindTx where
  CalculateHash p := .ok [Fin.ofNat p.kind, Fin.ofNat p.id]
  Equals a b :=
    if a.kind = b.kind then .ok (decide (a.id = b.id)) else .error "payload of another kind"

/-- A hash function that never fails and is injective: it puts a zero byte in front. -/
def wrapHash : HashFunc := ⟨fun b => .ok (0 :: b)⟩

/-- The heap before anything was allocated. -/
def emptyHeap : Heap P := ⟨[], []⟩

/-- Three payloads: an odd number, so the last leaf is duplicated. -/
def threeTx : List Tx := [Tx.mk 1, Tx.mk 2, Tx.mk 3]

/-- The result of `NewTree` on `threeTx` in the empty heap. -/
def builtThree : Res Ptr × Heap Tx := NewTree 4 (threeTx.map some) wrapHash emptyHeap

/-- Five payloads: a duplicated last leaf and a self-paired node above it. -/
def fiveTx : List Tx := [Tx.mk 1, Tx.mk 2, Tx.mk 3, Tx.mk 4, Tx.mk 5]

/-- Two payloads of different kinds. -/
def kindTxs : List KindTx := [KindTx.mk 0 0, KindTx.mk 1 0]

/-- The result of `NewTree` on `kindTxs` in the empty heap. -/
def builtKinds : Res Ptr × Heap KindTx := NewTree 3 (kindTxs.map some) wrapHash emptyHeap

/-! ## Ancestor hops and the outcome of the leaf scan -/

/-- The digest `VerifyPayload` recomputes at an ancestor `a`:
`H(a.Left.CalculateNodeHash() ++ a.Right.CalculateNodeHash())`, the right one
computed first. -/
def hopDigest [Payload P] (h : Heap P) (hashFunc : HashFunc) (a : Node P) : Res Bytes := do
  let rightBytes ← CalculateNodeHash h a.Right
  let leftBytes ← CalculateNodeHash h a.Left
  liftE (hashFunc.Calculate (leftBytes ++ rightBytes))

/-- The digest of an ancestor `a` taken from the stored digests of its children:
`H(a.Left.Hash ++ a.Right.Hash)`. -/
def storedHopDigest (h : Heap P) (hashFunc : HashFunc) (a : Node P) : Res Bytes := do
  let l ← h.node a.Left
  let r ← h.node a.Right
  liftE (hashFunc.Calculate (l.Hash ++ r.Hash))

/-- Following `Parent` from the pointer `p` through the nodes `ns`, in order,
arrives at the pointer `q`. -/
inductive AncestorPath (h : Heap P) : Ptr → List (Node P) → Ptr → Prop where
  | done (p : Ptr) : AncestorPath h p [] p
  | step {a : Nat} {n : Node P} {ns : List (Node P)} {q : Ptr} :
      h.node (some a) = .ok n → AncestorPath h n.Parent ns q →
      AncestorPath h (some a) (n :: ns) q

/-- The leaf `l` (node `leaf`) is the first entry of `leafs` whose payload compares
equal to the candidate, every entry before it comparing unequal without error. -/
def FirstMatch [Payload P] (h : Heap P) (cand : P) (leafs : List Ptr) (l : Ptr)
    (leaf : Node P) : Prop :=
  ∃ pre post q, leafs = pre ++ l :: post ∧
    (∀ x ∈ pre, ∃ nx p, h.node x = .ok nx ∧ nx.Payload = some p ∧
      Payload.Equals p cand = .ok false) ∧
    h.node l = .ok leaf ∧ leaf.Payload = some q ∧ Payload.Equals q cand = .ok true

/-- The leaf scan reaches, before any match, a leaf whose comparison with the
candidate returns the error `e`. -/
def ScanFails [Payload P] (h : Heap P) (cand : P) (leafs : List Ptr) (e : Error) : Prop :=
  ∃ pre l post n q, leafs = pre ++ l :: post ∧
    (∀ x ∈ pre, ∃ nx p, h.node x = .ok nx ∧ nx.Payload = some p ∧
      Payload.Equals p cand = .ok false) ∧
    h.node l = .ok n ∧ n.Payload = some q ∧ Payload.Equals q cand = .error e

/-- The heap `h1` is `h` up to the `MerkleRootHash` fields of the trees. -/
structure RootHashOnly (h h1 : Heap P) : Prop where
  nodes : h1.nodes = h.nodes
  treesLen : h1.trees.length = h.trees.length
  tree : ∀ (a : Nat) (t : MerkleTree), h.trees[a]? = some t →
    ∃ t1 : MerkleTree, h1.trees[a]? = some t1 ∧
      t1 = { t with MerkleRootHash := t1.MerkleRootHash }

/-- A hash function that fails on inputs of more than four bytes. -/
def shortHash : HashFunc :=
  ⟨fun b => if b.length ≤ 4 then .ok (0 :: b) else .error "input too long"⟩

/-- Two payloads: one level above the leaves. -/
def twoTx : List Tx := [Tx.mk 1, Tx.mk 2]

/-- The result of `NewTree` on `twoTx` with `shortHash` in the empty heap. -/
def builtShort : Res Ptr × Heap Tx := NewTree 3 (twoTx.map some) shortHash emptyHeap

/-- A pointer of a construction that started to allocate at address `N1`, moved
to a construction that started at `N2`. -/
def shiftPtr (N1 N2 : Nat) : Ptr → Ptr
  | none => none
  | some a => some (a - N1 + N2)

/-- A node with its pointers moved from `N1` to `N2`, as a node of the tree `t2`. -/
def shiftNode (N1 N2 : Nat) (t2 : Ptr) (n : Node P) : Node P :=
  { n with Tree := t2, Parent := shiftPtr N1 N2 n.Parent, Left := shiftPtr N1 N2 n.Left,
           Right := shiftPtr N1 N2 n.Right }

/-- The nodes of `h2` from address `N2` on are the nodes of `h1` from `N1` on,
moved. -/
structure Sim (N1 N2 : Nat) (t2 : Ptr) (h1 h2 : Heap P) : Prop where
  base1 : N1 ≤ h1.nodes.length
  base2 : N2 ≤ h2.nodes.length
  len : h1.nodes.length + N2 = h2.nodes.length + N1
  node : ∀ k, h2.nodes[N2 + k]? = (h1.nodes[N1 + k]?).map (shiftNode N1 N2 t2)

/-- Two pointers are both nil, or point to the nodes at the same offset from
`N1` and from `N2`. -/
def SamePtr (N1 N2 : Nat) (x y : Ptr) : Prop :=
  (x = none ∧ y = none) ∨ ∃ k, x = some (N1 + k) ∧ y = some (N2 + k)

/-- Two nodes agree in payload, digest and flags, and their links agree up to
the offsets `N1` and `N2`. -/
structure SameNode (N1 N2 : Nat) (n1 n2 : Node P) : Prop where
  parent : SamePtr N1 N2 n1.Parent n2.Parent
  left : SamePtr N1 N2 n1.Left n2.Left
  right : SamePtr N1 N2 n1.Right n2.Right
  isLeaf : n1.isLeaf = n2.isLeaf
  isDuplicate : n1.isDuplicate = n2.isDuplicate
  hash : n1.Hash = n2.Hash
  payload : n1.Payload = n2.Payload

/-- The last payload once more when the list has odd length: the payloads found
in the leaves of the tree built from `pp`, in order. -/
def padLast (pp : List P) : List P :=
  if pp.length % 2 = 1 then
    match pp.getLast? with
    | some p => pp ++ [p]
    | none => pp
  else pp

/-- A payload holding a measurement that may be not-a-number (`none`).  `Equals`
is structural equality as `reflect.DeepEqual` computes it on a struct with a
float field: not-a-number is unequal to everything, itself included. -/
structure Reading where
  value : Option Nat
  deriving DecidableEq

instance : Payload Reading where
  CalculateHash p :=
    match p.value with
    | some v => .ok [1, Fin.ofNat v]
    | none => .ok [0]
  Equals a b :=
    match a.value, b.value with
    | some x, some y => .ok (decide (x = y))
    | _, _ => .ok false

/-- The node at offset `j` loses its duplicate mark; the other nodes are kept. -/
def clearDupAt (j k : Nat) (n : Node P) : Node P :=
  if k = j then { n with isDuplicate := false } else n

/-- The nodes of `h2` from address `N2` on are the nodes of `h1` from `N1` on,
moved, except that the node at offset `j` is marked as a duplicate in `h1` only. -/
structure SimDup (N1 N2 : Nat) (t2 : Ptr) (j : Nat) (h1 h2 : Heap P) : Prop where
  base1 : N1 ≤ h1.nodes.length
  base2 : N2 ≤ h2.nodes.length
  len : h1.nodes.length + N2 = h2.nodes.length + N1
  inside : N1 + j < h1.nodes.length
  node : ∀ k, h2.nodes[N2 + k]? =
    (h1.nodes[N1 + k]?).map (fun n => clearDupAt j k (shiftNode N1 N2 t2 n))

/-- A payload whose digest can fail, as `json.Marshal` does in payloads.go on an
amount that is not a number: `amount = none` is such an amount. -/
structure Payment where
  amount : Option Nat
  deriving DecidableEq

instance : Payload Payment where
  CalculateHash p :=
    match p.amount with
    | some a => .ok [Fin.ofNat a]
    | none => .error "json: unsupported value"
  Equals a b := .ok (decide (a = b))

/-- A payment with an amount that is not a number, then a nil payload. -/
def badPayments : List (Option Payment) := [some (Payment.mk none), none]

/-! # Theorems -/

/-! ## Heap lemmas -/

theorem node_some_iff (h : Heap P) (a : Nat) (n : Node P) :
    h.node (some a) = .ok n ↔ h.nodes[a]? = some n := by
  unfold Heap.node
  cases hq : h.nodes[a]? <;> simp [hq]

theorem node_ok_elim {h : Heap P} {x : Ptr} {n : Node P} (hx : h.node x = .ok n) :
    ∃ a, x = some a ∧ h.nodes[a]? = some n := by
  cases x with
  | none => simp [Heap.node] at hx
  | some a => exact ⟨a, rfl, (node_some_iff h a n).1 hx⟩

theorem tree_ok_elim {h : Heap P} {x : Ptr} {t : MerkleTree} (hx : h.tree x = .ok t) :
    ∃ a, x = some a ∧ h.trees[a]? = some t := by
  cases x with
  | none => simp [Heap.tree] at hx
  | some a =>
    refine ⟨a, rfl, ?_⟩
    unfold Heap.tree at hx
    cases hq : h.trees[a]? <;> simp_all

theorem tree_some_iff (h : Heap P) (a : Nat) (t : MerkleTree) :
    h.tree (some a) = .ok t ↔ h.trees[a]? = some t := by
  unfold Heap.tree
  cases hq : h.trees[a]? <;> simp [hq]

theorem lookup_lt {h : Heap P} {a : Nat} {n : Node P} (hx : h.nodes[a]? = some n) :
    a < h.nodes.length := by
  by_contra hc
  rw [List.getElem?_eq_none (by omega)] at hx
  cases hx

theorem newNode_fst (h : Heap P) (n : Node P) : (h.newNode n).1 = some h.nodes.length := rfl

theorem newNode_trees (h : Heap P) (n : Node P) : (h.newNode n).2.trees = h.trees := rfl

theorem newNode_length (h : Heap P) (n : Node P) :
    (h.newNode n).2.nodes.length = h.nodes.length + 1 := by
  simp [Heap.newNode]

theorem newNode_lookup (h : Heap P) (n : Node P) (c : Nat) :
    (h.newNode n).2.nodes[c]? = if c = h.nodes.length then some n else h.nodes[c]? := by
  simp only [Heap.newNode]
  by_cases hc : c = h.nodes.length
  · subst hc
    simp
  · rw [if_neg hc]
    by_cases hlt : c < h.nodes.length
    · exact List.getElem?_append_left hlt
    · rw [List.getElem?_eq_none (by simp; omega), List.getElem?_eq_none (by omega)]

theorem setParent_trees (h : Heap P) (x p : Ptr) : (h.setParent x p).trees = h.trees := by
  unfold Heap.setParent
  cases x with
  | none => rfl
  | some a => cases hq : h.nodes[a]? <;> simp [hq]

theorem setParent_length (h : Heap P) (x p : Ptr) :
    (h.setParent x p).nodes.length = h.nodes.length := by
  unfold Heap.setParent
  cases x with
  | none => rfl
  | some a => cases hq : h.nodes[a]? <;> simp [hq]

theorem setParent_lookup (h : Heap P) (x p : Ptr) (c : Nat) :
    (h.setParent x p).nodes[c]? =
      (h.nodes[c]?).map (fun nd => if x = some c then { nd with Parent := p } else nd) := by
  unfold Heap.setParent
  cases x with
  | none => simp
  | some a =>
    cases hq : h.nodes[a]? with
    | none =>
      by_cases hac : a = c
      · subst hac; simp [hq]
      · simp [hq, hac]
    | some nd =>
      by_cases hac : a = c
      · subst hac
        have := lookup_lt hq
        simp [List.getElem?_set, this, hq]
      · simp [hq, hac]

theorem Grows.same (N : Nat) (h : Heap P) : Grows N h h :=
  ⟨rfl, Nat.le_refl _, fun _ _ _ hc => hc, fun _ n hc => ⟨n, hc, rfl⟩⟩

theorem Grows.chain {N : Nat} {h h1 h2 : Heap P} (g1 : Grows N h h1) (g2 : Grows N h1 h2) :
    Grows N h h2 := by
  refine ⟨g2.trees.trans g1.trees, Nat.le_trans g1.length g2.length, ?_, ?_⟩
  · intro c n hc hn
    exact g2.below c n hc (g1.below c n hc hn)
  · intro c n hn
    obtain ⟨n1, h1n, e1⟩ := g1.keep c n hn
    obtain ⟨n2, h2n, e2⟩ := g2.keep c n1 h1n
    refine ⟨n2, h2n, ?_⟩
    rw [e2, e1]

theorem Grows.hashAt_eq {N : Nat} {h h1 : Heap P} (g : Grows N h h1) {a : Nat}
    (ha : a < h.nodes.length) : hashAt h1 (some a) = hashAt h (some a) := by
  obtain ⟨n, hn⟩ : ∃ n, h.nodes[a]? = some n := ⟨_, List.getElem?_eq_getElem ha⟩
  obtain ⟨n1, hn1, e1⟩ := g.keep a n hn
  have e2 : n1.Hash = n.Hash := by rw [e1]
  simp [hashAt, (node_some_iff h a n).2 hn, (node_some_iff h1 a n1).2 hn1, e2]

theorem Level.mono {N : Nat} {h h1 : Heap P} {lv : List Ptr} (hl : Level N h lv)
    (hlen : h.nodes.length ≤ h1.nodes.length) : Level N h1 lv := by
  intro x hx
  obtain ⟨a, rfl, h1a, h2a⟩ := hl x hx
  exact ⟨a, rfl, h1a, by omega⟩

theorem foldPair_ok {h : Heap P} {t : Ptr} {tr : MerkleTree} {a b : Nat} {na nb : Node P}
    {d : Bytes} (htr : h.tree t = .ok tr) (ha : h.nodes[a]? = some na)
    (hb : h.nodes[b]? = some nb) (hd : tr.HashFunc.Calculate (na.Hash ++ nb.Hash) = .ok d) :
    ∃ h1, foldPair t (some a) (some b) h = (.ok (some h.nodes.length), h1) ∧
      PairStep h h1 t a b d := by
  have hla := lookup_lt ha
  have hlb := lookup_lt hb
  refine ⟨(foldPair t (some a) (some b) h).2, ?_, ?_⟩
  · simp only [foldPair, htr, (node_some_iff h a na).2 ha, (node_some_iff h b nb).2 hb, hd]
    rfl
  simp only [foldPair, htr, (node_some_iff h a na).2 ha, (node_some_iff h b nb).2 hb, hd]
  refine ⟨?_, ?_, ?_⟩
  · simp [setParent_trees, newNode_trees]
  · simp [setParent_length, newNode_length]
  · intro c
    rw [setParent_lookup, setParent_lookup, newNode_lookup]
    by_cases hc : c = h.nodes.length
    · subst hc
      have h1 : ¬ (a = h.nodes.length) := by omega
      have h2 : ¬ (b = h.nodes.length) := by omega
      simp [h1, h2, pairNode, newNode_fst]
    · simp only [if_neg hc, newNode_fst]
      cases hq : h.nodes[c]? with
      | none => simp
      | some nd =>
        simp only [Option.map_some', Option.some.injEq]
        by_cases hca : c = a <;> by_cases hcb : c = b <;> simp [hca, hcb, eq_comm] <;>
          simp_all [eq_comm]

theorem foldPair_err {h : Heap P} {t : Ptr} {tr : MerkleTree} {a b : Nat} {na nb : Node P}
    {e : Error} (htr : h.tree t = .ok tr) (ha : h.nodes[a]? = some na)
    (hb : h.nodes[b]? = some nb) (hd : tr.HashFunc.Calculate (na.Hash ++ nb.Hash) = .error e) :
    foldPair t (some a) (some b) h = (.error (.err e), h) := by
  simp only [foldPair, htr, (node_some_iff h a na).2 ha, (node_some_iff h b nb).2 hb, hd]

theorem PairStep.keep {h h1 : Heap P} {t : Ptr} {a b : Nat} {d : Bytes}
    (s : PairStep h h1 t a b d) {c : Nat} {n : Node P} (hn : h.nodes[c]? = some n) :
    h1.nodes[c]? =
      some (if c = a ∨ c = b then { n with Parent := some h.nodes.length } else n) := by
  have hc : c ≠ h.nodes.length := Nat.ne_of_lt (lookup_lt hn)
  rw [s.2.2 c, if_neg hc, hn]
  rfl

theorem PairStep.new {h h1 : Heap P} {t : Ptr} {a b : Nat} {d : Bytes}
    (s : PairStep h h1 t a b d) : h1.nodes[h.nodes.length]? = some (pairNode t a b d) := by
  rw [s.2.2, if_pos rfl]

theorem PairStep.inv {h h1 : Heap P} {t : Ptr} {a b : Nat} {d : Bytes}
    (s : PairStep h h1 t a b d) {c : Nat} {n1 : Node P} (hn : h1.nodes[c]? = some n1) :
    (c = h.nodes.length ∧ n1 = pairNode t a b d) ∨
    (c < h.nodes.length ∧ ∃ n : Node P, h.nodes[c]? = some n ∧
      n1 = if c = a ∨ c = b then { n with Parent := some h.nodes.length } else n) := by
  by_cases hc : c = h.nodes.length
  · left
    subst hc
    rw [s.new] at hn
    exact ⟨rfl, (Option.some.inj hn).symm⟩
  · right
    rw [s.2.2 c, if_neg hc] at hn
    cases hq : h.nodes[c]? with
    | none => rw [hq] at hn; cases hn
    | some n =>
      rw [hq] at hn
      exact ⟨lookup_lt hq, n, rfl, (Option.some.inj hn).symm⟩

theorem PairStep.grows {h h1 : Heap P} {t : Ptr} {a b : Nat} {d : Bytes}
    (s : PairStep h h1 t a b d) {N : Nat} (ha : N ≤ a) (hb : N ≤ b) : Grows N h h1 := by
  refine ⟨s.1, by rw [s.2.1]; omega, ?_, ?_⟩
  · intro c n hc hn
    rw [s.keep hn, if_neg (by omega)]
  · intro c n hn
    refine ⟨_, s.keep hn, ?_⟩
    split <;> rfl

theorem PairStep.hashAt_new {h h1 : Heap P} {t : Ptr} {a b : Nat} {d : Bytes}
    (s : PairStep h h1 t a b d) : hashAt h1 (some h.nodes.length) = d := by
  simp [hashAt, (node_some_iff h1 _ _).2 s.new, pairNode]

theorem PairStep.tops {h h1 : Heap P} {t : Ptr} {a b : Nat} {d : Bytes}
    (s : PairStep h h1 t a b d) {N : Nat} {S : Ptr → Prop} (hT : Tops N h S)
    {c : Nat} {n1 : Node P} (hc : N ≤ c) (hn : h1.nodes[c]? = some n1)
    (hp : n1.Parent = none) :
    c = h.nodes.length ∨ (S (some c) ∧ c ≠ a ∧ c ≠ b) := by
  rcases s.inv hn with ⟨h1c, _⟩ | ⟨_, n, hq, e⟩
  · exact Or.inl h1c
  · right
    by_cases hab : c = a ∨ c = b
    · rw [if_pos hab] at e
      rw [e] at hp
      cases hp
    · rw [if_neg hab] at e
      subst e
      exact ⟨hT c n1 hc hq hp, fun x => hab (Or.inl x), fun x => hab (Or.inr x)⟩

theorem PairStep.built [Payload P] {h h1 : Heap P} {t : Ptr} {a b : Nat} {d : Bytes}
    (s : PairStep h h1 t a b d) {hf : HashFunc} {N : Nat} (hB : Built hf t N h)
    {na nb : Node P} (ha : h.nodes[a]? = some na) (hb : h.nodes[b]? = some nb)
    (hNa : N ≤ a) (hNb : N ≤ b) (hd : hf.Calculate (na.Hash ++ nb.Hash) = .ok d) :
    Built hf t N h1 := by
  have g := s.grows hNa hNb
  have hla := lookup_lt ha
  have hlb := lookup_lt hb
  obtain ⟨tr, htr, hhf⟩ := hB.tree
  refine ⟨⟨tr, ?_, hhf⟩, Nat.le_trans hB.base g.length, ?_⟩
  · cases t with
    | none => simp [Heap.tree] at htr
    | some ta =>
      rw [tree_some_iff] at htr ⊢
      rw [g.trees]; exact htr
  intro c n1 hc hn
  rcases s.inv hn with ⟨h1c, e⟩ | ⟨hlt, n, hq, e⟩
  · -- the new node
    subst e
    refine ⟨rfl, ?_, ?_, ?_⟩
    · intro hl; simp [pairNode] at hl
    · intro _
      obtain ⟨na1, hna1, ea⟩ := g.keep a na ha
      obtain ⟨nb1, hnb1, eb⟩ := g.keep b nb hb
      refine ⟨rfl, rfl, a, b, na1, nb1, rfl, rfl, hNa, by omega, hNb, by omega, hna1, hnb1, ?_⟩
      have e1 : na1.Hash = na.Hash := by rw [ea]
      have e2 : nb1.Hash = nb.Hash := by rw [eb]
      rw [e1, e2]
      exact hd
    · intro p hp; simp [pairNode] at hp
  · -- an old node
    have ok := hB.nodes c n hc hq
    have hcore : n1 = { n with Parent := n1.Parent } := by
      rw [e]; split <;> rfl
    refine ⟨?_, ?_, ?_, ?_⟩
    · rw [hcore]; exact ok.tree
    · intro hl
      rw [hcore] at hl ⊢
      exact ok.leaf hl
    · intro hl
      rw [hcore] at hl
      obtain ⟨h1p, h2p, l, r, ln, rn, hL, hR, hNl, hlc, hNr, hrc, hln, hrn, hh⟩ := ok.inner hl
      obtain ⟨ln1, hln1, el⟩ := g.keep l ln hln
      obtain ⟨rn1, hrn1, er⟩ := g.keep r rn hrn
      have e1 : ln1.Hash = ln.Hash := by rw [el]
      have e2 : rn1.Hash = rn.Hash := by rw [er]
      rw [hcore]
      refine ⟨h1p, h2p, l, r, ln1, rn1, hL, hR, hNl, hlc, hNr, hrc, hln1, hrn1, ?_⟩
      rw [e1, e2]; exact hh
    · intro p hp
      by_cases hab : c = a ∨ c = b
      · rw [if_pos hab] at e
        rw [e] at hp
        simp only [Option.some.injEq] at hp
        subst hp
        refine ⟨hlt, pairNode t a b d, s.new, rfl, ?_⟩
        rcases hab with rfl | rfl
        · left; rfl
        · right; rfl
      · rw [if_neg hab] at e
        subst e
        obtain ⟨hcp, pn, hpn, hpl, hor⟩ := ok.parent p hp
        obtain ⟨pn1, hpn1, ep⟩ := g.keep p pn hpn
        refine ⟨hcp, pn1, hpn1, ?_, ?_⟩
        · rw [ep]; exact hpl
        · rw [ep]; exact hor

theorem Level.lookup {N : Nat} {h : Heap P} {lv : List Ptr} (hl : Level N h lv) {x : Ptr}
    (hx : x ∈ lv) :
    ∃ a n, x = some a ∧ N ≤ a ∧ h.nodes[a]? = some n ∧ hashAt h x = n.Hash := by
  obtain ⟨a, rfl, h1a, h2a⟩ := hl x hx
  refine ⟨a, h.nodes[a], rfl, h1a, List.getElem?_eq_getElem h2a, ?_⟩
  simp [hashAt, (node_some_iff h a _).2 (List.getElem?_eq_getElem h2a)]

theorem Level.hashes_eq {N : Nat} {h h1 : Heap P} {lv : List Ptr} (hl : Level N h lv)
    (g : Grows N h h1) : lv.map (hashAt h1) = lv.map (hashAt h) := by
  apply List.map_congr_left
  intro x hx
  obtain ⟨a, rfl, _, h2a⟩ := hl x hx
  exact g.hashAt_eq h2a

/-- The loop body under the invariant. -/
theorem foldPair_step [Payload P] {hf : HashFunc} {t : Ptr} {N : Nat} {h : Heap P}
    (hB : Built hf t N h) {x y : Ptr} (hx : Level N h [x]) (hy : Level N h [y]) :
    match hf.Calculate (hashAt h x ++ hashAt h y) with
    | .error e => foldPair t x y h = (.error (.err e), h)
    | .ok d => ∃ h1 a b, x = some a ∧ y = some b ∧
        foldPair t x y h = (.ok (some h.nodes.length), h1) ∧ PairStep h h1 t a b d ∧
        Built hf t N h1 ∧ Grows N h h1 := by
  obtain ⟨a, na, rfl, hNa, hna, hha⟩ := hx.lookup (List.mem_singleton.2 rfl)
  obtain ⟨b, nb, rfl, hNb, hnb, hhb⟩ := hy.lookup (List.mem_singleton.2 rfl)
  obtain ⟨tr, htr, hhf⟩ := hB.tree
  rw [hha, hhb]
  cases hd : hf.Calculate (na.Hash ++ nb.Hash) with
  | error e =>
    exact foldPair_err htr hna hnb (by rw [hhf]; exact hd)
  | ok d =>
    obtain ⟨h1, e1, s⟩ := foldPair_ok htr hna hnb (by rw [hhf]; exact hd)
    exact ⟨h1, a, b, rfl, rfl, e1, s, s.built hB hna hnb hNa hNb hd, s.grows hNa hNb⟩

theorem pairDigests_one (hf : HashFunc) (x : Bytes) :
    pairDigests hf [x] = (hf.Calculate (x ++ x)).map (fun d => [d]) := by
  cases hd : hf.Calculate (x ++ x) <;> simp [pairDigests, hd, Except.map, bind, Except.bind, pure, Except.pure]

theorem pairDigests_cons_err {hf : HashFunc} {x y : Bytes} {e : Error} (rest : List Bytes)
    (hd : hf.Calculate (x ++ y) = .error e) : pairDigests hf (x :: y :: rest) = .error e := by
  simp [pairDigests, hd, bind, Except.bind]

theorem pairDigests_cons_ok {hf : HashFunc} {x y d : Bytes} (rest : List Bytes)
    (hd : hf.Calculate (x ++ y) = .ok d) :
    pairDigests hf (x :: y :: rest) = (pairDigests hf rest).map (fun ds => d :: ds) := by
  cases hq : pairDigests hf rest <;>
    simp [pairDigests, hd, hq, Except.map, bind, Except.bind, pure, Except.pure]

theorem pairDigests_length (hf : HashFunc) :
    ∀ (k : Nat) (L ds : List Bytes), L.length ≤ k → pairDigests hf L = .ok ds →
      ds.length = (L.length + 1) / 2 := by
  intro k
  induction k with
  | zero =>
    intro L ds hk hL
    have : L = [] := List.length_eq_zero.1 (by omega)
    subst this
    simp [pairDigests] at hL
    subst hL; rfl
  | succ k ih =>
    intro L ds hk hL
    match L, hk, hL with
    | [], _, hL =>
      simp [pairDigests] at hL
      subst hL; rfl
    | [x], _, hL =>
      rw [pairDigests_one] at hL
      cases hd : hf.Calculate (x ++ x) with
      | error e => simp [hd, Except.map] at hL
      | ok d =>
        simp [hd, Except.map] at hL
        subst hL; simp
    | x :: y :: rest, hk, hL =>
      cases hd : hf.Calculate (x ++ y) with
      | error e => rw [pairDigests_cons_err rest hd] at hL; cases hL
      | ok d =>
        rw [pairDigests_cons_ok rest hd] at hL
        cases hq : pairDigests hf rest with
        | error e => simp [hq, Except.map] at hL
        | ok ds1 =>
          simp [hq, Except.map] at hL
          subst hL
          have := ih rest ds1 (by simp at hk; omega) hq
          simp [this]
          omega

theorem freshPtrs_zero (h : Heap P) : freshPtrs h 0 = [] := rfl

theorem freshPtrs_succ (h h1 : Heap P) (k : Nat) (hl : h1.nodes.length = h.nodes.length + 1) :
    freshPtrs h (k + 1) = some h.nodes.length :: freshPtrs h1 k := by
  simp [freshPtrs, List.range'_succ, hl]

theorem mem_freshPtrs {h : Heap P} {k : Nat} {x : Ptr} :
    x ∈ freshPtrs h k ↔ ∃ a, x = some a ∧ h.nodes.length ≤ a ∧ a < h.nodes.length + k := by
  simp only [freshPtrs, List.mem_map, List.mem_range'_1]
  constructor
  · rintro ⟨a, ⟨h1, h2⟩, rfl⟩
    exact ⟨a, rfl, h1, h2⟩
  · rintro ⟨a, rfl, h1, h2⟩
    exact ⟨a, ⟨h1, h2⟩, rfl⟩

theorem PairStep.frame {h h1 : Heap P} {t : Ptr} {a b : Nat} {d : Bytes}
    (s : PairStep h h1 t a b d) {c : Nat} {n : Node P} (hn : h.nodes[c]? = some n)
    (hca : c ≠ a) (hcb : c ≠ b) : h1.nodes[c]? = some n := by
  rw [s.keep hn, if_neg (by simp [hca, hcb])]

/-- The loop of one level under the invariant: it fails exactly when the
reference `pairDigests` fails, and otherwise allocates one node per pair. -/
theorem foldLevel_spec [Payload P] {hf : HashFunc} {t : Ptr} {N : Nat} (len : Nat) :
    ∀ (k : Nat) (rest acc : List Ptr) (h : Heap P) (S : Ptr → Prop),
      rest.length ≤ k → Built hf t N h → Level N h rest → (len = 2 → rest.length ≤ 2) →
      Tops N h (fun x => x ∈ rest ∨ S x) →
      ∃ h1, Grows N h h1 ∧
        (∀ c n, h.nodes[c]? = some n → some c ∉ rest → h1.nodes[c]? = some n) ∧
        (∀ e, pairDigests hf (rest.map (hashAt h)) = .error e →
          foldLevel t len rest acc h = (.error (.err e), h1)) ∧
        (∀ ds, pairDigests hf (rest.map (hashAt h)) = .ok ds →
          Built hf t N h1 ∧ h1.nodes.length = h.nodes.length + ds.length ∧
          (freshPtrs h ds.length).map (hashAt h1) = ds ∧
          Tops N h1 (fun x => x ∈ freshPtrs h ds.length ∨ S x) ∧
          (∀ c, h.nodes.length ≤ c → c < h1.nodes.length →
            ∃ n, h1.nodes[c]? = some n ∧ n.Parent = none ∧ n.isLeaf = false) ∧
          foldLevel t len rest acc h =
            ((if len = 2 ∧ rest ≠ [] then .ok (.inl (some h.nodes.length))
              else .ok (.inr (acc ++ freshPtrs h ds.length))), h1)) := by
  intro k
  induction k with
  | zero =>
    intro rest acc h S hk hB hL hlen hT
    have : rest = [] := List.length_eq_zero.1 (by omega)
    subst this
    refine ⟨h, Grows.same N h, fun _ _ hn _ => hn, ?_, ?_⟩
    · intro e he; simp [pairDigests] at he
    · intro ds hds
      simp [pairDigests] at hds
      subst hds
      refine ⟨hB, rfl, rfl, ?_, ?_, ?_⟩
      · simpa [freshPtrs] using hT
      · intro c h1c h2c; omega
      · simp [foldLevel, freshPtrs]
  | succ k ih =>
    intro rest acc h S hk hB hL hlen hT
    match rest, hk, hL, hlen, hT with
    | [], _, _, _, hT =>
      refine ⟨h, Grows.same N h, fun _ _ hn _ => hn, ?_, ?_⟩
      · intro e he; simp [pairDigests] at he
      · intro ds hds
        simp [pairDigests] at hds
        subst hds
        refine ⟨hB, rfl, rfl, ?_, ?_, ?_⟩
        · simpa [freshPtrs] using hT
        · intro c h1c h2c; omega
        · simp [foldLevel, freshPtrs]
    | [x], _, hL, _, hT =>
      have hx : Level N h [x] := hL
      have step := foldPair_step hB hx hx
      simp only [List.map_cons, List.map_nil, pairDigests_one]
      cases hd : hf.Calculate (hashAt h x ++ hashAt h x) with
      | error e =>
        simp only [hd] at step
        refine ⟨h, Grows.same N h, fun _ _ hn _ => hn, ?_, ?_⟩
        · intro e1 he1
          simp [Except.map] at he1
          subst he1
          simp [foldLevel, step]
        · intro ds hds; simp [Except.map] at hds
      | ok d =>
        simp only [hd] at step
        obtain ⟨h1, a, b, rfl, hab, e1, s, hB1, g⟩ := step
        cases hab
        refine ⟨h1, g, ?_, ?_, ?_⟩
        · intro c n hn hc
          have hca : c ≠ a := fun q => hc (by simp [q])
          exact s.frame hn hca hca
        · intro e1 he1; simp [Except.map] at he1
        · intro ds hds
          simp [Except.map] at hds
          subst hds
          refine ⟨hB1, s.2.1, ?_, ?_, ?_, ?_⟩
          · simp [freshPtrs, s.hashAt_new]
          · intro c n1 hc hn hp
            rcases s.tops hT hc hn hp with h1c | ⟨h1c, h2c, _⟩
            · left; simp [freshPtrs, h1c]
            · rcases h1c with h1c | h1c
              · simp at h1c; exact absurd h1c h2c
              · exact Or.inr h1c
          · intro c h1c h2c
            have : c = h.nodes.length := by rw [s.2.1] at h2c; omega
            subst this
            exact ⟨_, s.new, rfl, rfl⟩
          · simp only [foldLevel, e1]
            by_cases h2 : len = 2 <;> simp [h2, freshPtrs]
    | x :: y :: rest1, hk, hL, hlen, hT =>
      have hx : Level N h [x] := fun z hz => hL z (by simp at hz; simp [hz])
      have hy : Level N h [y] := fun z hz => hL z (by simp at hz; simp [hz])
      have hr : Level N h rest1 := fun z hz => hL z (by simp [hz])
      have step := foldPair_step hB hx hy
      simp only [List.map_cons]
      cases hd : hf.Calculate (hashAt h x ++ hashAt h y) with
      | error e =>
        simp only [hd] at step
        refine ⟨h, Grows.same N h, fun _ _ hn _ => hn, ?_, ?_⟩
        · intro e1 he1
          rw [pairDigests_cons_err _ hd] at he1
          cases he1
          simp [foldLevel, step]
        · intro ds hds
          rw [pairDigests_cons_err _ hd] at hds
          cases hds
      | ok d =>
        simp only [hd] at step
        obtain ⟨h1, a, b, rfl, rfl, e1, s, hB1, g⟩ := step
        rw [pairDigests_cons_ok _ hd]
        have hfr1 : ∀ c n, h.nodes[c]? = some n → some c ∉ some a :: some b :: rest1 →
            h1.nodes[c]? = some n := by
          intro c n hn hc
          exact s.frame hn (fun q => hc (by simp [q])) (fun q => hc (by simp [q]))
        by_cases h2 : len = 2
        · -- the `return n, nil` inside the loop
          have : rest1 = [] := List.length_eq_zero.1
            (by have := hlen h2; simp only [List.length_cons] at this; omega)
          subst this
          refine ⟨h1, g, hfr1, ?_, ?_⟩
          · intro e2 he2; simp [pairDigests, Except.map] at he2
          · intro ds hds
            simp [pairDigests, Except.map] at hds
            subst hds
            refine ⟨hB1, s.2.1, ?_, ?_, ?_, ?_⟩
            · simp [freshPtrs, s.hashAt_new]
            · intro c n1 hc hn hp
              rcases s.tops hT hc hn hp with h1c | ⟨h1c, h2c, h3c⟩
              · left; simp [freshPtrs, h1c]
              · rcases h1c with h1c | h1c
                · simp at h1c
                  rcases h1c with h1c | h1c
                  · exact absurd h1c h2c
                  · exact absurd h1c h3c
                · exact Or.inr h1c
            · intro c h1c h2c
              have : c = h.nodes.length := by rw [s.2.1] at h2c; omega
              subst this
              exact ⟨_, s.new, rfl, rfl⟩
            · simp [foldLevel, e1, h2]
        · have hr1 : Level N h1 rest1 := hr.mono g.length
          have hT1 : Tops N h1 (fun z => z ∈ rest1 ∨ (z = some h.nodes.length ∨ S z)) := by
            intro c n1 hc hn hp
            rcases s.tops hT hc hn hp with h1c | ⟨h1c, h2c, h3c⟩
            · right; left; rw [h1c]
            · rcases h1c with h1c | h1c
              · simp at h1c
                rcases h1c with h1c | h1c | h1c
                · exact absurd h1c h2c
                · exact absurd h1c h3c
                · exact Or.inl h1c
              · exact Or.inr (Or.inr h1c)
          obtain ⟨h2', g2, hfr2, herr, hok⟩ := ih rest1 (acc ++ [some h.nodes.length]) h1 _
            (by simp at hk; omega) hB1 hr1 (fun q => absurd q h2) hT1
          rw [hr.hashes_eq g] at herr hok
          have hnew : some h.nodes.length ∉ rest1 := by
            intro q
            obtain ⟨a1, ha1, _, hlt⟩ := hr _ q
            cases ha1
            omega
          refine ⟨h2', g.chain g2, ?_, ?_, ?_⟩
          · intro c n hn hc
            exact hfr2 c n (hfr1 c n hn hc) (fun q => hc (by simp [q]))
          · intro e2 he2
            cases hq : pairDigests hf (rest1.map (hashAt h)) with
            | ok ds1 => simp [hq, Except.map] at he2
            | error e3 =>
              simp [hq, Except.map] at he2
              subst he2
              simp [foldLevel, e1, h2, herr e3 hq]
          · intro ds hds
            cases hq : pairDigests hf (rest1.map (hashAt h)) with
            | error e3 => simp [hq, Except.map] at hds
            | ok ds1 =>
              simp [hq, Except.map] at hds
              subst hds
              obtain ⟨hB2, hlen2, hh2, hT2, hnew2, e2⟩ := hok ds1 hq
              have hfr := freshPtrs_succ h h1 ds1.length s.2.1
              refine ⟨hB2, ?_, ?_, ?_, ?_, ?_⟩
              · rw [hlen2, s.2.1]; simp; omega
              · simp only [List.length_cons, hfr, List.map_cons, hh2]
                rw [g2.hashAt_eq (by rw [s.2.1]; omega), s.hashAt_new]
              · intro c n1 hc hn hp
                rcases hT2 c n1 hc hn hp with h1c | h1c | h1c
                · left; simp [hfr, h1c]
                · left; simp [hfr, h1c]
                · exact Or.inr h1c
              · intro c h1c h2c
                by_cases hc : c = h.nodes.length
                · subst hc
                  exact ⟨_, hfr2 _ _ s.new hnew, rfl, rfl⟩
                · exact hnew2 c (by rw [s.2.1]; omega) h2c
              · simp [foldLevel, e1, h2, e2, hfr]

theorem refRootAux_two (hf : HashFunc) (fuel : Nat) (x y : Bytes) :
    refRootAux hf (fuel + 1) [x, y] = liftE (hf.Calculate (x ++ y)) := rfl

theorem refRootAux_other (hf : HashFunc) (fuel : Nat) (level : List Bytes)
    (hl : level.length ≠ 2) :
    refRootAux hf (fuel + 1) level =
      (liftE (pairDigests hf level) >>= fun next => refRootAux hf fuel next) := by
  match level, hl with
  | [], _ => rfl
  | [_], _ => rfl
  | [_, _], hl => simp at hl
  | _ :: _ :: _ :: _, _ => rfl

theorem Level.fresh {N : Nat} {h h1 : Heap P} {k : Nat} (hN : N ≤ h.nodes.length)
    (hl : h1.nodes.length = h.nodes.length + k) : Level N h1 (freshPtrs h k) := by
  intro x hx
  obtain ⟨a, rfl, h1a, h2a⟩ := mem_freshPtrs.1 hx
  exact ⟨a, rfl, by omega, by omega⟩

/-- The level recursion under the invariant: it fails exactly when the reference
fold fails (or runs out of fuel), and otherwise returns a parentless internal
node, allocated last, whose stored digest is the reference root. -/
theorem constructNonLeaf_spec [Payload P] {hf : HashFunc} {t : Ptr} {N : Nat} :
    ∀ (fuel : Nat) (lv : List Ptr) (h : Heap P),
      Built hf t N h → Level N h lv → Tops N h (fun x => x ∈ lv) →
      ∃ h1, Grows N h h1 ∧
        (∀ e, refRootAux hf fuel (lv.map (hashAt h)) = .error e →
          constructNonLeafTreeLevelsFromLeafNodes t fuel lv h = (.error e, h1)) ∧
        (∀ d, refRootAux hf fuel (lv.map (hashAt h)) = .ok d →
          ∃ r rn, constructNonLeafTreeLevelsFromLeafNodes t fuel lv h = (.ok (some r), h1) ∧
            Built hf t N h1 ∧ h1.nodes.length = r + 1 ∧ h.nodes.length ≤ r ∧
            h1.nodes[r]? = some rn ∧
            rn.Hash = d ∧ rn.Parent = none ∧ rn.isLeaf = false ∧
            Tops N h1 (fun x => x = some r)) := by
  intro fuel
  induction fuel with
  | zero =>
    intro lv h hB hL hT
    refine ⟨h, Grows.same N h, ?_, ?_⟩
    · intro e he
      simp [refRootAux] at he
      subst he
      rfl
    · intro d hd; simp [refRootAux] at hd
  | succ fuel ih =>
    intro lv h hB hL hT
    have hT0 : Tops N h (fun x => x ∈ lv ∨ False) := fun a n h1 h2 h3 => Or.inl (hT a n h1 h2 h3)
    obtain ⟨h1, g, _, herr, hok⟩ := @foldLevel_spec P _ hf t N lv.length lv.length lv []
      h (fun _ => False) (Nat.le_refl _) hB hL (fun q => by omega) hT0
    by_cases h2 : lv.length = 2
    · obtain ⟨x, y, rfl⟩ : ∃ x y, lv = [x, y] := by
        match lv, h2 with
        | [x, y], _ => exact ⟨x, y, rfl⟩
      simp only [List.map_cons, List.map_nil, refRootAux_two]
      simp only [List.map_cons, List.map_nil] at herr hok
      cases hd : hf.Calculate (hashAt h x ++ hashAt h y) with
      | error e =>
        have hp := pairDigests_cons_err [] hd
        refine ⟨h1, g, ?_, ?_⟩
        · intro e1 he1
          simp [liftE] at he1
          subst he1
          have hfl : foldLevel t 2 [x, y] [] h = _ := herr e hp
          simp [constructNonLeafTreeLevelsFromLeafNodes, hfl]
        · intro d hd1; simp [liftE] at hd1
      | ok d =>
        have hp : pairDigests hf [hashAt h x, hashAt h y] = .ok [d] := by
          rw [pairDigests_cons_ok [] hd]; rfl
        obtain ⟨hB1, hlen1, hh1, hT1, hnew1, e1⟩ := hok [d] hp
        refine ⟨h1, g, ?_, ?_⟩
        · intro e1 he1; simp [liftE] at he1
        · intro d1 hd1
          simp [liftE] at hd1
          subst hd1
          obtain ⟨rn, hrn, hpar, hleaf⟩ := hnew1 h.nodes.length (Nat.le_refl _)
            (by rw [hlen1]; simp)
          refine ⟨h.nodes.length, rn, ?_, hB1, by rw [hlen1]; rfl, Nat.le_refl _, hrn, ?_,
            hpar, hleaf, ?_⟩
          · have hfl : foldLevel t 2 [x, y] [] h = (.ok (.inl (some h.nodes.length)), h1) := by
              simpa using e1
            simp [constructNonLeafTreeLevelsFromLeafNodes, hfl]
          · simp [freshPtrs, hashAt, (node_some_iff h1 _ _).2 hrn] at hh1
            exact hh1
          · intro c n1 hc hn hp1
            rcases hT1 c n1 hc hn hp1 with q | q
            · simpa [freshPtrs] using q
            · exact q.elim
    · rw [refRootAux_other _ _ _ (by simpa using h2)]
      cases hp : pairDigests hf (lv.map (hashAt h)) with
      | error e =>
        refine ⟨h1, g, ?_, ?_⟩
        · intro e1 he1
          simp [liftE, bind, Except.bind] at he1
          subst he1
          simp [constructNonLeafTreeLevelsFromLeafNodes, herr e hp]
        · intro d hd1; simp [liftE, bind, Except.bind] at hd1
      | ok ds =>
        obtain ⟨hB1, hlen1, hh1, hT1, hnew1, e1⟩ := hok ds hp
        have hL1 : Level N h1 (freshPtrs h ds.length) := Level.fresh hB.base hlen1
        have hT2 : Tops N h1 (fun x => x ∈ freshPtrs h ds.length) := by
          intro c n1 hc hn hp1
          rcases hT1 c n1 hc hn hp1 with q | q
          · exact q
          · exact q.elim
        obtain ⟨h2', g2, herr2, hok2⟩ := ih (freshPtrs h ds.length) h1 hB1 hL1 hT2
        rw [hh1] at herr2 hok2
        have e2 : constructNonLeafTreeLevelsFromLeafNodes t (fuel + 1) lv h =
            constructNonLeafTreeLevelsFromLeafNodes t fuel (freshPtrs h ds.length) h1 := by
          simp [constructNonLeafTreeLevelsFromLeafNodes, e1, h2]
        simp only [liftE, bind, Except.bind]
        refine ⟨h2', g.chain g2, ?_, ?_⟩
        · intro e he
          rw [e2]; exact herr2 e he
        · intro d hd
          obtain ⟨r, rn, q1, q2, q3, q4, q5⟩ := hok2 d hd
          exact ⟨r, rn, by rw [e2]; exact q1, q2, q3, by have := g.length; omega, q5⟩

theorem leafDigests_cons_ok [Payload P] {p : P} {d : Bytes} (pp : List P)
    (hd : Payload.CalculateHash p = .ok d) :
    leafDigests (p :: pp) = (leafDigests pp).map (fun ds => d :: ds) := by
  cases hq : leafDigests pp <;>
    simp [leafDigests, hd, hq, Except.map, bind, Except.bind, pure, Except.pure]

theorem leafDigests_cons_err [Payload P] {p : P} {e : Error} (pp : List P)
    (hd : Payload.CalculateHash p = .error e) : leafDigests (p :: pp) = .error e := by
  simp [leafDigests, hd, bind, Except.bind]

theorem leafDigests_length [Payload P] :
    ∀ (pp : List P) (ds : List Bytes), leafDigests pp = .ok ds → ds.length = pp.length := by
  intro pp
  induction pp with
  | nil => intro ds h; simp [leafDigests] at h; subst h; rfl
  | cons p pp ih =>
    intro ds h
    cases hd : Payload.CalculateHash p with
    | error e => rw [leafDigests_cons_err pp hd] at h; cases h
    | ok d =>
      rw [leafDigests_cons_ok pp hd] at h
      cases hq : leafDigests pp with
      | error e => simp [hq, Except.map] at h
      | ok ds1 =>
        simp [hq, Except.map] at h
        subst h
        simp [ih ds1 hq]

theorem leafDigests_get [Payload P] :
    ∀ (pp : List P) (ds : List Bytes), leafDigests pp = .ok ds →
      ∀ (i : Nat) (p : P) (d : Bytes), pp[i]? = some p → ds[i]? = some d →
        Payload.CalculateHash p = .ok d := by
  intro pp
  induction pp with
  | nil => intro ds _ i p d hp; simp at hp
  | cons q pp ih =>
    intro ds h i p d hp hd1
    cases hd : Payload.CalculateHash q with
    | error e => rw [leafDigests_cons_err pp hd] at h; cases h
    | ok d0 =>
      rw [leafDigests_cons_ok pp hd] at h
      cases hq : leafDigests pp with
      | error e => simp [hq, Except.map] at h
      | ok ds1 =>
        simp [hq, Except.map] at h
        subst h
        cases i with
        | zero =>
          simp at hp hd1
          subst hp; subst hd1
          exact hd
        | succ i =>
          simp at hp hd1
          exact ih ds1 hq i p d hp hd1

theorem Extends.same_heap (h : Heap P) : Extends h h := ⟨rfl, [], by simp⟩

theorem Extends.chain_ext {h h1 h2 : Heap P} (e1 : Extends h h1) (e2 : Extends h1 h2) :
    Extends h h2 := by
  obtain ⟨t1, x1, n1⟩ := e1
  obtain ⟨t2, x2, n2⟩ := e2
  exact ⟨t2.trans t1, x1 ++ x2, by rw [n2, n1, List.append_assoc]⟩

theorem Extends.newNode (h : Heap P) (n : Node P) : Extends h (h.newNode n).2 :=
  ⟨rfl, [n], rfl⟩

theorem Extends.lookup_old {h h1 : Heap P} (e : Extends h h1) {c : Nat} {n : Node P}
    (hn : h.nodes[c]? = some n) : h1.nodes[c]? = some n := by
  obtain ⟨_, x, hx⟩ := e
  rw [hx, List.getElem?_append_left (lookup_lt hn)]
  exact hn

theorem Extends.to_grows {h h1 : Heap P} (e : Extends h h1) (N : Nat) : Grows N h h1 := by
  refine ⟨e.1, ?_, fun c n _ hn => e.lookup_old hn, fun c n hn => ⟨n, e.lookup_old hn, rfl⟩⟩
  obtain ⟨_, x, hx⟩ := e
  rw [hx]; simp

theorem freshPtrs_append (h h1 : Heap P) (j k : Nat) (hl : h1.nodes.length = h.nodes.length + j) :
    freshPtrs h (j + k) = freshPtrs h j ++ freshPtrs h1 k := by
  simp only [freshPtrs, hl, ← List.map_append]
  congr 1
  rw [List.range'_append_1, Nat.add_comm]

/-- The loop over the payloads: it fails exactly when `leafDigests` fails, and
otherwise allocates one leaf per payload. -/
theorem makeLeafNodes_spec [Payload P] (t : Ptr) :
    ∀ (pp : List P) (acc : List Ptr) (h : Heap P),
      ∃ h1, Extends h h1 ∧
        (∀ e, leafDigests pp = .error e →
          makeLeafNodes t (pp.map some) acc h = (.error (.err e), h1)) ∧
        (∀ ds, leafDigests pp = .ok ds →
          h1.nodes = h.nodes ++ realLeaves t pp ds ∧
          makeLeafNodes t (pp.map some) acc h = (.ok (acc ++ freshPtrs h pp.length), h1)) := by
  intro pp
  induction pp with
  | nil =>
    intro acc h
    refine ⟨h, Extends.same_heap h, ?_, ?_⟩
    · intro e he; simp [leafDigests] at he
    · intro ds hds
      simp [leafDigests] at hds
      subst hds
      simp [makeLeafNodes, freshPtrs, realLeaves]
  | cons p pp ih =>
    intro acc h
    cases hd : Payload.CalculateHash p with
    | error e =>
      refine ⟨h, Extends.same_heap h, ?_, ?_⟩
      · intro e1 he1
        rw [leafDigests_cons_err pp hd] at he1
        cases he1
        simp [makeLeafNodes, hd]
      · intro ds hds
        rw [leafDigests_cons_err pp hd] at hds
        cases hds
    | ok d =>
      obtain ⟨h1, ex, herr, hok⟩ := ih (acc ++ [some h.nodes.length])
        (h.newNode (leafNode t p d false)).2
      have e0 : makeLeafNodes t ((p :: pp).map some) acc h =
          makeLeafNodes t (pp.map some) (acc ++ [some h.nodes.length])
            (h.newNode (leafNode t p d false)).2 := by
        simp [makeLeafNodes, hd, leafNode, Heap.newNode]
      rw [leafDigests_cons_ok pp hd, e0]
      refine ⟨h1, (Extends.newNode h _).chain_ext ex, ?_, ?_⟩
      · intro e1 he1
        cases hq : leafDigests pp with
        | ok ds1 => simp [hq, Except.map] at he1
        | error e2 =>
          simp [hq, Except.map] at he1
          subst he1
          exact herr e2 hq
      · intro ds hds
        cases hq : leafDigests pp with
        | error e2 => simp [hq, Except.map] at hds
        | ok ds1 =>
          simp [hq, Except.map] at hds
          subst hds
          obtain ⟨q1, q2⟩ := hok ds1 hq
          refine ⟨?_, ?_⟩
          · rw [q1]; simp [Heap.newNode, realLeaves]
          · rw [q2, List.append_assoc]
            congr 2
            have := freshPtrs_append h (h.newNode (leafNode t p d false)).2 1
              pp.length (newNode_length h _)
            rw [List.length_cons, Nat.add_comm, this]
            simp [freshPtrs]

theorem realLeaves_length [Payload P] (t : Ptr) {pp : List P} {ds : List Bytes}
    (hd : leafDigests pp = .ok ds) : (realLeaves t pp ds).length = pp.length := by
  simp [realLeaves, leafDigests_length pp ds hd]

theorem realLeaves_get (t : Ptr) (pp : List P) (ds : List Bytes) (i : Nat) (nd : Node P) :
    (realLeaves t pp ds)[i]? = some nd ↔
      ∃ p d, pp[i]? = some p ∧ ds[i]? = some d ∧ leafNode t p d false = nd :=
  List.getElem?_zipWith_eq_some

theorem realLeaves_hash (t : Ptr) :
    ∀ (pp : List P) (ds : List Bytes), ds.length = pp.length →
      (realLeaves t pp ds).map (fun n => n.Hash) = ds := by
  intro pp
  induction pp with
  | nil =>
    intro ds hl
    have : ds = [] := List.length_eq_zero.1 hl
    subst this; rfl
  | cons p pp ih =>
    intro ds hl
    match ds, hl with
    | d :: ds, hl =>
      have := ih ds (by simpa using hl)
      show (leafNode t p d false).Hash :: List.map _ (realLeaves t pp ds) = d :: ds
      rw [this]; rfl

theorem realLeaves_mem [Payload P] (t : Ptr) {pp : List P} {ds : List Bytes}
    (hd : leafDigests pp = .ok ds) {nd : Node P} (hn : nd ∈ realLeaves t pp ds) :
    ∃ p d, nd = leafNode t p d false ∧ Payload.CalculateHash p = .ok d := by
  obtain ⟨i, hi⟩ := List.mem_iff_getElem?.1 hn
  obtain ⟨p, d, hp, hdd, e⟩ := (realLeaves_get t pp ds i nd).1 hi
  exact ⟨p, d, e.symm, leafDigests_get pp ds hd i p d hp hdd⟩

theorem leafLayer_mem [Payload P] (t : Ptr) {pp : List P} {ds : List Bytes}
    (hd : leafDigests pp = .ok ds) {nd : Node P} (hn : nd ∈ leafLayer t pp ds) :
    ∃ p d dup, nd = leafNode t p d dup ∧ Payload.CalculateHash p = .ok d := by
  unfold leafLayer at hn
  split at hn
  · cases hq : (realLeaves t pp ds).getLast? with
    | none =>
      rw [hq] at hn
      obtain ⟨p, d, e, hc⟩ := realLeaves_mem t hd hn
      exact ⟨p, d, false, e, hc⟩
    | some l =>
      rw [hq] at hn
      simp only [List.mem_append, List.mem_singleton] at hn
      rcases hn with hn | hn
      · obtain ⟨p, d, e, hc⟩ := realLeaves_mem t hd hn
        exact ⟨p, d, false, e, hc⟩
      · have hl : l ∈ realLeaves t pp ds := List.mem_of_getLast?_eq_some hq
        obtain ⟨p, d, e, hc⟩ := realLeaves_mem t hd hl
        refine ⟨p, d, true, ?_, hc⟩
        rw [hn, e]; rfl
  · obtain ⟨p, d, e, hc⟩ := realLeaves_mem t hd hn
    exact ⟨p, d, false, e, hc⟩

theorem leafLayer_hash [Payload P] (t : Ptr) {pp : List P} {ds : List Bytes}
    (hd : leafDigests pp = .ok ds) :
    (leafLayer t pp ds).map (fun n => n.Hash) = padOdd ds := by
  have hl := leafDigests_length pp ds hd
  have hh := realLeaves_hash t pp ds hl
  have hlen := realLeaves_length t hd
  have hlast : ds.getLast? = ((realLeaves t pp ds).getLast?).map (fun n => n.Hash) := by
    rw [← List.getLast?_map, hh]
  unfold leafLayer padOdd
  rw [hlen, hl, hlast]
  split
  · cases hq : (realLeaves t pp ds).getLast? with
    | none => simpa using hh
    | some l => simp [hh]
  · exact hh

theorem leafLayer_length [Payload P] (t : Ptr) {pp : List P} {ds : List Bytes}
    (hd : leafDigests pp = .ok ds) :
    (leafLayer t pp ds).length = pp.length + pp.length % 2 := by
  have hlen := realLeaves_length t hd
  unfold leafLayer
  rw [hlen]
  split
  · rename_i ho
    cases hq : (realLeaves t pp ds).getLast? with
    | none =>
      have : realLeaves t pp ds = [] := List.getLast?_eq_none_iff.1 hq
      rw [this] at hlen
      simp at hlen
      omega
    | some l => simp [hlen, ho]
  · simp [hlen]; omega

theorem freshPtrs_length (h : Heap P) (k : Nat) : (freshPtrs h k).length = k := by
  simp [freshPtrs]

theorem freshPtrs_get (h : Heap P) {k i : Nat} (hi : i < k) :
    (freshPtrs h k)[i]? = some (some (h.nodes.length + i)) := by
  simp [freshPtrs, List.getElem?_range' _ _ hi]

/-- The duplication step after the loop over the payloads. -/
theorem duplicateLastLeaf_spec [Payload P] (t : Ptr) {pp : List P} {ds : List Bytes}
    (hd : leafDigests pp = .ok ds) {h h1 : Heap P}
    (hn : h1.nodes = h.nodes ++ realLeaves t pp ds) :
    ∃ h2, Extends h1 h2 ∧ h2.nodes = h.nodes ++ leafLayer t pp ds ∧
      duplicateLastLeaf t (freshPtrs h pp.length) h1 =
        (.ok (freshPtrs h (leafLayer t pp ds).length), h2) := by
  have hlen := realLeaves_length t hd
  unfold duplicateLastLeaf leafLayer
  rw [freshPtrs_length, hlen]
  by_cases ho : pp.length % 2 = 1
  · simp only [if_pos ho]
    have hpos : pp.length - 1 < pp.length := by omega
    rw [freshPtrs_get h hpos]
    cases hq : (realLeaves t pp ds).getLast? with
    | none =>
      have : realLeaves t pp ds = [] := List.getLast?_eq_none_iff.1 hq
      rw [this] at hlen
      simp at hlen
      omega
    | some l =>
      have hl : h1.nodes[h.nodes.length + (pp.length - 1)]? = some l := by
        rw [hn, List.getElem?_append_right (by omega)]
        rw [List.getLast?_eq_getElem?, hlen] at hq
        simpa using hq
      obtain ⟨p, d, e, _⟩ := realLeaves_mem t hd (List.mem_of_getLast?_eq_some hq)
      simp only [(node_some_iff h1 _ _).2 hl]
      subst e
      refine ⟨(h1.newNode (leafNode t p d true)).2, Extends.newNode h1 _, ?_, ?_⟩
      · simp only [Heap.newNode, hn, List.append_assoc]
        rfl
      · show (Except.ok (freshPtrs h pp.length ++ [(h1.newNode (leafNode t p d true)).1]),
          (h1.newNode (leafNode t p d true)).2) = _
        simp only [Heap.newNode, List.length_append, List.length_singleton, hlen]
        have h1len : h1.nodes.length = h.nodes.length + pp.length := by
          rw [hn]; simp [hlen]
        rw [freshPtrs_append h h1 pp.length 1 h1len]
        simp [freshPtrs, h1len]
  · simp only [if_neg ho]
    exact ⟨h1, Extends.same_heap h1, hn, by rw [hlen]⟩

/-- More fuel does not change a result of the reference fold. -/
theorem refRootAux_mono (hf : HashFunc) :
    ∀ (f : Nat) (L : List Bytes) (r : Res Bytes), refRootAux hf f L = r →
      r ≠ .error .outOfFuel → refRootAux hf (f + 1) L = r := by
  intro f
  induction f with
  | zero => intro L r h hr; simp [refRootAux] at h; exact absurd h.symm hr
  | succ f ih =>
    intro L r h hr
    by_cases h2 : L.length = 2
    · match L, h2 with
      | [x, y], _ => rw [refRootAux_two] at h ⊢; exact h
    · rw [refRootAux_other _ _ _ h2] at h ⊢
      cases hp : pairDigests hf L with
      | error e => rw [hp] at h; exact h
      | ok next =>
        rw [hp] at h
        simp only [liftE, bind, Except.bind] at h ⊢
        exact ih next r h hr

theorem refRootAux_mono_le (hf : HashFunc) {f g : Nat} (hfg : f ≤ g) {L : List Bytes}
    {r : Res Bytes} (h : refRootAux hf f L = r) (hr : r ≠ .error .outOfFuel) :
    refRootAux hf g L = r := by
  induction hfg with
  | refl => exact h
  | step _ ih => exact refRootAux_mono hf _ L r ih hr

/-- Fuel equal to the length of the level is enough. -/
theorem refRootAux_enough (hf : HashFunc) :
    ∀ (f : Nat) (L : List Bytes), 2 ≤ L.length → L.length ≤ f →
      refRootAux hf f L ≠ .error .outOfFuel := by
  intro f
  induction f with
  | zero => intro L h2 h0; omega
  | succ f ih =>
    intro L hL hf1
    by_cases h2 : L.length = 2
    · match L, h2 with
      | [x, y], _ =>
        rw [refRootAux_two]
        cases hf.Calculate (x ++ y) <;> simp [liftE]
    · rw [refRootAux_other _ _ _ h2]
      cases hp : pairDigests hf L with
      | error e => simp [liftE, bind, Except.bind]
      | ok next =>
        simp only [liftE, bind, Except.bind]
        have hl := pairDigests_length hf L.length L next (Nat.le_refl _) hp
        exact ih next (by omega) (by omega)

theorem refRootAux_ok_length (hf : HashFunc) :
    ∀ (f : Nat) (L : List Bytes) (d : Bytes), refRootAux hf f L = .ok d → 2 ≤ L.length := by
  intro f
  induction f with
  | zero => intro L d h; simp [refRootAux] at h
  | succ f ih =>
    intro L d h
    by_cases h2 : L.length = 2
    · omega
    · rw [refRootAux_other _ _ _ h2] at h
      cases hp : pairDigests hf L with
      | error e => rw [hp] at h; simp [liftE, bind, Except.bind] at h
      | ok next =>
        rw [hp] at h
        simp only [liftE, bind, Except.bind] at h
        have hn := ih next d h
        have hl := pairDigests_length hf L.length L next (Nat.le_refl _) hp
        omega

/-- A result of the fold with fuel is the result of `refRoot`. -/
theorem refRoot_of_aux (hf : HashFunc) {f : Nat} {L : List Bytes} {r : Res Bytes}
    (h2 : 2 ≤ L.length) (h : refRootAux hf f L = r) (hr : r ≠ .error .outOfFuel) :
    refRoot hf L = r := by
  unfold refRoot
  have h1 := refRootAux_enough hf L.length L h2 (Nat.le_refl _)
  have a := refRootAux_mono_le hf (Nat.le_max_left f L.length) h hr
  have b := refRootAux_mono_le hf (Nat.le_max_right f L.length) rfl h1
  rw [← b, a]

theorem aux_of_refRoot (hf : HashFunc) {f : Nat} {L : List Bytes}
    (h2 : 2 ≤ L.length) (hf1 : L.length ≤ f) : refRootAux hf f L = refRoot hf L := by
  have h1 := refRootAux_enough hf L.length L h2 (Nat.le_refl _)
  exact refRootAux_mono_le hf hf1 rfl h1

theorem padOdd_length (L : List Bytes) : (padOdd L).length = L.length + L.length % 2 := by
  unfold padOdd
  split
  · rename_i ho
    cases hq : L.getLast? with
    | none =>
      have : L = [] := List.getLast?_eq_none_iff.1 hq
      subst this
      simp at ho
    | some l => simp [ho]
  · simp; omega

theorem hashes_fresh {h h2 : Heap P} {X : List (Node P)} (hn : h2.nodes = h.nodes ++ X) :
    (freshPtrs h X.length).map (hashAt h2) = X.map (fun n => n.Hash) := by
  apply List.ext_getElem?
  intro i
  by_cases hi : i < X.length
  · rw [List.getElem?_map, freshPtrs_get h hi, List.getElem?_map]
    have : h2.nodes[h.nodes.length + i]? = X[i]? := by
      rw [hn, List.getElem?_append_right (by omega)]
      simp
    rw [List.getElem?_eq_getElem hi] at this ⊢
    simp [hashAt, (node_some_iff h2 _ _).2 this]
  · rw [List.getElem?_eq_none (by simp [freshPtrs_length]; omega),
      List.getElem?_eq_none (by simp; omega)]

theorem Grows.of_le {N M : Nat} {h h1 : Heap P} (g : Grows N h h1) (hM : M ≤ N) :
    Grows M h h1 :=
  ⟨g.trees, g.length, fun c n hc hn => g.below c n (by omega) hn, g.keep⟩

/-- The heap right after the leaves were allocated satisfies the invariant. -/
theorem leaves_built [Payload P] {hf : HashFunc} {t : Ptr} {tr : MerkleTree} {h h2 : Heap P}
    (htr : h.tree t = .ok tr) (hhf : tr.HashFunc = hf) {pp : List P} {ds : List Bytes}
    (hd : leafDigests pp = .ok ds) (htrees : h2.trees = h.trees)
    (hn : h2.nodes = h.nodes ++ leafLayer t pp ds) :
    Built hf t h.nodes.length h2 ∧
    Level h.nodes.length h2 (freshPtrs h (leafLayer t pp ds).length) ∧
    Tops h.nodes.length h2 (fun x => x ∈ freshPtrs h (leafLayer t pp ds).length) := by
  have hlen : h2.nodes.length = h.nodes.length + (leafLayer t pp ds).length := by
    rw [hn]; simp
  refine ⟨⟨⟨tr, ?_, hhf⟩, by omega, ?_⟩, Level.fresh (Nat.le_refl _) hlen, ?_⟩
  · obtain ⟨a, rfl, ha⟩ := tree_ok_elim htr
    rw [tree_some_iff, htrees]; exact ha
  · intro a n hNa hna
    have hmem : n ∈ leafLayer t pp ds := by
      rw [hn, List.getElem?_append_right hNa] at hna
      exact List.mem_iff_getElem?.2 ⟨_, hna⟩
    obtain ⟨p, d, dup, e, hc⟩ := leafLayer_mem t hd hmem
    subst e
    refine ⟨rfl, fun _ => ⟨rfl, rfl, p, rfl, hc⟩, ?_, ?_⟩
    · intro hl; simp [leafNode] at hl
    · intro q hq; simp [leafNode] at hq
  · intro a n hNa hna _
    exact mem_freshPtrs.2 ⟨a, rfl, hNa, by rw [← hlen]; exact lookup_lt hna⟩

/-- `constructTreeFromPayloads` on a non-empty list: it fails exactly when a
payload digest or the reference fold fails, with the same fault, and
otherwise leaves a `Constructed` heap. -/
theorem constructTree_spec [Payload P] {hf : HashFunc} {t : Ptr} {tr : MerkleTree} {h : Heap P}
    (htr : h.tree t = .ok tr) (hhf : tr.HashFunc = hf) (fuel : Nat) (pp : List P)
    (hpp : pp ≠ []) :
    ∃ h1, Grows h.nodes.length h h1 ∧
      (∀ e, leafDigests pp = .error e →
        constructTreeFromPayloads fuel (pp.map some) t h = (.error (.err e), h1)) ∧
      (∀ ds, leafDigests pp = .ok ds →
        (∀ e, refRootAux hf fuel (padOdd ds) = .error e →
          constructTreeFromPayloads fuel (pp.map some) t h = (.error e, h1)) ∧
        (∀ d, refRootAux hf fuel (padOdd ds) = .ok d → ∃ r,
          constructTreeFromPayloads fuel (pp.map some) t h =
            (.ok (some r, freshPtrs h (leafLayer t pp ds).length), h1) ∧
          Constructed hf t pp ds h.nodes.length r h1)) := by
  have hne : ¬ ((pp.map some).length = 0) := by
    simp only [List.length_map]
    intro q
    exact hpp (List.length_eq_zero.1 q)
  obtain ⟨h1, ex1, herr1, hok1⟩ := makeLeafNodes_spec t pp [] h
  cases hd : leafDigests pp with
  | error e =>
    refine ⟨h1, ex1.to_grows _, ?_, ?_⟩
    · intro e1 he1
      cases he1
      simp only [constructTreeFromPayloads, if_neg hne, herr1 e hd]
    · intro ds hds; cases hds
  | ok ds =>
    obtain ⟨hn1, e1⟩ := hok1 ds hd
    obtain ⟨h2, ex2, hn2, e2⟩ := duplicateLastLeaf_spec t hd hn1
    obtain ⟨hB2, hL2, hT2⟩ := leaves_built htr hhf hd (ex2.1.trans ex1.1) hn2
    obtain ⟨h3, g3, herr3, hok3⟩ :=
      constructNonLeaf_spec fuel (freshPtrs h (leafLayer t pp ds).length) h2 hB2 hL2 hT2
    rw [hashes_fresh hn2, leafLayer_hash t hd] at herr3 hok3
    have g : Grows h.nodes.length h h3 := ((ex1.chain_ext ex2).to_grows _).chain g3
    have e0 : constructTreeFromPayloads fuel (pp.map some) t h =
        match constructNonLeafTreeLevelsFromLeafNodes t fuel
          (freshPtrs h (leafLayer t pp ds).length) h2 with
        | (.error e, h3) => (.error e, h3)
        | (.ok root, h3) => (.ok (root, freshPtrs h (leafLayer t pp ds).length), h3) := by
      simp only [constructTreeFromPayloads, if_neg hne, e1, List.nil_append, e2]
    refine ⟨h3, g, ?_, ?_⟩
    · intro e he; cases he
    · intro ds1 hds1
      cases hds1
      refine ⟨?_, ?_⟩
      · intro e he
        rw [e0, herr3 e he]
      · intro d hdd
        obtain ⟨r, rn, q1, q2, q3, q4, q5, q6, q7, q8, q9⟩ := hok3 d hdd
        refine ⟨r, by rw [e0, q1], hd, q2, q3, ?_, ⟨rn, q5, ?_, q7, q8⟩, q9, ?_⟩
        · rw [hn2] at q4; simpa using q4
        · rw [← q6] at hdd
          exact refRoot_of_aux hf (refRootAux_ok_length hf fuel _ _ hdd) hdd (by simp)
        · intro i nd hi
          have : h2.nodes[h.nodes.length + i]? = some nd := by
            rw [hn2, List.getElem?_append_right (by omega)]
            simpa using hi
          exact g3.keep _ nd this

theorem setTree_nodes (h : Heap P) (m root : Ptr) (leafs : List Ptr) (hash : Bytes) :
    (h.setTree m root leafs hash).nodes = h.nodes := by
  unfold Heap.setTree
  cases m with
  | none => rfl
  | some a => cases hq : h.trees[a]? <;> simp [hq]

theorem setTree_tree {h : Heap P} {m : Ptr} {tr : MerkleTree} (htr : h.tree m = .ok tr)
    (root : Ptr) (leafs : List Ptr) (hash : Bytes) :
    (h.setTree m root leafs hash).tree m =
      .ok { tr with Root := root, Leafs := leafs, MerkleRootHash := hash } := by
  obtain ⟨a, rfl, ha⟩ := tree_ok_elim htr
  rw [tree_some_iff]
  have hlt : a < h.trees.length := by
    by_contra hc
    rw [List.getElem?_eq_none (by omega)] at ha
    cases ha
  simp [Heap.setTree, ha, List.getElem?_set, hlt]

theorem setTree_other {h : Heap P} {a b : Nat} (hab : a ≠ b)
    (root : Ptr) (leafs : List Ptr) (hash : Bytes) :
    (h.setTree (some a) root leafs hash).trees[b]? = h.trees[b]? := by
  unfold Heap.setTree
  cases hq : h.trees[a]? <;> simp [hq, hab]

theorem Built.after_setTree [Payload P] {hf : HashFunc} {t : Ptr} {N : Nat} {h : Heap P}
    (hB : Built hf t N h) (root : Ptr) (leafs : List Ptr) (hash : Bytes) :
    Built hf t N (h.setTree t root leafs hash) := by
  obtain ⟨tr, htr, hhf⟩ := hB.tree
  refine ⟨⟨_, setTree_tree htr root leafs hash, hhf⟩, ?_, ?_⟩
  · rw [setTree_nodes]; exact hB.base
  · intro a n hNa hna
    rw [setTree_nodes] at hna
    have ok := hB.nodes a n hNa hna
    refine ⟨ok.tree, ok.leaf, ?_, ?_⟩
    · intro hl
      obtain ⟨q1, q2, l, r, ln, rn, q⟩ := ok.inner hl
      exact ⟨q1, q2, l, r, ln, rn, by rw [setTree_nodes]; exact q⟩
    · intro p hp
      obtain ⟨q1, pn, q⟩ := ok.parent p hp
      exact ⟨q1, pn, by rw [setTree_nodes]; exact q⟩

theorem Constructed.after_install [Payload P] {hf : HashFunc} {t : Ptr} {pp : List P}
    {ds : List Bytes} {N r : Nat} {h : Heap P} (c : Constructed hf t pp ds N r h)
    (root : Ptr) (leafs : List Ptr) (hash : Bytes) :
    Constructed hf t pp ds N r (h.setTree t root leafs hash) := by
  refine ⟨c.digests, c.built.after_setTree root leafs hash, ?_, c.above, ?_, ?_, ?_⟩
  · rw [setTree_nodes]; exact c.last
  · rw [setTree_nodes]; exact c.rootNode
  · intro a n; rw [setTree_nodes]; exact c.tops a n
  · intro i nd; rw [setTree_nodes]; exact c.leaves i nd

/-- The tail of `NewTree` and `RebuildTreeWith` after a successful construction. -/
theorem installTree_fresh [Payload P] {hf : HashFunc} {m : Ptr} {tr : MerkleTree}
    {pp : List P} {ds : List Bytes} {N r : Nat} {h1 : Heap P}
    (htr : h1.tree m = .ok tr) (hhf : tr.HashFunc = hf)
    (c : Constructed hf m pp ds N r h1) (leafs : List Ptr)
    (hleafs : leafs = (List.range' N (leafLayer m pp ds).length).map some) :
    ∃ h2, installTree m (.ok (some r, leafs), h1) = (.ok (), h2) ∧
      h2.nodes = h1.nodes ∧ FreshTree hf pp ds N r m h2 ∧
      (∀ (a b : Nat), m = some a → a ≠ b → h2.trees[b]? = h1.trees[b]?) := by
  obtain ⟨rn, hrn, _, _, _⟩ := c.rootNode
  refine ⟨h1.setTree m (some r) leafs rn.Hash, ?_, setTree_nodes _ _ _ _ _, ⟨?_, ?_⟩, ?_⟩
  · simp [installTree, (node_some_iff h1 r rn).2 hrn]
  · exact c.after_install _ _ _
  · refine ⟨_, rn, setTree_tree htr _ _ _, hhf, rfl, hleafs, ?_, rfl⟩
    rw [setTree_nodes]; exact hrn
  · intro a b hm hab
    subst hm
    exact setTree_other hab _ _ _

theorem newTree_tree (h : Heap P) (t : MerkleTree) : (h.newTree t).2.tree (h.newTree t).1 = .ok t := by
  simp [Heap.newTree, Heap.tree]

/-- `NewTree` on a non-empty list: it fails exactly when a payload digest or the
reference fold fails, with the same fault, and otherwise returns a `FreshTree`
allocated on top of the old heap. -/
theorem NewTree_spec [Payload P] (hf : HashFunc) (fuel : Nat) (pp : List P) (hpp : pp ≠ [])
    (h : Heap P) :
    ∃ h1, (∀ (c : Nat) (n : Node P), h.nodes[c]? = some n → h1.nodes[c]? = some n) ∧
      (∀ (a : Nat) (tr : MerkleTree), h.trees[a]? = some tr → h1.trees[a]? = some tr) ∧
      (∀ e, leafDigests pp = .error e →
        NewTree fuel (pp.map some) hf h = (.error (.err e), h1)) ∧
      (∀ ds, leafDigests pp = .ok ds →
        (∀ e, refRootAux hf fuel (padOdd ds) = .error e →
          NewTree fuel (pp.map some) hf h = (.error e, h1)) ∧
        (∀ d, refRootAux hf fuel (padOdd ds) = .ok d → ∃ r,
          NewTree fuel (pp.map some) hf h = (.ok (some h.trees.length), h1) ∧
          FreshTree hf pp ds h.nodes.length r (some h.trees.length) h1)) := by
  let t0 : MerkleTree := { HashFunc := hf, Root := none, Leafs := [], MerkleRootHash := [] }
  have htr : (h.newTree t0).2.tree (some h.trees.length) = .ok t0 := newTree_tree h t0
  have hold : ∀ (a : Nat) (tr : MerkleTree), h.trees[a]? = some tr → (h.newTree t0).2.trees[a]? = some tr := by
    intro a tr ha
    have hlt : a < h.trees.length := by
      by_contra hc
      rw [List.getElem?_eq_none (by omega)] at ha
      cases ha
    simp only [Heap.newTree]
    rw [List.getElem?_append_left hlt]; exact ha
  obtain ⟨h1, g, herr, hok⟩ := constructTree_spec htr (show t0.HashFunc = hf from rfl) fuel pp hpp
  have e0 : NewTree fuel (pp.map some) hf h =
      match installTree (some h.trees.length)
        (constructTreeFromPayloads fuel (pp.map some) (some h.trees.length) (h.newTree t0).2) with
      | (.error e, h1) => (.error e, h1)
      | (.ok _, h1) => (.ok (some h.trees.length), h1) := rfl
  have hnodes : ∀ (c : Nat) (n : Node P), h.nodes[c]? = some n → h1.nodes[c]? = some n := by
    intro c n hn
    exact g.below c n (lookup_lt hn) hn
  cases hd : leafDigests pp with
  | error e =>
    refine ⟨h1, hnodes, ?_, ?_, ?_⟩
    · intro a tr ha; rw [g.trees]; exact hold a tr ha
    · intro e1 he1
      cases he1
      rw [e0, herr e hd]; rfl
    · intro ds hds; cases hds
  | ok ds =>
    obtain ⟨herr2, hok2⟩ := hok ds hd
    cases hr : refRootAux hf fuel (padOdd ds) with
    | error e =>
      refine ⟨h1, hnodes, ?_, ?_, ?_⟩
      · intro a tr ha; rw [g.trees]; exact hold a tr ha
      · intro e1 he1; cases he1
      · intro ds1 hds1
        cases hds1
        refine ⟨?_, ?_⟩
        · intro e1 he1
          rw [hr] at he1
          cases he1
          rw [e0, herr2 e hr]; rfl
        · intro d hd1; rw [hr] at hd1; cases hd1
    | ok d =>
      obtain ⟨r, e1, c⟩ := hok2 d hr
      have htr1 : h1.tree (some h.trees.length) = .ok t0 := by
        rw [tree_some_iff, g.trees, ← tree_some_iff]; exact htr
      obtain ⟨h2, e2, hn2, hF, hother⟩ := installTree_fresh htr1 rfl c
        (freshPtrs (h.newTree t0).2 (leafLayer (some h.trees.length) pp ds).length) rfl
      refine ⟨h2, ?_, ?_, ?_, ?_⟩
      · intro c n hn; rw [hn2]; exact hnodes c n hn
      · intro a tr ha
        have hlt : a < h.trees.length := by
          by_contra hc
          rw [List.getElem?_eq_none (by omega)] at ha
          cases ha
        rw [hother _ a rfl (by omega), g.trees]
        exact hold a tr ha
      · intro e1 he1; cases he1
      · intro ds1 hds1
        cases hds1
        refine ⟨?_, ?_⟩
        · intro e1 he1; rw [hr] at he1; cases he1
        · intro d1 hd1
          rw [hr] at hd1
          cases hd1
          refine ⟨r, ?_, hF⟩
          rw [e0, e1, e2]

/-! ## Consequences of the invariant -/

/-- On a built heap `verifyNode` returns the stored digest of every node. -/
theorem verifyNode_built [Payload P] {hf : HashFunc} {t : Ptr} {N : Nat} {h : Heap P}
    (hB : Built hf t N h) :
    ∀ (a : Nat) (n : Node P), N ≤ a → h.nodes[a]? = some n →
      ∀ fuel, a < fuel → verifyNode h fuel (some a) = .ok n.Hash := by
  intro a
  induction a using Nat.strong_induction_on with
  | _ a ih =>
    intro n hNa hna fuel hfuel
    obtain ⟨f, rfl⟩ : ∃ f, fuel = f + 1 := ⟨fuel - 1, by omega⟩
    have ok := hB.nodes a n hNa hna
    unfold verifyNode
    simp only [(node_some_iff h a n).2 hna, bind, Except.bind]
    cases hl : n.isLeaf with
    | true =>
      obtain ⟨_, _, p, hp, hc⟩ := ok.leaf hl
      simp [payloadOf, hp, hc, liftE]
    | false =>
      obtain ⟨_, _, l, r, ln, rn, hL, hR, hNl, hla, hNr, hra, hln, hrn, hh⟩ := ok.inner hl
      obtain ⟨tr, htr, hhf⟩ := hB.tree
      have e1 := ih r hra rn hNr hrn f (by omega)
      have e2 := ih l hla ln hNl hln f (by omega)
      simp [hR, hL, e1, e2, ok.tree, htr, hhf, hh, liftE]

theorem tree_bind_tampered {α : Type} {h h1 : Heap P} (ht : HashTampered h h1) (x : Ptr)
    (g : MerkleTree → Res α)
    (hg : ∀ t t1 : MerkleTree, t1.HashFunc = t.HashFunc → t1.Leafs = t.Leafs →
      t1.Root = t.Root → g t1 = g t) :
    (h1.tree x >>= g) = (h.tree x >>= g) := by
  cases x with
  | none => rfl
  | some b =>
    cases hb : h.trees[b]? with
    | none =>
      have : h1.trees[b]? = none := by
        rw [List.getElem?_eq_none_iff] at hb ⊢
        rw [ht.treesLen]; exact hb
      simp [Heap.tree, hb, this]
    | some t =>
      obtain ⟨t1, ht1, et⟩ := ht.tree b t hb
      have e1 : t1.HashFunc = t.HashFunc := by rw [et]
      have e2 : t1.Leafs = t.Leafs := by rw [et]
      have e3 : t1.Root = t.Root := by rw [et]
      simp [Heap.tree, hb, ht1, hg t t1 e1 e2 e3, bind, Except.bind]

theorem node_tampered {h h1 : Heap P} (ht : HashTampered h h1) (x : Ptr) :
    (∃ n n1 : Node P, h.node x = .ok n ∧ h1.node x = .ok n1 ∧ n1 = { n with Hash := n1.Hash }) ∨
    (h.node x = .error .crash ∧ h1.node x = .error .crash) := by
  cases x with
  | none => right; exact ⟨rfl, rfl⟩
  | some a =>
    cases hq : h.nodes[a]? with
    | none =>
      have : h1.nodes[a]? = none := by
        rw [List.getElem?_eq_none_iff] at hq ⊢
        rw [ht.nodesLen]; exact hq
      right
      simp [Heap.node, hq, this]
    | some n =>
      obtain ⟨n1, hn1, e⟩ := ht.node a n hq
      left
      exact ⟨n, n1, (node_some_iff h a n).2 hq, (node_some_iff h1 a n1).2 hn1, e⟩

/-- `verifyNode` does not read any stored digest. -/
theorem verifyNode_tampered [Payload P] {h h1 : Heap P} (ht : HashTampered h h1) :
    ∀ (fuel : Nat) (x : Ptr), verifyNode h1 fuel x = verifyNode h fuel x := by
  intro fuel
  induction fuel with
  | zero => intro x; rfl
  | succ f ih =>
    intro x
    unfold verifyNode
    rcases node_tampered ht x with ⟨n, n1, hn, hn1, e⟩ | ⟨hn, hn1⟩
    · have eL : n1.isLeaf = n.isLeaf := by rw [e]
      have eP : n1.Payload = n.Payload := by rw [e]
      have eR : n1.Right = n.Right := by rw [e]
      have eLf : n1.Left = n.Left := by rw [e]
      have eT : n1.Tree = n.Tree := by rw [e]
      rw [hn, hn1]
      show (if n1.isLeaf = true then _ else _) = (if n.isLeaf = true then _ else _)
      rw [eL]
      cases n.isLeaf with
      | true =>
        simp only [if_true, payloadOf, eP]
      | false =>
        simp only [Bool.false_eq_true, if_false, eR, eLf, ih, eT]
        cases verifyNode h f n.Right with
        | error e => rfl
        | ok rb =>
          cases verifyNode h f n.Left with
          | error e => rfl
          | ok lb =>
            exact tree_bind_tampered ht n.Tree
              (fun t => liftE (t.HashFunc.Calculate (lb ++ rb)))
              (fun t t1 ht _ _ => by simp only [ht])
    · rw [hn, hn1]
      rfl

/-- A tree returned by `NewTree` for a non-empty list is a `FreshTree`. -/
theorem NewTree_ok [Payload P] {hf : HashFunc} {fuel : Nat} {pp : List P} {h0 h : Heap P}
    {m : Ptr} (hpp : pp ≠ []) (hnew : NewTree fuel (pp.map some) hf h0 = (.ok m, h)) :
    ∃ ds r, FreshTree hf pp ds h0.nodes.length r m h ∧ m = some h0.trees.length := by
  obtain ⟨h1, _, _, herr, hok⟩ := NewTree_spec hf fuel pp hpp h0
  cases hd : leafDigests pp with
  | error e => rw [herr e hd] at hnew; cases hnew
  | ok ds =>
    obtain ⟨herr2, hok2⟩ := hok ds hd
    cases hr : refRootAux hf fuel (padOdd ds) with
    | error e => rw [herr2 e hr] at hnew; cases hnew
    | ok d =>
      obtain ⟨r, e1, F⟩ := hok2 d hr
      rw [e1] at hnew
      cases hnew
      exact ⟨ds, r, F, rfl⟩

theorem leafDigests_total [Payload P] :
    ∀ (pp : List P), (∀ p ∈ pp, ∃ d, Payload.CalculateHash p = .ok d) →
      ∃ ds, leafDigests pp = .ok ds := by
  intro pp
  induction pp with
  | nil => intro _; exact ⟨[], rfl⟩
  | cons p pp ih =>
    intro hc
    obtain ⟨d, hd⟩ := hc p (by simp)
    obtain ⟨ds, hds⟩ := ih (fun q hq => hc q (by simp [hq]))
    exact ⟨d :: ds, by rw [leafDigests_cons_ok pp hd, hds]; rfl⟩

theorem pairDigests_total (hf : HashFunc) (hh : ∀ b, ∃ d, hf.Calculate b = .ok d) :
    ∀ (k : Nat) (L : List Bytes), L.length ≤ k → ∃ ds, pairDigests hf L = .ok ds := by
  intro k
  induction k with
  | zero =>
    intro L hL
    have : L = [] := List.length_eq_zero.1 (by omega)
    subst this
    exact ⟨[], rfl⟩
  | succ k ih =>
    intro L hL
    match L, hL with
    | [], _ => exact ⟨[], rfl⟩
    | [x], _ =>
      obtain ⟨d, hd⟩ := hh (x ++ x)
      exact ⟨[d], by rw [pairDigests_one, hd]; rfl⟩
    | x :: y :: rest, hL =>
      obtain ⟨d, hd⟩ := hh (x ++ y)
      obtain ⟨ds, hds⟩ := ih rest (by simp at hL; omega)
      exact ⟨d :: ds, by rw [pairDigests_cons_ok rest hd, hds]; rfl⟩

theorem refRootAux_total (hf : HashFunc) (hh : ∀ b, ∃ d, hf.Calculate b = .ok d) :
    ∀ (f : Nat) (L : List Bytes), 2 ≤ L.length → L.length ≤ f →
      ∃ d, refRootAux hf f L = .ok d := by
  intro f
  induction f with
  | zero => intro L h2 h0; omega
  | succ f ih =>
    intro L hL hf1
    by_cases h2 : L.length = 2
    · match L, h2 with
      | [x, y], _ =>
        obtain ⟨d, hd⟩ := hh (x ++ y)
        exact ⟨d, by rw [refRootAux_two, hd]; rfl⟩
    · rw [refRootAux_other _ _ _ h2]
      obtain ⟨next, hp⟩ := pairDigests_total hf hh L.length L (Nat.le_refl _)
      have hl := pairDigests_length hf L.length L next (Nat.le_refl _) hp
      obtain ⟨d, hd⟩ := ih next (by omega) (by omega)
      exact ⟨d, by rw [hp]; exact hd⟩

/-- With digests that never fail and fuel above the number of payloads,
`NewTree` returns a tree for every non-empty list. -/
theorem NewTree_total [Payload P] (hf : HashFunc) (pp : List P) (hpp : pp ≠ [])
    (hc : ∀ p ∈ pp, ∃ d, Payload.CalculateHash p = .ok d)
    (hh : ∀ b, ∃ d, hf.Calculate b = .ok d) (fuel : Nat) (hfuel : pp.length + 1 ≤ fuel)
    (h0 : Heap P) :
    ∃ m h, NewTree fuel (pp.map some) hf h0 = (.ok m, h) := by
  obtain ⟨h1, _, _, _, hok⟩ := NewTree_spec hf fuel pp hpp h0
  obtain ⟨ds, hd⟩ := leafDigests_total pp hc
  have hl := leafDigests_length pp ds hd
  have hpl := padOdd_length ds
  have hpos : 0 < pp.length := List.length_pos.2 hpp
  obtain ⟨d, hr⟩ := refRootAux_total hf hh fuel (padOdd ds) (by omega) (by omega)
  obtain ⟨r, e1, _⟩ := (hok ds hd).2 d hr
  exact ⟨_, _, e1⟩

/-- `VerifyTree` on a fresh tree. -/
theorem FreshTree.verifyTree [Payload P] {hf : HashFunc} {pp : List P} {ds : List Bytes}
    {N r : Nat} {m : Ptr} {h : Heap P} (F : FreshTree hf pp ds N r m h) (fuel : Nat)
    (hfuel : h.nodes.length ≤ fuel) : VerifyTree fuel m h = .ok true := by
  obtain ⟨tr, rn, htr, _, hroot, _, hrn, hm⟩ := F.tree
  have hv := verifyNode_built F.nodes.built r rn (by have := F.nodes.above; omega) hrn fuel
    (by have := F.nodes.last; omega)
  simp [VerifyTree, htr, hroot, hv, hm, bind, Except.bind, pure, Except.pure]

theorem HashTampered.untouched (h : Heap P) : HashTampered h h :=
  ⟨rfl, fun _ n hn => ⟨n, hn, rfl⟩, rfl, fun _ t ht => ⟨t, ht, rfl⟩⟩

theorem HashTampered.twice {h h1 h2 : Heap P} (a : HashTampered h h1) (b : HashTampered h1 h2) :
    HashTampered h h2 := by
  refine ⟨b.nodesLen.trans a.nodesLen, ?_, b.treesLen.trans a.treesLen, ?_⟩
  · intro c n hn
    obtain ⟨n1, hn1, e1⟩ := a.node c n hn
    obtain ⟨n2, hn2, e2⟩ := b.node c n1 hn1
    exact ⟨n2, hn2, by rw [e2, e1]⟩
  · intro c t ht
    obtain ⟨t1, ht1, e1⟩ := a.tree c t ht
    obtain ⟨t2, ht2, e2⟩ := b.tree c t1 ht1
    exact ⟨t2, ht2, by rw [e2, e1]⟩

theorem setHash_lookup (h : Heap P) (x : Ptr) (b : Bytes) (c : Nat) :
    (h.setHash x b).nodes[c]? =
      (h.nodes[c]?).map (fun nd => if x = some c then { nd with Hash := b } else nd) := by
  unfold Heap.setHash
  cases x with
  | none => simp
  | some a =>
    cases hq : h.nodes[a]? with
    | none =>
      by_cases hac : a = c
      · subst hac; simp [hq]
      · simp [hq, hac]
    | some nd =>
      by_cases hac : a = c
      · subst hac
        have := lookup_lt hq
        simp [List.getElem?_set, this, hq]
      · simp [hq, hac]

theorem setHash_trees (h : Heap P) (x : Ptr) (b : Bytes) : (h.setHash x b).trees = h.trees := by
  unfold Heap.setHash
  cases x with
  | none => rfl
  | some a => cases hq : h.nodes[a]? <;> simp [hq]

theorem setHash_length (h : Heap P) (x : Ptr) (b : Bytes) :
    (h.setHash x b).nodes.length = h.nodes.length := by
  unfold Heap.setHash
  cases x with
  | none => rfl
  | some a => cases hq : h.nodes[a]? <;> simp [hq]

theorem setMerkleRootHash_nodes (h : Heap P) (m : Ptr) (b : Bytes) :
    (h.setMerkleRootHash m b).nodes = h.nodes := by
  unfold Heap.setMerkleRootHash
  cases m with
  | none => rfl
  | some a => cases hq : h.trees[a]? <;> simp [hq]

theorem setMerkleRootHash_lookup (h : Heap P) (m : Ptr) (b : Bytes) (c : Nat) :
    (h.setMerkleRootHash m b).trees[c]? =
      (h.trees[c]?).map (fun t => if m = some c then { t with MerkleRootHash := b } else t) := by
  unfold Heap.setMerkleRootHash
  cases m with
  | none => simp
  | some a =>
    cases hq : h.trees[a]? with
    | none =>
      by_cases hac : a = c
      · subst hac; simp [hq]
      · simp [hq, hac]
    | some nd =>
      by_cases hac : a = c
      · subst hac
        have : a < h.trees.length := by
          by_contra hc
          rw [List.getElem?_eq_none (by omega)] at hq
          cases hq
        simp [List.getElem?_set, this, hq]
      · simp [hq, hac]

theorem setMerkleRootHash_length (h : Heap P) (m : Ptr) (b : Bytes) :
    (h.setMerkleRootHash m b).trees.length = h.trees.length := by
  unfold Heap.setMerkleRootHash
  cases m with
  | none => rfl
  | some a => cases hq : h.trees[a]? <;> simp [hq]

theorem HashTampered.setHash (h : Heap P) (x : Ptr) (b : Bytes) :
    HashTampered h (h.setHash x b) := by
  refine ⟨setHash_length h x b, ?_, by rw [setHash_trees], ?_⟩
  · intro c n hn
    rw [setHash_lookup, hn]
    refine ⟨_, rfl, ?_⟩
    split <;> rfl
  · intro c t ht
    rw [setHash_trees]
    exact ⟨t, ht, rfl⟩

theorem HashTampered.setMerkleRootHash (h : Heap P) (m : Ptr) (b : Bytes) :
    HashTampered h (h.setMerkleRootHash m b) := by
  refine ⟨by rw [setMerkleRootHash_nodes], ?_, setMerkleRootHash_length h m b, ?_⟩
  · intro c n hn
    rw [setMerkleRootHash_nodes]
    exact ⟨n, hn, rfl⟩
  · intro c t ht
    rw [setMerkleRootHash_lookup, ht]
    refine ⟨_, rfl, ?_⟩
    split <;> rfl

/-! ## Walking up from a leaf -/

theorem verifyPayloadScan_eq [Payload P] (h : Heap P) (hf : HashFunc) (fuel : Nat) (payload : P)
    (ls : List Ptr) :
    verifyPayloadScan h hf fuel payload ls =
      scanLeafs h payload (fun _ leaf => verifyParents h hf fuel leaf.Parent) (.ok false) ls := by
  induction ls with
  | nil => rfl
  | cons l ls ih => simp only [verifyPayloadScan, scanLeafs, ih]

theorem merklePathScan_eq [Payload P] (h : Heap P) (fuel : Nat) (payload : P) (ls : List Ptr) :
    merklePathScan h fuel payload ls =
      scanLeafs h payload (fun l leaf => merklePathLoop h fuel l leaf.Parent [] [])
        (.ok ([], [])) ls := by
  induction ls with
  | nil => rfl
  | cons l ls ih => simp only [merklePathScan, scanLeafs, ih]

/-- A scan over leaves that all compare unequal reports "not found". -/
theorem scanLeafs_none {α : Type} [Payload P] (h : Heap P) (payload : P)
    (found : Ptr → Node P → Res α) (notFound : Res α) :
    ∀ (ls : List Ptr),
      (∀ l ∈ ls, ∃ n p, h.node l = .ok n ∧ n.Payload = some p ∧
        Payload.Equals p payload = .ok false) →
      scanLeafs h payload found notFound ls = notFound := by
  intro ls
  induction ls with
  | nil => intro _; rfl
  | cons l ls ih =>
    intro hall
    obtain ⟨n, p, hn, hp, he⟩ := hall l (by simp)
    simp only [scanLeafs, hn, payloadOf, hp, he, liftE, bind, Except.bind]
    exact ih (fun l1 hl1 => hall l1 (by simp [hl1]))

/-- A scan stops at the first leaf that compares equal, when no comparison
before it fails. -/
theorem scanLeafs_first {α : Type} [Payload P] (h : Heap P) (payload : P)
    (found : Ptr → Node P → Res α) (notFound : Res α) :
    ∀ (j : Nat) (ls : List Ptr) (x : Ptr) (n : Node P) (p : P),
      (∀ k, k < j → ∃ y ny q, ls[k]? = some y ∧ h.node y = .ok ny ∧ ny.Payload = some q ∧
        Payload.Equals q payload = .ok false) →
      ls[j]? = some x → h.node x = .ok n → n.Payload = some p →
      Payload.Equals p payload = .ok true →
      scanLeafs h payload found notFound ls = found x n := by
  intro j
  induction j with
  | zero =>
    intro ls x n p _ hx hn hp he
    match ls, hx with
    | l :: ls, hx =>
      simp at hx
      subst hx
      simp only [scanLeafs, hn, payloadOf, hp, he, liftE, bind, Except.bind]
      rfl
  | succ j ih =>
    intro ls x n p hbefore hx hn hp he
    match ls, hx, hbefore with
    | l :: ls, hx, hbefore =>
      obtain ⟨y, ny, q, hy, hny, hq, heq⟩ := hbefore 0 (by omega)
      simp at hy
      subst hy
      simp only [scanLeafs, hny, payloadOf, hq, heq, liftE, bind, Except.bind]
      refine ih ls x n p ?_ (by simpa using hx) hn hp he
      intro k hk
      obtain ⟨y1, ny1, q1, hy1, r1⟩ := hbefore (k + 1) (by omega)
      exact ⟨y1, ny1, q1, by simpa using hy1, r1⟩

/-- Among comparisons that do not fail, one that succeeds has a first success. -/
theorem first_match {Q : Type} (eq : Q → Except Error Bool) :
    ∀ (i : Nat) (qs : List Q) (c : Q), qs[i]? = some c → eq c = .ok true →
      (∀ k q, k < i → qs[k]? = some q → ∃ b, eq q = .ok b) →
      ∃ j q, j ≤ i ∧ qs[j]? = some q ∧ eq q = .ok true ∧
        ∀ k q1, k < j → qs[k]? = some q1 → eq q1 = .ok false := by
  intro i
  induction i using Nat.strong_induction_on with
  | _ i ih =>
    intro qs c hc he hall
    by_cases hex : ∃ k q, k < i ∧ qs[k]? = some q ∧ eq q = .ok true
    · obtain ⟨k, q, hk, hq, hqe⟩ := hex
      obtain ⟨j, q2, hj, r⟩ := ih k hk qs q hq hqe
        (fun k1 q1 hk1 hq1 => hall k1 q1 (by omega) hq1)
      exact ⟨j, q2, by omega, r⟩
    · refine ⟨i, c, Nat.le_refl _, hc, he, ?_⟩
      intro k q1 hk hq1
      obtain ⟨b, hb⟩ := hall k q1 hk hq1
      cases b with
      | false => exact hb
      | true => exact absurd ⟨k, q1, hk, hq1, hb⟩ hex

/-- On a built heap `CalculateNodeHash` returns the stored digest. -/
theorem calculateNodeHash_built [Payload P] {hf : HashFunc} {t : Ptr} {N : Nat} {h : Heap P}
    (hB : Built hf t N h) {a : Nat} {n : Node P} (hNa : N ≤ a) (hna : h.nodes[a]? = some n) :
    CalculateNodeHash h (some a) = .ok n.Hash := by
  have ok := hB.nodes a n hNa hna
  unfold CalculateNodeHash
  simp only [(node_some_iff h a n).2 hna, bind, Except.bind]
  cases hl : n.isLeaf with
  | true =>
    obtain ⟨_, _, p, hp, hc⟩ := ok.leaf hl
    simp [payloadOf, hp, hc, liftE]
  | false =>
    obtain ⟨_, _, l, r, ln, rn, hL, hR, _, _, _, _, hln, hrn, hh⟩ := ok.inner hl
    obtain ⟨tr, htr, hhf⟩ := hB.tree
    simp [hR, hL, ok.tree, htr, hhf, hh, liftE, (node_some_iff h l ln).2 hln,
      (node_some_iff h r rn).2 hrn]

/-- `CalculateNodeHash` below the root does not read the root's stored digest. -/
theorem calculateNodeHash_below [Payload P] {hf : HashFunc} {t : Ptr} {N : Nat} {h h1 : Heap P}
    {r : Nat} {b : Bytes} (hB : Built hf t N h)
    (hn : ∀ c, h1.nodes[c]? =
      (h.nodes[c]?).map (fun nd => if c = r then { nd with Hash := b } else nd))
    (ht : ∃ tr1, h1.tree t = .ok tr1 ∧ tr1.HashFunc = hf)
    {a : Nat} {n : Node P} (hNa : N ≤ a) (har : a < r) (hna : h.nodes[a]? = some n) :
    CalculateNodeHash h1 (some a) = .ok n.Hash := by
  have ok := hB.nodes a n hNa hna
  have same : ∀ c nd, c < r → h.nodes[c]? = some nd → h1.nodes[c]? = some nd := by
    intro c nd hc hnd
    rw [hn c, hnd]
    simp [Nat.ne_of_lt hc]
  unfold CalculateNodeHash
  simp only [(node_some_iff h1 a n).2 (same a n har hna), bind, Except.bind]
  cases hl : n.isLeaf with
  | true =>
    obtain ⟨_, _, p, hp, hc⟩ := ok.leaf hl
    simp [payloadOf, hp, hc, liftE]
  | false =>
    obtain ⟨_, _, l, r1, ln, rn, hL, hR, _, hla, _, hra, hln, hrn, hh⟩ := ok.inner hl
    obtain ⟨tr1, htr1, hhf⟩ := ht
    simp [hR, hL, ok.tree, htr1, hhf, hh, liftE,
      (node_some_iff h1 l ln).2 (same l ln (by omega) hln),
      (node_some_iff h1 r1 rn).2 (same r1 rn (by omega) hrn)]

/-- The walk of `VerifyPayload` from an internal node up to the root, on a built
heap whose root digest was overwritten with `b`: every hop below the root
passes, and the hop at the root passes exactly when `b` is the built digest. -/
theorem verifyParents_rootHash [Payload P] {hf : HashFunc} {t : Ptr} {N : Nat} {h h1 : Heap P}
    {r : Nat} {rn : Node P} {b : Bytes} (hB : Built hf t N h)
    (hlast : h.nodes.length = r + 1) (hT : Tops N h (fun x => x = some r))
    (hrn : h.nodes[r]? = some rn) (hroot : rn.Parent = none)
    (hn : ∀ c, h1.nodes[c]? =
      (h.nodes[c]?).map (fun nd => if c = r then { nd with Hash := b } else nd))
    (ht : ∃ tr1, h1.tree t = .ok tr1 ∧ tr1.HashFunc = hf) :
    ∀ (k p : Nat) (pn : Node P), h.nodes.length - p ≤ k → N ≤ p → h.nodes[p]? = some pn →
      pn.isLeaf = false → ∀ fuel, k < fuel →
      verifyParents h1 hf fuel (some p) = .ok (decide (b = rn.Hash)) := by
  intro k
  induction k with
  | zero =>
    intro p pn hk _ hpn _ _ _
    have := lookup_lt hpn
    omega
  | succ k ih =>
    intro p pn hk hNp hpn hleaf fuel hfuel
    obtain ⟨f, rfl⟩ : ∃ f, fuel = f + 1 := ⟨fuel - 1, by omega⟩
    have hpl := lookup_lt hpn
    have ok := hB.nodes p pn hNp hpn
    obtain ⟨_, _, l, r1, ln, rn1, hL, hR, hNl, hlp, hNr, hrp, hln, hrn1, hh⟩ := ok.inner hleaf
    have cl := calculateNodeHash_below hB hn ht hNl (by omega) hln
    have cr := calculateNodeHash_below hB hn ht hNr (by omega) hrn1
    have hp1 := hn p
    rw [hpn] at hp1
    simp only [Option.map_some'] at hp1
    unfold verifyParents
    simp only [(node_some_iff h1 p _).2 hp1, bind, Except.bind]
    by_cases hpr : p = r
    · subst hpr
      rw [hpn] at hrn
      cases hrn
      simp only [if_true, hR, hL, cl, cr, hh, liftE, hroot]
      by_cases hb : b = rn.Hash
      · subst hb
        obtain ⟨f1, rfl⟩ : ∃ f1, f = f1 + 1 := ⟨f - 1, by omega⟩
        simp [verifyParents]
      · have hb2 : ¬ (rn.Hash = b) := fun q => hb q.symm
        simp [hb, hb2]
    · simp only [if_neg hpr, hR, hL, cl, cr, hh, liftE]
      simp only [ne_eq, not_true_eq_false, if_false]
      cases hpar : pn.Parent with
      | none => exact absurd (Option.some.inj (hT p pn hNp hpn hpar)) hpr
      | some q =>
        obtain ⟨hpq, qn, hqn, hql, _⟩ := ok.parent q hpar
        exact ih q qn (by omega) (by omega) hqn hql f (by omega)

/-- The walk of `VerifyPayload` from a leaf. -/
theorem verifyParents_leaf [Payload P] {hf : HashFunc} {t : Ptr} {N : Nat} {h h1 : Heap P}
    {r : Nat} {rn : Node P} {b : Bytes} (hB : Built hf t N h)
    (hlast : h.nodes.length = r + 1) (hT : Tops N h (fun x => x = some r))
    (hrn : h.nodes[r]? = some rn) (hroot : rn.Parent = none) (hrl : rn.isLeaf = false)
    (hn : ∀ c, h1.nodes[c]? =
      (h.nodes[c]?).map (fun nd => if c = r then { nd with Hash := b } else nd))
    (ht : ∃ tr1, h1.tree t = .ok tr1 ∧ tr1.HashFunc = hf)
    {a : Nat} {n : Node P} (hNa : N ≤ a) (hna : h.nodes[a]? = some n) (hl : n.isLeaf = true)
    (fuel : Nat) (hfuel : h.nodes.length ≤ fuel) :
    h1.nodes[a]? = some n ∧
      verifyParents h1 hf fuel n.Parent = .ok (decide (b = rn.Hash)) := by
  have har : a ≠ r := by
    intro q
    subst q
    rw [hna] at hrn
    cases hrn
    rw [hl] at hrl
    cases hrl
  refine ⟨by rw [hn a, hna]; simp [har], ?_⟩
  cases hpar : n.Parent with
  | none => exact absurd (Option.some.inj (hT a n hNa hna hpar)) har
  | some q =>
    obtain ⟨hpq, qn, hqn, hql, _⟩ := (hB.nodes a n hNa hna).parent q hpar
    exact verifyParents_rootHash hB hlast hT hrn hroot hn ht (h.nodes.length - q) q qn
      (Nat.le_refl _) (by omega) hqn hql fuel (by have := lookup_lt hqn; omega)

theorem replayPath_cons_ok {hf : HashFunc} {running s next : Bytes} {d : Int}
    (path : List Bytes) (index : List Int)
    (hd : hf.Calculate (if d = 1 then running ++ s else s ++ running) = .ok next) :
    replayPath hf running (s :: path) (d :: index) = replayPath hf next path index := by
  simp [replayPath, hd, liftE, bind, Except.bind]

/-- The walk of `GetMerklePath` on a built heap: it ends at the root, and the
replay of what it collected leads from the digest of the start node to the
digest of the root. -/
theorem merklePathLoop_built [Payload P] {hf : HashFunc} {t : Ptr} {N : Nat} {h : Heap P}
    {r : Nat} {rn : Node P} (hB : Built hf t N h)
    (hT : Tops N h (fun x => x = some r)) (hrn : h.nodes[r]? = some rn) :
    ∀ (k c : Nat) (cn : Node P), h.nodes.length - c ≤ k → N ≤ c → h.nodes[c]? = some cn →
      ∀ fuel, k ≤ fuel → ∀ (accP : List Bytes) (accI : List Int),
      ∃ path idx, merklePathLoop h fuel (some c) cn.Parent accP accI =
          .ok (accP ++ path, accI ++ idx) ∧
        path.length = idx.length ∧ (∀ d ∈ idx, d = 0 ∨ d = 1) ∧
        replayPath hf cn.Hash path idx = .ok rn.Hash := by
  intro k
  induction k with
  | zero =>
    intro c cn hk _ hcn _ _ _ _
    have := lookup_lt hcn
    omega
  | succ k ih =>
    intro c cn hk hNc hcn fuel hfuel accP accI
    obtain ⟨f, rfl⟩ : ∃ f, fuel = f + 1 := ⟨fuel - 1, by omega⟩
    have ok := hB.nodes c cn hNc hcn
    cases hpar : cn.Parent with
    | none =>
      have hcr : c = r := Option.some.inj (hT c cn hNc hcn hpar)
      subst hcr
      rw [hcn] at hrn
      cases hrn
      exact ⟨[], [], by simp [merklePathLoop], rfl, by simp, rfl⟩
    | some p =>
      obtain ⟨hcp, pn, hpn, hpl, hchild⟩ := ok.parent p hpar
      have okp := hB.nodes p pn (by omega) hpn
      obtain ⟨_, _, l, r1, ln, rn1, hL, hR, hNl, hlp, hNr, hrp, hln, hrn1, hh⟩ :=
        okp.inner hpl
      unfold merklePathLoop
      simp only [(node_some_iff h p pn).2 hpn, (node_some_iff h c cn).2 hcn, hL, hR,
        (node_some_iff h l ln).2 hln, (node_some_iff h r1 rn1).2 hrn1, bind, Except.bind]
      by_cases hq : ln.Hash = cn.Hash
      · simp only [if_pos hq]
        obtain ⟨path, idx, e, hlen, hdir, hrep⟩ :=
          ih p pn (by omega) (by omega) hpn f (by omega) (accP ++ [rn1.Hash]) (accI ++ [1])
        refine ⟨rn1.Hash :: path, 1 :: idx, ?_, by simp [hlen], ?_, ?_⟩
        · rw [e]; simp
        · intro d hd
          simp at hd
          rcases hd with rfl | hd
          · right; rfl
          · exact hdir d hd
        · have hstep : hf.Calculate
              (if (1 : Int) = 1 then cn.Hash ++ rn1.Hash else rn1.Hash ++ cn.Hash) =
                .ok pn.Hash := by
            simp only [if_true]
            rw [← hq]; exact hh
          rw [replayPath_cons_ok path idx hstep]
          exact hrep
      · simp only [if_neg hq]
        obtain ⟨path, idx, e, hlen, hdir, hrep⟩ :=
          ih p pn (by omega) (by omega) hpn f (by omega) (accP ++ [ln.Hash]) (accI ++ [0])
        have hcr1 : r1 = c := by
          rcases hchild with hc1 | hc1
          · rw [hL] at hc1
            have : l = c := Option.some.inj hc1
            subst this
            rw [hln] at hcn
            cases hcn
            exact absurd rfl hq
          · rw [hR] at hc1
            exact Option.some.inj hc1
        subst hcr1
        rw [hrn1] at hcn
        cases hcn
        refine ⟨ln.Hash :: path, 0 :: idx, ?_, by simp [hlen], ?_, ?_⟩
        · rw [e]; simp
        · intro d hd
          simp at hd
          rcases hd with rfl | hd
          · left; rfl
          · exact hdir d hd
        · have hstep : hf.Calculate
              (if (0 : Int) = 1 then cn.Hash ++ ln.Hash else ln.Hash ++ cn.Hash) =
                .ok pn.Hash := by
            simp only [show ¬ ((0 : Int) = 1) by decide, if_false]
            exact hh
          rw [replayPath_cons_ok path idx hstep]
          exact hrep

/-! ## The leaves of a fresh tree -/

theorem realLeaves_mem_payload [Payload P] (t : Ptr) {pp : List P} {ds : List Bytes}
    (hd : leafDigests pp = .ok ds) {nd : Node P} (hn : nd ∈ realLeaves t pp ds) :
    ∃ p d, p ∈ pp ∧ nd = leafNode t p d false ∧ Payload.CalculateHash p = .ok d := by
  obtain ⟨i, hi⟩ := List.mem_iff_getElem?.1 hn
  obtain ⟨p, d, hp, hdd, e⟩ := (realLeaves_get t pp ds i nd).1 hi
  exact ⟨p, d, List.getElem?_mem hp, e.symm, leafDigests_get pp ds hd i p d hp hdd⟩

theorem leafLayer_mem_payload [Payload P] (t : Ptr) {pp : List P} {ds : List Bytes}
    (hd : leafDigests pp = .ok ds) {nd : Node P} (hn : nd ∈ leafLayer t pp ds) :
    ∃ p d dup, p ∈ pp ∧ nd = leafNode t p d dup ∧ Payload.CalculateHash p = .ok d := by
  unfold leafLayer at hn
  split at hn
  · cases hq : (realLeaves t pp ds).getLast? with
    | none =>
      rw [hq] at hn
      obtain ⟨p, d, hp, e, hc⟩ := realLeaves_mem_payload t hd hn
      exact ⟨p, d, false, hp, e, hc⟩
    | some l =>
      rw [hq] at hn
      simp only [List.mem_append, List.mem_singleton] at hn
      rcases hn with hn | hn
      · obtain ⟨p, d, hp, e, hc⟩ := realLeaves_mem_payload t hd hn
        exact ⟨p, d, false, hp, e, hc⟩
      · have hl : l ∈ realLeaves t pp ds := List.mem_of_getLast?_eq_some hq
        obtain ⟨p, d, hp, e, hc⟩ := realLeaves_mem_payload t hd hl
        refine ⟨p, d, true, hp, ?_, hc⟩
        rw [hn, e]; rfl
  · obtain ⟨p, d, hp, e, hc⟩ := realLeaves_mem_payload t hd hn
    exact ⟨p, d, false, hp, e, hc⟩

/-- The leaf layer starts with one leaf per payload. -/
theorem leafLayer_get_real [Payload P] (t : Ptr) {pp : List P} {ds : List Bytes}
    (hd : leafDigests pp = .ok ds) {i : Nat} {p : P} (hi : pp[i]? = some p) :
    ∃ d, ds[i]? = some d ∧ Payload.CalculateHash p = .ok d ∧
      (leafLayer t pp ds)[i]? = some (leafNode t p d false) := by
  have hil : i < pp.length := by
    by_contra hc
    rw [List.getElem?_eq_none (by omega)] at hi
    cases hi
  have hl := leafDigests_length pp ds hd
  obtain ⟨d, hdd⟩ : ∃ d, ds[i]? = some d := ⟨ds[i], List.getElem?_eq_getElem (by omega)⟩
  have hreal : (realLeaves t pp ds)[i]? = some (leafNode t p d false) :=
    (realLeaves_get t pp ds i _).2 ⟨p, d, hi, hdd, rfl⟩
  refine ⟨d, hdd, leafDigests_get pp ds hd i p d hi hdd, ?_⟩
  have hlen := realLeaves_length t hd
  unfold leafLayer
  split
  · cases hq : (realLeaves t pp ds).getLast? with
    | none => exact hreal
    | some l =>
      simp only
      rw [List.getElem?_append_left (by omega)]
      exact hreal
  · exact hreal

/-- The duplicate leaf of an odd number of payloads. -/
theorem leafLayer_get_dup [Payload P] (t : Ptr) {pp : List P} {ds : List Bytes}
    (hd : leafDigests pp = .ok ds) (ho : pp.length % 2 = 1) :
    ∃ p d, pp[pp.length - 1]? = some p ∧ ds[pp.length - 1]? = some d ∧
      (leafLayer t pp ds)[pp.length]? = some (leafNode t p d true) := by
  have hlen := realLeaves_length t hd
  have hl := leafDigests_length pp ds hd
  obtain ⟨p, hp⟩ : ∃ p, pp[pp.length - 1]? = some p :=
    ⟨pp[pp.length - 1], List.getElem?_eq_getElem (by omega)⟩
  obtain ⟨d, hdd⟩ : ∃ d, ds[pp.length - 1]? = some d :=
    ⟨ds[pp.length - 1], List.getElem?_eq_getElem (by omega)⟩
  have hreal : (realLeaves t pp ds)[pp.length - 1]? = some (leafNode t p d false) :=
    (realLeaves_get t pp ds _ _).2 ⟨p, d, hp, hdd, rfl⟩
  have hlast : (realLeaves t pp ds).getLast? = some (leafNode t p d false) := by
    rw [List.getLast?_eq_getElem?, hlen]; exact hreal
  refine ⟨p, d, hp, hdd, ?_⟩
  unfold leafLayer
  rw [hlen, if_pos ho, hlast]
  simp only
  rw [List.getElem?_append_right (by omega), hlen]
  simp [leafNode]

/-- The pointers and nodes of the leaves of a fresh tree, by index. -/
theorem FreshTree.leaf [Payload P] {hf : HashFunc} {pp : List P} {ds : List Bytes}
    {N r : Nat} {m : Ptr} {h : Heap P} (F : FreshTree hf pp ds N r m h) {tr : MerkleTree}
    (htr : h.tree m = .ok tr) {i : Nat} {nd : Node P}
    (hi : (leafLayer m pp ds)[i]? = some nd) :
    tr.Leafs[i]? = some (some (N + i)) ∧
    ∃ n1 : Node P, h.nodes[N + i]? = some n1 ∧ n1 = { nd with Parent := n1.Parent } := by
  obtain ⟨tr1, _, htr1, _, _, hleafs, _, _⟩ := F.tree
  rw [htr] at htr1
  cases htr1
  have hil : i < (leafLayer m pp ds).length := by
    by_contra hc
    rw [List.getElem?_eq_none (by omega)] at hi
    cases hi
  refine ⟨?_, F.nodes.leaves i nd hi⟩
  rw [hleafs]
  simp [List.getElem?_range' _ _ hil]

theorem FreshTree.leafs_length [Payload P] {hf : HashFunc} {pp : List P} {ds : List Bytes}
    {N r : Nat} {m : Ptr} {h : Heap P} (F : FreshTree hf pp ds N r m h) {tr : MerkleTree}
    (htr : h.tree m = .ok tr) : tr.Leafs.length = pp.length + pp.length % 2 := by
  obtain ⟨tr1, _, htr1, _, _, hleafs, _, _⟩ := F.tree
  rw [htr] at htr1
  cases htr1
  rw [hleafs]
  simp [leafLayer_length m F.nodes.digests]

/-- Every entry of `Leafs` of a fresh tree is a leaf whose payload is one of the
payloads the tree was built from. -/
theorem FreshTree.leaf_mem [Payload P] {hf : HashFunc} {pp : List P} {ds : List Bytes}
    {N r : Nat} {m : Ptr} {h : Heap P} (F : FreshTree hf pp ds N r m h) {tr : MerkleTree}
    (htr : h.tree m = .ok tr) {x : Ptr} (hx : x ∈ tr.Leafs) :
    ∃ a n p, x = some a ∧ N ≤ a ∧ h.nodes[a]? = some n ∧ n.isLeaf = true ∧
      n.Payload = some p ∧ p ∈ pp ∧ Payload.CalculateHash p = .ok n.Hash := by
  obtain ⟨tr1, _, htr1, _, _, hleafs, _, _⟩ := F.tree
  rw [htr] at htr1
  cases htr1
  rw [hleafs] at hx
  simp only [List.mem_map, List.mem_range'_1] at hx
  obtain ⟨a, ⟨h1a, h2a⟩, rfl⟩ := hx
  obtain ⟨i, rfl⟩ : ∃ i, a = N + i := ⟨a - N, by omega⟩
  have hil : i < (leafLayer m pp ds).length := by omega
  have hnd := List.getElem?_eq_getElem hil
  obtain ⟨n1, hn1, e⟩ := F.nodes.leaves i _ hnd
  obtain ⟨p, d, dup, hp, e2, hc⟩ := leafLayer_mem_payload m F.nodes.digests (List.getElem?_mem hnd)
  rw [e2] at e
  refine ⟨N + i, n1, p, rfl, by omega, hn1, ?_, ?_, hp, ?_⟩
  · rw [e]; rfl
  · rw [e]; rfl
  · rw [e]; exact hc

/-! ## Re-derivation from the payloads -/

theorem leafPayloads_digests [Payload P] (h1 : Heap P) :
    ∀ (X : List (Node P)) (N : Nat),
      (∀ (i : Nat) (nd : Node P), X[i]? = some nd →
        ∃ n p, h1.nodes[N + i]? = some n ∧ n.Payload = some p ∧
          Payload.CalculateHash p = .ok nd.Hash) →
      (leafPayloads h1 ((List.range' N X.length).map some) >>= payloadDigests) =
        .ok (X.map (fun n => n.Hash)) := by
  intro X
  induction X with
  | nil => intro N _; rfl
  | cons nd X ih =>
    intro N hall
    obtain ⟨n, p, hn, hp, hc⟩ := hall 0 nd (by simp)
    have ih1 := ih (N + 1) (fun i nd1 hi => by
      obtain ⟨n1, p1, q1, q2, q3⟩ := hall (i + 1) nd1 (by simpa using hi)
      exact ⟨n1, p1, by rw [← q1]; congr 1; omega, q2, q3⟩)
    simp only [List.length_cons, List.range'_succ, List.map_cons, leafPayloads,
      (node_some_iff h1 N n).2 (by simpa using hn), bind, Except.bind] at ih1 ⊢
    cases hq : leafPayloads h1 (List.map some (List.range' (N + 1) X.length)) with
    | error e => rw [hq] at ih1; cases ih1
    | ok rest =>
      rw [hq] at ih1
      have ih2 : payloadDigests rest = .ok (X.map (fun n => n.Hash)) := ih1
      simp only [pure, Except.pure, payloadDigests, hp, hc, liftE, bind, Except.bind, ih2]

/-- On a fresh tree, also after its stored digests were overwritten, the
re-derived root is the reference root of the payload digests. -/
theorem rederivedRoot_tampered [Payload P] {hf : HashFunc} {pp : List P} {ds : List Bytes}
    {N r : Nat} {m : Ptr} {h h1 : Heap P} (F : FreshTree hf pp ds N r m h)
    (ht : HashTampered h h1) :
    rederivedRoot h1 m = refRoot hf (padOdd ds) := by
  obtain ⟨tr, rn, htr, hhf, hroot, hleafs, hrn, hm⟩ := F.tree
  obtain ⟨a, rfl, ha⟩ := tree_ok_elim htr
  obtain ⟨tr1, htr1, e1⟩ := ht.tree a tr ha
  have eL : tr1.Leafs = tr.Leafs := by rw [e1]
  have eH : tr1.HashFunc = tr.HashFunc := by rw [e1]
  have key := leafPayloads_digests h1 (leafLayer (some a) pp ds) N (by
    intro i nd hi
    obtain ⟨n1, hn1, en1⟩ := F.nodes.leaves i nd hi
    obtain ⟨n2, hn2, en2⟩ := ht.node _ n1 hn1
    obtain ⟨p, d, dup, _, e2, hc⟩ :=
      leafLayer_mem_payload (some a) F.nodes.digests (List.getElem?_mem hi)
    refine ⟨n2, p, hn2, ?_, ?_⟩
    · rw [en2, en1, e2]; rfl
    · rw [e2]; exact hc)
  rw [leafLayer_hash (some a) F.nodes.digests] at key
  unfold rederivedRoot
  simp only [(tree_some_iff h1 a tr1).2 htr1, eL, hleafs, eH, hhf, bind, Except.bind] at key ⊢
  cases hq : leafPayloads h1 (List.map some (List.range' N (leafLayer (some a) pp ds).length)) with
  | error e => rw [hq] at key; cases key
  | ok rest =>
    rw [hq] at key
    have key2 : payloadDigests rest = .ok (padOdd ds) := key
    simp only [key2]

/-- `VerifyTree` on a fresh tree whose stored digests were overwritten compares
the stored root digest of the tree with the digest that was built. -/
theorem VerifyTree_tampered [Payload P] {hf : HashFunc} {pp : List P} {ds : List Bytes}
    {N r : Nat} {m : Ptr} {h h1 : Heap P} (F : FreshTree hf pp ds N r m h)
    (ht : HashTampered h h1) (fuel : Nat) (hfuel : h.nodes.length ≤ fuel) :
    ∃ tr1 d, h1.tree m = .ok tr1 ∧ refRoot hf (padOdd ds) = .ok d ∧
      VerifyTree fuel m h1 = .ok (decide (tr1.MerkleRootHash = d)) := by
  obtain ⟨tr, rn, htr, hhf, hroot, hleafs, hrn, hm⟩ := F.tree
  obtain ⟨rn1, hrn1, href, _, _⟩ := F.nodes.rootNode
  rw [hrn] at hrn1
  cases hrn1
  obtain ⟨a, rfl, ha⟩ := tree_ok_elim htr
  obtain ⟨tr1, htr1, e1⟩ := ht.tree a tr ha
  have eR : tr1.Root = tr.Root := by rw [e1]
  have hv := verifyNode_built F.nodes.built r rn (by have := F.nodes.above; omega) hrn fuel
    (by have := F.nodes.last; omega)
  refine ⟨tr1, rn.Hash, (tree_some_iff h1 a tr1).2 htr1, href, ?_⟩
  simp [VerifyTree, (tree_some_iff h1 a tr1).2 htr1, eR, hroot, verifyNode_tampered ht, hv,
    bind, Except.bind, pure, Except.pure]

/-! ## Scanning the leaves of a fresh tree -/

/-- The scan over the leaves of a fresh tree stops at the first leaf whose payload
compares equal to the candidate, when no earlier comparison fails.  The heap `h1`
that is scanned may differ from the fresh heap `h` outside the leaves. -/
theorem FreshTree.scan_first [Payload P] {hf : HashFunc} {pp : List P} {ds : List Bytes}
    {N r : Nat} {m : Ptr} {h h1 : Heap P} (F : FreshTree hf pp ds N r m h) {tr : MerkleTree}
    (htr : h.tree m = .ok tr)
    (hsame : ∀ (a : Nat) (n : Node P), h.nodes[a]? = some n → n.isLeaf = true →
      h1.nodes[a]? = some n)
    {i : Nat} {c cand : P} (hi : pp[i]? = some c) (he : Payload.Equals c cand = .ok true)
    (hno : ∀ j q, j < i → pp[j]? = some q → ∃ b, Payload.Equals q cand = .ok b)
    {α : Type} (found : Ptr → Node P → Res α) (notFound : Res α) :
    ∃ j q n, j ≤ i ∧ pp[j]? = some q ∧ Payload.Equals q cand = .ok true ∧
      h.nodes[N + j]? = some n ∧ n.isLeaf = true ∧ n.Payload = some q ∧
      Payload.CalculateHash q = .ok n.Hash ∧
      scanLeafs h1 cand found notFound tr.Leafs = found (some (N + j)) n := by
  obtain ⟨j, q, hji, hq, hqe, hbefore⟩ :=
    first_match (fun q => Payload.Equals q cand) i pp c hi he hno
  have leafAt : ∀ k p, pp[k]? = some p → ∃ n : Node P, tr.Leafs[k]? = some (some (N + k)) ∧
      h.nodes[N + k]? = some n ∧ n.isLeaf = true ∧ n.Payload = some p ∧
      Payload.CalculateHash p = .ok n.Hash := by
    intro k p hk
    obtain ⟨d, _, hc, hll⟩ := leafLayer_get_real m F.nodes.digests hk
    obtain ⟨hL, n1, hn1, e⟩ := F.leaf htr hll
    refine ⟨n1, hL, hn1, ?_, ?_, ?_⟩
    · rw [e]; rfl
    · rw [e]; rfl
    · rw [e]; exact hc
  obtain ⟨n, hL, hn, hleaf, hpay, hc⟩ := leafAt j q hq
  refine ⟨j, q, n, hji, hq, hqe, hn, hleaf, hpay, hc, ?_⟩
  refine scanLeafs_first h1 cand found notFound j tr.Leafs (some (N + j)) n q ?_ hL
    ((node_some_iff h1 _ _).2 (hsame _ n hn hleaf)) hpay hqe
  intro k hk
  have hkl : k < pp.length := by
    have : j < pp.length := by
      by_contra hc1
      rw [List.getElem?_eq_none (by omega)] at hq
      cases hq
    omega
  obtain ⟨nk, hLk, hnk, hleafk, hpayk, _⟩ := leafAt k pp[k] (List.getElem?_eq_getElem hkl)
  exact ⟨some (N + k), nk, pp[k], hLk, (node_some_iff h1 _ _).2 (hsame _ nk hnk hleafk), hpayk,
    hbefore k pp[k] hk (List.getElem?_eq_getElem hkl)⟩

/-- The scan over the leaves of a fresh tree reports "not found" when every
payload of the list compares unequal to the candidate. -/
theorem FreshTree.scan_none [Payload P] {hf : HashFunc} {pp : List P} {ds : List Bytes}
    {N r : Nat} {m : Ptr} {h h1 : Heap P} (F : FreshTree hf pp ds N r m h) {tr : MerkleTree}
    (htr : h.tree m = .ok tr)
    (hsame : ∀ (a : Nat) (n : Node P), h.nodes[a]? = some n → n.isLeaf = true →
      h1.nodes[a]? = some n)
    {cand : P} (hall : ∀ q ∈ pp, Payload.Equals q cand = .ok false)
    {α : Type} (found : Ptr → Node P → Res α) (notFound : Res α) :
    scanLeafs h1 cand found notFound tr.Leafs = notFound := by
  apply scanLeafs_none
  intro l hl
  obtain ⟨a, n, p, rfl, _, hn, hleaf, hpay, hp, _⟩ := F.leaf_mem htr hl
  exact ⟨n, p, (node_some_iff h1 _ _).2 (hsame a n hn hleaf), hpay, hall p hp⟩

/-- The nodes of a heap whose root digest was overwritten with `b`. -/
theorem setHash_root (h : Heap P) (r : Nat) (b : Bytes) :
    ∀ c, (h.setHash (some r) b).nodes[c]? =
      (h.nodes[c]?).map (fun nd => if c = r then { nd with Hash := b } else nd) := by
  intro c
  rw [setHash_lookup]
  congr 1
  funext nd
  by_cases hc : c = r
  · subst hc; simp
  · have : ¬ (some r = some c) := fun q => hc (Option.some.inj q).symm
    simp [hc, this]

/-- `VerifyPayload` on a fresh tree whose root digest was overwritten with `b`
(`h1` is that heap), for a candidate with a first match among the payloads:
the result is whether `b` is the digest that was built. -/
theorem FreshTree.verifyPayload_match [Payload P] {hf : HashFunc} {pp : List P}
    {ds : List Bytes} {N r : Nat} {m : Ptr} {h h1 : Heap P} (F : FreshTree hf pp ds N r m h)
    {tr tr1 : MerkleTree} {rn : Node P} {b : Bytes}
    (htr : h.tree m = .ok tr) (hrn : h.nodes[r]? = some rn)
    (hn : ∀ c, h1.nodes[c]? =
      (h.nodes[c]?).map (fun nd => if c = r then { nd with Hash := b } else nd))
    (htr1 : h1.tree m = .ok tr1) (hL : tr1.Leafs = tr.Leafs) (hH : tr1.HashFunc = hf)
    {i : Nat} {c cand : P} (hi : pp[i]? = some c) (he : Payload.Equals c cand = .ok true)
    (hno : ∀ j q, j < i → pp[j]? = some q → ∃ b, Payload.Equals q cand = .ok b)
    (fuel : Nat) (hfuel : h.nodes.length ≤ fuel) :
    VerifyPayload fuel m cand h1 = .ok (decide (b = rn.Hash)) := by
  obtain ⟨rn1, hrn1, _, hroot, hrl⟩ := F.nodes.rootNode
  rw [hrn] at hrn1
  cases hrn1
  have hsame : ∀ (a : Nat) (n : Node P), h.nodes[a]? = some n → n.isLeaf = true →
      h1.nodes[a]? = some n := by
    intro a n hna hl
    have har : a ≠ r := by
      intro q
      subst q
      rw [hna] at hrn
      cases hrn
      rw [hl] at hrl
      cases hrl
    rw [hn a, hna]
    simp [har]
  obtain ⟨j, q, n, _, _, _, hnj, hleaf, _, _, hscan⟩ :=
    F.scan_first htr hsame hi he hno
      (fun _ leaf => verifyParents h1 hf fuel leaf.Parent) (.ok false)
  have hv := (verifyParents_leaf F.nodes.built F.nodes.last F.nodes.tops hrn hroot hrl hn
    ⟨tr1, htr1, hH⟩ (by omega) hnj hleaf fuel hfuel).2
  unfold VerifyPayload
  simp only [htr1, bind, Except.bind, hH, hL, verifyPayloadScan_eq, hscan, hv]

/-- `GetMerklePath` on a fresh tree, for a candidate with a first match among the
payloads: the replay of the returned proof from the digest of the matching
payload gives the stored root digest. -/
theorem FreshTree.merklePath_match [Payload P] {hf : HashFunc} {pp : List P}
    {ds : List Bytes} {N r : Nat} {m : Ptr} {h : Heap P} (F : FreshTree hf pp ds N r m h)
    {tr : MerkleTree} (htr : h.tree m = .ok tr)
    {i : Nat} {c cand : P} (hi : pp[i]? = some c) (he : Payload.Equals c cand = .ok true)
    (hno : ∀ j q, j < i → pp[j]? = some q → ∃ b, Payload.Equals q cand = .ok b)
    (fuel : Nat) (hfuel : h.nodes.length ≤ fuel) :
    ∃ q path idx start, q ∈ pp ∧ Payload.Equals q cand = .ok true ∧
      Payload.CalculateHash q = .ok start ∧
      GetMerklePath fuel m cand h = .ok (path, idx) ∧ path.length = idx.length ∧
      (∀ d ∈ idx, d = 0 ∨ d = 1) ∧
      replayPath hf start path idx = .ok tr.MerkleRootHash := by
  obtain ⟨tr0, rn, htr0, hhf, hroot, hleafs, hrn, hm⟩ := F.tree
  rw [htr] at htr0
  cases htr0
  obtain ⟨j, q, n, _, hq, hqe, hnj, hleaf, _, hc, hscan⟩ :=
    F.scan_first htr (fun _ _ hn _ => hn) hi he hno
      (fun l leaf => merklePathLoop h fuel l leaf.Parent [] []) (.ok ([], []))
  obtain ⟨path, idx, e, hlen, hdir, hrep⟩ :=
    merklePathLoop_built F.nodes.built F.nodes.tops hrn (h.nodes.length - (N + j)) (N + j) n
      (Nat.le_refl _) (by omega) hnj fuel (by have := lookup_lt hnj; omega) [] []
  refine ⟨q, path, idx, n.Hash, List.getElem?_mem hq, hqe, hc, ?_, hlen, hdir, ?_⟩
  · unfold GetMerklePath
    simp only [htr, bind, Except.bind, merklePathScan_eq, hscan, e, List.nil_append]
  · rw [hm]; exact hrep

/-! ## Properties of the package -/

/-- C1 as stated fails: with payloads whose `Equals` is reflexive, relates only
payloads of equal digest, but returns an error on a payload of another kind, and
a hash function that never fails, `GetMerklePath(pp[1])` on the tree of
`pp = [(kind 0, id 0), (kind 1, id 0)]` returns the comparison error of the first
leaf, for every fuel, hence no siblings and directions to replay. -/
theorem C1_counterexample :
    (∀ p : KindTx, Payload.Equals p p = .ok true) ∧
    (∀ a b : KindTx, Payload.Equals a b = .ok true →
      Payload.CalculateHash a = Payload.CalculateHash b) ∧
    (∀ b, ∃ d, wrapHash.Calculate b = .ok d) ∧
    (∀ p : KindTx, ∃ d, Payload.CalculateHash p = .ok d) ∧
    (NewTree 3 [some (KindTx.mk 0 0), some (KindTx.mk 1 0)] wrapHash emptyHeap).1 =
      .ok (some 0) ∧
    ∀ fuel, GetMerklePath fuel (some 0) (KindTx.mk 1 0)
      (NewTree 3 [some (KindTx.mk 0 0), some (KindTx.mk 1 0)] wrapHash emptyHeap).2 =
        .error (.err "payload of another kind") := by
  refine ⟨?_, ?_, ?_, ?_, rfl, ?_⟩
  · intro p
    simp [Payload.Equals]
  · intro a b hab
    simp only [Payload.Equals] at hab
    split at hab
    · rename_i hk
      simp at hab
      cases a; cases b
      simp_all
    · cases hab
  · intro b; exact ⟨_, rfl⟩
  · intro p; exact ⟨_, rfl⟩
  · intro fuel
    rfl

/-- C1, amended: for every payload list `pp` and index `i` with `pp[i] = cand`,
payload digests and a hash function that do not fail, `Equals` reflexive and
relating only payloads of equal digest, and no comparison `pp[j].Equals(pp[i])`
with `j < i` returning an error: `NewTree(pp)` returns a tree on which
`GetMerklePath(pp[i])` returns siblings and directions (as many of one as of the
other, every direction 0 or 1) whose replay from `pp[i].CalculateHash()` ends
in the tree's `MerkleRootHash`. -/
theorem C1_merkle_path_round_trip [Payload P] (hf : HashFunc) (pp : List P) (i : Nat)
    (cand : P) (hi : pp[i]? = some cand)
    (hcalc : ∀ p ∈ pp, ∃ d, Payload.CalculateHash p = .ok d)
    (hhash : ∀ b, ∃ d, hf.Calculate b = .ok d)
    (hrefl : ∀ p : P, Payload.Equals p p = .ok true)
    (hrel : ∀ a b : P, Payload.Equals a b = .ok true →
      Payload.CalculateHash a = Payload.CalculateHash b)
    (hno : ∀ j q, j < i → pp[j]? = some q → ∃ b, Payload.Equals q cand = .ok b)
    (fuel : Nat) (hfuel : pp.length + 1 ≤ fuel) (h0 : Heap P) :
    ∃ m h tr, NewTree fuel (pp.map some) hf h0 = (.ok m, h) ∧ h.tree m = .ok tr ∧
      ∀ fuel1, h.nodes.length ≤ fuel1 →
        ∃ path idx start, GetMerklePath fuel1 m cand h = .ok (path, idx) ∧
          path.length = idx.length ∧ (∀ d ∈ idx, d = 0 ∨ d = 1) ∧
          Payload.CalculateHash cand = .ok start ∧
          replayPath hf start path idx = .ok tr.MerkleRootHash := by
  have hpp : pp ≠ [] := by
    intro q
    subst q
    simp at hi
  obtain ⟨m, h, hnew⟩ := NewTree_total hf pp hpp hcalc hhash fuel hfuel h0
  obtain ⟨ds, r, F, _⟩ := NewTree_ok hpp hnew
  obtain ⟨tr, _, htr, _⟩ := F.tree
  refine ⟨m, h, tr, hnew, htr, ?_⟩
  intro fuel1 hfuel1
  obtain ⟨q, path, idx, start, _, hqe, hqc, hget, hlen, hdir, hrep⟩ :=
    F.merklePath_match htr hi (hrefl cand) hno fuel1 hfuel1
  refine ⟨path, idx, start, hget, hlen, hdir, ?_, hrep⟩
  rw [← hrel q cand hqe]
  exact hqc

/-- C1, amended, at a concrete input: five payloads (a duplicated last leaf and a
self-paired node above it), the last payload. -/
theorem C1_merkle_path_round_trip_witness :
    fiveTx[4]? = some (Tx.mk 5) ∧
    (∀ p ∈ fiveTx, ∃ d, Payload.CalculateHash p = .ok d) ∧
    (∀ b, ∃ d, wrapHash.Calculate b = .ok d) ∧
    (∀ p : Tx, Payload.Equals p p = .ok true) ∧
    (∀ a b : Tx, Payload.Equals a b = .ok true →
      Payload.CalculateHash a = Payload.CalculateHash b) ∧
    (∀ j q, j < 4 → fiveTx[j]? = some q → ∃ b, Payload.Equals q (Tx.mk 5) = .ok b) ∧
    fiveTx.length + 1 ≤ 6 ∧
    ∃ m h tr, NewTree 6 (fiveTx.map some) wrapHash emptyHeap = (.ok m, h) ∧
      h.tree m = .ok tr ∧
      ∀ fuel1, h.nodes.length ≤ fuel1 →
        ∃ path idx start, GetMerklePath fuel1 m (Tx.mk 5) h = .ok (path, idx) ∧
          path.length = idx.length ∧ (∀ d ∈ idx, d = 0 ∨ d = 1) ∧
          Payload.CalculateHash (Tx.mk 5) = .ok start ∧
          replayPath wrapHash start path idx = .ok tr.MerkleRootHash :=
  ⟨rfl, fun p _ => ⟨_, rfl⟩, fun b => ⟨_, rfl⟩, fun p => by simp [Payload.Equals],
    fun a b hab => by
      have : a = b := by simpa [Payload.Equals] using hab
      rw [this],
    fun j q _ _ => ⟨_, rfl⟩, by decide,
    C1_merkle_path_round_trip wrapHash fiveTx 4 (Tx.mk 5) rfl (fun p _ => ⟨_, rfl⟩)
      (fun b => ⟨_, rfl⟩) (fun p => by simp [Payload.Equals])
      (fun a b hab => by
        have : a = b := by simpa [Payload.Equals] using hab
        rw [this])
      (fun j q _ _ => ⟨_, rfl⟩) 6 (by decide) emptyHeap⟩

theorem tree_congr {h h1 : Heap P} (e : h1.trees = h.trees) (x : Ptr) : h1.tree x = h.tree x := by
  unfold Heap.tree
  rw [e]

/-- C2 as stated fails: on the tree built from the single payload 1, whose first
leaf stores the digest `[1]`, replacing that stored digest by `[9]` (payload
untouched) leaves the result of `VerifyTree` at true; it does not become false. -/
theorem C2_counterexample :
    (NewTree 2 [some (Tx.mk 1)] wrapHash emptyHeap).1 = .ok (some 0) ∧
    ((NewTree 2 [some (Tx.mk 1)] wrapHash emptyHeap).2.tree (some 0)).map
      (fun t => t.Leafs) = .ok [some 0, some 1] ∧
    ((NewTree 2 [some (Tx.mk 1)] wrapHash emptyHeap).2.node (some 0)).map
      (fun n => (n.Hash, n.Payload, n.isLeaf)) = .ok ([1], some (Tx.mk 1), true) ∧
    ([9] : Bytes) ≠ [1] ∧
    VerifyTree 3 (some 0) (NewTree 2 [some (Tx.mk 1)] wrapHash emptyHeap).2 = .ok true ∧
    VerifyTree 3 (some 0)
      ((NewTree 2 [some (Tx.mk 1)] wrapHash emptyHeap).2.setHash (some 0) [9]) = .ok true ∧
    (((NewTree 2 [some (Tx.mk 1)] wrapHash emptyHeap).2.setHash (some 0) [9]).node
      (some 0)).map (fun n => (n.Hash, n.Payload, n.isLeaf)) =
        .ok ([9], some (Tx.mk 1), true) :=
  ⟨rfl, rfl, rfl, by decide, rfl, rfl, rfl⟩

/-- C2, amended: for every tree freshly built by `NewTree` from a non-empty
payload list, `VerifyTree` returns true, and it still returns true after the
stored `Hash` of any leaf is replaced by any byte string (its `Payload` left
untouched): the stored digest of a leaf is not read. -/
theorem C2_verifyTree_ignores_leaf_hash [Payload P] (hf : HashFunc) (pp : List P)
    (hpp : pp ≠ []) (fuel : Nat) (h0 h : Heap P) (m : Ptr)
    (hnew : NewTree fuel (pp.map some) hf h0 = (.ok m, h))
    (fuel1 : Nat) (hfuel1 : h.nodes.length ≤ fuel1) :
    VerifyTree fuel1 m h = .ok true ∧
    ∀ tr, h.tree m = .ok tr → ∀ x ∈ tr.Leafs, ∀ b : Bytes,
      VerifyTree fuel1 m (h.setHash x b) = .ok true := by
  obtain ⟨ds, r, F, _⟩ := NewTree_ok hpp hnew
  have hv := F.verifyTree fuel1 hfuel1
  refine ⟨hv, ?_⟩
  intro tr _ x _ b
  rw [← hv]
  unfold VerifyTree
  rw [tree_congr (setHash_trees h x b)]
  simp only [verifyNode_tampered (HashTampered.setHash h x b)]

/-- C2, amended, at a concrete input: three payloads, any leaf overwritten. -/
theorem C2_verifyTree_ignores_leaf_hash_witness :
    threeTx ≠ [] ∧
    NewTree 4 (threeTx.map some) wrapHash emptyHeap = (.ok (some 0), builtThree.2) ∧
    (7 ≥ builtThree.2.nodes.length) ∧
    (VerifyTree 7 (some 0) builtThree.2 = .ok true ∧
      ∀ tr, builtThree.2.tree (some 0) = .ok tr → ∀ x ∈ tr.Leafs, ∀ b : Bytes,
        VerifyTree 7 (some 0) (builtThree.2.setHash x b) = .ok true) :=
  ⟨by decide, rfl, by decide,
    C2_verifyTree_ignores_leaf_hash wrapHash threeTx (by decide) 4 emptyHeap builtThree.2
      (some 0) (by rfl) 7 (by decide)⟩

/-- C3: for every non-empty payload list whose digests do not fail and every hash
function that does not fail, `NewTree` returns a tree and `VerifyTree` on it
returns `(true, nil)`. -/
theorem C3_verifyTree_fresh [Payload P] (hf : HashFunc) (pp : List P) (hpp : pp ≠ [])
    (hcalc : ∀ p ∈ pp, ∃ d, Payload.CalculateHash p = .ok d)
    (hhash : ∀ b, ∃ d, hf.Calculate b = .ok d)
    (fuel : Nat) (hfuel : pp.length + 1 ≤ fuel) (h0 : Heap P) :
    ∃ m h, NewTree fuel (pp.map some) hf h0 = (.ok m, h) ∧
      ∀ fuel1, h.nodes.length ≤ fuel1 → VerifyTree fuel1 m h = .ok true := by
  obtain ⟨m, h, hnew⟩ := NewTree_total hf pp hpp hcalc hhash fuel hfuel h0
  obtain ⟨ds, r, F, _⟩ := NewTree_ok hpp hnew
  exact ⟨m, h, hnew, fun fuel1 hfuel1 => F.verifyTree fuel1 hfuel1⟩

/-- C3 at a concrete input: five payloads. -/
theorem C3_verifyTree_fresh_witness :
    fiveTx ≠ [] ∧ (∀ p ∈ fiveTx, ∃ d, Payload.CalculateHash p = .ok d) ∧
    (∀ b, ∃ d, wrapHash.Calculate b = .ok d) ∧ fiveTx.length + 1 ≤ 6 ∧
    ∃ m h, NewTree 6 (fiveTx.map some) wrapHash emptyHeap = (.ok m, h) ∧
      ∀ fuel1, h.nodes.length ≤ fuel1 → VerifyTree fuel1 m h = .ok true :=
  ⟨by decide, fun p _ => ⟨_, rfl⟩, fun b => ⟨_, rfl⟩, by decide,
    C3_verifyTree_fresh wrapHash fiveTx (by decide)
      (fun p _ => ⟨_, rfl⟩) (fun b => ⟨_, rfl⟩) 6 (by decide) emptyHeap⟩

/-- C4: on a tree whose node structure `NewTree` produced, whatever its stored
node `Hash` fields and its `MerkleRootHash` now hold, `VerifyTree` returns
whether `MerkleRootHash` equals one digest `d`, the same for all such states:
the root re-derived from the payloads of the leaves.  So it returns true if and
only if the re-derived root equals `MerkleRootHash`, independently of every
stored node `Hash`. -/
theorem C4_verifyTree_rederives [Payload P] (hf : HashFunc) (pp : List P) (hpp : pp ≠ [])
    (fuel : Nat) (h0 h : Heap P) (m : Ptr)
    (hnew : NewTree fuel (pp.map some) hf h0 = (.ok m, h)) :
    ∃ d, ∀ h1, HashTampered h h1 → ∀ fuel1, h.nodes.length ≤ fuel1 →
      ∃ tr1, h1.tree m = .ok tr1 ∧ rederivedRoot h1 m = .ok d ∧
        VerifyTree fuel1 m h1 = .ok (decide (tr1.MerkleRootHash = d)) ∧
        (VerifyTree fuel1 m h1 = .ok true ↔ rederivedRoot h1 m = .ok tr1.MerkleRootHash) := by
  obtain ⟨ds, r, F, _⟩ := NewTree_ok hpp hnew
  obtain ⟨rn, _, href, _, _⟩ := F.nodes.rootNode
  refine ⟨rn.Hash, ?_⟩
  intro h1 ht fuel1 hfuel1
  obtain ⟨tr1, d, htr1, hd, hv⟩ := VerifyTree_tampered F ht fuel1 hfuel1
  rw [href] at hd
  cases hd
  have hre : rederivedRoot h1 m = .ok rn.Hash := by
    rw [rederivedRoot_tampered F ht, href]
  refine ⟨tr1, htr1, hre, hv, ?_⟩
  rw [hv, hre]
  constructor
  · intro q
    have : tr1.MerkleRootHash = rn.Hash := by simpa using q
    rw [this]
  · intro q
    have : rn.Hash = tr1.MerkleRootHash := by simpa using q
    simp [this]

/-- C4 at a concrete input: three payloads. -/
theorem C4_verifyTree_rederives_witness :
    threeTx ≠ [] ∧
    NewTree 4 (threeTx.map some) wrapHash emptyHeap = (.ok (some 0), builtThree.2) ∧
    ∃ d, ∀ h1, HashTampered builtThree.2 h1 → ∀ fuel1, builtThree.2.nodes.length ≤ fuel1 →
      ∃ tr1, h1.tree (some 0) = .ok tr1 ∧ rederivedRoot h1 (some 0) = .ok d ∧
        VerifyTree fuel1 (some 0) h1 = .ok (decide (tr1.MerkleRootHash = d)) ∧
        (VerifyTree fuel1 (some 0) h1 = .ok true ↔
          rederivedRoot h1 (some 0) = .ok tr1.MerkleRootHash) :=
  ⟨by decide, rfl,
    C4_verifyTree_rederives wrapHash threeTx (by decide) 4 emptyHeap builtThree.2 (some 0) (by rfl)⟩

theorem refRootAux_fault (hf : HashFunc) :
    ∀ (f : Nat) (L : List Bytes) (e : Fault), refRootAux hf f L = .error e →
      e = .outOfFuel ∨ ∃ msg, e = .err msg := by
  intro f
  induction f with
  | zero => intro L e h; simp [refRootAux] at h; exact Or.inl h.symm
  | succ f ih =>
    intro L e h
    by_cases h2 : L.length = 2
    · match L, h2 with
      | [x, y], _ =>
        rw [refRootAux_two] at h
        cases hc : hf.Calculate (x ++ y) with
        | ok d => rw [hc] at h; cases h
        | error msg => rw [hc] at h; cases h; exact Or.inr ⟨msg, rfl⟩
    · rw [refRootAux_other _ _ _ h2] at h
      cases hp : pairDigests hf L with
      | error msg => rw [hp] at h; cases h; exact Or.inr ⟨msg, rfl⟩
      | ok next =>
        rw [hp] at h
        exact ih next e h

/-- The result of `NewTree` on a non-empty list, with fuel above the number of
payloads, against the reference fold of the payload digests: the same fault, or
a fresh tree whose cached root digest is the reference root. -/
theorem NewTree_result [Payload P] (hf : HashFunc) (pp : List P) (hpp : pp ≠ [])
    (fuel : Nat) (hfuel : pp.length + 1 ≤ fuel) (h0 : Heap P) :
    (∃ msg, (liftE (leafDigests pp) >>= fun L => refRoot hf (padOdd L)) = .error (.err msg) ∧
      (NewTree fuel (pp.map some) hf h0).1 = .error (.err msg)) ∨
    (∃ d m ds r tr, (liftE (leafDigests pp) >>= fun L => refRoot hf (padOdd L)) = .ok d ∧
      (NewTree fuel (pp.map some) hf h0).1 = .ok m ∧
      FreshTree hf pp ds h0.nodes.length r m (NewTree fuel (pp.map some) hf h0).2 ∧
      (NewTree fuel (pp.map some) hf h0).2.tree m = .ok tr ∧ tr.MerkleRootHash = d) := by
  obtain ⟨h1, _, _, herr, hok⟩ := NewTree_spec hf fuel pp hpp h0
  cases hd : leafDigests pp with
  | error e =>
    left
    exact ⟨e, rfl, by rw [herr e hd]⟩
  | ok ds =>
    obtain ⟨herr2, hok2⟩ := hok ds hd
    have hl := leafDigests_length pp ds hd
    have hpl := padOdd_length ds
    have hpos : 0 < pp.length := List.length_pos.2 hpp
    have h2 : 2 ≤ (padOdd ds).length := by omega
    have haux := @aux_of_refRoot hf fuel (padOdd ds) h2 (by omega)
    cases hr : refRoot hf (padOdd ds) with
    | error e =>
      rw [hr] at haux
      have hne := refRootAux_enough hf fuel (padOdd ds) h2 (by omega)
      rcases refRootAux_fault hf fuel _ e haux with q | ⟨msg, q⟩
      · rw [haux, q] at hne; exact absurd rfl hne
      · subst q
        left
        refine ⟨msg, ?_, by rw [herr2 _ haux]⟩
        simp only [liftE, bind, Except.bind, hr]
    | ok d =>
      rw [hr] at haux
      obtain ⟨r, e1, F⟩ := hok2 d haux
      obtain ⟨tr, rn, htr, _, _, _, hrn, hm⟩ := F.tree
      obtain ⟨rn1, hrn1, href, _, _⟩ := F.nodes.rootNode
      rw [hrn] at hrn1
      cases hrn1
      rw [hr] at href
      cases href
      right
      refine ⟨rn.Hash, some h0.trees.length, ds, r, tr, ?_, by rw [e1], ?_, ?_, hm⟩
      · simp only [liftE, bind, Except.bind, hr]
      · rw [e1]; exact F
      · rw [e1]; exact htr

/-- C5: for every non-empty payload list (fuel above its length), the cached
root digest of the tree `NewTree` returns is the reference fold `R` of the
payload digests, padded with the last digest when their number is odd; when a
digest fails, `NewTree` fails with the same error.  With a hash that computes
`H`, `R` of four digests is `H(H(a++b) ++ H(c++d))` and `R` of five is
`H(H(H(a++b) ++ H(c++d)) ++ H(H(e++e) ++ H(e++e)))`. -/
theorem C5_root_is_reference_fold [Payload P] (hf : HashFunc) (pp : List P) (hpp : pp ≠ [])
    (fuel : Nat) (hfuel : pp.length + 1 ≤ fuel) (h0 : Heap P) :
    builtRootHash (NewTree fuel (pp.map some) hf h0) =
      (liftE (leafDigests pp) >>= fun L => refRoot hf (padOdd L)) ∧
    (∀ H : Bytes → Bytes, (∀ b, hf.Calculate b = .ok (H b)) →
      (∀ a b c d : Bytes, refRoot hf (padOdd [a, b, c, d]) = .ok (H (H (a ++ b) ++ H (c ++ d)))) ∧
      (∀ a b c d e : Bytes, refRoot hf (padOdd [a, b, c, d, e]) =
        .ok (H (H (H (a ++ b) ++ H (c ++ d)) ++ H (H (e ++ e) ++ H (e ++ e)))))) := by
  refine ⟨?_, ?_⟩
  · rcases NewTree_result hf pp hpp fuel hfuel h0 with ⟨msg, h1, h2⟩ | ⟨d, m, ds, r, tr, h1, h2, _, h3, h4⟩
    · rw [h1]
      simp only [builtRootHash, h2, bind, Except.bind]
    · rw [h1]
      simp only [builtRootHash, h2, h3, h4, bind, Except.bind, pure, Except.pure]
  · intro H hH
    refine ⟨?_, ?_⟩
    · intro a b c d
      simp [refRoot, padOdd, refRootAux, pairDigests, hH, liftE, bind, Except.bind, pure,
        Except.pure]
    · intro a b c d e
      simp [refRoot, padOdd, refRootAux, pairDigests, hH, liftE, bind, Except.bind, pure,
        Except.pure]

/-- C5 at a concrete input: five payloads. -/
theorem C5_root_is_reference_fold_witness :
    fiveTx ≠ [] ∧ fiveTx.length + 1 ≤ 6 ∧
    (builtRootHash (NewTree 6 (fiveTx.map some) wrapHash emptyHeap) =
      (liftE (leafDigests fiveTx) >>= fun L => refRoot wrapHash (padOdd L)) ∧
    (∀ H : Bytes → Bytes, (∀ b, wrapHash.Calculate b = .ok (H b)) →
      (∀ a b c d : Bytes,
        refRoot wrapHash (padOdd [a, b, c, d]) = .ok (H (H (a ++ b) ++ H (c ++ d)))) ∧
      (∀ a b c d e : Bytes, refRoot wrapHash (padOdd [a, b, c, d, e]) =
        .ok (H (H (H (a ++ b) ++ H (c ++ d)) ++ H (H (e ++ e) ++ H (e ++ e))))))) :=
  ⟨by decide, by decide,
    C5_root_is_reference_fold wrapHash fiveTx (by decide) 6 (by decide) emptyHeap⟩

/-! ## Lists that hold nil payloads -/

theorem payloadDigests_map_some [Payload P] (qs : List P) :
    payloadDigests (qs.map some) = liftE (leafDigests qs) := by
  induction qs with
  | nil => rfl
  | cons p qs ih =>
    simp only [List.map_cons, payloadDigests, leafDigests, ih]
    cases Payload.CalculateHash p with
    | error e => rfl
    | ok d =>
      cases leafDigests qs with
      | error e => rfl
      | ok ds => rfl

/-- The digests of a list all compute only if the list holds no nil payload. -/
theorem payloadDigests_ok_map [Payload P] :
    ∀ (pp : List (Option P)) (ds : List Bytes), payloadDigests pp = .ok ds →
      ∃ qs : List P, pp = qs.map some := by
  intro pp
  induction pp with
  | nil => intro _ _; exact ⟨[], rfl⟩
  | cons x pp ih =>
    intro ds hd
    cases x with
    | none => cases hd
    | some p =>
      simp only [payloadDigests] at hd
      cases hc : Payload.CalculateHash p with
      | error e =>
        rw [hc] at hd
        cases hd
      | ok d =>
        rw [hc] at hd
        cases hr : payloadDigests pp with
        | error e =>
          rw [hr] at hd
          cases hd
        | ok ds1 =>
          obtain ⟨qs, rfl⟩ := ih ds1 hr
          exact ⟨p :: qs, rfl⟩

/-- The loop over the payloads ends with the first fault of the digests. -/
theorem makeLeafNodes_fault [Payload P] (t : Ptr) :
    ∀ (pp : List (Option P)) (acc : List Ptr) (h : Heap P) (e : Fault),
      payloadDigests pp = .error e → (makeLeafNodes t pp acc h).1 = .error e := by
  intro pp
  induction pp with
  | nil => intro _ _ e hd; cases hd
  | cons x pp ih =>
    intro acc h e hd
    cases x with
    | none =>
      cases hd
      rfl
    | some p =>
      simp only [payloadDigests] at hd
      simp only [makeLeafNodes]
      cases hc : Payload.CalculateHash p with
      | error e1 =>
        rw [hc] at hd
        cases hd
        rfl
      | ok d =>
        rw [hc] at hd
        cases hr : payloadDigests pp with
        | error e1 =>
          rw [hr] at hd
          cases hd
          exact ih _ _ _ hr
        | ok ds1 =>
          rw [hr] at hd
          cases hd

/-- `NewTree` ends with the first fault of the digests of the payloads. -/
theorem NewTree_digest_fault [Payload P] (hf : HashFunc) (fuel : Nat)
    {pp : List (Option P)} (hpp : pp ≠ []) (h0 : Heap P) {e : Fault}
    (hd : payloadDigests pp = .error e) :
    (NewTree fuel pp hf h0).1 = .error e := by
  have hm := makeLeafNodes_fault (h0.newTree
      { HashFunc := hf, Root := none, Leafs := [], MerkleRootHash := [] }).1 pp []
    (h0.newTree { HashFunc := hf, Root := none, Leafs := [], MerkleRootHash := [] }).2 e hd
  have hl : ¬ (pp.length = 0) := fun q => hpp (List.length_eq_zero.1 q)
  unfold NewTree constructTreeFromPayloads
  simp only [hl, if_false]
  cases hq : makeLeafNodes (h0.newTree
      { HashFunc := hf, Root := none, Leafs := [], MerkleRootHash := [] }).1 pp []
    (h0.newTree { HashFunc := hf, Root := none, Leafs := [], MerkleRootHash := [] }).2 with
  | mk r h1 =>
    rw [hq] at hm
    simp only at hm
    subst hm
    rfl

/-- The digests of a list never run out of fuel. -/
theorem payloadDigests_fault [Payload P] :
    ∀ (pp : List (Option P)) (e : Fault), payloadDigests pp = .error e →
      e = .crash ∨ ∃ msg, e = .err msg := by
  intro pp
  induction pp with
  | nil => intro e hd; cases hd
  | cons x pp ih =>
    intro e hd
    cases x with
    | none =>
      cases hd
      exact Or.inl rfl
    | some p =>
      simp only [payloadDigests] at hd
      cases hc : Payload.CalculateHash p with
      | error e1 =>
        rw [hc] at hd
        cases hd
        exact Or.inr ⟨e1, rfl⟩
      | ok d =>
        rw [hc] at hd
        cases hr : payloadDigests pp with
        | error e1 =>
          rw [hr] at hd
          cases hd
          exact ih _ hr
        | ok ds1 =>
          rw [hr] at hd
          cases hd

/-- The digests of a list end in a nil dereference exactly when some nil payload
has no payload with a failing `CalculateHash` before it. -/
theorem payloadDigests_crash_iff [Payload P] :
    ∀ (pp : List (Option P)), payloadDigests pp = .error .crash ↔
      ¬ (∀ k : Nat, pp[k]? = some none → ∃ (j : Nat) (p : P) (msg : Error), j < k ∧
        pp[j]? = some (some p) ∧ Payload.CalculateHash p = .error msg) := by
  intro pp
  induction pp with
  | nil =>
    constructor
    · intro hd; cases hd
    · intro hn
      exact absurd (fun k hk => by simp at hk) hn
  | cons x pp ih =>
    cases x with
    | none =>
      constructor
      · intro _ hn
        obtain ⟨j, _, _, hj, _⟩ := hn 0 (by simp)
        exact absurd hj (Nat.not_lt_zero j)
      · intro _; rfl
    | some p =>
      cases hc : Payload.CalculateHash p with
      | error e1 =>
        constructor
        · intro hd
          simp only [payloadDigests, hc] at hd
          cases hd
        · intro hn
          refine absurd ?_ hn
          intro k hk
          match k, hk with
          | 0, hk => simp at hk
          | k + 1, _ => exact ⟨0, p, e1, Nat.succ_pos k, by simp, hc⟩
      | ok d =>
        have hstep : payloadDigests (some p :: pp) = .error .crash ↔
            payloadDigests pp = .error .crash := by
          simp only [payloadDigests, hc]
          cases payloadDigests pp with
          | error e1 =>
            constructor
            · intro q; cases q; rfl
            · intro q; cases q; rfl
          | ok ds1 =>
            constructor
            · intro q; cases q
            · intro q; cases q
        rw [hstep, ih]
        refine not_congr ?_
        constructor
        · intro hn k hk
          match k, hk with
          | 0, hk => simp at hk
          | k + 1, hk =>
            obtain ⟨j, q, msg, hj, hq, hm⟩ := hn k (by simpa using hk)
            exact ⟨j + 1, q, msg, by omega, by simpa using hq, hm⟩
        · intro hn k hk
          obtain ⟨j, q, msg, hj, hq, hm⟩ := hn (k + 1) (by simpa using hk)
          match j, hj, hq with
          | 0, _, hq =>
            simp at hq
            subst hq
            rw [hc] at hm
            cases hm
          | j + 1, hj, hq => exact ⟨j, q, msg, by omega, by simpa using hq, hm⟩

/-- C6 as stated fails: on the non-empty list of payload 1 followed by a nil
payload, with a hash function that never fails, the digest of payload 1
computes and no `CalculateHash` or hash computation returns an error, yet
`NewTree` returns neither a tree nor an error, whatever the fuel: the loop over
the payloads calls `CalculateHash` on the nil payload, a nil dereference. -/
theorem C6_counterexample :
    ([some (Tx.mk 1), none] : List (Option Tx)) ≠ [] ∧
    Payload.CalculateHash (Tx.mk 1) = .ok [1] ∧
    (∀ b, ∃ d, wrapHash.Calculate b = .ok d) ∧
    ∀ fuel,
      (NewTree fuel [some (Tx.mk 1), none] wrapHash emptyHeap).1 = .error .crash ∧
      (∀ msg, (NewTree fuel [some (Tx.mk 1), none] wrapHash emptyHeap).1 ≠
        .error (.err msg)) ∧
      (∀ m, (NewTree fuel [some (Tx.mk 1), none] wrapHash emptyHeap).1 ≠ .ok m) :=
  ⟨by decide, rfl, fun b => ⟨_, rfl⟩, fun _ =>
    ⟨rfl, fun _ q => (by cases q), fun _ q => (by cases q)⟩⟩

/-- C6, amended: `NewTree` on an empty list returns no tree and the error "cannot
construct tree with no payload".  On a non-empty list `pp` of payload interface
values (fuel above its length) the fault of `NewTree`, if any, is that of the
reference computation of the digests (payload digests in order, then the levels
bottom-up, left to right), whose first failure wins.  When every nil payload of
`pp` comes after a payload whose `CalculateHash` fails, so that no nil payload
is reached, every fault is a Go error: `NewTree` returns an error exactly when a
digest computation fails, the error of the first one that fails.  When some nil
payload is reached, `NewTree` ends in a nil dereference.  When no payload is nil
and no digest computation fails it returns a tree; and a returned tree has a
non-nil `Root` and `MerkleRootHash` equal to `Root.Hash`. -/
theorem C6_newTree_fails_on_bad_input [Payload P] (hf : HashFunc) (pp : List (Option P))
    (fuel : Nat) (h0 : Heap P) :
    (NewTree fuel ([] : List (Option P)) hf h0).1 = .error (.err emptyPayloadError) ∧
    (pp ≠ [] → pp.length + 1 ≤ fuel →
      (∀ e, (NewTree fuel pp hf h0).1 = .error e ↔
        (payloadDigests pp >>= fun L => refRoot hf (padOdd L)) = .error e) ∧
      ((∀ k : Nat, pp[k]? = some none → ∃ (j : Nat) (p : P) (msg : Error), j < k ∧
          pp[j]? = some (some p) ∧ Payload.CalculateHash p = .error msg) →
        ∀ e, (NewTree fuel pp hf h0).1 = .error e → ∃ msg, e = .err msg) ∧
      (¬ (∀ k : Nat, pp[k]? = some none → ∃ (j : Nat) (p : P) (msg : Error), j < k ∧
          pp[j]? = some (some p) ∧ Payload.CalculateHash p = .error msg) →
        (NewTree fuel pp hf h0).1 = .error .crash) ∧
      ((∀ x ∈ pp, ∃ p d, x = some p ∧ Payload.CalculateHash p = .ok d) →
        (∀ b, ∃ d, hf.Calculate b = .ok d) →
        ∃ m, (NewTree fuel pp hf h0).1 = .ok m) ∧
      (∀ m, (NewTree fuel pp hf h0).1 = .ok m →
        ∃ tr r rn, (NewTree fuel pp hf h0).2.tree m = .ok tr ∧
          tr.Root = some r ∧ (NewTree fuel pp hf h0).2.node tr.Root = .ok rn ∧
          tr.MerkleRootHash = rn.Hash)) := by
  refine ⟨rfl, ?_⟩
  intro hpp hfuel
  -- the list holds a nil payload that is reached, or it is a list of payloads
  have split : (∃ e, payloadDigests pp = .error e ∧ (NewTree fuel pp hf h0).1 = .error e) ∨
      (∃ qs : List P, pp = qs.map some ∧ qs ≠ [] ∧ qs.length + 1 ≤ fuel) := by
    cases hd : payloadDigests pp with
    | error e => exact Or.inl ⟨e, rfl, NewTree_digest_fault hf fuel hpp h0 hd⟩
    | ok ds =>
      obtain ⟨qs, rfl⟩ := payloadDigests_ok_map pp ds hd
      refine Or.inr ⟨qs, rfl, ?_, by simpa using hfuel⟩
      intro q
      subst q
      exact hpp rfl
  refine ⟨?_, ?_, ?_, ?_, ?_⟩
  · intro e
    rcases split with ⟨e1, hd, hn⟩ | ⟨qs, rfl, hqs, hfq⟩
    · rw [hn, hd]
      constructor <;> intro q <;> cases q <;> rfl
    · rw [payloadDigests_map_some]
      rcases NewTree_result hf qs hqs fuel hfq h0 with
        ⟨msg, h1, h2⟩ | ⟨d, m, ds, r, tr, h1, h2, _⟩
      · rw [h1, h2]
        constructor <;> intro q <;> cases q <;> rfl
      · rw [h1, h2]
        constructor <;> intro q <;> cases q
  · intro hnil e he
    rcases split with ⟨e1, hd, hn⟩ | ⟨qs, rfl, hqs, hfq⟩
    · rw [hn] at he
      have he1 : e1 = e := Except.error.inj he
      rw [he1] at hd
      rcases payloadDigests_fault pp e hd with q | q
      · rw [q] at hd
        exact absurd hnil ((payloadDigests_crash_iff pp).1 hd)
      · exact q
    · rcases NewTree_result hf qs hqs fuel hfq h0 with
        ⟨msg, h1, h2⟩ | ⟨d, m, ds, r, tr, h1, h2, _⟩
      · rw [h2] at he
        cases he
        exact ⟨msg, rfl⟩
      · rw [h2] at he
        cases he
  · intro hnil
    exact NewTree_digest_fault hf fuel hpp h0 ((payloadDigests_crash_iff pp).2 hnil)
  · intro hcalc hhash
    rcases split with ⟨e1, hd, hn⟩ | ⟨qs, rfl, hqs, hfq⟩
    · exfalso
      have hall : ∃ ds, payloadDigests pp = .ok ds := by
        clear hd hn hpp hfuel
        induction pp with
        | nil => exact ⟨[], rfl⟩
        | cons x pp ih =>
          obtain ⟨p, d, rfl, hc⟩ := hcalc x (by simp)
          obtain ⟨ds, hds⟩ := ih (fun y hy => hcalc y (by simp [hy]))
          exact ⟨d :: ds, by simp [payloadDigests, hc, hds, liftE, bind, Except.bind, pure,
            Except.pure]⟩
      obtain ⟨ds, hds⟩ := hall
      rw [hds] at hd
      cases hd
    · have hc : ∀ p ∈ qs, ∃ d, Payload.CalculateHash p = .ok d := by
        intro p hp
        obtain ⟨p1, d, e, hd⟩ := hcalc (some p) (List.mem_map_of_mem some hp)
        cases e
        exact ⟨d, hd⟩
      obtain ⟨m, h, hnew⟩ := NewTree_total hf qs hqs hc hhash fuel hfq h0
      exact ⟨m, by rw [hnew]⟩
  · intro m hm
    rcases split with ⟨e1, hd, hn⟩ | ⟨qs, rfl, hqs, hfq⟩
    · rw [hn] at hm
      cases hm
    · rcases NewTree_result hf qs hqs fuel hfq h0 with
        ⟨msg, h1, h2⟩ | ⟨d, m1, ds, r, tr, h1, h2, F, h3, h4⟩
      · rw [h2] at hm
        cases hm
      · rw [h2] at hm
        cases hm
        obtain ⟨tr1, rn, htr, _, hroot, _, hrn, hmr⟩ := F.tree
        rw [h3] at htr
        cases htr
        exact ⟨tr, r, rn, h3, hroot, by rw [hroot]; exact (node_some_iff _ _ _).2 hrn, hmr⟩

/-- C6, amended, at concrete inputs.  A payment whose amount is not a number
followed by a nil payload: the nil payload is not reached, `NewTree` returns
the error of `CalculateHash`, a Go error.  The payloads 1, 2, 3 with a hash
function that fails on more than four bytes: `NewTree` returns the error of the
hash of the root level.  The payloads 1, 2, 3 with a hash function that never
fails: `NewTree` returns a tree with a non-nil `Root` whose `Hash` is
`MerkleRootHash`. -/
theorem C6_newTree_fails_on_bad_input_witness :
    (badPayments ≠ [] ∧ badPayments.length + 1 ≤ 3 ∧
      (∀ k : Nat, badPayments[k]? = some none → ∃ (j : Nat) (p : Payment) (msg : Error),
        j < k ∧ badPayments[j]? = some (some p) ∧ Payload.CalculateHash p = .error msg) ∧
      (NewTree 3 badPayments wrapHash emptyHeap).1 = .error (.err "json: unsupported value") ∧
      (payloadDigests badPayments >>= fun L => refRoot wrapHash (padOdd L)) =
        .error (.err "json: unsupported value") ∧
      (∀ e, (NewTree 3 badPayments wrapHash emptyHeap).1 = .error e ↔
        (payloadDigests badPayments >>= fun L => refRoot wrapHash (padOdd L)) = .error e) ∧
      (∀ e, (NewTree 3 badPayments wrapHash emptyHeap).1 = .error e → ∃ msg, e = .err msg)) ∧
    (threeTx.map some ≠ [] ∧ (threeTx.map some).length + 1 ≤ 4 ∧
      (NewTree 4 (threeTx.map some) shortHash emptyHeap).1 = .error (.err "input too long") ∧
      (payloadDigests (threeTx.map some) >>= fun L => refRoot shortHash (padOdd L)) =
        .error (.err "input too long") ∧
      (∀ e, (NewTree 4 (threeTx.map some) shortHash emptyHeap).1 = .error e ↔
        (payloadDigests (threeTx.map some) >>= fun L => refRoot shortHash (padOdd L)) =
          .error e)) ∧
    ((∀ x ∈ threeTx.map some, ∃ p d, x = some p ∧ Payload.CalculateHash p = .ok d) ∧
      (∀ b, ∃ d, wrapHash.Calculate b = .ok d) ∧
      (∃ m, (NewTree 4 (threeTx.map some) wrapHash emptyHeap).1 = .ok m) ∧
      (NewTree 4 (threeTx.map some) wrapHash emptyHeap).1 = .ok (some 0) ∧
      ∃ tr r rn, (NewTree 4 (threeTx.map some) wrapHash emptyHeap).2.tree (some 0) = .ok tr ∧
        tr.Root = some r ∧
        (NewTree 4 (threeTx.map some) wrapHash emptyHeap).2.node tr.Root = .ok rn ∧
        tr.MerkleRootHash = rn.Hash) :=
  have hnil : ∀ k : Nat, badPayments[k]? = some none →
      ∃ (j : Nat) (p : Payment) (msg : Error),
        j < k ∧ badPayments[j]? = some (some p) ∧ Payload.CalculateHash p = .error msg := by
    intro k hk
    match k, hk with
    | 0, hk => cases hk
    | 1, _ => exact ⟨0, Payment.mk none, _, by decide, rfl, rfl⟩
    | k + 2, hk => cases hk
  have hcalc : ∀ x ∈ threeTx.map some, ∃ p d, x = some p ∧
      Payload.CalculateHash p = .ok d := by
    intro x hx
    obtain ⟨p, _, rfl⟩ := List.mem_map.1 hx
    exact ⟨p, _, rfl, rfl⟩
  ⟨⟨by decide, by decide, hnil, rfl, rfl,
      ((C6_newTree_fails_on_bad_input wrapHash badPayments 3 emptyHeap).2
        (by decide) (by decide)).1,
      ((C6_newTree_fails_on_bad_input wrapHash badPayments 3 emptyHeap).2
        (by decide) (by decide)).2.1 hnil⟩,
    ⟨by decide, by decide, rfl, rfl,
      ((C6_newTree_fails_on_bad_input shortHash (threeTx.map some) 4 emptyHeap).2
        (by decide) (by decide)).1⟩,
    ⟨hcalc, fun b => ⟨_, rfl⟩,
      ((C6_newTree_fails_on_bad_input wrapHash (threeTx.map some) 4 emptyHeap).2
        (by decide) (by decide)).2.2.2.1 hcalc (fun b => ⟨_, rfl⟩),
      rfl,
      ((C6_newTree_fails_on_bad_input wrapHash (threeTx.map some) 4 emptyHeap).2
        (by decide) (by decide)).2.2.2.2 (some 0) rfl⟩⟩

/-- C7: the leaf list of the tree `NewTree` returns for a non-empty list of `n`
payloads has `n` entries when `n` is even and `n + 1` when `n` is odd (so an even
number); entry `i < n` is a leaf holding payload `pp[i]` and its digest, not
marked duplicate; when `n` is odd the last entry is a separate leaf marked
duplicate with the payload and digest of the entry before it.  And `NewTree`
does return a tree when no digest fails and the fuel is above `n`. -/
theorem C7_leaf_list_shape [Payload P] (hf : HashFunc) (pp : List P) (hpp : pp ≠ [])
    (fuel : Nat) (h0 : Heap P) :
    (∀ m h, NewTree fuel (pp.map some) hf h0 = (.ok m, h) →
      ∃ tr, h.tree m = .ok tr ∧
        tr.Leafs.length = pp.length + pp.length % 2 ∧ tr.Leafs.length % 2 = 0 ∧
        (∀ (i : Nat) (p : P), pp[i]? = some p → ∃ x n, tr.Leafs[i]? = some x ∧
          h.node x = .ok n ∧
          n.Payload = some p ∧ Payload.CalculateHash p = .ok n.Hash ∧
          n.isLeaf = true ∧ n.isDuplicate = false) ∧
        (pp.length % 2 = 1 → ∃ x y nx ny, tr.Leafs[pp.length]? = some x ∧
          tr.Leafs[pp.length - 1]? = some y ∧ x ≠ y ∧
          h.node x = .ok nx ∧ h.node y = .ok ny ∧ nx.isLeaf = true ∧
          nx.isDuplicate = true ∧ nx.Payload = ny.Payload ∧ nx.Hash = ny.Hash)) ∧
    ((∀ p ∈ pp, ∃ d, Payload.CalculateHash p = .ok d) → (∀ b, ∃ d, hf.Calculate b = .ok d) →
      pp.length + 1 ≤ fuel → ∃ m h, NewTree fuel (pp.map some) hf h0 = (.ok m, h)) := by
  refine ⟨?_, fun hcalc hhash hfuel => NewTree_total hf pp hpp hcalc hhash fuel hfuel h0⟩
  intro m h hnew
  obtain ⟨ds, r, F, _⟩ := NewTree_ok hpp hnew
  obtain ⟨tr, _, htr, _⟩ := F.tree
  have hlen := F.leafs_length htr
  refine ⟨tr, htr, hlen, by omega, ?_, ?_⟩
  · intro i p hi
    obtain ⟨d, _, hc, hll⟩ := leafLayer_get_real m F.nodes.digests hi
    obtain ⟨hL, n1, hn1, e⟩ := F.leaf htr hll
    refine ⟨some (h0.nodes.length + i), n1, hL, (node_some_iff _ _ _).2 hn1, ?_, ?_, ?_, ?_⟩
    · rw [e]; rfl
    · rw [e]; exact hc
    · rw [e]; rfl
    · rw [e]; rfl
  · intro ho
    have hpos : 0 < pp.length := List.length_pos.2 hpp
    obtain ⟨p, d, hp, hd, hdup⟩ := leafLayer_get_dup m F.nodes.digests ho
    obtain ⟨d1, hd1, _, hreal⟩ := leafLayer_get_real m F.nodes.digests hp
    rw [hd] at hd1
    cases hd1
    obtain ⟨hLx, nx, hnx, ex⟩ := F.leaf htr hdup
    obtain ⟨hLy, ny, hny, ey⟩ := F.leaf htr hreal
    refine ⟨_, _, nx, ny, hLx, hLy, ?_, (node_some_iff _ _ _).2 hnx,
      (node_some_iff _ _ _).2 hny, ?_, ?_, ?_, ?_⟩
    · intro q
      have := Option.some.inj q
      omega
    · rw [ex]; rfl
    · rw [ex]; rfl
    · rw [ex, ey]; rfl
    · rw [ex, ey]; rfl

/-- C7 at a concrete input: three payloads. -/
theorem C7_leaf_list_shape_witness :
    threeTx ≠ [] ∧
    NewTree 4 (threeTx.map some) wrapHash emptyHeap = (.ok (some 0), builtThree.2) ∧
    (∀ p ∈ threeTx, ∃ d, Payload.CalculateHash p = .ok d) ∧
    (∀ b, ∃ d, wrapHash.Calculate b = .ok d) ∧ threeTx.length + 1 ≤ 4 ∧
    (∃ tr, builtThree.2.tree (some 0) = .ok tr ∧
        tr.Leafs.length = threeTx.length + threeTx.length % 2 ∧ tr.Leafs.length % 2 = 0 ∧
        (∀ (i : Nat) (p : Tx), threeTx[i]? = some p → ∃ x n, tr.Leafs[i]? = some x ∧
          builtThree.2.node x = .ok n ∧
          n.Payload = some p ∧ Payload.CalculateHash p = .ok n.Hash ∧
          n.isLeaf = true ∧ n.isDuplicate = false) ∧
        (threeTx.length % 2 = 1 → ∃ x y nx ny, tr.Leafs[threeTx.length]? = some x ∧
          tr.Leafs[threeTx.length - 1]? = some y ∧ x ≠ y ∧
          builtThree.2.node x = .ok nx ∧ builtThree.2.node y = .ok ny ∧ nx.isLeaf = true ∧
          nx.isDuplicate = true ∧ nx.Payload = ny.Payload ∧ nx.Hash = ny.Hash)) ∧
    ∃ m h, NewTree 4 (threeTx.map some) wrapHash emptyHeap = (.ok m, h) :=
  ⟨by decide, by rfl, fun p _ => ⟨_, rfl⟩, fun b => ⟨_, rfl⟩, by decide,
    (C7_leaf_list_shape wrapHash threeTx (by decide) 4 emptyHeap).1 (some 0) builtThree.2
      (by rfl),
    (C7_leaf_list_shape wrapHash threeTx (by decide) 4 emptyHeap).2 (fun p _ => ⟨_, rfl⟩)
      (fun b => ⟨_, rfl⟩) (by decide)⟩

/-- C8 as stated fails: with payloads whose `Equals` is reflexive but returns an
error on a payload of another kind, and digests that never fail,
`VerifyPayload(pp[1])` on the tree of `pp = [(kind 0, id 0), (kind 1, id 0)]`
returns the comparison error of the first leaf, for every fuel, not `(true, nil)`. -/
theorem C8_counterexample :
    (∀ p : KindTx, Payload.Equals p p = .ok true) ∧
    (∀ b, ∃ d, wrapHash.Calculate b = .ok d) ∧
    (∀ p : KindTx, ∃ d, Payload.CalculateHash p = .ok d) ∧
    (NewTree 3 [some (KindTx.mk 0 0), some (KindTx.mk 1 0)] wrapHash emptyHeap).1 =
      .ok (some 0) ∧
    ∀ fuel, VerifyPayload fuel (some 0) (KindTx.mk 1 0)
      (NewTree 3 [some (KindTx.mk 0 0), some (KindTx.mk 1 0)] wrapHash emptyHeap).2 =
        .error (.err "payload of another kind") := by
  refine ⟨?_, ?_, ?_, rfl, ?_⟩
  · intro p
    simp [Payload.Equals]
  · intro b; exact ⟨_, rfl⟩
  · intro p; exact ⟨_, rfl⟩
  · intro fuel
    rfl

/-- C8, amended: for every payload list `pp` and index `i` with `pp[i] = cand`,
digests that do not fail, `Equals` reflexive, and no comparison
`pp[j].Equals(pp[i])` with `j < i` returning an error: `NewTree(pp)` returns a
tree on which `VerifyPayload(pp[i])` returns `(true, nil)`. -/
theorem C8_verifyPayload_member [Payload P] (hf : HashFunc) (pp : List P) (i : Nat)
    (cand : P) (hi : pp[i]? = some cand)
    (hcalc : ∀ p ∈ pp, ∃ d, Payload.CalculateHash p = .ok d)
    (hhash : ∀ b, ∃ d, hf.Calculate b = .ok d)
    (hrefl : ∀ p : P, Payload.Equals p p = .ok true)
    (hno : ∀ j q, j < i → pp[j]? = some q → ∃ b, Payload.Equals q cand = .ok b)
    (fuel : Nat) (hfuel : pp.length + 1 ≤ fuel) (h0 : Heap P) :
    ∃ m h, NewTree fuel (pp.map some) hf h0 = (.ok m, h) ∧
      ∀ fuel1, h.nodes.length ≤ fuel1 → VerifyPayload fuel1 m cand h = .ok true := by
  have hpp : pp ≠ [] := by
    intro q
    subst q
    simp at hi
  obtain ⟨m, h, hnew⟩ := NewTree_total hf pp hpp hcalc hhash fuel hfuel h0
  obtain ⟨ds, r, F, _⟩ := NewTree_ok hpp hnew
  obtain ⟨tr, rn, htr, hhf, _, _, hrn, _⟩ := F.tree
  refine ⟨m, h, hnew, ?_⟩
  intro fuel1 hfuel1
  have hn : ∀ c, h.nodes[c]? =
      (h.nodes[c]?).map (fun nd => if c = r then { nd with Hash := rn.Hash } else nd) := by
    intro c
    cases hq : h.nodes[c]? with
    | none => rfl
    | some nd =>
      by_cases hc : c = r
      · subst hc
        rw [hq] at hrn
        cases hrn
        simp
      · simp [hc]
  have := F.verifyPayload_match htr hrn hn htr rfl hhf hi (hrefl cand) hno fuel1 hfuel1
  simpa using this

/-- C8, amended, at a concrete input: five payloads, the last one. -/
theorem C8_verifyPayload_member_witness :
    fiveTx[4]? = some (Tx.mk 5) ∧
    (∀ p ∈ fiveTx, ∃ d, Payload.CalculateHash p = .ok d) ∧
    (∀ b, ∃ d, wrapHash.Calculate b = .ok d) ∧
    (∀ p : Tx, Payload.Equals p p = .ok true) ∧
    (∀ j q, j < 4 → fiveTx[j]? = some q → ∃ b, Payload.Equals q (Tx.mk 5) = .ok b) ∧
    fiveTx.length + 1 ≤ 6 ∧
    ∃ m h, NewTree 6 (fiveTx.map some) wrapHash emptyHeap = (.ok m, h) ∧
      ∀ fuel1, h.nodes.length ≤ fuel1 → VerifyPayload fuel1 m (Tx.mk 5) h = .ok true :=
  ⟨rfl, fun p _ => ⟨_, rfl⟩, fun b => ⟨_, rfl⟩, fun p => by simp [Payload.Equals],
    fun j q _ _ => ⟨_, rfl⟩, by decide,
    C8_verifyPayload_member wrapHash fiveTx 4 (Tx.mk 5) rfl (fun p _ => ⟨_, rfl⟩)
      (fun b => ⟨_, rfl⟩) (fun p => by simp [Payload.Equals]) (fun j q _ _ => ⟨_, rfl⟩)
      6 (by decide) emptyHeap⟩

/-- C9: on every tree state, for every candidate on which `Equals` of every
leaf's payload returns `(false, nil)`, `VerifyPayload` returns `(false, nil)` and
`GetMerklePath` returns no siblings, no directions and a nil error, whatever
the fuel. -/
theorem C9_non_membership [Payload P] (h : Heap P) (m : Ptr) (tr : MerkleTree) (cand : P)
    (htr : h.tree m = .ok tr)
    (hne : ∀ l ∈ tr.Leafs, ∃ n p, h.node l = .ok n ∧ n.Payload = some p ∧
      Payload.Equals p cand = .ok false)
    (fuel : Nat) :
    VerifyPayload fuel m cand h = .ok false ∧ GetMerklePath fuel m cand h = .ok ([], []) := by
  refine ⟨?_, ?_⟩
  · unfold VerifyPayload
    simp only [htr, bind, Except.bind, verifyPayloadScan_eq]
    exact scanLeafs_none h cand _ _ tr.Leafs hne
  · unfold GetMerklePath
    simp only [htr, bind, Except.bind, merklePathScan_eq]
    exact scanLeafs_none h cand _ _ tr.Leafs hne

/-- C9 at a concrete input: the tree of three payloads and a payload not among them. -/
theorem C9_non_membership_witness :
    builtThree.2.tree (some 0) =
      .ok ⟨some 6, [some 0, some 1, some 2, some 3], [0, 0, 1, 2, 0, 3, 3], wrapHash⟩ ∧
    (∀ l ∈ [some 0, some 1, some 2, some (3 : Nat)], ∃ n p, builtThree.2.node l = .ok n ∧
      n.Payload = some p ∧ Payload.Equals p (Tx.mk 9) = .ok false) ∧
    VerifyPayload 0 (some 0) (Tx.mk 9) builtThree.2 = .ok false ∧
    GetMerklePath 0 (some 0) (Tx.mk 9) builtThree.2 = .ok ([], []) :=
  have hl : ∀ l ∈ [some 0, some 1, some 2, some (3 : Nat)], ∃ n p,
      builtThree.2.node l = .ok n ∧ n.Payload = some p ∧
      Payload.Equals p (Tx.mk 9) = .ok false := by
    intro l hl
    simp only [List.mem_cons, List.mem_singleton, List.not_mem_nil, or_false] at hl
    rcases hl with rfl | rfl | rfl | rfl
    · exact ⟨_, _, rfl, rfl, rfl⟩
    · exact ⟨_, _, rfl, rfl, rfl⟩
    · exact ⟨_, _, rfl, rfl, rfl⟩
    · exact ⟨_, _, rfl, rfl, rfl⟩
  ⟨rfl, hl, C9_non_membership builtThree.2 (some 0) _ (Tx.mk 9) rfl hl 0⟩

theorem setMerkleRootHash_tree {h : Heap P} {m : Ptr} {tr : MerkleTree}
    (htr : h.tree m = .ok tr) (b : Bytes) :
    (h.setMerkleRootHash m b).tree m = .ok { tr with MerkleRootHash := b } := by
  obtain ⟨a, rfl, ha⟩ := tree_ok_elim htr
  rw [tree_some_iff, setMerkleRootHash_lookup, ha]
  simp

/-- C10 as stated fails: on the tree of two payloads of different kinds, whose
`Equals` returns an error on a payload of another kind, after `Root.Hash` and
`MerkleRootHash` are overwritten with `[123]` (not the built root digest),
`VerifyPayload(pp[1])` returns the comparison error of the first leaf, for
every fuel, not `(false, nil)`. -/
theorem C10_counterexample :
    builtKinds.1 = .ok (some 0) ∧ kindTxs[1]? = some (KindTx.mk 1 0) ∧
    (builtKinds.2.tree (some 0)).map (fun t => (t.Root, t.MerkleRootHash)) =
      .ok (some 2, [0, 0, 0, 1, 0]) ∧
    ([123] : Bytes) ≠ [0, 0, 0, 1, 0] ∧
    ∀ fuel, VerifyPayload fuel (some 0) (KindTx.mk 1 0)
      ((builtKinds.2.setHash (some 2) [123]).setMerkleRootHash (some 0) [123]) =
        .error (.err "payload of another kind") :=
  ⟨rfl, rfl, rfl, by decide, fun _ => rfl⟩

/-- A scan ends with the error of the first comparison that fails, when the
comparisons before it return false. -/
theorem scanLeafs_error_at {α : Type} [Payload P] (h : Heap P) (payload : P)
    (found : Ptr → Node P → Res α) (notFound : Res α) :
    ∀ (j : Nat) (ls : List Ptr) (x : Ptr) (n : Node P) (p : P) (e : Error),
      (∀ k, k < j → ∃ y ny q, ls[k]? = some y ∧ h.node y = .ok ny ∧ ny.Payload = some q ∧
        Payload.Equals q payload = .ok false) →
      ls[j]? = some x → h.node x = .ok n → n.Payload = some p →
      Payload.Equals p payload = .error e →
      scanLeafs h payload found notFound ls = .error (.err e) := by
  intro j
  induction j with
  | zero =>
    intro ls x n p e _ hx hn hp he
    match ls, hx with
    | l :: ls, hx =>
      simp at hx
      subst hx
      simp only [scanLeafs, hn, payloadOf, hp, he, liftE, bind, Except.bind]
  | succ j ih =>
    intro ls x n p e hbefore hx hn hp he
    match ls, hx, hbefore with
    | l :: ls, hx, hbefore =>
      obtain ⟨y, ny, q, hy, hny, hq, heq⟩ := hbefore 0 (by omega)
      simp at hy
      subst hy
      simp only [scanLeafs, hny, payloadOf, hq, heq, liftE, bind, Except.bind]
      refine ih ls x n p e ?_ (by simpa using hx) hn hp he
      intro k hk
      obtain ⟨y1, ny1, q1, hy1, r1⟩ := hbefore (k + 1) (by omega)
      exact ⟨y1, ny1, q1, by simpa using hy1, r1⟩

/-- Comparisons run in order until one succeeds: when none that is reached fails,
either one succeeds after comparisons that all return false, or all return false. -/
theorem reached_cases {Q : Type} (eq : Q → Except Error Bool) (qs : List Q)
    (hno : ∀ (j : Nat) (q : Q), qs[j]? = some q →
      (∀ k r, k < j → qs[k]? = some r → eq r = .ok false) → ∃ b, eq q = .ok b) :
    (∃ (j : Nat) (q : Q), qs[j]? = some q ∧ eq q = .ok true ∧
      ∀ k r, k < j → qs[k]? = some r → eq r = .ok false) ∨
    (∀ q ∈ qs, eq q = .ok false) := by
  have key : ∀ n : Nat, (∀ (k : Nat) (r : Q), k < n → qs[k]? = some r → eq r = .ok false) ∨
      (∃ (j : Nat) (q : Q), qs[j]? = some q ∧ eq q = .ok true ∧
        ∀ k r, k < j → qs[k]? = some r → eq r = .ok false) := by
    intro n
    induction n with
    | zero => exact Or.inl (fun k r hk => absurd hk (Nat.not_lt_zero k))
    | succ n ih =>
      rcases ih with hall | hex
      · cases hq : qs[n]? with
        | none =>
          refine Or.inl ?_
          intro k r hk hr
          rcases Nat.lt_succ_iff_lt_or_eq.1 hk with hk | hk
          · exact hall k r hk hr
          · subst hk
            rw [hq] at hr
            cases hr
        | some q =>
          obtain ⟨b, hb⟩ := hno n q hq hall
          cases b with
          | true => exact Or.inr ⟨n, q, hq, hb, hall⟩
          | false =>
            refine Or.inl ?_
            intro k r hk hr
            rcases Nat.lt_succ_iff_lt_or_eq.1 hk with hk | hk
            · exact hall k r hk hr
            · subst hk
              rw [hq] at hr
              cases hr
              exact hb
      · exact Or.inr hex
  rcases key qs.length with hall | hex
  · refine Or.inr ?_
    intro q hq
    obtain ⟨k, hk, rfl⟩ := List.mem_iff_getElem.1 hq
    exact hall k _ hk (List.getElem?_eq_getElem hk)
  · exact Or.inl hex

/-- The scan over the leaves of a fresh tree ends with the error of the first
comparison that fails, when the payloads before it compare unequal.  The heap
`h1` that is scanned may differ from the fresh heap `h` outside the leaves. -/
theorem FreshTree.scan_error [Payload P] {hf : HashFunc} {pp : List P} {ds : List Bytes}
    {N r : Nat} {m : Ptr} {h h1 : Heap P} (F : FreshTree hf pp ds N r m h) {tr : MerkleTree}
    (htr : h.tree m = .ok tr)
    (hsame : ∀ (a : Nat) (n : Node P), h.nodes[a]? = some n → n.isLeaf = true →
      h1.nodes[a]? = some n)
    {j : Nat} {q cand : P} {e : Error} (hq : pp[j]? = some q)
    (he : Payload.Equals q cand = .error e)
    (hbefore : ∀ k r, k < j → pp[k]? = some r → Payload.Equals r cand = .ok false)
    {α : Type} (found : Ptr → Node P → Res α) (notFound : Res α) :
    scanLeafs h1 cand found notFound tr.Leafs = .error (.err e) := by
  have leafAt : ∀ k p, pp[k]? = some p → ∃ n : Node P, tr.Leafs[k]? = some (some (N + k)) ∧
      h.nodes[N + k]? = some n ∧ n.isLeaf = true ∧ n.Payload = some p := by
    intro k p hk
    obtain ⟨d, _, hc, hll⟩ := leafLayer_get_real m F.nodes.digests hk
    obtain ⟨hL, n1, hn1, e1⟩ := F.leaf htr hll
    refine ⟨n1, hL, hn1, ?_, ?_⟩
    · rw [e1]; rfl
    · rw [e1]; rfl
  obtain ⟨n, hL, hn, hleaf, hpay⟩ := leafAt j q hq
  refine scanLeafs_error_at h1 cand found notFound j tr.Leafs (some (N + j)) n q e ?_ hL
    ((node_some_iff h1 _ _).2 (hsame _ n hn hleaf)) hpay he
  intro k hk
  have hkl : k < pp.length := by
    have : j < pp.length := by
      by_contra hc1
      rw [List.getElem?_eq_none (by omega)] at hq
      cases hq
    omega
  obtain ⟨nk, hLk, hnk, hleafk, hpayk⟩ := leafAt k pp[k] (List.getElem?_eq_getElem hkl)
  exact ⟨some (N + k), nk, pp[k], hLk, (node_some_iff h1 _ _).2 (hsame _ nk hnk hleafk), hpayk,
    hbefore k pp[k] hk (List.getElem?_eq_getElem hkl)⟩

/-- C10, amended: on a tree freshly built from a payload list `pp`, after
`Root.Hash` and `MerkleRootHash` are both overwritten with a byte string `b`
different from the built root digest, `VerifyPayload(pp[i])` returns
`(false, nil)` exactly when no comparison that the leaf scan reaches returns an
error: `pp[j].Equals(pp[i])` returns no error whenever `pp[k].Equals(pp[i])`
returns `(false, nil)` for every `k < j`.  Comparisons after the first match are
never made and are not constrained. -/
theorem C10_verifyPayload_compromised_root [Payload P] (hf : HashFunc) (pp : List P) (i : Nat)
    (cand : P) (hi : pp[i]? = some cand) (fuel : Nat) (h0 h : Heap P) (m : Ptr)
    (hnew : NewTree fuel (pp.map some) hf h0 = (.ok m, h))
    (tr : MerkleTree) (htr : h.tree m = .ok tr) (b : Bytes) (hb : b ≠ tr.MerkleRootHash)
    (fuel1 : Nat) (hfuel1 : h.nodes.length ≤ fuel1) :
    VerifyPayload fuel1 m cand ((h.setHash tr.Root b).setMerkleRootHash m b) = .ok false ↔
      ∀ (j : Nat) (q : P), pp[j]? = some q →
        (∀ k r, k < j → pp[k]? = some r → Payload.Equals r cand = .ok false) →
        ∃ v, Payload.Equals q cand = .ok v := by
  have hpp : pp ≠ [] := by
    intro q
    subst q
    simp at hi
  obtain ⟨ds, r, F, _⟩ := NewTree_ok hpp hnew
  obtain ⟨tr0, rn, htr0, hhf, hroot, _, hrn, hm⟩ := F.tree
  rw [htr] at htr0
  cases htr0
  have hn : ∀ c, ((h.setHash tr.Root b).setMerkleRootHash m b).nodes[c]? =
      (h.nodes[c]?).map (fun nd => if c = r then { nd with Hash := b } else nd) := by
    intro c
    rw [setMerkleRootHash_nodes, hroot]
    exact setHash_root h r b c
  have htr1 : ((h.setHash tr.Root b).setMerkleRootHash m b).tree m =
      .ok { tr with MerkleRootHash := b } :=
    setMerkleRootHash_tree (by rw [tree_congr (setHash_trees h tr.Root b)]; exact htr) b
  have hsame : ∀ (a : Nat) (n : Node P), h.nodes[a]? = some n → n.isLeaf = true →
      ((h.setHash tr.Root b).setMerkleRootHash m b).nodes[a]? = some n := by
    intro a n hna hl
    have har : a ≠ r := by
      intro q
      subst q
      obtain ⟨rn1, hrn1, _, _, hrl1⟩ := F.nodes.rootNode
      rw [hna] at hrn1
      cases hrn1
      rw [hl] at hrl1
      cases hrl1
    rw [hn a, hna]
    simp [har]
  constructor
  · intro hv j q hq hbefore
    cases he : Payload.Equals q cand with
    | ok v => exact ⟨v, rfl⟩
    | error e =>
      have hs := F.scan_error htr hsame hq he hbefore
        (fun _ leaf => verifyParents ((h.setHash tr.Root b).setMerkleRootHash m b)
          tr.HashFunc fuel1 leaf.Parent) (.ok false)
      unfold VerifyPayload at hv
      simp only [htr1, bind, Except.bind, verifyPayloadScan_eq] at hv
      rw [hs] at hv
      cases hv
  · intro hno
    rcases reached_cases (fun q => Payload.Equals q cand) pp hno with
      ⟨j, q, hq, hqe, hbefore⟩ | hall
    · have := F.verifyPayload_match htr hrn hn htr1 rfl hhf hq hqe
        (fun k q1 hk hq1 => ⟨false, hbefore k q1 hk hq1⟩) fuel1 hfuel1
      rw [this]
      have hne : ¬ (b = rn.Hash) := by rw [← hm]; exact hb
      simp [hne]
    · unfold VerifyPayload
      simp only [htr1, bind, Except.bind, verifyPayloadScan_eq]
      exact F.scan_none htr hsame hall _ _

/-- C10, amended, at a concrete input: two payloads of different kinds and the
first of them, root digest overwritten with `[123]`.  The comparison of the
second payload with the first would fail, but the scan stops at the first leaf. -/
theorem C10_verifyPayload_compromised_root_witness :
    kindTxs[0]? = some (KindTx.mk 0 0) ∧
    NewTree 3 (kindTxs.map some) wrapHash emptyHeap = (.ok (some 0), builtKinds.2) ∧
    builtKinds.2.tree (some 0) =
      .ok ⟨some 2, [some 0, some 1], [0, 0, 0, 1, 0], wrapHash⟩ ∧
    ([123] : Bytes) ≠ [0, 0, 0, 1, 0] ∧
    builtKinds.2.nodes.length ≤ 3 ∧
    Payload.Equals (KindTx.mk 1 0) (KindTx.mk 0 0) = .error "payload of another kind" ∧
    (∀ (j : Nat) (q : KindTx), kindTxs[j]? = some q →
      (∀ k r, k < j → kindTxs[k]? = some r →
        Payload.Equals r (KindTx.mk 0 0) = .ok false) →
      ∃ v, Payload.Equals q (KindTx.mk 0 0) = .ok v) ∧
    VerifyPayload 3 (some 0) (KindTx.mk 0 0)
      ((builtKinds.2.setHash (some 2) [123]).setMerkleRootHash (some 0) [123]) = .ok false :=
  have hno : ∀ (j : Nat) (q : KindTx), kindTxs[j]? = some q →
      (∀ k r, k < j → kindTxs[k]? = some r →
        Payload.Equals r (KindTx.mk 0 0) = .ok false) →
      ∃ v, Payload.Equals q (KindTx.mk 0 0) = .ok v := by
    intro j q hq hbefore
    match j, hq, hbefore with
    | 0, hq, _ =>
      cases hq
      exact ⟨true, rfl⟩
    | j + 1, _, hbefore =>
      have h0 := hbefore 0 (KindTx.mk 0 0) (by omega) rfl
      cases h0
  ⟨rfl, by rfl, rfl, by decide, by decide, rfl, hno,
    (C10_verifyPayload_compromised_root wrapHash kindTxs 0 (KindTx.mk 0 0) rfl 3 emptyHeap
      builtKinds.2 (some 0) (by rfl)
      ⟨some 2, [some 0, some 1], [0, 0, 0, 1, 0], wrapHash⟩ rfl [123]
      (by decide) 3 (by decide)).2 hno⟩

/-! ## The leaf scan on any heap -/

theorem scanLeafs_append_false {α : Type} [Payload P] (h : Heap P) (payload : P)
    (found : Ptr → Node P → Res α) (notFound : Res α) :
    ∀ (pre rest : List Ptr),
      (∀ x ∈ pre, ∃ nx p, h.node x = .ok nx ∧ nx.Payload = some p ∧
        Payload.Equals p payload = .ok false) →
      scanLeafs h payload found notFound (pre ++ rest) =
        scanLeafs h payload found notFound rest := by
  intro pre
  induction pre with
  | nil => intro rest _; rfl
  | cons x pre ih =>
    intro rest hall
    obtain ⟨n, p, hn, hp, he⟩ := hall x (by simp)
    simp only [List.cons_append, scanLeafs, hn, payloadOf, hp, he, liftE, bind, Except.bind]
    exact ih rest (fun y hy => hall y (by simp [hy]))

theorem scanLeafs_firstMatch {α : Type} [Payload P] {h : Heap P} {cand : P}
    {leafs : List Ptr} {l : Ptr} {leaf : Node P} (hf : FirstMatch h cand leafs l leaf)
    (found : Ptr → Node P → Res α) (notFound : Res α) :
    scanLeafs h cand found notFound leafs = found l leaf := by
  obtain ⟨pre, post, q, rfl, hpre, hn, hp, he⟩ := hf
  rw [scanLeafs_append_false h cand found notFound pre _ hpre]
  simp only [scanLeafs, hn, payloadOf, hp, he, liftE, bind, Except.bind]
  rfl

theorem scanLeafs_fails {α : Type} [Payload P] {h : Heap P} {cand : P}
    {leafs : List Ptr} {e : Error} (hf : ScanFails h cand leafs e)
    (found : Ptr → Node P → Res α) (notFound : Res α) :
    scanLeafs h cand found notFound leafs = .error (.err e) := by
  obtain ⟨pre, l, post, n, q, rfl, hpre, hn, hp, he⟩ := hf
  rw [scanLeafs_append_false h cand found notFound pre _ hpre]
  simp only [scanLeafs, hn, payloadOf, hp, he, liftE, bind, Except.bind]

theorem VerifyPayload_scan [Payload P] {h : Heap P} {m : Ptr} {tr : MerkleTree}
    (htr : h.tree m = .ok tr) (fuel : Nat) (cand : P) :
    VerifyPayload fuel m cand h =
      scanLeafs h cand (fun _ leaf => verifyParents h tr.HashFunc fuel leaf.Parent)
        (.ok false) tr.Leafs := by
  unfold VerifyPayload
  simp only [htr, bind, Except.bind, verifyPayloadScan_eq]

theorem GetMerklePath_scan [Payload P] {h : Heap P} {m : Ptr} {tr : MerkleTree}
    (htr : h.tree m = .ok tr) (fuel : Nat) (cand : P) :
    GetMerklePath fuel m cand h =
      scanLeafs h cand (fun l leaf => merklePathLoop h fuel l leaf.Parent [] [])
        (.ok ([], [])) tr.Leafs := by
  unfold GetMerklePath
  simp only [htr, bind, Except.bind, merklePathScan_eq]

/-! ## The hop check of `VerifyPayload` on any heap -/

theorem verifyParents_succ [Payload P] (h : Heap P) (hf : HashFunc) (fuel a : Nat) :
    verifyParents h hf (fuel + 1) (some a) =
      (do
        let n ← h.node (some a)
        let d ← hopDigest h hf n
        if d ≠ n.Hash then .ok false else verifyParents h hf fuel n.Parent) := by
  simp only [verifyParents, hopDigest, bind, Except.bind]
  cases h.node (some a) with
  | error e => rfl
  | ok n =>
    simp only []
    cases CalculateNodeHash h n.Right with
    | error e => rfl
    | ok r =>
      simp only []
      cases CalculateNodeHash h n.Left with
      | error e => rfl
      | ok l => rfl

theorem verifyParents_pass [Payload P] {h : Heap P} (hf : HashFunc) {p q : Ptr}
    {ns : List (Node P)} (hp : AncestorPath h p ns q)
    (hall : ∀ n ∈ ns, hopDigest h hf n = .ok n.Hash) (fuel : Nat) :
    verifyParents h hf (fuel + ns.length) p = verifyParents h hf fuel q := by
  induction hp with
  | done p => rfl
  | @step a n ns q hn _ ih =>
    have e : fuel + (n :: ns).length = (fuel + ns.length) + 1 := by simp [Nat.add_assoc]
    rw [e, verifyParents_succ, hn]
    simp only [bind, Except.bind, hall n (by simp)]
    simp only [ne_eq, not_true_eq_false, if_false]
    exact ih (fun x hx => hall x (by simp [hx]))

theorem verifyParents_true [Payload P] {h : Heap P} (hf : HashFunc) :
    ∀ (fuel : Nat) (p : Ptr), verifyParents h hf fuel p = .ok true →
      ∃ ns, AncestorPath h p ns none ∧ ∀ n ∈ ns, hopDigest h hf n = .ok n.Hash := by
  intro fuel
  induction fuel with
  | zero => intro p hp; cases hp
  | succ fuel ih =>
    intro p hp
    cases p with
    | none => exact ⟨[], .done none, fun n hn => absurd hn (List.not_mem_nil n)⟩
    | some a =>
      rw [verifyParents_succ] at hp
      cases hn : h.node (some a) with
      | error e => rw [hn] at hp; cases hp
      | ok n =>
        rw [hn] at hp
        simp only [bind, Except.bind] at hp
        cases hd : hopDigest h hf n with
        | error e => rw [hd] at hp; cases hp
        | ok d =>
          rw [hd] at hp
          simp only [] at hp
          by_cases e : d = n.Hash
          · simp only [e, ne_eq, not_true_eq_false, if_false] at hp
            obtain ⟨ns, hpath, hall⟩ := ih n.Parent hp
            refine ⟨n :: ns, .step hn hpath, ?_⟩
            intro x hx
            rcases List.mem_cons.1 hx with rfl | hx
            · rw [hd, e]
            · exact hall x hx
          · simp only [ne_eq, e, not_false_eq_true, if_true] at hp
            cases hp

/-- The hop check that `VerifyPayload` runs: on every tree state, for a candidate
whose first matching leaf is `leaf` (the leaves before it comparing unequal
without error), `VerifyPayload` checks at each ancestor `a` that
`H(a.Left.CalculateNodeHash() ++ a.Right.CalculateNodeHash())` equals the stored
`a.Hash`: it returns true when every ancestor on the parent chain up to the root
passes, it returns false at the first ancestor whose recomputed digest differs,
and it returns true only if every ancestor on the chain passes. -/
theorem verifyPayload_hop_rule [Payload P] (h : Heap P) (m : Ptr) (tr : MerkleTree)
    (cand : P) (l : Ptr) (leaf : Node P) (htr : h.tree m = .ok tr)
    (hfirst : FirstMatch h cand tr.Leafs l leaf) :
    (∀ ns, AncestorPath h leaf.Parent ns none →
      (∀ n ∈ ns, hopDigest h tr.HashFunc n = .ok n.Hash) →
      ∀ fuel, ns.length < fuel → VerifyPayload fuel m cand h = .ok true) ∧
    (∀ pre a n d, AncestorPath h leaf.Parent pre (some a) → h.node (some a) = .ok n →
      (∀ x ∈ pre, hopDigest h tr.HashFunc x = .ok x.Hash) →
      hopDigest h tr.HashFunc n = .ok d → d ≠ n.Hash →
      ∀ fuel, pre.length < fuel → VerifyPayload fuel m cand h = .ok false) ∧
    (∀ fuel, VerifyPayload fuel m cand h = .ok true →
      ∃ ns, AncestorPath h leaf.Parent ns none ∧
        ∀ n ∈ ns, hopDigest h tr.HashFunc n = .ok n.Hash) := by
  have hv : ∀ fuel, VerifyPayload fuel m cand h =
      verifyParents h tr.HashFunc fuel leaf.Parent := by
    intro fuel
    rw [VerifyPayload_scan htr, scanLeafs_firstMatch hfirst]
  refine ⟨?_, ?_, ?_⟩
  · intro ns hpath hall fuel hfuel
    obtain ⟨k, rfl⟩ : ∃ k, fuel = (k + 1) + ns.length := ⟨fuel - ns.length - 1, by omega⟩
    rw [hv, verifyParents_pass tr.HashFunc hpath hall]
    rfl
  · intro pre a n d hpath hn hall hd hne fuel hfuel
    obtain ⟨k, rfl⟩ : ∃ k, fuel = (k + 1) + pre.length := ⟨fuel - pre.length - 1, by omega⟩
    rw [hv, verifyParents_pass tr.HashFunc hpath hall, verifyParents_succ, hn]
    simp only [bind, Except.bind, hd, ne_eq, hne, not_false_eq_true, if_true]
  · intro fuel hfuel
    rw [hv] at hfuel
    exact verifyParents_true tr.HashFunc fuel leaf.Parent hfuel

/-- The hop check at a concrete input: the tree of three payloads and its first
payload, whose two ancestors both pass. -/
theorem verifyPayload_hop_rule_example :
    builtThree.2.tree (some 0) =
      .ok ⟨some 6, [some 0, some 1, some 2, some 3], [0, 0, 1, 2, 0, 3, 3], wrapHash⟩ ∧
    FirstMatch builtThree.2 (Tx.mk 1) [some 0, some 1, some 2, some 3] (some 0)
      ⟨some 0, some 4, none, none, true, false, [1], some (Tx.mk 1)⟩ ∧
    ∃ ns, AncestorPath builtThree.2 (some 4) ns none ∧
      ∀ n ∈ ns, hopDigest builtThree.2 wrapHash n = .ok n.Hash :=
  have hm : FirstMatch builtThree.2 (Tx.mk 1) [some 0, some 1, some 2, some 3] (some 0)
      ⟨some 0, some 4, none, none, true, false, [1], some (Tx.mk 1)⟩ :=
    ⟨[], [some 1, some 2, some 3], Tx.mk 1, rfl,
      fun x hx => absurd hx (List.not_mem_nil x), rfl, rfl, rfl⟩
  ⟨rfl, hm,
    (verifyPayload_hop_rule builtThree.2 (some 0)
      ⟨some 6, [some 0, some 1, some 2, some 3], [0, 0, 1, 2, 0, 3, 3], wrapHash⟩
      (Tx.mk 1) (some 0) ⟨some 0, some 4, none, none, true, false, [1], some (Tx.mk 1)⟩
      rfl hm).2.2 7 rfl⟩

/-- C11, the divergence: in the tree built from the payloads 1, 2, 3 the stored
`Hash` of the internal node above the first two leaves (`Root.Left`) is
overwritten with `[9]`; `MerkleRootHash` and the root keep the built digest
`[0,0,1,2,0,3,3]`.  The ancestors of the leaf of payload 3 are its parent and
the root.  At the root, `H(Left.Hash ++ Right.Hash)` from the stored digests of
the children is `[0,9,0,3,3]`, not the stored `[0,0,1,2,0,3,3]`, and the replay
of the Merkle path of payload 3 from its digest gives `[0,9,0,3,3]`, not
`MerkleRootHash`; yet `VerifyPayload` of payload 3 returns `(true, nil)`.  The
same overwrite is caught for payload 1, a leaf under the overwritten node:
`VerifyPayload` of payload 1 returns `(false, nil)`. -/
theorem C11_verifyPayload_doc_divergence :
    builtThree.1 = .ok (some 0) ∧
    ((builtThree.2.setHash (some 4) [9]).tree (some 0)).map
      (fun t => (t.Root, t.Leafs, t.MerkleRootHash)) =
        .ok (some 6, [some 0, some 1, some 2, some 3], [0, 0, 1, 2, 0, 3, 3]) ∧
    ((builtThree.2.setHash (some 4) [9]).node (some 2)).map
      (fun n => (n.Payload, n.Parent)) = .ok (some (Tx.mk 3), some 5) ∧
    ((builtThree.2.setHash (some 4) [9]).node (some 5)).map
      (fun n => n.Parent) = .ok (some 6) ∧
    ((builtThree.2.setHash (some 4) [9]).node (some 6)).map
      (fun n => (n.Left, n.Right, n.Hash, n.Parent)) =
        .ok (some 4, some 5, [0, 0, 1, 2, 0, 3, 3], none) ∧
    ((builtThree.2.setHash (some 4) [9]).node (some 6) >>=
      storedHopDigest (builtThree.2.setHash (some 4) [9]) wrapHash) = .ok [0, 9, 0, 3, 3] ∧
    GetMerklePath 7 (some 0) (Tx.mk 3) (builtThree.2.setHash (some 4) [9]) =
      .ok ([[3], [9]], [1, 0]) ∧
    replayPath wrapHash [3] [[3], [9]] [1, 0] = .ok [0, 9, 0, 3, 3] ∧
    ([0, 9, 0, 3, 3] : Bytes) ≠ [0, 0, 1, 2, 0, 3, 3] ∧
    VerifyPayload 7 (some 0) (Tx.mk 3) (builtThree.2.setHash (some 4) [9]) = .ok true ∧
    VerifyPayload 7 (some 0) (Tx.mk 1) (builtThree.2.setHash (some 4) [9]) = .ok false :=
  ⟨rfl, rfl, rfl, rfl, rfl, rfl, rfl, rfl, by decide, rfl, rfl⟩

/-! ## The cached root digest and `VerifyPayload` -/

theorem RootHashOnly.tampered {h h1 : Heap P} (r : RootHashOnly h h1) : HashTampered h h1 := by
  refine ⟨by rw [r.nodes], ?_, r.treesLen, r.tree⟩
  intro a n hn
  exact ⟨n, by rw [r.nodes]; exact hn, rfl⟩

theorem RootHashOnly.of_set (h : Heap P) (m : Ptr) (b : Bytes) :
    RootHashOnly h (h.setMerkleRootHash m b) :=
  ⟨setMerkleRootHash_nodes h m b, setMerkleRootHash_length h m b,
    (HashTampered.setMerkleRootHash h m b).tree⟩

theorem RootHashOnly.node_eq {h h1 : Heap P} (r : RootHashOnly h h1) (x : Ptr) :
    h1.node x = h.node x := by
  unfold Heap.node
  rw [r.nodes]

theorem RootHashOnly.calculateNodeHash [Payload P] {h h1 : Heap P} (r : RootHashOnly h h1)
    (x : Ptr) : CalculateNodeHash h1 x = CalculateNodeHash h x := by
  unfold CalculateNodeHash
  simp only [r.node_eq]
  cases h.node x with
  | error e => rfl
  | ok node =>
    simp only [bind, Except.bind]
    split
    · rfl
    · exact tree_bind_tampered r.tampered node.Tree
        (fun t => do
          let l ← h.node node.Left
          let r ← h.node node.Right
          liftE (t.HashFunc.Calculate (l.Hash ++ r.Hash)))
        (fun t t1 e _ _ => by simp only [e])

theorem RootHashOnly.verifyParents [Payload P] {h h1 : Heap P} (r : RootHashOnly h h1)
    (hf : HashFunc) : ∀ (fuel : Nat) (p : Ptr),
    verifyParents h1 hf fuel p = verifyParents h hf fuel p := by
  intro fuel
  induction fuel with
  | zero => intro p; rfl
  | succ fuel ih =>
    intro p
    cases p with
    | none => rfl
    | some a =>
      simp only [merkletree.verifyParents, r.node_eq, r.calculateNodeHash, ih]

theorem RootHashOnly.verifyPayload [Payload P] {h h1 : Heap P} (r : RootHashOnly h h1)
    (fuel : Nat) (m : Ptr) (cand : P) :
    VerifyPayload fuel m cand h1 = VerifyPayload fuel m cand h := by
  have hscan : ∀ (hf : HashFunc) (ls : List Ptr),
      verifyPayloadScan h1 hf fuel cand ls = verifyPayloadScan h hf fuel cand ls := by
    intro hf ls
    induction ls with
    | nil => rfl
    | cons l ls ih => simp only [verifyPayloadScan, r.node_eq, r.verifyParents, ih]
  unfold VerifyPayload
  simp only [hscan]
  exact tree_bind_tampered r.tampered m
    (fun t => verifyPayloadScan h t.HashFunc fuel cand t.Leafs)
    (fun t t1 e1 e2 _ => by simp only [e1, e2])

/-- C12: `VerifyPayload` never consults the cached root digest: on two states that
differ only in the `MerkleRootHash` of the trees it returns the same result, for
every tree, candidate payload and fuel; and in the tree built from three payloads
whose `MerkleRootHash` was overwritten, `VerifyPayload` returns true for a member
while `VerifyTree` returns false. -/
theorem C12_verifyPayload_ignores_cached_root [Payload P] (h h1 : Heap P)
    (hdiff : RootHashOnly h h1) :
    (∀ (fuel : Nat) (m : Ptr) (cand : P),
      VerifyPayload fuel m cand h1 = VerifyPayload fuel m cand h) ∧
    VerifyPayload 7 (some 0) (Tx.mk 1) (builtThree.2.setMerkleRootHash (some 0) [123]) =
      .ok true ∧
    VerifyTree 7 (some 0) (builtThree.2.setMerkleRootHash (some 0) [123]) = .ok false :=
  ⟨fun fuel m cand => hdiff.verifyPayload fuel m cand, rfl, rfl⟩

/-- C12 at a concrete input: the tree of three payloads before and after its
`MerkleRootHash` is overwritten. -/
theorem C12_verifyPayload_ignores_cached_root_witness :
    RootHashOnly builtThree.2 (builtThree.2.setMerkleRootHash (some 0) [123]) ∧
    VerifyPayload 7 (some 0) (Tx.mk 2) (builtThree.2.setMerkleRootHash (some 0) [123]) =
      VerifyPayload 7 (some 0) (Tx.mk 2) builtThree.2 :=
  ⟨RootHashOnly.of_set builtThree.2 (some 0) [123],
    (C12_verifyPayload_ignores_cached_root builtThree.2
      (builtThree.2.setMerkleRootHash (some 0) [123])
      (RootHashOnly.of_set builtThree.2 (some 0) [123])).1 7 (some 0) (Tx.mk 2)⟩

/-- C13, the divergence: in the tree built from the payloads 1, 2, 3 whose
`MerkleRootHash` was then set to `[123]`, the payload 1 is found, the replay of
its Merkle path from its digest gives `[0,0,1,2,0,3,3]`, which is not the
expected root `[123]`, and `VerifyPayload` returns `(true, nil)`. -/
theorem C13_verifyPayload_doc_divergence :
    builtThree.1 = .ok (some 0) ∧
    ((builtThree.2.setMerkleRootHash (some 0) [123]).tree (some 0)).map
      (fun t => t.MerkleRootHash) = .ok [123] ∧
    GetMerklePath 7 (some 0) (Tx.mk 1) (builtThree.2.setMerkleRootHash (some 0) [123]) =
      .ok ([[2], [0, 3, 3]], [1, 1]) ∧
    replayPath wrapHash [1] [[2], [0, 3, 3]] [1, 1] = .ok [0, 0, 1, 2, 0, 3, 3] ∧
    ([0, 0, 1, 2, 0, 3, 3] : Bytes) ≠ [123] ∧
    VerifyPayload 7 (some 0) (Tx.mk 1) (builtThree.2.setMerkleRootHash (some 0) [123]) =
      .ok true :=
  ⟨rfl, rfl, rfl, rfl, by decide, rfl⟩

/-! ## What a construction leaves untouched, on any input -/

theorem Level.append {N : Nat} {h : Heap P} {l1 l2 : List Ptr} (a : Level N h l1)
    (b : Level N h l2) : Level N h (l1 ++ l2) := by
  intro x hx
  rcases List.mem_append.1 hx with hx | hx
  · exact a x hx
  · exact b x hx

theorem Level.one {N : Nat} {h : Heap P} {a : Nat} (hN : N ≤ a) (ha : a < h.nodes.length) :
    Level N h [some a] := by
  intro x hx
  rw [List.mem_singleton] at hx
  exact ⟨a, hx, hN, ha⟩

theorem foldPair_frame {N : Nat} (t : Ptr) {x y : Ptr} {h : Heap P}
    (hx : Level N h [x]) (hy : Level N h [y]) :
    Grows N h (foldPair t x y h).2 ∧
    ∀ n, (foldPair t x y h).1 = .ok n →
      n = some h.nodes.length ∧ (foldPair t x y h).2.nodes.length = h.nodes.length + 1 := by
  obtain ⟨a, na, rfl, hNa, hna, _⟩ := hx.lookup (List.mem_singleton.2 rfl)
  obtain ⟨b, nb, rfl, hNb, hnb, _⟩ := hy.lookup (List.mem_singleton.2 rfl)
  cases htr : h.tree t with
  | error e =>
    have e1 : foldPair t (some a) (some b) h = (.error .crash, h) := by
      simp [foldPair, htr]
    rw [e1]
    exact ⟨Grows.same N h, fun n hn => by cases hn⟩
  | ok tr =>
    cases hd : tr.HashFunc.Calculate (na.Hash ++ nb.Hash) with
    | error e =>
      rw [foldPair_err htr hna hnb hd]
      exact ⟨Grows.same N h, fun n hn => by cases hn⟩
    | ok d =>
      obtain ⟨h1, e1, s⟩ := foldPair_ok htr hna hnb hd
      rw [e1]
      refine ⟨s.grows hNa hNb, fun n hn => ?_⟩
      cases hn
      exact ⟨rfl, s.2.1⟩

theorem foldLevel_frame {N : Nat} (t : Ptr) (len : Nat) :
    ∀ (k : Nat) (rest acc : List Ptr) (h : Heap P), rest.length ≤ k →
      Level N h rest → Level N h acc →
      Grows N h (foldLevel t len rest acc h).2 ∧
      ∀ nodes, (foldLevel t len rest acc h).1 = .ok (.inr nodes) →
        Level N (foldLevel t len rest acc h).2 nodes := by
  intro k
  induction k with
  | zero =>
    intro rest acc h hk _ hacc
    have : rest = [] := List.length_eq_zero.1 (by omega)
    subst this
    refine ⟨Grows.same N h, fun nodes hn => ?_⟩
    simp only [foldLevel] at hn ⊢
    cases hn
    exact hacc
  | succ k ih =>
    intro rest acc h hk hrest hacc
    match rest, hk, hrest with
    | [], _, _ =>
      refine ⟨Grows.same N h, fun nodes hn => ?_⟩
      simp only [foldLevel] at hn ⊢
      cases hn
      exact hacc
    | [x], _, hrest =>
      have hx : Level N h [x] := hrest
      obtain ⟨g, hok⟩ := foldPair_frame t hx hx
      rcases hfp : foldPair t x x h with ⟨r, h1⟩
      rw [hfp] at g hok
      cases r with
      | error e =>
        simp only [foldLevel, hfp]
        exact ⟨g, fun nodes hn => by cases hn⟩
      | ok n =>
        obtain ⟨rfl, hlen⟩ := hok n rfl
        simp only [foldLevel, hfp]
        by_cases h2 : len = 2
        · simp only [h2, if_true]
          exact ⟨g, fun nodes hn => by cases hn⟩
        · simp only [h2, if_false]
          refine ⟨g, fun nodes hn => ?_⟩
          cases hn
          have hle : h.nodes.length ≤ h1.nodes.length := g.length
          have hN : N ≤ h.nodes.length := by
            obtain ⟨a, _, h1a, h2a⟩ := hrest x (List.mem_singleton.2 rfl)
            omega
          simp only at hlen
          exact (hacc.mono hle).append (Level.one hN (by omega))
    | x :: y :: rest, hk, hrest =>
      have hx : Level N h [x] := fun z hz => hrest z (by
        rw [List.mem_singleton] at hz; simp [hz])
      have hy : Level N h [y] := fun z hz => hrest z (by
        rw [List.mem_singleton] at hz; simp [hz])
      have hr : Level N h rest := fun z hz => hrest z (by simp [hz])
      obtain ⟨g, hok⟩ := foldPair_frame t hx hy
      rcases hfp : foldPair t x y h with ⟨r, h1⟩
      rw [hfp] at g hok
      cases r with
      | error e =>
        simp only [foldLevel, hfp]
        exact ⟨g, fun nodes hn => by cases hn⟩
      | ok n =>
        obtain ⟨rfl, hlen⟩ := hok n rfl
        simp only [foldLevel, hfp]
        by_cases h2 : len = 2
        · simp only [h2, if_true]
          exact ⟨g, fun nodes hn => by cases hn⟩
        · simp only [h2, if_false]
          have hle : h.nodes.length ≤ h1.nodes.length := g.length
          have hN : N ≤ h.nodes.length := by
            obtain ⟨a, _, h1a, h2a⟩ := hrest x (by simp)
            omega
          simp only at hlen
          have hk1 : rest.length ≤ k := by
            simp only [List.length_cons] at hk
            omega
          obtain ⟨g2, hl2⟩ := ih rest (acc ++ [some h.nodes.length]) h1 hk1 (hr.mono hle)
            ((hacc.mono hle).append (Level.one hN (by omega)))
          exact ⟨g.chain g2, hl2⟩

theorem constructNonLeaf_frame {N : Nat} (t : Ptr) :
    ∀ (fuel : Nat) (lv : List Ptr) (h : Heap P), Level N h lv →
      Grows N h (constructNonLeafTreeLevelsFromLeafNodes t fuel lv h).2 := by
  intro fuel
  induction fuel with
  | zero => intro lv h _; exact Grows.same N h
  | succ fuel ih =>
    intro lv h hlv
    obtain ⟨g, hl⟩ := foldLevel_frame t lv.length lv.length lv [] h (Nat.le_refl _) hlv
      (fun x hx => absurd hx (List.not_mem_nil x))
    rcases hfl : foldLevel t lv.length lv [] h with ⟨r, h1⟩
    rw [hfl] at g hl
    simp only [constructNonLeafTreeLevelsFromLeafNodes, hfl]
    cases r with
    | error e => exact g
    | ok v =>
      cases v with
      | inl n => exact g
      | inr nodes => exact g.chain (ih nodes h1 (hl nodes rfl))

theorem makeLeafNodes_frame [Payload P] {N : Nat} (t : Ptr) :
    ∀ (pp : List (Option P)) (acc : List Ptr) (h : Heap P),
      N ≤ h.nodes.length → Level N h acc →
      Extends h (makeLeafNodes t pp acc h).2 ∧
      ∀ l, (makeLeafNodes t pp acc h).1 = .ok l → Level N (makeLeafNodes t pp acc h).2 l := by
  intro pp
  induction pp with
  | nil =>
    intro acc h _ hacc
    refine ⟨Extends.same_heap h, fun l hl => ?_⟩
    simp only [makeLeafNodes] at hl ⊢
    cases hl
    exact hacc
  | cons p pp ih =>
    intro acc h hN hacc
    cases p with
    | none =>
      simp only [makeLeafNodes]
      exact ⟨Extends.same_heap h, fun l hl => by cases hl⟩
    | some p =>
      cases hc : Payload.CalculateHash p with
      | error e =>
        simp only [makeLeafNodes, hc]
        exact ⟨Extends.same_heap h, fun l hl => by cases hl⟩
      | ok d =>
        simp only [makeLeafNodes, hc]
        have e1 := Extends.newNode h (leafNode t p d false)
        have hlen : (h.newNode (leafNode t p d false)).2.nodes.length = h.nodes.length + 1 := by
          simp [Heap.newNode]
        obtain ⟨e2, hl2⟩ := ih (acc ++ [(h.newNode (leafNode t p d false)).1])
          (h.newNode (leafNode t p d false)).2 (by omega)
          ((hacc.mono (by omega)).append (Level.one hN (by omega)))
        exact ⟨e1.chain_ext e2, hl2⟩

theorem duplicateLastLeaf_frame {N : Nat} (t : Ptr) (l : List Ptr) (h : Heap P)
    (hN : N ≤ h.nodes.length) (hl : Level N h l) :
    Extends h (duplicateLastLeaf t l h).2 ∧
    ∀ l1, (duplicateLastLeaf t l h).1 = .ok l1 → Level N (duplicateLastLeaf t l h).2 l1 := by
  unfold duplicateLastLeaf
  split
  · split
    · exact ⟨Extends.same_heap h, fun l1 q => by cases q⟩
    · split
      · exact ⟨Extends.same_heap h, fun l1 q => by cases q⟩
      · rename_i last _
        refine ⟨Extends.newNode h _, fun l1 q => ?_⟩
        cases q
        have hlen : ∀ n : Node P, (h.newNode n).2.nodes.length = h.nodes.length + 1 := by
          intro n; simp [Heap.newNode]
        exact (hl.mono (by rw [hlen]; omega)).append
          (Level.one hN (by rw [hlen]; omega))
  · exact ⟨Extends.same_heap h, fun l1 q => by cases q; exact hl⟩

theorem constructTree_frame [Payload P] (fuel : Nat) (pp : List (Option P)) (t : Ptr)
    (h : Heap P) : Grows h.nodes.length h (constructTreeFromPayloads fuel pp t h).2 := by
  unfold constructTreeFromPayloads
  split
  · exact Grows.same _ h
  · obtain ⟨e1, l1⟩ := makeLeafNodes_frame t pp [] h (Nat.le_refl h.nodes.length)
      (fun x hx => absurd hx (List.not_mem_nil x))
    rcases hm : makeLeafNodes t pp [] h with ⟨r1, h1⟩
    rw [hm] at e1 l1
    cases r1 with
    | error e => exact e1.to_grows _
    | ok leafNodes0 =>
      have hlen1 : h.nodes.length ≤ h1.nodes.length := (e1.to_grows 0).length
      obtain ⟨e2, l2⟩ := duplicateLastLeaf_frame t leafNodes0 h1 hlen1 (l1 leafNodes0 rfl)
      rcases hd : duplicateLastLeaf t leafNodes0 h1 with ⟨r2, h2⟩
      rw [hd] at e2 l2
      simp only [hd]
      cases r2 with
      | error e => exact (e1.chain_ext e2).to_grows _
      | ok leafNodes =>
        have g3 := constructNonLeaf_frame t fuel leafNodes h2 (l2 leafNodes rfl)
        rcases hc : constructNonLeafTreeLevelsFromLeafNodes t fuel leafNodes h2 with ⟨r3, h3⟩
        rw [hc] at g3
        have g : Grows h.nodes.length h h3 := ((e1.chain_ext e2).to_grows _).chain g3
        simp only [hc]
        cases r3 with
        | error e => exact g
        | ok root => exact g

theorem Grows.old {N : Nat} {h h1 : Heap P} (g : Grows N h h1) (hN : h.nodes.length ≤ N)
    {c : Nat} {n : Node P} (hn : h.nodes[c]? = some n) : h1.nodes[c]? = some n :=
  g.below c n (Nat.lt_of_lt_of_le (lookup_lt hn) hN) hn

theorem RebuildTreeWith_failure [Payload P] {fuel : Nat} {m : Ptr} {pp : List (Option P)}
    {h h1 : Heap P} {e : Fault} (hr : RebuildTreeWith fuel m pp h = (.error e, h1)) :
    h1.trees = h.trees ∧
    ∀ (c : Nat) (n : Node P), h.nodes[c]? = some n → h1.nodes[c]? = some n := by
  have g := constructTree_frame fuel pp m h
  unfold RebuildTreeWith at hr
  rcases hc : constructTreeFromPayloads fuel pp m h with ⟨r, h2⟩
  rw [hc] at g hr
  have hh : h1 = h2 := by
    cases r with
    | error e1 =>
      simp only [installTree] at hr
      exact (congrArg Prod.snd hr).symm
    | ok v =>
      obtain ⟨root, leafs⟩ := v
      simp only [installTree] at hr
      cases hn : h2.node root with
      | error e1 =>
        rw [hn] at hr
        exact (congrArg Prod.snd hr).symm
      | ok rn =>
        rw [hn] at hr
        cases congrArg Prod.fst hr
  subst hh
  exact ⟨g.trees, fun c n hn => g.old (Nat.le_refl _) hn⟩

/-- C14: a failing rebuild is atomic.  On every state, for every tree pointer and
every payload list, if `RebuildTreeWith` returns an error then the tree objects
(so `Root`, `Leafs`, `MerkleRootHash` of the tree) and every node that existed
before the call are exactly as before; the same holds for `RebuildTree`.  The
errors do occur: on the empty list, when a payload digest fails, and when the
hash of a level fails. -/
theorem C14_rebuild_atomic_on_failure [Payload P] (fuel : Nat) (m : Ptr) (h : Heap P) :
    (∀ (pp : List (Option P)) (e : Fault) (h1 : Heap P),
      RebuildTreeWith fuel m pp h = (.error e, h1) →
      h1.trees = h.trees ∧ h1.tree m = h.tree m ∧
      ∀ (c : Nat) (n : Node P), h.nodes[c]? = some n → h1.nodes[c]? = some n) ∧
    (∀ (e : Fault) (h1 : Heap P), RebuildTree fuel m h = (.error e, h1) →
      h1.trees = h.trees ∧ h1.tree m = h.tree m ∧
      ∀ (c : Nat) (n : Node P), h.nodes[c]? = some n → h1.nodes[c]? = some n) ∧
    RebuildTreeWith fuel m ([] : List (Option P)) h = (.error (.err emptyPayloadError), h) ∧
    (∀ (tr : MerkleTree) (pp : List P), h.tree m = .ok tr → pp ≠ [] →
      (∀ e, leafDigests pp = .error e →
        (RebuildTreeWith fuel m (pp.map some) h).1 = .error (.err e)) ∧
      (∀ ds e, leafDigests pp = .ok ds → refRootAux tr.HashFunc fuel (padOdd ds) = .error e →
        (RebuildTreeWith fuel m (pp.map some) h).1 = .error e)) := by
  have key : ∀ (pp : List (Option P)) (e : Fault) (h1 : Heap P),
      RebuildTreeWith fuel m pp h = (.error e, h1) →
      h1.trees = h.trees ∧ h1.tree m = h.tree m ∧
      ∀ (c : Nat) (n : Node P), h.nodes[c]? = some n → h1.nodes[c]? = some n := by
    intro pp e h1 hr
    obtain ⟨a, b⟩ := RebuildTreeWith_failure hr
    exact ⟨a, tree_congr a m, b⟩
  refine ⟨key, ?_, rfl, ?_⟩
  · intro e h1 hr
    unfold RebuildTree at hr
    cases ht : h.tree m with
    | error e1 =>
      rw [ht] at hr
      cases congrArg Prod.snd hr
      exact ⟨rfl, ht, fun c n hn => hn⟩
    | ok t =>
      rw [ht] at hr
      simp only at hr
      cases hl : leafPayloads h t.Leafs with
      | error e1 =>
        rw [hl] at hr
        cases congrArg Prod.snd hr
        exact ⟨rfl, ht, fun c n hn => hn⟩
      | ok pp =>
        rw [hl] at hr
        have := key pp e h1 hr
        rw [ht] at this
        exact this
  · intro tr pp htr hpp
    obtain ⟨h1, _, herr, hok⟩ := constructTree_spec htr rfl fuel pp hpp
    refine ⟨fun e he => ?_, fun ds e hds he => ?_⟩
    · unfold RebuildTreeWith
      rw [herr e he]
      rfl
    · unfold RebuildTreeWith
      rw [(hok ds hds).1 e he]
      rfl

/-- C14 at a concrete input: a tree of two payloads whose hash fails on long
inputs is rebuilt with three payloads; the rebuild fails at the second level,
after it allocated six nodes, and the tree and its three nodes are as before. -/
theorem C14_rebuild_atomic_on_failure_witness :
    builtShort.1 = .ok (some 0) ∧
    (RebuildTreeWith 4 (some 0) (threeTx.map some) builtShort.2).1 =
      .error (.err "input too long") ∧
    builtShort.2.nodes.length = 3 ∧
    (RebuildTreeWith 4 (some 0) (threeTx.map some) builtShort.2).2.nodes.length = 9 ∧
    ((RebuildTreeWith 4 (some 0) (threeTx.map some) builtShort.2).2.trees = builtShort.2.trees ∧
      (RebuildTreeWith 4 (some 0) (threeTx.map some) builtShort.2).2.tree (some 0) =
        builtShort.2.tree (some 0) ∧
      ∀ (c : Nat) (n : Node Tx), builtShort.2.nodes[c]? = some n →
        (RebuildTreeWith 4 (some 0) (threeTx.map some) builtShort.2).2.nodes[c]? = some n) :=
  ⟨rfl, rfl, rfl, rfl,
    (C14_rebuild_atomic_on_failure 4 (some 0) builtShort.2).1 (threeTx.map some)
      (.err "input too long") (RebuildTreeWith 4 (some 0) (threeTx.map some) builtShort.2).2
      (by rfl)⟩

/-! ## Rebuilding a tree from its own leaves -/

theorem realLeaves_payload (t : Ptr) :
    ∀ (pp : List P) (ds : List Bytes), ds.length = pp.length →
      (realLeaves t pp ds).map (fun n => n.Payload) = pp.map some := by
  intro pp
  induction pp with
  | nil =>
    intro ds hl
    have : ds = [] := List.length_eq_zero.1 hl
    subst this; rfl
  | cons p pp ih =>
    intro ds hl
    match ds, hl with
    | d :: ds, hl =>
      have := ih ds (by simpa using hl)
      show (leafNode t p d false).Payload :: List.map _ (realLeaves t pp ds) = _
      rw [this]; rfl

theorem leafLayer_payload [Payload P] (t : Ptr) {pp : List P} {ds : List Bytes}
    (hd : leafDigests pp = .ok ds) :
    (leafLayer t pp ds).map (fun n => n.Payload) = (padLast pp).map some := by
  have hl := leafDigests_length pp ds hd
  have hh := realLeaves_payload t pp ds hl
  have hlen := realLeaves_length t hd
  have hlast : (pp.getLast?).map some =
      ((realLeaves t pp ds).getLast?).map (fun n => n.Payload) := by
    rw [← List.getLast?_map, ← List.getLast?_map, hh]
  unfold leafLayer padLast
  rw [hlen]
  split
  · cases hq : (realLeaves t pp ds).getLast? with
    | none =>
      rw [hq] at hlast
      cases hp : pp.getLast? with
      | none => simpa using hh
      | some p => rw [hp] at hlast; cases hlast
    | some l =>
      rw [hq] at hlast
      cases hp : pp.getLast? with
      | none => rw [hp] at hlast; cases hlast
      | some p =>
        rw [hp] at hlast
        simp only [Option.map_some'] at hlast
        simp [hh, ← Option.some.inj hlast]
  · exact hh

theorem leafDigests_snoc [Payload P] {p : P} {d : Bytes} (hp : Payload.CalculateHash p = .ok d) :
    ∀ (pp : List P) (ds : List Bytes), leafDigests pp = .ok ds →
      leafDigests (pp ++ [p]) = .ok (ds ++ [d]) := by
  intro pp
  induction pp with
  | nil =>
    intro ds hd
    cases hd
    simp [leafDigests, hp, bind, Except.bind, pure, Except.pure]
  | cons q pp ih =>
    intro ds hd
    cases hq : Payload.CalculateHash q with
    | error e =>
      rw [leafDigests_cons_err pp hq] at hd
      cases hd
    | ok dq =>
      rw [leafDigests_cons_ok pp hq] at hd
      cases hr : leafDigests pp with
      | error e => rw [hr] at hd; cases hd
      | ok rest =>
        rw [hr] at hd
        cases hd
        rw [List.cons_append, leafDigests_cons_ok _ hq, ih rest hr]
        rfl

theorem leafDigests_padLast [Payload P] {pp : List P} {ds : List Bytes}
    (hd : leafDigests pp = .ok ds) : leafDigests (padLast pp) = .ok (padOdd ds) := by
  have hl := leafDigests_length pp ds hd
  unfold padLast padOdd
  rw [hl]
  split
  · rename_i ho
    have hpos : 0 < pp.length := by omega
    have hp : pp.getLast? = pp[pp.length - 1]? := List.getLast?_eq_getElem? pp
    have hq : ds.getLast? = ds[pp.length - 1]? := by
      rw [List.getLast?_eq_getElem?, hl]
    have h1 : pp.length - 1 < pp.length := by omega
    have h2 : pp.length - 1 < ds.length := by omega
    rw [hp, hq, List.getElem?_eq_getElem h1, List.getElem?_eq_getElem h2]
    exact leafDigests_snoc (leafDigests_get pp ds hd (pp.length - 1) _ _
      (List.getElem?_eq_getElem h1) (List.getElem?_eq_getElem h2)) pp ds hd
  · exact hd

theorem padOdd_even (L : List Bytes) (he : L.length % 2 = 0) : padOdd L = L := by
  unfold padOdd
  rw [if_neg (by omega)]

theorem padOdd_idem (L : List Bytes) : padOdd (padOdd L) = padOdd L := by
  have hl := padOdd_length L
  exact padOdd_even (padOdd L) (by omega)

theorem padLast_length (pp : List P) : (padLast pp).length = pp.length + pp.length % 2 := by
  unfold padLast
  split
  · rename_i ho
    cases hq : pp.getLast? with
    | none =>
      have : pp = [] := List.getLast?_eq_none_iff.1 hq
      subst this
      simp at ho
    | some l => simp [ho]
  · simp; omega

theorem padLast_get (pp : List P) {i : Nat} (hi : i < pp.length) :
    (padLast pp)[i]? = pp[i]? := by
  unfold padLast
  split
  · cases pp.getLast? with
    | none => rfl
    | some l => exact List.getElem?_append_left hi
  · rfl

theorem padLast_mem (pp : List P) {q : P} (hq : q ∈ padLast pp) : q ∈ pp := by
  unfold padLast at hq
  split at hq
  · cases hl : pp.getLast? with
    | none => rw [hl] at hq; exact hq
    | some l =>
      rw [hl] at hq
      rcases List.mem_append.1 hq with hq | hq
      · exact hq
      · rw [List.mem_singleton] at hq
        rw [hq]
        exact List.mem_of_getLast?_eq_some hl
  · exact hq

theorem leafPayloads_layer (h1 : Heap P) :
    ∀ (X : List (Node P)) (N : Nat),
      (∀ (i : Nat) (nd : Node P), X[i]? = some nd →
        ∃ n, h1.nodes[N + i]? = some n ∧ n.Payload = nd.Payload) →
      leafPayloads h1 ((List.range' N X.length).map some) =
        .ok (X.map (fun n => n.Payload)) := by
  intro X
  induction X with
  | nil => intro N _; rfl
  | cons nd X ih =>
    intro N hall
    obtain ⟨n, hn, hp⟩ := hall 0 nd (by simp)
    have ih1 := ih (N + 1) (fun i nd1 hi => by
      obtain ⟨n1, q1, q2⟩ := hall (i + 1) nd1 (by simpa using hi)
      exact ⟨n1, by rw [← q1]; congr 1; omega, q2⟩)
    simp only [List.length_cons, List.range'_succ, List.map_cons, leafPayloads,
      (node_some_iff h1 N n).2 (by simpa using hn), bind, Except.bind, ih1, hp]
    rfl

theorem RebuildTreeWith_spec [Payload P] {m : Ptr} {tr : MerkleTree} {h : Heap P}
    (htr : h.tree m = .ok tr) (fuel : Nat) (pp : List P) (hpp : pp ≠ []) :
    ∃ h1, (∀ (c : Nat) (n : Node P), h.nodes[c]? = some n → h1.nodes[c]? = some n) ∧
      (∀ e, leafDigests pp = .error e →
        RebuildTreeWith fuel m (pp.map some) h = (.error (.err e), h1)) ∧
      (∀ ds, leafDigests pp = .ok ds →
        (∀ e, refRootAux tr.HashFunc fuel (padOdd ds) = .error e →
          RebuildTreeWith fuel m (pp.map some) h = (.error e, h1)) ∧
        (∀ d, refRootAux tr.HashFunc fuel (padOdd ds) = .ok d → ∃ r,
          RebuildTreeWith fuel m (pp.map some) h = (.ok (), h1) ∧
          FreshTree tr.HashFunc pp ds h.nodes.length r m h1 ∧
          (∀ (a b : Nat), m = some a → a ≠ b → h1.trees[b]? = h.trees[b]?))) := by
  obtain ⟨h1, g, herr, hok⟩ := constructTree_spec htr rfl fuel pp hpp
  have hnodes : ∀ (c : Nat) (n : Node P), h.nodes[c]? = some n → h1.nodes[c]? = some n := by
    intro c n hn
    exact g.below c n (lookup_lt hn) hn
  cases hd : leafDigests pp with
  | error e =>
    refine ⟨h1, hnodes, ?_, ?_⟩
    · intro e1 he1
      cases he1
      unfold RebuildTreeWith
      rw [herr e hd]; rfl
    · intro ds hds; cases hds
  | ok ds =>
    obtain ⟨herr2, hok2⟩ := hok ds hd
    cases hr : refRootAux tr.HashFunc fuel (padOdd ds) with
    | error e =>
      refine ⟨h1, hnodes, ?_, ?_⟩
      · intro e1 he1; cases he1
      · intro ds1 hds1
        cases hds1
        refine ⟨?_, ?_⟩
        · intro e1 he1
          rw [hr] at he1
          cases he1
          unfold RebuildTreeWith
          rw [herr2 e hr]; rfl
        · intro d hd1; rw [hr] at hd1; cases hd1
    | ok d =>
      obtain ⟨r, e1, c⟩ := hok2 d hr
      have htr1 : h1.tree m = .ok tr := by rw [tree_congr g.trees]; exact htr
      obtain ⟨h2, e2, hn2, hF, hother⟩ := installTree_fresh htr1 rfl c
        (freshPtrs h (leafLayer m pp ds).length) rfl
      refine ⟨h2, ?_, ?_, ?_⟩
      · intro c n hn; rw [hn2]; exact hnodes c n hn
      · intro e1 he1; cases he1
      · intro ds1 hds1
        cases hds1
        refine ⟨?_, ?_⟩
        · intro e1 he1; rw [hr] at he1; cases he1
        · intro d1 hd1
          refine ⟨r, ?_, hF, ?_⟩
          · unfold RebuildTreeWith
            rw [e1]; exact e2
          · intro a b hm hab
            rw [hother a b hm hab, g.trees]

/-! ## Two constructions side by side -/

theorem foldPair_sim {N1 N2 : Nat} {t1 t2 : Ptr} {trA trB : MerkleTree} {hA hB : Heap P}
    (S : Sim N1 N2 t2 hA hB) (htA : hA.tree t1 = .ok trA) (htB : hB.tree t2 = .ok trB)
    (hhf : trA.HashFunc = trB.HashFunc) {x y : Ptr}
    (hx : Level N1 hA [x]) (hy : Level N1 hA [y]) {n : Ptr} {hA1 : Heap P}
    (hfp : foldPair t1 x y hA = (.ok n, hA1)) :
    ∃ hB1, foldPair t2 (shiftPtr N1 N2 x) (shiftPtr N1 N2 y) hB =
        (.ok (shiftPtr N1 N2 n), hB1) ∧
      Sim N1 N2 t2 hA1 hB1 ∧ hA1.trees = hA.trees ∧ hB1.trees = hB.trees ∧
      n = some hA.nodes.length ∧ hA1.nodes.length = hA.nodes.length + 1 := by
  obtain ⟨a, na, rfl, hNa, hna, _⟩ := hx.lookup (List.mem_singleton.2 rfl)
  obtain ⟨b, nb, rfl, hNb, hnb, _⟩ := hy.lookup (List.mem_singleton.2 rfl)
  have hla := lookup_lt hna
  have hlb := lookup_lt hnb
  have hbase1 := S.base1
  have hbase2 := S.base2
  have hlen := S.len
  cases hd : trA.HashFunc.Calculate (na.Hash ++ nb.Hash) with
  | error e =>
    rw [foldPair_err htA hna hnb hd] at hfp
    cases congrArg Prod.fst hfp
  | ok d =>
    obtain ⟨hA2, eA, sA⟩ := foldPair_ok htA hna hnb hd
    rw [eA] at hfp
    cases hfp
    have ea : a - N1 + N2 = N2 + (a - N1) := by omega
    have eb : b - N1 + N2 = N2 + (b - N1) := by omega
    have hna2 : hB.nodes[a - N1 + N2]? = some (shiftNode N1 N2 t2 na) := by
      rw [ea, S.node, show N1 + (a - N1) = a by omega, hna]; rfl
    have hnb2 : hB.nodes[b - N1 + N2]? = some (shiftNode N1 N2 t2 nb) := by
      rw [eb, S.node, show N1 + (b - N1) = b by omega, hnb]; rfl
    obtain ⟨hB2, eB, sB⟩ := foldPair_ok htB hna2 hnb2
      (show trB.HashFunc.Calculate (na.Hash ++ nb.Hash) = .ok d by rw [← hhf]; exact hd)
    have elen : hA.nodes.length - N1 + N2 = hB.nodes.length := by omega
    refine ⟨hB2, ?_, ⟨?_, ?_, ?_, ?_⟩, sA.1, sB.1, rfl, sA.2.1⟩
    · simp only [shiftPtr, elen]
      exact eB
    · rw [sA.2.1]; omega
    · rw [sB.2.1]; omega
    · rw [sA.2.1, sB.2.1]; omega
    · intro k
      rw [sA.2.2, sB.2.2, S.node]
      by_cases hk : N1 + k = hA.nodes.length
      · have hk2 : N2 + k = hB.nodes.length := by omega
        rw [if_pos hk, if_pos hk2]
        simp [shiftNode, pairNode, shiftPtr]
      · have hk2 : ¬ N2 + k = hB.nodes.length := by omega
        rw [if_neg hk, if_neg hk2]
        cases hq : hA.nodes[N1 + k]? with
        | none => rfl
        | some nd =>
          have hc : (N2 + k = a - N1 + N2 ∨ N2 + k = b - N1 + N2) ↔
              (N1 + k = a ∨ N1 + k = b) := by omega
          by_cases hcc : N1 + k = a ∨ N1 + k = b
          · simp [hcc, hc.2 hcc, shiftNode, shiftPtr, elen]
          · have hcc2 : ¬ (N2 + k = a - N1 + N2 ∨ N2 + k = b - N1 + N2) :=
              fun q => hcc (hc.1 q)
            simp [hcc, hcc2]

theorem foldLevel_sim {N1 N2 : Nat} {t1 t2 : Ptr} {trA trB : MerkleTree}
    (hhf : trA.HashFunc = trB.HashFunc) (len : Nat) :
    ∀ (k : Nat) (rest acc : List Ptr) (hA hB : Heap P), rest.length ≤ k →
      Sim N1 N2 t2 hA hB → hA.tree t1 = .ok trA → hB.tree t2 = .ok trB →
      Level N1 hA rest →
      ∀ (v : Ptr ⊕ List Ptr) (hA1 : Heap P), foldLevel t1 len rest acc hA = (.ok v, hA1) →
        ∃ hB1, foldLevel t2 len (rest.map (shiftPtr N1 N2)) (acc.map (shiftPtr N1 N2)) hB =
            (.ok (Sum.map (shiftPtr N1 N2) (List.map (shiftPtr N1 N2)) v), hB1) ∧
          Sim N1 N2 t2 hA1 hB1 ∧ hA1.trees = hA.trees ∧ hB1.trees = hB.trees ∧
          (∀ n, v = .inl n → Level N1 hA1 [n]) := by
  intro k
  induction k with
  | zero =>
    intro rest acc hA hB hk S _ _ _ v hA1 hfl
    have : rest = [] := List.length_eq_zero.1 (by omega)
    subst this
    simp only [foldLevel] at hfl
    cases hfl
    exact ⟨hB, rfl, S, rfl, rfl, fun n q => by cases q⟩
  | succ k ih =>
    intro rest acc hA hB hk S htA htB hrest v hA1 hfl
    match rest, hk, hrest, hfl with
    | [], _, _, hfl =>
      simp only [foldLevel] at hfl
      cases hfl
      exact ⟨hB, rfl, S, rfl, rfl, fun n q => by cases q⟩
    | [x], _, hrest, hfl =>
      rcases hfp : foldPair t1 x x hA with ⟨r, hA2⟩
      cases r with
      | error e =>
        simp only [foldLevel, hfp] at hfl
        cases congrArg Prod.fst hfl
      | ok n =>
        obtain ⟨hB2, eB, S2, tA, tB, en, eln⟩ := foldPair_sim S htA htB hhf hrest hrest hfp
        have hlv : Level N1 hA2 [n] := by
          rw [en]
          exact Level.one S.base1 (by rw [eln]; omega)
        simp only [foldLevel, hfp] at hfl
        simp only [List.map_cons, List.map_nil, foldLevel, eB]
        by_cases h2 : len = 2
        · simp only [h2, if_true] at hfl ⊢
          cases hfl
          exact ⟨hB2, rfl, S2, tA, tB, fun n1 q => by cases q; exact hlv⟩
        · simp only [h2, if_false] at hfl ⊢
          cases hfl
          exact ⟨hB2, by simp, S2, tA, tB, fun n1 q => by cases q⟩
    | x :: y :: rest, hk, hrest, hfl =>
      have hx : Level N1 hA [x] := fun z hz => hrest z (by
        rw [List.mem_singleton] at hz; simp [hz])
      have hy : Level N1 hA [y] := fun z hz => hrest z (by
        rw [List.mem_singleton] at hz; simp [hz])
      have hr : Level N1 hA rest := fun z hz => hrest z (by simp [hz])
      rcases hfp : foldPair t1 x y hA with ⟨r, hA2⟩
      cases r with
      | error e =>
        simp only [foldLevel, hfp] at hfl
        cases congrArg Prod.fst hfl
      | ok n =>
        obtain ⟨hB2, eB, S2, tA, tB, en, eln⟩ := foldPair_sim S htA htB hhf hx hy hfp
        have hlv : Level N1 hA2 [n] := by
          rw [en]
          exact Level.one S.base1 (by rw [eln]; omega)
        simp only [foldLevel, hfp] at hfl
        simp only [List.map_cons, foldLevel, eB]
        by_cases h2 : len = 2
        · simp only [h2, if_true] at hfl ⊢
          cases hfl
          exact ⟨hB2, rfl, S2, tA, tB, fun n1 q => by cases q; exact hlv⟩
        · simp only [h2, if_false] at hfl ⊢
          have hk1 : rest.length ≤ k := by
            simp only [List.length_cons] at hk
            omega
          obtain ⟨hB3, e3, S3, tA3, tB3, hl3⟩ := ih rest (acc ++ [n]) hA2 hB2 hk1 S2
            (by rw [tree_congr tA]; exact htA) (by rw [tree_congr tB]; exact htB)
            (hr.mono (by rw [eln]; omega)) v hA1 hfl
          refine ⟨hB3, ?_, S3, by rw [tA3, tA], by rw [tB3, tB], hl3⟩
          rw [← e3]
          simp

theorem constructNonLeaf_sim {N1 N2 : Nat} {t1 t2 : Ptr} {trA trB : MerkleTree}
    (hhf : trA.HashFunc = trB.HashFunc) :
    ∀ (fuel : Nat) (lv : List Ptr) (hA hB : Heap P),
      Sim N1 N2 t2 hA hB → hA.tree t1 = .ok trA → hB.tree t2 = .ok trB →
      Level N1 hA lv →
      ∀ (root : Ptr) (hA1 : Heap P),
        constructNonLeafTreeLevelsFromLeafNodes t1 fuel lv hA = (.ok root, hA1) →
        ∃ hB1, constructNonLeafTreeLevelsFromLeafNodes t2 fuel (lv.map (shiftPtr N1 N2)) hB =
            (.ok (shiftPtr N1 N2 root), hB1) ∧
          Sim N1 N2 t2 hA1 hB1 ∧ hA1.trees = hA.trees ∧ hB1.trees = hB.trees ∧
          Level N1 hA1 [root] := by
  intro fuel
  induction fuel with
  | zero =>
    intro lv hA hB _ _ _ _ root hA1 hc
    cases congrArg Prod.fst hc
  | succ fuel ih =>
    intro lv hA hB S htA htB hlv root hA1 hc
    rcases hfl : foldLevel t1 lv.length lv [] hA with ⟨res, hA2⟩
    simp only [constructNonLeafTreeLevelsFromLeafNodes, hfl] at hc
    cases res with
    | error e => cases congrArg Prod.fst hc
    | ok v =>
      obtain ⟨hB2, eB, S2, tA, tB, hinl⟩ := foldLevel_sim hhf lv.length lv.length lv [] hA hB
        (Nat.le_refl _) S htA htB hlv v hA2 hfl
      have eB2 : foldLevel t2 (lv.map (shiftPtr N1 N2)).length (lv.map (shiftPtr N1 N2)) [] hB
          = (.ok (Sum.map (shiftPtr N1 N2) (List.map (shiftPtr N1 N2)) v), hB2) := by
        rw [List.length_map]
        exact eB
      simp only [constructNonLeafTreeLevelsFromLeafNodes, eB2]
      cases v with
      | inl n =>
        simp only at hc
        cases hc
        exact ⟨hB2, rfl, S2, tA, tB, hinl root rfl⟩
      | inr nodes =>
        simp only at hc
        have hfr := (foldLevel_frame (N := N1) t1 lv.length lv.length lv [] hA (Nat.le_refl _)
          hlv (fun x hx => absurd hx (List.not_mem_nil x))).2
        rw [hfl] at hfr
        obtain ⟨hB3, e3, S3, tA3, tB3, hl3⟩ := ih nodes hA2 hB2 S2
          (by rw [tree_congr tA]; exact htA) (by rw [tree_congr tB]; exact htB)
          (hfr nodes rfl) root hA1 hc
        exact ⟨hB3, e3, S3, by rw [tA3, tA], by rw [tB3, tB], hl3⟩

theorem realLeaves_shift (N1 N2 : Nat) (t1 t2 : Ptr) :
    ∀ (pp : List P) (ds : List Bytes),
      realLeaves t2 pp ds = (realLeaves t1 pp ds).map (shiftNode N1 N2 t2) := by
  intro pp
  induction pp with
  | nil => intro ds; rfl
  | cons p pp ih =>
    intro ds
    cases ds with
    | nil => rfl
    | cons d ds =>
      show leafNode t2 p d false :: realLeaves t2 pp ds =
        shiftNode N1 N2 t2 (leafNode t1 p d false) :: (realLeaves t1 pp ds).map _
      rw [ih ds]
      rfl

theorem leafLayer_shift (N1 N2 : Nat) (t1 t2 : Ptr) (pp : List P) (ds : List Bytes) :
    leafLayer t2 pp ds = (leafLayer t1 pp ds).map (shiftNode N1 N2 t2) := by
  unfold leafLayer
  rw [realLeaves_shift N1 N2 t1 t2 pp ds, List.length_map, List.getLast?_map]
  split
  · cases (realLeaves t1 pp ds).getLast? with
    | none => rfl
    | some l => simp [shiftNode]
  · rfl

theorem freshPtrs_shift {hA hB : Heap P} (k : Nat) :
    (freshPtrs hA k).map (shiftPtr hA.nodes.length hB.nodes.length) = freshPtrs hB k := by
  apply List.ext_getElem?
  intro i
  rw [List.getElem?_map]
  by_cases hi : i < k
  · rw [freshPtrs_get hA hi, freshPtrs_get hB hi]
    simp [shiftPtr, Nat.add_comm]
  · rw [List.getElem?_eq_none (by rw [freshPtrs_length]; omega),
      List.getElem?_eq_none (by rw [freshPtrs_length]; omega)]
    rfl

theorem constructTree_leaves [Payload P] (fuel : Nat) {pp : List P} (hpp : pp ≠ [])
    {ds : List Bytes} (hd : leafDigests pp = .ok ds) (t : Ptr) (h : Heap P) :
    ∃ h2, h2.trees = h.trees ∧ h2.nodes = h.nodes ++ leafLayer t pp ds ∧
      constructTreeFromPayloads fuel (pp.map some) t h =
        match constructNonLeafTreeLevelsFromLeafNodes t fuel
          (freshPtrs h (leafLayer t pp ds).length) h2 with
        | (.error e, h3) => (.error e, h3)
        | (.ok root, h3) => (.ok (root, freshPtrs h (leafLayer t pp ds).length), h3) := by
  have hne : ¬ ((pp.map some).length = 0) := by
    simp only [List.length_map]
    intro q
    exact hpp (List.length_eq_zero.1 q)
  obtain ⟨h1, ex1, _, hok1⟩ := makeLeafNodes_spec t pp [] h
  obtain ⟨hn1, e1⟩ := hok1 ds hd
  obtain ⟨h2, ex2, hn2, e2⟩ := duplicateLastLeaf_spec t hd hn1
  have e0 : constructTreeFromPayloads fuel (pp.map some) t h =
      match constructNonLeafTreeLevelsFromLeafNodes t fuel
        (freshPtrs h (leafLayer t pp ds).length) h2 with
      | (.error e, h3) => (.error e, h3)
      | (.ok root, h3) => (.ok (root, freshPtrs h (leafLayer t pp ds).length), h3) := by
    simp only [constructTreeFromPayloads, if_neg hne, e1, List.nil_append, e2]
  exact ⟨h2, ex2.1.trans ex1.1, hn2, e0⟩

theorem Sim.leaves (t1 t2 : Ptr) (pp : List P) (ds : List Bytes) {hA hB hA2 hB2 : Heap P}
    (hnA : hA2.nodes = hA.nodes ++ leafLayer t1 pp ds)
    (hnB : hB2.nodes = hB.nodes ++ leafLayer t2 pp ds) :
    Sim hA.nodes.length hB.nodes.length t2 hA2 hB2 := by
  have hl : (leafLayer t2 pp ds).length = (leafLayer t1 pp ds).length := by
    rw [leafLayer_shift hA.nodes.length hB.nodes.length t1 t2, List.length_map]
  refine ⟨by rw [hnA]; simp, by rw [hnB]; simp, ?_, ?_⟩
  · rw [hnA, hnB, List.length_append, List.length_append, hl]; omega
  · intro k
    rw [hnA, hnB, List.getElem?_append_right (by omega),
      List.getElem?_append_right (by omega),
      leafLayer_shift hA.nodes.length hB.nodes.length t1 t2, List.getElem?_map]
    simp

theorem constructTree_sim [Payload P] {t1 t2 : Ptr} {trA trB : MerkleTree} {hA hB : Heap P}
    (htA : hA.tree t1 = .ok trA) (htB : hB.tree t2 = .ok trB)
    (hhf : trA.HashFunc = trB.HashFunc) (fuel : Nat) {pp : List P} (hpp : pp ≠ [])
    {root : Ptr} {leafs : List Ptr} {hA3 : Heap P}
    (hc : constructTreeFromPayloads fuel (pp.map some) t1 hA = (.ok (root, leafs), hA3)) :
    ∃ hB3 ds, leafDigests pp = .ok ds ∧
      constructTreeFromPayloads fuel (pp.map some) t2 hB =
        (.ok (shiftPtr hA.nodes.length hB.nodes.length root,
          freshPtrs hB (leafLayer t1 pp ds).length), hB3) ∧
      leafs = freshPtrs hA (leafLayer t1 pp ds).length ∧
      Sim hA.nodes.length hB.nodes.length t2 hA3 hB3 ∧
      hA3.trees = hA.trees ∧ hB3.trees = hB.trees ∧
      Level hA.nodes.length hA3 [root] := by
  cases hd : leafDigests pp with
  | error e =>
    obtain ⟨h1, _, herr, _⟩ := constructTree_spec htA rfl fuel pp hpp
    rw [herr e hd] at hc
    cases congrArg Prod.fst hc
  | ok ds =>
    obtain ⟨hA2, tA2, nA2, eA⟩ := constructTree_leaves fuel hpp hd t1 hA
    obtain ⟨hB2, tB2, nB2, eB⟩ := constructTree_leaves fuel hpp hd t2 hB
    have hl : (leafLayer t2 pp ds).length = (leafLayer t1 pp ds).length := by
      rw [leafLayer_shift hA.nodes.length hB.nodes.length t1 t2, List.length_map]
    rw [hl] at eB
    have S2 : Sim hA.nodes.length hB.nodes.length t2 hA2 hB2 := Sim.leaves t1 t2 pp ds nA2 nB2
    have hlv : Level hA.nodes.length hA2 (freshPtrs hA (leafLayer t1 pp ds).length) :=
      Level.fresh (Nat.le_refl _) (by rw [nA2, List.length_append])
    rw [eA] at hc
    rcases hcn : constructNonLeafTreeLevelsFromLeafNodes t1 fuel
      (freshPtrs hA (leafLayer t1 pp ds).length) hA2 with ⟨r, hA4⟩
    rw [hcn] at hc
    cases r with
    | error e => cases congrArg Prod.fst hc
    | ok root1 =>
      simp only at hc
      cases hc
      obtain ⟨hB3, e3, S3, tA3, tB3, hl3⟩ := constructNonLeaf_sim hhf fuel _ hA2 hB2 S2
        (by rw [tree_congr tA2]; exact htA) (by rw [tree_congr tB2]; exact htB) hlv root hA3 hcn
      rw [freshPtrs_shift] at e3
      refine ⟨hB3, ds, rfl, ?_, rfl, S3, by rw [tA3, tA2], by rw [tB3, tB2], hl3⟩
      rw [eB, e3]

theorem RebuildTreeWith_ok [Payload P] {m : Ptr} {tr : MerkleTree} {h h1 : Heap P}
    (htr : h.tree m = .ok tr) {fuel : Nat} {pp : List P} (hpp : pp ≠ [])
    (hre : RebuildTreeWith fuel m (pp.map some) h = (.ok (), h1)) :
    ∃ ds r, FreshTree tr.HashFunc pp ds h.nodes.length r m h1 := by
  obtain ⟨h2, _, herr, hok⟩ := RebuildTreeWith_spec htr fuel pp hpp
  cases hd : leafDigests pp with
  | error e =>
    rw [herr e hd] at hre
    cases congrArg Prod.fst hre
  | ok ds =>
    obtain ⟨herr2, hok2⟩ := hok ds hd
    cases hr : refRootAux tr.HashFunc fuel (padOdd ds) with
    | error e =>
      rw [herr2 e hr] at hre
      cases congrArg Prod.fst hre
    | ok d =>
      obtain ⟨r, e1, F, _⟩ := hok2 d hr
      rw [e1] at hre
      cases hre
      exact ⟨ds, r, F⟩

theorem samePtr_shift (N1 N2 : Nat) {x : Ptr} (hx : ∀ a, x = some a → N1 ≤ a) :
    SamePtr N1 N2 x (shiftPtr N1 N2 x) := by
  cases x with
  | none => exact Or.inl ⟨rfl, rfl⟩
  | some a =>
    have := hx a rfl
    refine Or.inr ⟨a - N1, ?_, ?_⟩
    · congr 1; omega
    · simp only [shiftPtr]; congr 1; omega

theorem sameNode_shift [Payload P] {hf : HashFunc} {t : Ptr} {N1 : Nat} {h : Heap P} {a : Nat}
    {n : Node P} (ok : NodeOK hf t N1 h a n) (ha : N1 ≤ a) (N2 : Nat) (t2 : Ptr) :
    SameNode N1 N2 n (shiftNode N1 N2 t2 n) := by
  refine ⟨samePtr_shift N1 N2 ?_, samePtr_shift N1 N2 ?_, samePtr_shift N1 N2 ?_,
    rfl, rfl, rfl, rfl⟩
  · intro p hp
    have := (ok.parent p hp).1
    omega
  · intro l hl
    cases hleaf : n.isLeaf with
    | true =>
      rw [(ok.leaf hleaf).1] at hl
      cases hl
    | false =>
      obtain ⟨_, _, l1, r1, _, _, e1, _, b1, _, _, _, _, _, _⟩ := ok.inner hleaf
      rw [e1] at hl
      cases hl
      exact b1
  · intro r hr
    cases hleaf : n.isLeaf with
    | true =>
      rw [(ok.leaf hleaf).2.1] at hr
      cases hr
    | false =>
      obtain ⟨_, _, l1, r1, _, _, _, e2, _, _, b2, _, _, _, _⟩ := ok.inner hleaf
      rw [e2] at hr
      cases hr
      exact b2

theorem RebuildTreeWith_total [Payload P] {m : Ptr} {tr : MerkleTree} {h : Heap P}
    (htr : h.tree m = .ok tr) (pp : List P) (hpp : pp ≠ [])
    (hc : ∀ p ∈ pp, ∃ d, Payload.CalculateHash p = .ok d)
    (hh : ∀ b, ∃ d, tr.HashFunc.Calculate b = .ok d) (fuel : Nat)
    (hfuel : pp.length + 1 ≤ fuel) :
    ∃ h1, RebuildTreeWith fuel m (pp.map some) h = (.ok (), h1) := by
  obtain ⟨ds, hd⟩ := leafDigests_total pp hc
  have hl := leafDigests_length pp ds hd
  have hpos : 0 < pp.length := List.length_pos.2 hpp
  have hpl := padOdd_length ds
  obtain ⟨d, hr⟩ := refRootAux_total tr.HashFunc hh fuel (padOdd ds) (by omega) (by omega)
  obtain ⟨h1, _, _, hok⟩ := RebuildTreeWith_spec htr fuel pp hpp
  obtain ⟨r, e, _⟩ := (hok ds hd).2 d hr
  exact ⟨h1, e⟩

/-- C15: `RebuildTreeWith` agrees with `NewTree`.  For every valid tree `m` in any
state and every non-empty payload list `pp`, when `RebuildTreeWith(pp)` succeeds
then `NewTree(pp, m.HashFunc)` succeeds from any state `h0`, `m.HashFunc` is
unchanged, the two trees have the same `MerkleRootHash`, their roots and their
leaf lists sit at the same offsets from where each call started to allocate, and
the nodes each call allocated agree offset by offset in payload, digest, leaf and
duplicate flags and, up to the offsets, in their `Parent`, `Left` and `Right`
links.  And `RebuildTreeWith(pp)` does succeed when the digests compute. -/
theorem C15_rebuildTreeWith_agrees_with_newTree [Payload P] (m : Ptr) (tr : MerkleTree)
    (h : Heap P) (htr : h.tree m = .ok tr) (pp : List P) (hpp : pp ≠ []) (fuel : Nat)
    (h0 : Heap P) :
    (∀ h1, RebuildTreeWith fuel m (pp.map some) h = (.ok (), h1) →
      ∃ m2 h2 tr1 tr2 L cnt,
        NewTree fuel (pp.map some) tr.HashFunc h0 = (.ok m2, h2) ∧
        h1.tree m = .ok tr1 ∧ h2.tree m2 = .ok tr2 ∧
        tr1.HashFunc = tr.HashFunc ∧ tr2.HashFunc = tr.HashFunc ∧
        tr1.MerkleRootHash = tr2.MerkleRootHash ∧
        (∃ k, k < cnt ∧ tr1.Root = some (h.nodes.length + k) ∧
          tr2.Root = some (h0.nodes.length + k)) ∧
        tr1.Leafs = (List.range' h.nodes.length L).map some ∧
        tr2.Leafs = (List.range' h0.nodes.length L).map some ∧
        h1.nodes.length = h.nodes.length + cnt ∧ h2.nodes.length = h0.nodes.length + cnt ∧
        ∀ k, k < cnt → ∃ n1 n2, h1.nodes[h.nodes.length + k]? = some n1 ∧
          h2.nodes[h0.nodes.length + k]? = some n2 ∧
          SameNode h.nodes.length h0.nodes.length n1 n2) ∧
    ((∀ p ∈ pp, ∃ d, Payload.CalculateHash p = .ok d) →
      (∀ b, ∃ d, tr.HashFunc.Calculate b = .ok d) → pp.length + 1 ≤ fuel →
      ∃ h1, RebuildTreeWith fuel m (pp.map some) h = (.ok (), h1)) := by
  refine ⟨?_, fun hc hh hfuel => RebuildTreeWith_total htr pp hpp hc hh fuel hfuel⟩
  intro h1 hre
  obtain ⟨ds0, r0, F⟩ := RebuildTreeWith_ok htr hpp hre
  let t0 : MerkleTree :=
    { HashFunc := tr.HashFunc, Root := none, Leafs := [], MerkleRootHash := [] }
  let t2 : Ptr := some h0.trees.length
  let hB : Heap P := (h0.newTree t0).2
  have htB : hB.tree t2 = .ok t0 := newTree_tree h0 t0
  have hBn : hB.nodes.length = h0.nodes.length := rfl
  unfold RebuildTreeWith at hre
  rcases hc : constructTreeFromPayloads fuel (pp.map some) m h with ⟨res, hA3⟩
  rw [hc] at hre
  cases res with
  | error e =>
    simp only [installTree] at hre
    cases congrArg Prod.fst hre
  | ok v =>
    obtain ⟨root, leafs⟩ := v
    simp only [installTree] at hre
    cases hrn : hA3.node root with
    | error e =>
      rw [hrn] at hre
      cases congrArg Prod.fst hre
    | ok rnA =>
      rw [hrn] at hre
      simp only at hre
      have eh1 : h1 = hA3.setTree m root leafs rnA.Hash := (congrArg Prod.snd hre).symm
      obtain ⟨hB3, ds, hd, eB, eleafs, S, tA, tB, hlroot⟩ :=
        constructTree_sim htr htB (show tr.HashFunc = t0.HashFunc from rfl) fuel hpp hc
      rw [hBn] at eB S
      obtain ⟨r, rfl, hNr, hrl⟩ := hlroot root (List.mem_singleton.2 rfl)
      have hrA : hA3.nodes[r]? = some rnA := (node_some_iff _ _ _).1 hrn
      have hrB : hB3.nodes[r - h.nodes.length + h0.nodes.length]? =
          some (shiftNode h.nodes.length h0.nodes.length t2 rnA) := by
        rw [show r - h.nodes.length + h0.nodes.length = h0.nodes.length + (r - h.nodes.length)
          by omega, S.node, show h.nodes.length + (r - h.nodes.length) = r by omega, hrA]
        rfl
      have hnodeB : hB3.node (some (r - h.nodes.length + h0.nodes.length)) =
          .ok (shiftNode h.nodes.length h0.nodes.length t2 rnA) := (node_some_iff _ _ _).2 hrB
      have e0 : NewTree fuel (pp.map some) tr.HashFunc h0 =
          match installTree t2 (constructTreeFromPayloads fuel (pp.map some) t2 hB) with
          | (.error e, h1) => (.error e, h1)
          | (.ok _, h1) => (.ok t2, h1) := rfl
      have htA3 : hA3.tree m = .ok tr := by rw [tree_congr tA]; exact htr
      have htB3 : hB3.tree t2 = .ok t0 := by rw [tree_congr tB]; exact htB
      have hlenS := S.len
      have hb1 := S.base1
      refine ⟨t2, hB3.setTree t2 (some (r - h.nodes.length + h0.nodes.length))
          (freshPtrs hB (leafLayer m pp ds).length) rnA.Hash,
        { tr with Root := some r, Leafs := leafs, MerkleRootHash := rnA.Hash },
        { t0 with Root := some (r - h.nodes.length + h0.nodes.length),
                  Leafs := freshPtrs hB (leafLayer m pp ds).length,
                  MerkleRootHash := rnA.Hash },
        (leafLayer m pp ds).length, hA3.nodes.length - h.nodes.length,
        ?_, ?_, ?_, rfl, rfl, rfl, ?_, ?_, rfl, ?_, ?_, ?_⟩
      · rw [e0, eB]
        simp only [installTree, shiftPtr, hnodeB]
        rfl
      · rw [eh1]
        exact setTree_tree htA3 _ _ _
      · exact setTree_tree htB3 _ _ _
      · exact ⟨r - h.nodes.length, by omega, by simp only; congr 1; omega,
          by simp only; congr 1; omega⟩
      · exact eleafs
      · rw [eh1, setTree_nodes]; omega
      · rw [setTree_nodes]; omega
      · intro k hk
        have hlt : h.nodes.length + k < hA3.nodes.length := by omega
        have hn1 : hA3.nodes[h.nodes.length + k]? = some (hA3.nodes[h.nodes.length + k]) :=
          List.getElem?_eq_getElem hlt
        have hn1F : h1.nodes[h.nodes.length + k]? = some (hA3.nodes[h.nodes.length + k]) := by
          rw [eh1, setTree_nodes]; exact hn1
        refine ⟨_, _, hn1F, ?_, sameNode_shift (F.nodes.built.nodes _ _ (by omega) hn1F)
          (by omega) h0.nodes.length t2⟩
        rw [setTree_nodes, S.node, hn1]
        rfl

/-- C15 at a concrete input: the tree of three payloads rebuilt with two payloads,
next to `NewTree` of the two payloads in the empty heap. -/
theorem C15_rebuildTreeWith_agrees_with_newTree_witness :
    builtThree.2.tree (some 0) =
      .ok ⟨some 6, [some 0, some 1, some 2, some 3], [0, 0, 1, 2, 0, 3, 3], wrapHash⟩ ∧
    (RebuildTreeWith 3 (some 0) (twoTx.map some) builtThree.2).1 = .ok () ∧
    ∃ m2 h2 tr1 tr2 L cnt,
      NewTree 3 (twoTx.map some) wrapHash emptyHeap = (.ok m2, h2) ∧
      (RebuildTreeWith 3 (some 0) (twoTx.map some) builtThree.2).2.tree (some 0) = .ok tr1 ∧
      h2.tree m2 = .ok tr2 ∧
      tr1.HashFunc = wrapHash ∧ tr2.HashFunc = wrapHash ∧
      tr1.MerkleRootHash = tr2.MerkleRootHash ∧
      (∃ k, k < cnt ∧ tr1.Root = some (builtThree.2.nodes.length + k) ∧
        tr2.Root = some ((emptyHeap : Heap Tx).nodes.length + k)) ∧
      tr1.Leafs = (List.range' builtThree.2.nodes.length L).map some ∧
      tr2.Leafs = (List.range' (emptyHeap : Heap Tx).nodes.length L).map some ∧
      (RebuildTreeWith 3 (some 0) (twoTx.map some) builtThree.2).2.nodes.length =
        builtThree.2.nodes.length + cnt ∧
      h2.nodes.length = (emptyHeap : Heap Tx).nodes.length + cnt ∧
      ∀ k, k < cnt → ∃ n1 n2,
        (RebuildTreeWith 3 (some 0) (twoTx.map some)
          builtThree.2).2.nodes[builtThree.2.nodes.length + k]? = some n1 ∧
        h2.nodes[(emptyHeap : Heap Tx).nodes.length + k]? = some n2 ∧
        SameNode builtThree.2.nodes.length (emptyHeap : Heap Tx).nodes.length n1 n2 :=
  ⟨rfl, rfl,
    (C15_rebuildTreeWith_agrees_with_newTree (some 0)
      ⟨some 6, [some 0, some 1, some 2, some 3], [0, 0, 1, 2, 0, 3, 3], wrapHash⟩
      builtThree.2 rfl twoTx (by decide) 3 emptyHeap).1
      (RebuildTreeWith 3 (some 0) (twoTx.map some) builtThree.2).2 (by rfl)⟩

theorem hashes_layer (h1 : Heap P) :
    ∀ (X : List (Node P)) (N : Nat),
      (∀ (i : Nat) (nd : Node P), X[i]? = some nd →
        ∃ n, h1.nodes[N + i]? = some n ∧ n.Hash = nd.Hash) →
      ((List.range' N X.length).map some).map (hashAt h1) = X.map (fun n => n.Hash) := by
  intro X
  induction X with
  | nil => intro N _; rfl
  | cons nd X ih =>
    intro N hall
    obtain ⟨n, hn, hp⟩ := hall 0 nd (by simp)
    have ih1 := ih (N + 1) (fun i nd1 hi => by
      obtain ⟨n1, q1, q2⟩ := hall (i + 1) nd1 (by simpa using hi)
      exact ⟨n1, by rw [← q1]; congr 1; omega, q2⟩)
    have hh : hashAt h1 (some N) = nd.Hash := by
      unfold hashAt
      rw [(node_some_iff h1 N n).2 (by simpa using hn)]
      exact hp
    simp only [List.length_cons, List.range'_succ, List.map_cons, ih1, hh]

theorem FreshTree.leaf_hashes [Payload P] {hf : HashFunc} {pp : List P} {ds : List Bytes}
    {N r : Nat} {m : Ptr} {h : Heap P} (F : FreshTree hf pp ds N r m h) {tr : MerkleTree}
    (htr : h.tree m = .ok tr) : tr.Leafs.map (hashAt h) = padOdd ds := by
  obtain ⟨tr1, rn, htr1, _, _, hleafs, _, _⟩ := F.tree
  rw [htr] at htr1
  cases htr1
  rw [hleafs, ← leafLayer_hash m F.nodes.digests]
  apply hashes_layer
  intro i nd hi
  obtain ⟨n1, hn1, en1⟩ := F.nodes.leaves i nd hi
  exact ⟨n1, hn1, by rw [en1]⟩

theorem FreshTree.verifyPayload_true [Payload P] {hf : HashFunc} {pp : List P}
    {ds : List Bytes} {N r : Nat} {m : Ptr} {h : Heap P} (F : FreshTree hf pp ds N r m h)
    {i : Nat} {c cand : P} (hi : pp[i]? = some c) (he : Payload.Equals c cand = .ok true)
    (hno : ∀ j q, j < i → pp[j]? = some q → ∃ b, Payload.Equals q cand = .ok b)
    (fuel : Nat) (hfuel : h.nodes.length ≤ fuel) :
    VerifyPayload fuel m cand h = .ok true := by
  obtain ⟨tr, rn, htr, hhf, _, _, hrn, _⟩ := F.tree
  have hn : ∀ c, h.nodes[c]? =
      (h.nodes[c]?).map (fun nd => if c = r then { nd with Hash := rn.Hash } else nd) := by
    intro c
    cases hq : h.nodes[c]? with
    | none => rfl
    | some nd =>
      by_cases hc : c = r
      · subst hc
        rw [hq] at hrn
        cases hrn
        simp
      · simp [hc]
  have := F.verifyPayload_match htr hrn hn htr rfl hhf hi he hno fuel hfuel
  simpa using this

theorem RebuildTree_restores [Payload P] {hf : HashFunc} {pp : List P} {ds : List Bytes}
    {N r : Nat} {m : Ptr} {h hT : Heap P} (F : FreshTree hf pp ds N r m h)
    (hpp : pp ≠ []) {tr : MerkleTree} (htr : h.tree m = .ok tr) (ht : HashTampered h hT)
    (fuel : Nat) (hfuel : pp.length + 1 ≤ fuel) :
    ∃ h2 r2 tr2, RebuildTree fuel m hT = (.ok (), h2) ∧
      FreshTree hf (padLast pp) (padOdd ds) hT.nodes.length r2 m h2 ∧
      h2.tree m = .ok tr2 ∧ tr2.MerkleRootHash = tr.MerkleRootHash := by
  obtain ⟨tr1, rn, htr1, hhf, _, hleafs, hrn, hmr⟩ := F.tree
  rw [htr] at htr1
  cases htr1
  obtain ⟨a, rfl, ha⟩ := tree_ok_elim htr
  obtain ⟨trT, haT, eT⟩ := ht.tree a tr ha
  have htrT : hT.tree (some a) = .ok trT := (tree_some_iff _ _ _).2 haT
  have eL : trT.Leafs = tr.Leafs := by rw [eT]
  have eH : trT.HashFunc = hf := by rw [eT]; exact hhf
  have hd := F.nodes.digests
  have hlp : leafPayloads hT trT.Leafs = .ok ((padLast pp).map some) := by
    rw [eL, hleafs, ← leafLayer_payload (some a) hd]
    apply leafPayloads_layer
    intro i nd hi
    obtain ⟨n1, hn1, en1⟩ := F.nodes.leaves i nd hi
    obtain ⟨n2, hn2, en2⟩ := ht.node _ n1 hn1
    exact ⟨n2, hn2, by rw [en2, en1]⟩
  have hne : padLast pp ≠ [] := by
    intro q
    have := padLast_length pp
    rw [q] at this
    have : pp.length = 0 := by simp at this; omega
    exact hpp (List.length_eq_zero.1 this)
  obtain ⟨rn0, hrn0, href, _, _⟩ := F.nodes.rootNode
  rw [hrn] at hrn0
  cases hrn0
  have h2len : 2 ≤ (padOdd ds).length := by
    have : refRootAux hf (padOdd ds).length (padOdd ds) = .ok rn.Hash := href
    exact refRootAux_ok_length hf _ _ _ this
  have hlen : (padOdd ds).length ≤ fuel := by
    rw [padOdd_length, leafDigests_length pp ds hd]
    omega
  have haux : refRootAux trT.HashFunc fuel (padOdd (padOdd ds)) = .ok rn.Hash := by
    rw [eH, padOdd_idem, aux_of_refRoot hf h2len hlen]
    exact href
  obtain ⟨h2, _, _, hok⟩ := RebuildTreeWith_spec htrT fuel (padLast pp) hne
  obtain ⟨r2, e2, F2, _⟩ := (hok (padOdd ds) (leafDigests_padLast hd)).2 rn.Hash haux
  rw [eH] at F2
  obtain ⟨tr2, rn2, htr2, _, _, _, hrn2, hmr2⟩ := F2.tree
  obtain ⟨rn3, hrn3, href3, _, _⟩ := F2.nodes.rootNode
  rw [hrn2] at hrn3
  cases hrn3
  rw [padOdd_idem, href] at href3
  refine ⟨h2, r2, tr2, ?_, F2, htr2, ?_⟩
  · unfold RebuildTree
    simp only [htrT, hlp]
    exact e2
  · rw [hmr2, hmr]
    exact (Except.ok.inj href3).symm

/-- C16 as stated fails: the tree of two payloads of different kinds
has its `MerkleRootHash` overwritten and is rebuilt; `RebuildTree` succeeds, but
`VerifyPayload` of the second payload returns the error of the comparison at the
first leaf, not true. -/
theorem C16_counterexample :
    builtKinds.1 = .ok (some 0) ∧ kindTxs[1]? = some (KindTx.mk 1 0) ∧
    (RebuildTree 3 (some 0) (builtKinds.2.setMerkleRootHash (some 0) [123])).1 = .ok () ∧
    ∀ fuel, VerifyPayload fuel (some 0) (KindTx.mk 1 0)
      (RebuildTree 3 (some 0) (builtKinds.2.setMerkleRootHash (some 0) [123])).2 =
        .error (.err "payload of another kind") :=
  ⟨rfl, rfl, rfl, fun _ => rfl⟩

/-- C16, amended: for every non-empty payload list `pp`, if the tree built by
`NewTree(pp)` has any of its stored node `Hash` fields and `MerkleRootHash`
overwritten (the untampered state included) and `RebuildTree` is then called,
`RebuildTree` succeeds, `MerkleRootHash` equals the root digest `NewTree(pp)`
produced, the number of leaves and their digests are those of the tree as built,
`VerifyTree` returns true, and `VerifyPayload(pp[i])` returns true provided
`pp[i].Equals(pp[i])` returns `(true, nil)` and no comparison `pp[j].Equals(pp[i])`
with `j < i` returns an error. -/
theorem C16_rebuild_restores_root [Payload P] (hf : HashFunc) (pp : List P) (hpp : pp ≠ [])
    (fuel : Nat) (h0 h : Heap P) (m : Ptr)
    (hnew : NewTree fuel (pp.map some) hf h0 = (.ok m, h))
    (hT : Heap P) (htamper : HashTampered h hT) (fuel2 : Nat) (hfuel2 : pp.length + 1 ≤ fuel2) :
    ∃ tr h2 tr2, h.tree m = .ok tr ∧ RebuildTree fuel2 m hT = (.ok (), h2) ∧
      h2.tree m = .ok tr2 ∧ tr2.MerkleRootHash = tr.MerkleRootHash ∧
      tr2.Leafs.length = tr.Leafs.length ∧
      tr2.Leafs.map (hashAt h2) = tr.Leafs.map (hashAt h) ∧
      (∀ fuel1, h2.nodes.length ≤ fuel1 → VerifyTree fuel1 m h2 = .ok true) ∧
      (∀ (i : Nat) (cand : P), pp[i]? = some cand → Payload.Equals cand cand = .ok true →
        (∀ j q, j < i → pp[j]? = some q → ∃ b, Payload.Equals q cand = .ok b) →
        ∀ fuel1, h2.nodes.length ≤ fuel1 → VerifyPayload fuel1 m cand h2 = .ok true) := by
  obtain ⟨ds, r, F, _⟩ := NewTree_ok hpp hnew
  obtain ⟨tr, rn, htr, _, _, _, _, _⟩ := F.tree
  obtain ⟨h2, r2, tr2, e2, F2, htr2, hmr⟩ := RebuildTree_restores F hpp htr htamper fuel2 hfuel2
  refine ⟨tr, h2, tr2, htr, e2, htr2, hmr, ?_, ?_, ?_, ?_⟩
  · rw [F2.leafs_length htr2, F.leafs_length htr, padLast_length]
    omega
  · rw [F2.leaf_hashes htr2, F.leaf_hashes htr, padOdd_idem]
  · intro fuel1 hf1
    exact F2.verifyTree fuel1 hf1
  · intro i cand hi he hno fuel1 hf1
    have hlt : i < pp.length := by
      by_contra hc
      rw [List.getElem?_eq_none (by omega)] at hi
      cases hi
    refine F2.verifyPayload_true (by rw [padLast_get pp hlt]; exact hi) he ?_ fuel1 hf1
    intro j q hj hq
    rw [padLast_get pp (by omega)] at hq
    exact hno j q hj hq

/-- C16, amended, at a concrete input: the tree of three payloads with the stored
digest of its first leaf and its `MerkleRootHash` overwritten, then rebuilt. -/
theorem C16_rebuild_restores_root_witness :
    NewTree 4 (threeTx.map some) wrapHash emptyHeap = (.ok (some 0), builtThree.2) ∧
    HashTampered builtThree.2
      ((builtThree.2.setHash (some 0) [9]).setMerkleRootHash (some 0) [123]) ∧
    ∃ tr h2 tr2, builtThree.2.tree (some 0) = .ok tr ∧
      RebuildTree 4 (some 0)
        ((builtThree.2.setHash (some 0) [9]).setMerkleRootHash (some 0) [123]) =
          (.ok (), h2) ∧
      h2.tree (some 0) = .ok tr2 ∧ tr2.MerkleRootHash = tr.MerkleRootHash ∧
      tr2.Leafs.length = tr.Leafs.length ∧
      tr2.Leafs.map (hashAt h2) = tr.Leafs.map (hashAt builtThree.2) ∧
      (∀ fuel1, h2.nodes.length ≤ fuel1 → VerifyTree fuel1 (some 0) h2 = .ok true) ∧
      (∀ (i : Nat) (cand : Tx), threeTx[i]? = some cand →
        Payload.Equals cand cand = .ok true →
        (∀ j q, j < i → threeTx[j]? = some q → ∃ b, Payload.Equals q cand = .ok b) →
        ∀ fuel1, h2.nodes.length ≤ fuel1 → VerifyPayload fuel1 (some 0) cand h2 = .ok true) :=
  ⟨rfl, (HashTampered.setHash builtThree.2 (some 0) [9]).twice
      (HashTampered.setMerkleRootHash _ (some 0) [123]),
    C16_rebuild_restores_root wrapHash threeTx (by decide) 4 emptyHeap builtThree.2 (some 0)
      (by rfl) _
      ((HashTampered.setHash builtThree.2 (some 0) [9]).twice
        (HashTampered.setMerkleRootHash _ (some 0) [123])) 4 (by decide)⟩

/-! ## Stored digests of a fresh tree -/

/-- C17: in the tree returned by `NewTree` for a non-empty payload list, every
node allocated by the call (the root, every entry of `Leafs`, and every child of
such a node are among them) is consistent: a leaf's `Hash` is its
`Payload.CalculateHash()`; an internal node has no `Payload` and its `Hash` is
`H(Left.Hash ++ Right.Hash)`, left before right; every node other than the root
has a `Parent` whose `Left` or `Right` is that node; the root has no `Parent`.
And `NewTree` does return a tree when the digests compute. -/
theorem C17_stored_digests_consistent [Payload P] (hf : HashFunc) (pp : List P)
    (hpp : pp ≠ []) (fuel : Nat) (h0 : Heap P) :
    (∀ m h, NewTree fuel (pp.map some) hf h0 = (.ok m, h) →
      ∃ tr r, h.tree m = .ok tr ∧ tr.HashFunc = hf ∧ tr.Root = some r ∧
        h0.nodes.length ≤ r ∧ r < h.nodes.length ∧
        (∀ x ∈ tr.Leafs, ∃ a, x = some a ∧ h0.nodes.length ≤ a ∧ a < h.nodes.length) ∧
        ∀ (a : Nat) (n : Node P), h0.nodes.length ≤ a → h.nodes[a]? = some n →
          (n.isLeaf = true → ∃ p, n.Payload = some p ∧
            Payload.CalculateHash p = .ok n.Hash) ∧
          (n.isLeaf = false → n.Payload = none ∧
            ∃ l r ln rn, n.Left = some l ∧ n.Right = some r ∧
              h0.nodes.length ≤ l ∧ h0.nodes.length ≤ r ∧
              h.nodes[l]? = some ln ∧ h.nodes[r]? = some rn ∧
              hf.Calculate (ln.Hash ++ rn.Hash) = .ok n.Hash) ∧
          (a ≠ r → ∃ p pn, n.Parent = some p ∧ h.nodes[p]? = some pn ∧
            pn.isLeaf = false ∧ (pn.Left = some a ∨ pn.Right = some a)) ∧
          (a = r → n.Parent = none ∧ n.isLeaf = false)) ∧
    ((∀ p ∈ pp, ∃ d, Payload.CalculateHash p = .ok d) → (∀ b, ∃ d, hf.Calculate b = .ok d) →
      pp.length + 1 ≤ fuel → ∃ m h, NewTree fuel (pp.map some) hf h0 = (.ok m, h)) := by
  refine ⟨?_, fun hc hh hfuel => NewTree_total hf pp hpp hc hh fuel hfuel h0⟩
  intro m h hnew
  obtain ⟨ds, r, hfresh, _⟩ := NewTree_ok hpp hnew
  obtain ⟨tr, rn, htr, hhf, hroot, hleafs, hrn, _⟩ := hfresh.tree
  have hc := hfresh.nodes
  obtain ⟨rn1, hrn1, _, hpar, hleaf⟩ := hc.rootNode
  have hlast := hc.last
  have habove := hc.above
  refine ⟨tr, r, htr, hhf, hroot, by omega, by omega, ?_, ?_⟩
  · intro x hx
    rw [hleafs] at hx
    obtain ⟨a, ha, rfl⟩ := List.mem_map.1 hx
    rw [List.mem_range'_1] at ha
    exact ⟨a, rfl, ha.1, by omega⟩
  · intro a n ha hn
    have ok := hc.built.nodes a n ha hn
    refine ⟨fun hl => (ok.leaf hl).2.2, ?_, ?_, ?_⟩
    · intro hl
      obtain ⟨hp, _, l, r1, ln, rnn, e1, e2, b1, _, b2, _, g1, g2, hh⟩ := ok.inner hl
      exact ⟨hp, l, r1, ln, rnn, e1, e2, b1, b2, g1, g2, hh⟩
    · intro hne
      cases hp : n.Parent with
      | none =>
        have := hc.tops a n ha hn hp
        exact absurd (Option.some.inj this) hne
      | some p =>
        obtain ⟨_, pn, g, hl, hor⟩ := ok.parent p hp
        exact ⟨p, pn, rfl, g, hl, hor⟩
    · intro e
      subst e
      rw [hrn1] at hn
      cases hn
      exact ⟨hpar, hleaf⟩

/-- C17 at a concrete input: the three-payload tree, whose seven nodes start at
address 0 and whose root is node 6. -/
theorem C17_stored_digests_consistent_witness :
    NewTree 4 (threeTx.map some) wrapHash emptyHeap = (.ok (some 0), builtThree.2) ∧
    ∃ tr r, builtThree.2.tree (some 0) = .ok tr ∧ tr.HashFunc = wrapHash ∧
      tr.Root = some r ∧
      (emptyHeap : Heap Tx).nodes.length ≤ r ∧ r < builtThree.2.nodes.length ∧
      (∀ x ∈ tr.Leafs, ∃ a, x = some a ∧ (emptyHeap : Heap Tx).nodes.length ≤ a ∧
        a < builtThree.2.nodes.length) ∧
      ∀ (a : Nat) (n : Node Tx), (emptyHeap : Heap Tx).nodes.length ≤ a →
        builtThree.2.nodes[a]? = some n →
        (n.isLeaf = true → ∃ p, n.Payload = some p ∧
          Payload.CalculateHash p = .ok n.Hash) ∧
        (n.isLeaf = false → n.Payload = none ∧
          ∃ l r ln rn, n.Left = some l ∧ n.Right = some r ∧
            (emptyHeap : Heap Tx).nodes.length ≤ l ∧ (emptyHeap : Heap Tx).nodes.length ≤ r ∧
            builtThree.2.nodes[l]? = some ln ∧ builtThree.2.nodes[r]? = some rn ∧
            wrapHash.Calculate (ln.Hash ++ rn.Hash) = .ok n.Hash) ∧
        (a ≠ r → ∃ p pn, n.Parent = some p ∧ builtThree.2.nodes[p]? = some pn ∧
          pn.isLeaf = false ∧ (pn.Left = some a ∨ pn.Right = some a)) ∧
        (a = r → n.Parent = none ∧ n.isLeaf = false) :=
  ⟨rfl, (C17_stored_digests_consistent wrapHash threeTx (by decide) 4 emptyHeap).1
    (some 0) builtThree.2 (by rfl)⟩

/-! ## The tree of a single payload -/

theorem single_payload_tree [Payload P] (hf : HashFunc) (p : P) (d D : Bytes)
    (hd : Payload.CalculateHash p = .ok d) (hD : hf.Calculate (d ++ d) = .ok D)
    (fuel : Nat) (h0 : Heap P) :
    ∃ h, NewTree (fuel + 1) [some p] hf h0 = (.ok (some h0.trees.length), h) ∧
      h.tree (some h0.trees.length) =
        .ok ⟨some (h0.nodes.length + 2), [some h0.nodes.length, some (h0.nodes.length + 1)],
          D, hf⟩ ∧
      h.nodes.length = h0.nodes.length + 3 ∧
      h.nodes[h0.nodes.length]? =
        some ⟨some h0.trees.length, some (h0.nodes.length + 2), none, none, true, false, d,
          some p⟩ ∧
      h.nodes[h0.nodes.length + 1]? =
        some ⟨some h0.trees.length, some (h0.nodes.length + 2), none, none, true, true, d,
          some p⟩ ∧
      h.nodes[h0.nodes.length + 2]? =
        some ⟨some h0.trees.length, none, some h0.nodes.length, some (h0.nodes.length + 1),
          false, false, D, none⟩ ∧
      (∀ (c : Nat) (n : Node P), h0.nodes[c]? = some n → h.nodes[c]? = some n) ∧
      (∀ (a : Nat) (tr : MerkleTree), h0.trees[a]? = some tr → h.trees[a]? = some tr) := by
  let t0 : MerkleTree := { HashFunc := hf, Root := none, Leafs := [], MerkleRootHash := [] }
  let t : Ptr := some h0.trees.length
  let hA : Heap P := (h0.newTree t0).2
  have hAn : hA.nodes = h0.nodes := rfl
  have htr : hA.tree t = .ok t0 := newTree_tree h0 t0
  have hds : leafDigests [p] = .ok [d] := by
    simp [leafDigests, hd, bind, Except.bind, pure, Except.pure]
  obtain ⟨h1, x1, _, hok1⟩ := makeLeafNodes_spec t [p] [] hA
  obtain ⟨hn1, em⟩ := hok1 [d] hds
  obtain ⟨h2, x2, hn2, edup⟩ := duplicateLastLeaf_spec t hds hn1
  have hll : leafLayer t [p] [d] =
      [leafNode t p d false, { leafNode t p d false with isDuplicate := true }] := by
    simp [leafLayer, realLeaves]
  rw [hll] at hn2 edup
  have htr2 : h2.tree t = .ok t0 := by
    rw [tree_congr (x1.chain_ext x2).1]; exact htr
  have hlen2 : h2.nodes.length = h0.nodes.length + 2 := by rw [hn2, hAn]; simp
  have ha : h2.nodes[h0.nodes.length]? = some (leafNode t p d false) := by
    rw [hn2, hAn, List.getElem?_append_right (Nat.le_refl _)]; simp
  have hb : h2.nodes[h0.nodes.length + 1]? =
      some { leafNode t p d false with isDuplicate := true } := by
    rw [hn2, hAn, List.getElem?_append_right (by omega)]; simp
  obtain ⟨h3, efp, s⟩ := foldPair_ok htr2 ha hb (show t0.HashFunc.Calculate _ = .ok D from hD)
  rw [hlen2] at efp
  have hlen3 : h3.nodes.length = h0.nodes.length + 3 := by rw [s.2.1, hlen2]
  have hroot : h3.nodes[h0.nodes.length + 2]? =
      some (pairNode t h0.nodes.length (h0.nodes.length + 1) D) := by
    have := s.new
    rw [hlen2] at this
    exact this
  have hfp : freshPtrs hA 1 = [some h0.nodes.length] := rfl
  have hfp2 : freshPtrs hA 2 = [some h0.nodes.length, some (h0.nodes.length + 1)] := rfl
  have ec : constructTreeFromPayloads (fuel + 1) [some p] t hA =
      (.ok (some (h0.nodes.length + 2),
        [some h0.nodes.length, some (h0.nodes.length + 1)]), h3) := by
    have em1 : makeLeafNodes t [some p] [] hA = (.ok [some h0.nodes.length], h1) := by
      simpa [hfp] using em
    have ed1 : duplicateLastLeaf t [some h0.nodes.length] h1 =
        (.ok [some h0.nodes.length, some (h0.nodes.length + 1)], h2) := by
      simpa [hfp, hfp2] using edup
    simp [constructTreeFromPayloads, em1, ed1, constructNonLeafTreeLevelsFromLeafNodes,
      foldLevel, efp]
  have htr3 : h3.tree t = .ok t0 := by rw [tree_congr s.1]; exact htr2
  refine ⟨h3.setTree t (some (h0.nodes.length + 2))
    [some h0.nodes.length, some (h0.nodes.length + 1)] D, ?_, ?_, ?_, ?_, ?_, ?_, ?_, ?_⟩
  · have hnode : h3.node (some (h0.nodes.length + 2)) =
        .ok (pairNode t h0.nodes.length (h0.nodes.length + 1) D) :=
      (node_some_iff _ _ _).2 hroot
    have e0 : NewTree (fuel + 1) [some p] hf h0 =
        match installTree t (constructTreeFromPayloads (fuel + 1) [some p] t hA) with
        | (.error e, h1) => (.error e, h1)
        | (.ok _, h1) => (.ok t, h1) := rfl
    rw [e0, ec]
    simp only [installTree, hnode]
    rfl
  · rw [setTree_tree htr3]
  · rw [setTree_nodes]; exact hlen3
  · rw [setTree_nodes, s.keep ha]
    simp [leafNode, hlen2]
  · rw [setTree_nodes, s.keep hb]
    simp [leafNode, hlen2]
  · rw [setTree_nodes, hroot]
    rfl
  · intro c n hn
    have hc : c < h0.nodes.length := lookup_lt hn
    have hn2c : h2.nodes[c]? = some n := by
      rw [hn2, hAn, List.getElem?_append_left hc]; exact hn
    rw [setTree_nodes, s.frame hn2c (by omega) (by omega)]
  · intro a tr ha1
    have hlt : a < h0.trees.length := by
      by_contra hc
      rw [List.getElem?_eq_none (by omega)] at ha1
      cases ha1
    rw [setTree_other (by omega), s.1, (x1.chain_ext x2).1]
    simp only [hA, Heap.newTree]
    rw [List.getElem?_append_left hlt]; exact ha1

/-- C18 as stated fails: for a payload that does not compare equal to
itself (a reading that is not-a-number), the tree of that single payload is built
with its two leaves, but `GetMerklePath` of the payload finds no leaf and returns
`(nil, nil, nil)`, not the siblings `[h(p)]` and directions `[1]`. -/
theorem C18_counterexample :
    (NewTree 3 [some (Reading.mk none)] wrapHash emptyHeap).1 = .ok (some 0) ∧
    ((NewTree 3 [some (Reading.mk none)] wrapHash emptyHeap).2.tree (some 0)).map
      (fun t => (t.Root, t.Leafs, t.MerkleRootHash)) =
        .ok (some 2, [some 0, some 1], [0, 0, 0]) ∧
    Payload.CalculateHash (Reading.mk none) = .ok [0] ∧
    Payload.Equals (Reading.mk none) (Reading.mk none) = .ok false ∧
    (∀ fuel, GetMerklePath fuel (some 0) (Reading.mk none)
      (NewTree 3 [some (Reading.mk none)] wrapHash emptyHeap).2 = .ok ([], [])) ∧
    (([], []) : List Bytes × List Int) ≠ ([[0]], [1]) :=
  ⟨rfl, rfl, rfl, rfl, fun _ => rfl, by decide⟩

/-- C18, amended: for every payload `p` whose digest `h(p)` and whose root hash
`H(h(p) ++ h(p))` compute, `NewTree([p])` allocates exactly three nodes: the leaf
of `p`, a duplicate of it marked `isDuplicate` (both with digest `h(p)` and the
root as `Parent`), and the root, the only internal node, with `Left` the original
leaf and `Right` the duplicate; `Leafs` is the two leaves, `MerkleRootHash` is
`H(h(p) ++ h(p))`; and if `p.Equals(p)` returns `(true, nil)`, `GetMerklePath(p)`
returns the siblings `[h(p)]` and the directions `[1]`. -/
theorem C18_single_payload_tree [Payload P] (hf : HashFunc) (p : P) (d D : Bytes)
    (hd : Payload.CalculateHash p = .ok d) (hD : hf.Calculate (d ++ d) = .ok D)
    (fuel : Nat) (h0 : Heap P) :
    ∃ h, NewTree (fuel + 1) [some p] hf h0 = (.ok (some h0.trees.length), h) ∧
      h.tree (some h0.trees.length) =
        .ok ⟨some (h0.nodes.length + 2), [some h0.nodes.length, some (h0.nodes.length + 1)],
          D, hf⟩ ∧
      h.nodes.length = h0.nodes.length + 3 ∧
      h.nodes[h0.nodes.length]? =
        some ⟨some h0.trees.length, some (h0.nodes.length + 2), none, none, true, false, d,
          some p⟩ ∧
      h.nodes[h0.nodes.length + 1]? =
        some ⟨some h0.trees.length, some (h0.nodes.length + 2), none, none, true, true, d,
          some p⟩ ∧
      h.nodes[h0.nodes.length + 2]? =
        some ⟨some h0.trees.length, none, some h0.nodes.length, some (h0.nodes.length + 1),
          false, false, D, none⟩ ∧
      (∀ (c : Nat) (n : Node P), h0.nodes[c]? = some n → h.nodes[c]? = some n) ∧
      (Payload.Equals p p = .ok true → ∀ fuel1, 2 ≤ fuel1 →
        GetMerklePath fuel1 (some h0.trees.length) p h = .ok ([d], [1])) := by
  obtain ⟨h, e, htr, hlen, hl0, hl1, hr, hold, _⟩ := single_payload_tree hf p d D hd hD fuel h0
  refine ⟨h, e, htr, hlen, hl0, hl1, hr, hold, ?_⟩
  intro heq fuel1 hf1
  obtain ⟨k, rfl⟩ : ∃ k, fuel1 = k + 2 := ⟨fuel1 - 2, by omega⟩
  have n0 := (node_some_iff _ _ _).2 hl0
  have n1 := (node_some_iff _ _ _).2 hl1
  have n2 := (node_some_iff _ _ _).2 hr
  have hfirst : FirstMatch h p [some h0.nodes.length, some (h0.nodes.length + 1)]
      (some h0.nodes.length)
      ⟨some h0.trees.length, some (h0.nodes.length + 2), none, none, true, false, d,
        some p⟩ :=
    ⟨[], [some (h0.nodes.length + 1)], p, rfl, fun x hx => absurd hx (List.not_mem_nil x),
      n0, rfl, heq⟩
  rw [GetMerklePath_scan htr, scanLeafs_firstMatch hfirst]
  simp only [merklePathLoop, n0, n1, n2, bind, Except.bind, if_true, List.nil_append]

/-- C18, amended, at a concrete input: the tree of the single payload 7 in the empty heap. -/
theorem C18_single_payload_tree_witness :
    Payload.CalculateHash (Tx.mk 7) = .ok [7] ∧ wrapHash.Calculate ([7] ++ [7]) = .ok [0, 7, 7] ∧
    ∃ h, NewTree (0 + 1) [some (Tx.mk 7)] wrapHash emptyHeap =
        (.ok (some (emptyHeap : Heap Tx).trees.length), h) ∧
      h.tree (some (emptyHeap : Heap Tx).trees.length) =
        .ok ⟨some ((emptyHeap : Heap Tx).nodes.length + 2),
          [some (emptyHeap : Heap Tx).nodes.length,
            some ((emptyHeap : Heap Tx).nodes.length + 1)], [0, 7, 7], wrapHash⟩ ∧
      h.nodes.length = (emptyHeap : Heap Tx).nodes.length + 3 ∧
      h.nodes[(emptyHeap : Heap Tx).nodes.length]? =
        some ⟨some (emptyHeap : Heap Tx).trees.length,
          some ((emptyHeap : Heap Tx).nodes.length + 2), none, none, true, false, [7],
          some (Tx.mk 7)⟩ ∧
      h.nodes[(emptyHeap : Heap Tx).nodes.length + 1]? =
        some ⟨some (emptyHeap : Heap Tx).trees.length,
          some ((emptyHeap : Heap Tx).nodes.length + 2), none, none, true, true, [7],
          some (Tx.mk 7)⟩ ∧
      h.nodes[(emptyHeap : Heap Tx).nodes.length + 2]? =
        some ⟨some (emptyHeap : Heap Tx).trees.length, none,
          some (emptyHeap : Heap Tx).nodes.length,
          some ((emptyHeap : Heap Tx).nodes.length + 1), false, false, [0, 7, 7], none⟩ ∧
      (∀ (c : Nat) (n : Node Tx), (emptyHeap : Heap Tx).nodes[c]? = some n →
        h.nodes[c]? = some n) ∧
      (Payload.Equals (Tx.mk 7) (Tx.mk 7) = .ok true → ∀ fuel1, 2 ≤ fuel1 →
        GetMerklePath fuel1 (some (emptyHeap : Heap Tx).trees.length) (Tx.mk 7) h =
          .ok ([[7]], [1])) :=
  ⟨rfl, rfl, C18_single_payload_tree wrapHash (Tx.mk 7) [7] [0, 7, 7] rfl rfl 0 emptyHeap⟩

/-- C19: on every tree state, if the leaf scan reaches, before any leaf has
matched, a leaf whose `Payload.Equals(candidate)` returns an error, then
`VerifyPayload` returns `(false, that error)` and `GetMerklePath` returns
`(nil, nil, that error)`; so whenever either returns a nil error, no scanned
comparison failed. -/
theorem C19_comparison_errors_propagate [Payload P] (h : Heap P) (m : Ptr) (tr : MerkleTree)
    (cand : P) (htr : h.tree m = .ok tr) (fuel : Nat) :
    (∀ e, ScanFails h cand tr.Leafs e →
      VerifyPayload fuel m cand h = .error (.err e) ∧
      GetMerklePath fuel m cand h = .error (.err e)) ∧
    (∀ b, VerifyPayload fuel m cand h = .ok b → ∀ e, ¬ ScanFails h cand tr.Leafs e) ∧
    (∀ r, GetMerklePath fuel m cand h = .ok r → ∀ e, ¬ ScanFails h cand tr.Leafs e) := by
  have key : ∀ e, ScanFails h cand tr.Leafs e →
      VerifyPayload fuel m cand h = .error (.err e) ∧
      GetMerklePath fuel m cand h = .error (.err e) := by
    intro e hf
    rw [VerifyPayload_scan htr, GetMerklePath_scan htr]
    exact ⟨scanLeafs_fails hf _ _, scanLeafs_fails hf _ _⟩
  refine ⟨key, ?_, ?_⟩
  · intro b hb e hf
    rw [(key e hf).1] at hb
    cases hb
  · intro r hr e hf
    rw [(key e hf).2] at hr
    cases hr

/-- C19 at a concrete input: the tree of two payloads of different kinds and the
second payload as candidate: the comparison at the first leaf fails. -/
theorem C19_comparison_errors_propagate_witness :
    builtKinds.2.tree (some 0) =
      .ok ⟨some 2, [some 0, some 1], [0, 0, 0, 1, 0], wrapHash⟩ ∧
    ScanFails builtKinds.2 (KindTx.mk 1 0) [some 0, some 1] "payload of another kind" ∧
    VerifyPayload 3 (some 0) (KindTx.mk 1 0) builtKinds.2 =
      .error (.err "payload of another kind") ∧
    GetMerklePath 3 (some 0) (KindTx.mk 1 0) builtKinds.2 =
      .error (.err "payload of another kind") :=
  have hs : ScanFails builtKinds.2 (KindTx.mk 1 0) [some 0, some 1]
      "payload of another kind" :=
    ⟨[], some 0, [some 1], _, KindTx.mk 0 0, rfl, fun x hx => absurd hx (List.not_mem_nil x), rfl, rfl, rfl⟩
  ⟨rfl, hs,
    (C19_comparison_errors_propagate builtKinds.2 (some 0)
      ⟨some 2, [some 0, some 1], [0, 0, 0, 1, 0], wrapHash⟩ (KindTx.mk 1 0) rfl 3).1 _ hs⟩

/-! ## Termination of the level fold, on any list of valid pointers -/

theorem foldPair_total {t : Ptr} {tr : MerkleTree} {h : Heap P} (htr : h.tree t = .ok tr)
    (hh : ∀ b, ∃ d, tr.HashFunc.Calculate b = .ok d) {x y : Ptr}
    (hx : Level 0 h [x]) (hy : Level 0 h [y]) :
    ∃ h1 a b d, x = some a ∧ y = some b ∧
      foldPair t x y h = (.ok (some h.nodes.length), h1) ∧ PairStep h h1 t a b d := by
  obtain ⟨a, na, rfl, _, hna, _⟩ := hx.lookup (List.mem_singleton.2 rfl)
  obtain ⟨b, nb, rfl, _, hnb, _⟩ := hy.lookup (List.mem_singleton.2 rfl)
  obtain ⟨d, hd⟩ := hh (na.Hash ++ nb.Hash)
  obtain ⟨h1, e1, s⟩ := foldPair_ok htr hna hnb hd
  exact ⟨h1, a, b, d, rfl, rfl, e1, s⟩

theorem freshPtrs_one (h : Heap P) : freshPtrs h 1 = [some h.nodes.length] := rfl

theorem foldLevel_total {t : Ptr} {tr : MerkleTree}
    (hh : ∀ b, ∃ d, tr.HashFunc.Calculate b = .ok d) {len : Nat} (hlen : len ≠ 2) :
    ∀ (k : Nat) (rest acc : List Ptr) (h : Heap P), rest.length ≤ k →
      h.tree t = .ok tr → Level 0 h rest →
      ∃ h1, foldLevel t len rest acc h =
          (.ok (.inr (acc ++ freshPtrs h ((rest.length + 1) / 2))), h1) ∧
        h1.trees = h.trees ∧ h1.nodes.length = h.nodes.length + (rest.length + 1) / 2 := by
  intro k
  induction k with
  | zero =>
    intro rest acc h hk _ _
    have : rest = [] := List.length_eq_zero.1 (by omega)
    subst this
    exact ⟨h, by simp [foldLevel, freshPtrs_zero], rfl, rfl⟩
  | succ k ih =>
    intro rest acc h hk htr hrest
    match rest, hk, hrest with
    | [], _, _ => exact ⟨h, by simp [foldLevel, freshPtrs_zero], rfl, rfl⟩
    | [x], _, hrest =>
      obtain ⟨h1, a, b, d, _, _, e1, s⟩ := foldPair_total htr hh hrest hrest
      have hq : ([x].length + 1) / 2 = 1 := by simp
      rw [hq]
      refine ⟨h1, ?_, s.1, s.2.1⟩
      simp only [foldLevel, e1, hlen, if_false, freshPtrs_one]
    | x :: y :: rest, hk, hrest =>
      have hx : Level 0 h [x] := fun z hz => hrest z (by
        rw [List.mem_singleton] at hz; simp [hz])
      have hy : Level 0 h [y] := fun z hz => hrest z (by
        rw [List.mem_singleton] at hz; simp [hz])
      have hr : Level 0 h rest := fun z hz => hrest z (by simp [hz])
      obtain ⟨h1, a, b, d, _, _, e1, s⟩ := foldPair_total htr hh hx hy
      have hk1 : rest.length ≤ k := by
        simp only [List.length_cons] at hk
        omega
      have htr1 : h1.tree t = .ok tr := by rw [tree_congr s.1]; exact htr
      obtain ⟨h2, e2, t2, l2⟩ := ih rest (acc ++ [some h.nodes.length]) h1 hk1 htr1
        (hr.mono (by rw [s.2.1]; omega))
      have hq : ((x :: y :: rest).length + 1) / 2 = (rest.length + 1) / 2 + 1 := by
        simp only [List.length_cons]
        omega
      refine ⟨h2, ?_, by rw [t2, s.1], by rw [l2, s.2.1, hq]; omega⟩
      simp only [foldLevel, e1, hlen, if_false, e2]
      rw [hq, freshPtrs_succ h h1 _ s.2.1]
      simp

theorem foldLevel_two {t : Ptr} {tr : MerkleTree} {h : Heap P} (htr : h.tree t = .ok tr)
    (hh : ∀ b, ∃ d, tr.HashFunc.Calculate b = .ok d) {x y : Ptr}
    (hx : Level 0 h [x]) (hy : Level 0 h [y]) :
    ∃ h1 a b d, x = some a ∧ y = some b ∧
      foldLevel t 2 [x, y] [] h = (.ok (.inl (some h.nodes.length)), h1) ∧
      PairStep h h1 t a b d := by
  obtain ⟨h1, a, b, d, ea, eb, e1, s⟩ := foldPair_total htr hh hx hy
  refine ⟨h1, a, b, d, ea, eb, ?_, s⟩
  simp only [foldLevel, e1, if_true]

theorem constructNonLeaf_total {t : Ptr} {tr : MerkleTree}
    (hh : ∀ b, ∃ d, tr.HashFunc.Calculate b = .ok d) :
    ∀ (fuel : Nat) (lv : List Ptr) (h : Heap P), 2 ≤ lv.length → lv.length ≤ fuel →
      h.tree t = .ok tr → Level 0 h lv →
      ∃ r h1 rn, constructNonLeafTreeLevelsFromLeafNodes t fuel lv h = (.ok (some r), h1) ∧
        h1.nodes.length = r + 1 ∧ h1.nodes[r]? = some rn ∧ rn.Parent = none ∧
        rn.isLeaf = false := by
  intro fuel
  induction fuel with
  | zero => intro lv h h2 hf; omega
  | succ fuel ih =>
    intro lv h h2 hf htr hlv
    by_cases hlen : lv.length = 2
    · match lv, hlen, hlv with
      | [x, y], _, hlv =>
        have hx : Level 0 h [x] := fun z hz => hlv z (by
          rw [List.mem_singleton] at hz; simp [hz])
        have hy : Level 0 h [y] := fun z hz => hlv z (by
          rw [List.mem_singleton] at hz; simp [hz])
        obtain ⟨h1, a, b, d, _, _, e1, s⟩ := foldLevel_two htr hh hx hy
        refine ⟨h.nodes.length, h1, pairNode t a b d, ?_, s.2.1, s.new, rfl, rfl⟩
        have e2 : foldLevel t [x, y].length [x, y] [] h = _ := e1
        simp only [constructNonLeafTreeLevelsFromLeafNodes, e2]
    · obtain ⟨h1, e1, t1, l1⟩ := foldLevel_total hh hlen lv.length lv [] h (Nat.le_refl _)
        htr hlv
      have htr1 : h1.tree t = .ok tr := by rw [tree_congr t1]; exact htr
      have hlv1 : Level 0 h1 (freshPtrs h ((lv.length + 1) / 2)) :=
        Level.fresh (Nat.zero_le _) l1
      have hl : (freshPtrs h ((lv.length + 1) / 2)).length = (lv.length + 1) / 2 :=
        freshPtrs_length h _
      obtain ⟨r, h2, rn, e2, q⟩ := ih (freshPtrs h ((lv.length + 1) / 2)) h1
        (by rw [hl]; omega) (by rw [hl]; omega) htr1 hlv1
      refine ⟨r, h2, rn, ?_, q⟩
      simp only [constructNonLeafTreeLevelsFromLeafNodes, e1, List.nil_append]
      exact e2

theorem constructNonLeaf_short {t : Ptr} {tr : MerkleTree}
    (hh : ∀ b, ∃ d, tr.HashFunc.Calculate b = .ok d) :
    ∀ (fuel : Nat) (lv : List Ptr) (h : Heap P), lv.length ≤ 1 →
      h.tree t = .ok tr → Level 0 h lv →
      (constructNonLeafTreeLevelsFromLeafNodes t fuel lv h).1 = .error .outOfFuel := by
  intro fuel
  induction fuel with
  | zero => intro lv h _ _ _; rfl
  | succ fuel ih =>
    intro lv h h1 htr hlv
    have hlen : lv.length ≠ 2 := by omega
    obtain ⟨h1, e1, t1, l1⟩ := foldLevel_total hh hlen lv.length lv [] h (Nat.le_refl _)
      htr hlv
    have htr1 : h1.tree t = .ok tr := by rw [tree_congr t1]; exact htr
    have hlv1 : Level 0 h1 (freshPtrs h ((lv.length + 1) / 2)) :=
      Level.fresh (Nat.zero_le _) l1
    have hl : (freshPtrs h ((lv.length + 1) / 2)).length = (lv.length + 1) / 2 :=
      freshPtrs_length h _
    simp only [constructNonLeafTreeLevelsFromLeafNodes, e1, List.nil_append]
    exact ih _ h1 (by rw [hl]; omega) htr1 hlv1

/-- C20: the level fold terminates with a single root.  For a valid tree whose
hash never fails and every list `lv` of valid node pointers: when `lv` has at
least two entries, `constructNonLeafTreeLevelsFromLeafNodes` returns one node (the
last one allocated, an internal node without `Parent`) for every fuel from
`len(lv)` on; when it has at least three, the loop runs to its end and the
recursive call receives a list of length `(len + 1) / 2`, which is at least 2 and
smaller than `len`; on a list of length 0 or 1 the recursion never returns.  And
`NewTree` on a non-empty payload list never runs out of fuel `len(pp) + 1`, and
returns a tree when the digests compute. -/
theorem C20_level_fold_terminates [Payload P] (t : Ptr) (tr : MerkleTree) (h : Heap P)
    (htr : h.tree t = .ok tr) (hh : ∀ b, ∃ d, tr.HashFunc.Calculate b = .ok d)
    (lv : List Ptr) (hlv : ∀ x ∈ lv, ∃ a, x = some a ∧ a < h.nodes.length) :
    (2 ≤ lv.length → ∀ fuel, lv.length ≤ fuel →
      ∃ r h1 rn, constructNonLeafTreeLevelsFromLeafNodes t fuel lv h = (.ok (some r), h1) ∧
        h1.nodes.length = r + 1 ∧ h1.nodes[r]? = some rn ∧ rn.Parent = none ∧
        rn.isLeaf = false) ∧
    (3 ≤ lv.length → ∃ nodes h1,
      foldLevel t lv.length lv [] h = (.ok (.inr nodes), h1) ∧
      nodes.length = (lv.length + 1) / 2 ∧ 2 ≤ nodes.length ∧ nodes.length < lv.length ∧
      ∀ fuel, constructNonLeafTreeLevelsFromLeafNodes t (fuel + 1) lv h =
        constructNonLeafTreeLevelsFromLeafNodes t fuel nodes h1) ∧
    (lv.length ≤ 1 → ∀ fuel,
      (constructNonLeafTreeLevelsFromLeafNodes t fuel lv h).1 = .error .outOfFuel) ∧
    (∀ (hf : HashFunc) (pp : List P) (fuel : Nat) (h0 : Heap P), pp ≠ [] →
      pp.length + 1 ≤ fuel →
      (NewTree fuel (pp.map some) hf h0).1 ≠ .error .outOfFuel ∧
      ((∀ p ∈ pp, ∃ d, Payload.CalculateHash p = .ok d) →
        (∀ b, ∃ d, hf.Calculate b = .ok d) →
        ∃ m h1, NewTree fuel (pp.map some) hf h0 = (.ok m, h1))) := by
  have hL : Level 0 h lv := fun x hx => by
    obtain ⟨a, e, ha⟩ := hlv x hx
    exact ⟨a, e, Nat.zero_le _, ha⟩
  refine ⟨?_, ?_, ?_, ?_⟩
  · intro h2 fuel hf
    exact constructNonLeaf_total hh fuel lv h h2 hf htr hL
  · intro h3
    have hlen : lv.length ≠ 2 := by omega
    obtain ⟨h1, e1, _, _⟩ := foldLevel_total hh hlen lv.length lv [] h (Nat.le_refl _) htr hL
    have hl : (freshPtrs h ((lv.length + 1) / 2)).length = (lv.length + 1) / 2 :=
      freshPtrs_length h _
    refine ⟨freshPtrs h ((lv.length + 1) / 2), h1, by simpa using e1, hl,
      by rw [hl]; omega, by rw [hl]; omega, ?_⟩
    intro fuel
    simp only [constructNonLeafTreeLevelsFromLeafNodes, e1, List.nil_append]
  · intro h1 fuel
    exact constructNonLeaf_short hh fuel lv h h1 htr hL
  · intro hf pp fuel h0 hpp hfuel
    refine ⟨?_, fun hc hq => NewTree_total hf pp hpp hc hq fuel hfuel h0⟩
    rcases NewTree_result hf pp hpp fuel hfuel h0 with ⟨msg, _, e⟩ | ⟨d, m, ds, r, tr1, _, e, _⟩
    · rw [e]; intro q; cases q
    · rw [e]; intro q; cases q

/-- C20 at a concrete input: the level fold run on the four leaves of the
three-payload tree. -/
theorem C20_level_fold_terminates_witness :
    builtThree.2.tree (some 0) =
      .ok ⟨some 6, [some 0, some 1, some 2, some 3], [0, 0, 1, 2, 0, 3, 3], wrapHash⟩ ∧
    ∃ r h1 rn, constructNonLeafTreeLevelsFromLeafNodes (some 0) 4
        [some 0, some 1, some 2, some 3] builtThree.2 = (.ok (some r), h1) ∧
      h1.nodes.length = r + 1 ∧ h1.nodes[r]? = some rn ∧ rn.Parent = none ∧
      rn.isLeaf = false :=
  ⟨rfl, (C20_level_fold_terminates (some 0)
    ⟨some 6, [some 0, some 1, some 2, some 3], [0, 0, 1, 2, 0, 3, 3], wrapHash⟩
    builtThree.2 rfl (fun b => ⟨0 :: b, rfl⟩) [some 0, some 1, some 2, some 3]
    (by decide)).1 (by decide) 4 (by decide)⟩

/-! ## A list of odd length next to its padded form -/

theorem clearDupAt_hash (j k : Nat) (n : Node P) : (clearDupAt j k n).Hash = n.Hash := by
  unfold clearDupAt
  split <;> rfl

theorem clearDupAt_parent (j k : Nat) (n : Node P) (p : Ptr) :
    clearDupAt j k { n with Parent := p } = { clearDupAt j k n with Parent := p } := by
  unfold clearDupAt
  split <;> rfl

theorem clearDupAt_other {j k : Nat} (hk : k ≠ j) (n : Node P) : clearDupAt j k n = n := by
  unfold clearDupAt
  rw [if_neg hk]

theorem foldPair_simDup {N1 N2 j : Nat} {t1 t2 : Ptr} {trA trB : MerkleTree} {hA hB : Heap P}
    (S : SimDup N1 N2 t2 j hA hB) (htA : hA.tree t1 = .ok trA) (htB : hB.tree t2 = .ok trB)
    (hhf : trA.HashFunc = trB.HashFunc) {x y : Ptr}
    (hx : Level N1 hA [x]) (hy : Level N1 hA [y]) {n : Ptr} {hA1 : Heap P}
    (hfp : foldPair t1 x y hA = (.ok n, hA1)) :
    ∃ hB1, foldPair t2 (shiftPtr N1 N2 x) (shiftPtr N1 N2 y) hB =
        (.ok (shiftPtr N1 N2 n), hB1) ∧
      SimDup N1 N2 t2 j hA1 hB1 ∧ hA1.trees = hA.trees ∧ hB1.trees = hB.trees ∧
      n = some hA.nodes.length ∧ hA1.nodes.length = hA.nodes.length + 1 := by
  obtain ⟨a, na, rfl, hNa, hna, _⟩ := hx.lookup (List.mem_singleton.2 rfl)
  obtain ⟨b, nb, rfl, hNb, hnb, _⟩ := hy.lookup (List.mem_singleton.2 rfl)
  have hla := lookup_lt hna
  have hlb := lookup_lt hnb
  have hbase1 := S.base1
  have hbase2 := S.base2
  have hlen := S.len
  have hins := S.inside
  cases hd : trA.HashFunc.Calculate (na.Hash ++ nb.Hash) with
  | error e =>
    rw [foldPair_err htA hna hnb hd] at hfp
    cases congrArg Prod.fst hfp
  | ok d =>
    obtain ⟨hA2, eA, sA⟩ := foldPair_ok htA hna hnb hd
    rw [eA] at hfp
    cases hfp
    have ea : a - N1 + N2 = N2 + (a - N1) := by omega
    have eb : b - N1 + N2 = N2 + (b - N1) := by omega
    have hna2 : hB.nodes[a - N1 + N2]? =
        some (clearDupAt j (a - N1) (shiftNode N1 N2 t2 na)) := by
      rw [ea, S.node, show N1 + (a - N1) = a by omega, hna]; rfl
    have hnb2 : hB.nodes[b - N1 + N2]? =
        some (clearDupAt j (b - N1) (shiftNode N1 N2 t2 nb)) := by
      rw [eb, S.node, show N1 + (b - N1) = b by omega, hnb]; rfl
    obtain ⟨hB2, eB, sB⟩ := foldPair_ok htB hna2 hnb2
      (show trB.HashFunc.Calculate (_ ++ _) = .ok d by
        rw [clearDupAt_hash, clearDupAt_hash, ← hhf]; exact hd)
    have elen : hA.nodes.length - N1 + N2 = hB.nodes.length := by omega
    refine ⟨hB2, ?_, ⟨?_, ?_, ?_, ?_, ?_⟩, sA.1, sB.1, rfl, sA.2.1⟩
    · simp only [shiftPtr, elen]
      exact eB
    · rw [sA.2.1]; omega
    · rw [sB.2.1]; omega
    · rw [sA.2.1, sB.2.1]; omega
    · rw [sA.2.1]; omega
    · intro k
      rw [sA.2.2, sB.2.2, S.node]
      by_cases hk : N1 + k = hA.nodes.length
      · have hk2 : N2 + k = hB.nodes.length := by omega
        have hkj : k ≠ j := by omega
        rw [if_pos hk, if_pos hk2]
        simp [clearDupAt_other hkj, shiftNode, pairNode, shiftPtr]
      · have hk2 : ¬ N2 + k = hB.nodes.length := by omega
        rw [if_neg hk, if_neg hk2]
        cases hq : hA.nodes[N1 + k]? with
        | none => rfl
        | some nd =>
          have hc : (N2 + k = a - N1 + N2 ∨ N2 + k = b - N1 + N2) ↔
              (N1 + k = a ∨ N1 + k = b) := by omega
          by_cases hcc : N1 + k = a ∨ N1 + k = b
          · simp only [Option.map_some', if_pos hcc, if_pos (hc.2 hcc)]
            rw [← clearDupAt_parent]
            simp [shiftNode, shiftPtr, elen]
          · have hcc2 : ¬ (N2 + k = a - N1 + N2 ∨ N2 + k = b - N1 + N2) :=
              fun q => hcc (hc.1 q)
            simp [hcc, hcc2]

theorem foldLevel_simDup {N1 N2 j : Nat} {t1 t2 : Ptr} {trA trB : MerkleTree}
    (hhf : trA.HashFunc = trB.HashFunc) (len : Nat) :
    ∀ (k : Nat) (rest acc : List Ptr) (hA hB : Heap P), rest.length ≤ k →
      SimDup N1 N2 t2 j hA hB → hA.tree t1 = .ok trA → hB.tree t2 = .ok trB →
      Level N1 hA rest →
      ∀ (v : Ptr ⊕ List Ptr) (hA1 : Heap P), foldLevel t1 len rest acc hA = (.ok v, hA1) →
        ∃ hB1, foldLevel t2 len (rest.map (shiftPtr N1 N2)) (acc.map (shiftPtr N1 N2)) hB =
            (.ok (Sum.map (shiftPtr N1 N2) (List.map (shiftPtr N1 N2)) v), hB1) ∧
          SimDup N1 N2 t2 j hA1 hB1 ∧ hA1.trees = hA.trees ∧ hB1.trees = hB.trees ∧
          (∀ n, v = .inl n → Level N1 hA1 [n]) := by
  intro k
  induction k with
  | zero =>
    intro rest acc hA hB hk S _ _ _ v hA1 hfl
    have : rest = [] := List.length_eq_zero.1 (by omega)
    subst this
    simp only [foldLevel] at hfl
    cases hfl
    exact ⟨hB, rfl, S, rfl, rfl, fun n q => by cases q⟩
  | succ k ih =>
    intro rest acc hA hB hk S htA htB hrest v hA1 hfl
    match rest, hk, hrest, hfl with
    | [], _, _, hfl =>
      simp only [foldLevel] at hfl
      cases hfl
      exact ⟨hB, rfl, S, rfl, rfl, fun n q => by cases q⟩
    | [x], _, hrest, hfl =>
      rcases hfp : foldPair t1 x x hA with ⟨r, hA2⟩
      cases r with
      | error e =>
        simp only [foldLevel, hfp] at hfl
        cases congrArg Prod.fst hfl
      | ok n =>
        obtain ⟨hB2, eB, S2, tA, tB, en, eln⟩ := foldPair_simDup S htA htB hhf hrest hrest hfp
        have hlv : Level N1 hA2 [n] := by
          rw [en]
          exact Level.one S.base1 (by rw [eln]; omega)
        simp only [foldLevel, hfp] at hfl
        simp only [List.map_cons, List.map_nil, foldLevel, eB]
        by_cases h2 : len = 2
        · simp only [h2, if_true] at hfl ⊢
          cases hfl
          exact ⟨hB2, rfl, S2, tA, tB, fun n1 q => by cases q; exact hlv⟩
        · simp only [h2, if_false] at hfl ⊢
          cases hfl
          exact ⟨hB2, by simp, S2, tA, tB, fun n1 q => by cases q⟩
    | x :: y :: rest, hk, hrest, hfl =>
      have hx : Level N1 hA [x] := fun z hz => hrest z (by
        rw [List.mem_singleton] at hz; simp [hz])
      have hy : Level N1 hA [y] := fun z hz => hrest z (by
        rw [List.mem_singleton] at hz; simp [hz])
      have hr : Level N1 hA rest := fun z hz => hrest z (by simp [hz])
      rcases hfp : foldPair t1 x y hA with ⟨r, hA2⟩
      cases r with
      | error e =>
        simp only [foldLevel, hfp] at hfl
        cases congrArg Prod.fst hfl
      | ok n =>
        obtain ⟨hB2, eB, S2, tA, tB, en, eln⟩ := foldPair_simDup S htA htB hhf hx hy hfp
        have hlv : Level N1 hA2 [n] := by
          rw [en]
          exact Level.one S.base1 (by rw [eln]; omega)
        simp only [foldLevel, hfp] at hfl
        simp only [List.map_cons, foldLevel, eB]
        by_cases h2 : len = 2
        · simp only [h2, if_true] at hfl ⊢
          cases hfl
          exact ⟨hB2, rfl, S2, tA, tB, fun n1 q => by cases q; exact hlv⟩
        · simp only [h2, if_false] at hfl ⊢
          have hk1 : rest.length ≤ k := by
            simp only [List.length_cons] at hk
            omega
          obtain ⟨hB3, e3, S3, tA3, tB3, hl3⟩ := ih rest (acc ++ [n]) hA2 hB2 hk1 S2
            (by rw [tree_congr tA]; exact htA) (by rw [tree_congr tB]; exact htB)
            (hr.mono (by rw [eln]; omega)) v hA1 hfl
          refine ⟨hB3, ?_, S3, by rw [tA3, tA], by rw [tB3, tB], hl3⟩
          rw [← e3]
          simp

theorem constructNonLeaf_simDup {N1 N2 j : Nat} {t1 t2 : Ptr} {trA trB : MerkleTree}
    (hhf : trA.HashFunc = trB.HashFunc) :
    ∀ (fuel : Nat) (lv : List Ptr) (hA hB : Heap P),
      SimDup N1 N2 t2 j hA hB → hA.tree t1 = .ok trA → hB.tree t2 = .ok trB →
      Level N1 hA lv →
      ∀ (root : Ptr) (hA1 : Heap P),
        constructNonLeafTreeLevelsFromLeafNodes t1 fuel lv hA = (.ok root, hA1) →
        ∃ hB1, constructNonLeafTreeLevelsFromLeafNodes t2 fuel (lv.map (shiftPtr N1 N2)) hB =
            (.ok (shiftPtr N1 N2 root), hB1) ∧
          SimDup N1 N2 t2 j hA1 hB1 ∧ hA1.trees = hA.trees ∧ hB1.trees = hB.trees ∧
          Level N1 hA1 [root] := by
  intro fuel
  induction fuel with
  | zero =>
    intro lv hA hB _ _ _ _ root hA1 hc
    cases congrArg Prod.fst hc
  | succ fuel ih =>
    intro lv hA hB S htA htB hlv root hA1 hc
    rcases hfl : foldLevel t1 lv.length lv [] hA with ⟨res, hA2⟩
    simp only [constructNonLeafTreeLevelsFromLeafNodes, hfl] at hc
    cases res with
    | error e => cases congrArg Prod.fst hc
    | ok v =>
      obtain ⟨hB2, eB, S2, tA, tB, hinl⟩ := foldLevel_simDup hhf lv.length lv.length lv [] hA hB
        (Nat.le_refl _) S htA htB hlv v hA2 hfl
      have eB2 : foldLevel t2 (lv.map (shiftPtr N1 N2)).length (lv.map (shiftPtr N1 N2)) [] hB
          = (.ok (Sum.map (shiftPtr N1 N2) (List.map (shiftPtr N1 N2)) v), hB2) := by
        rw [List.length_map]
        exact eB
      simp only [constructNonLeafTreeLevelsFromLeafNodes, eB2]
      cases v with
      | inl n =>
        simp only at hc
        cases hc
        exact ⟨hB2, rfl, S2, tA, tB, hinl root rfl⟩
      | inr nodes =>
        simp only at hc
        have hfr := (foldLevel_frame (N := N1) t1 lv.length lv.length lv [] hA (Nat.le_refl _)
          hlv (fun x hx => absurd hx (List.not_mem_nil x))).2
        rw [hfl] at hfr
        obtain ⟨hB3, e3, S3, tA3, tB3, hl3⟩ := ih nodes hA2 hB2 S2
          (by rw [tree_congr tA]; exact htA) (by rw [tree_congr tB]; exact htB)
          (hfr nodes rfl) root hA1 hc
        exact ⟨hB3, e3, S3, by rw [tA3, tA], by rw [tB3, tB], hl3⟩

theorem padLast_odd {pp : List P} {last : P} (hodd : pp.length % 2 = 1)
    (hlast : pp.getLast? = some last) : padLast pp = pp ++ [last] := by
  unfold padLast
  rw [if_pos hodd, hlast]

theorem SimDup.leaf_layer [Payload P] (t1 t2 : Ptr) {pp : List P} {ds : List Bytes} {last : P}
    (hd : leafDigests pp = .ok ds) (hodd : pp.length % 2 = 1)
    (hlast : pp.getLast? = some last) {hA hB hA2 hB2 : Heap P}
    (hnA : hA2.nodes = hA.nodes ++ leafLayer t1 pp ds)
    (hnB : hB2.nodes = hB.nodes ++ leafLayer t2 (pp ++ [last]) (padOdd ds)) :
    SimDup hA.nodes.length hB.nodes.length t2 pp.length hA2 hB2 := by
  have hd2 : leafDigests (pp ++ [last]) = .ok (padOdd ds) := by
    rw [← padLast_odd hodd hlast]
    exact leafDigests_padLast hd
  have hlA : (leafLayer t1 pp ds).length = pp.length + 1 := by
    rw [leafLayer_length t1 hd, hodd]
  have hlB : (leafLayer t2 (pp ++ [last]) (padOdd ds)).length = pp.length + 1 := by
    rw [leafLayer_length t2 hd2, List.length_append, List.length_singleton]
    omega
  refine ⟨by rw [hnA]; simp, by rw [hnB]; simp, ?_, ?_, ?_⟩
  · rw [hnA, hnB, List.length_append, List.length_append, hlA, hlB]; omega
  · rw [hnA, List.length_append, hlA]; omega
  · intro k
    rw [hnA, hnB, List.getElem?_append_right (by omega),
      List.getElem?_append_right (by omega), Nat.add_sub_cancel_left, Nat.add_sub_cancel_left]
    by_cases hk : k < pp.length
    · have hp : pp[k]? = some (pp[k]) := List.getElem?_eq_getElem hk
      have hp2 : (pp ++ [last])[k]? = some (pp[k]) := by
        rw [List.getElem?_append_left hk]; exact hp
      obtain ⟨d, _, hc, e1⟩ := leafLayer_get_real t1 hd hp
      obtain ⟨d2, _, hc2, e2⟩ := leafLayer_get_real t2 hd2 hp2
      rw [hc] at hc2
      cases hc2
      rw [e1, e2, Option.map_some', clearDupAt_other (by omega)]
      rfl
    · by_cases hk2 : k = pp.length
      · subst hk2
        have hp2 : (pp ++ [last])[pp.length]? = some last := by
          rw [List.getElem?_append_right (Nat.le_refl _)]; simp
        obtain ⟨p, d, hpl, hdl, e1⟩ := leafLayer_get_dup t1 hd hodd
        obtain ⟨d2, _, hc2, e2⟩ := leafLayer_get_real t2 hd2 hp2
        have hpe : p = last := by
          rw [List.getLast?_eq_getElem?, hpl] at hlast
          exact Option.some.inj hlast
        subst hpe
        have hc := leafDigests_get pp ds hd _ _ _ hpl hdl
        rw [hc] at hc2
        cases hc2
        rw [e1, e2, Option.map_some']
        simp [clearDupAt, shiftNode, leafNode, shiftPtr]
      · rw [List.getElem?_eq_none (by omega), List.getElem?_eq_none (by omega)]
        rfl

theorem constructTree_simDup [Payload P] {t1 t2 : Ptr} {trA trB : MerkleTree}
    {hA hB : Heap P} (htA : hA.tree t1 = .ok trA) (htB : hB.tree t2 = .ok trB)
    (hhf : trA.HashFunc = trB.HashFunc) (fuel : Nat) {pp : List P} {last : P}
    (hodd : pp.length % 2 = 1) (hlast : pp.getLast? = some last)
    {root : Ptr} {leafs : List Ptr} {hA3 : Heap P}
    (hc : constructTreeFromPayloads fuel (pp.map some) t1 hA = (.ok (root, leafs), hA3)) :
    ∃ hB3, constructTreeFromPayloads fuel ((pp ++ [last]).map some) t2 hB =
        (.ok (shiftPtr hA.nodes.length hB.nodes.length root,
          freshPtrs hB (pp.length + 1)), hB3) ∧
      leafs = freshPtrs hA (pp.length + 1) ∧
      SimDup hA.nodes.length hB.nodes.length t2 pp.length hA3 hB3 ∧
      hA3.trees = hA.trees ∧ hB3.trees = hB.trees ∧
      Level hA.nodes.length hA3 [root] := by
  have hpp : pp ≠ [] := by
    intro q
    subst q
    simp at hodd
  have hpp2 : pp ++ [last] ≠ [] := by simp
  cases hd : leafDigests pp with
  | error e =>
    obtain ⟨h1, _, herr, _⟩ := constructTree_spec htA rfl fuel pp hpp
    rw [herr e hd] at hc
    cases congrArg Prod.fst hc
  | ok ds =>
    have hd2 : leafDigests (pp ++ [last]) = .ok (padOdd ds) := by
      rw [← padLast_odd hodd hlast]
      exact leafDigests_padLast hd
    obtain ⟨hA2, tA2, nA2, eA⟩ := constructTree_leaves fuel hpp hd t1 hA
    obtain ⟨hB2, tB2, nB2, eB⟩ := constructTree_leaves fuel hpp2 hd2 t2 hB
    have hlA : (leafLayer t1 pp ds).length = pp.length + 1 := by
      rw [leafLayer_length t1 hd, hodd]
    have hlB : (leafLayer t2 (pp ++ [last]) (padOdd ds)).length = pp.length + 1 := by
      rw [leafLayer_length t2 hd2, List.length_append, List.length_singleton]
      omega
    rw [hlA] at eA
    rw [hlB] at eB
    have S2 := SimDup.leaf_layer t1 t2 hd hodd hlast nA2 nB2
    have hlv : Level hA.nodes.length hA2 (freshPtrs hA (pp.length + 1)) :=
      Level.fresh (Nat.le_refl _) (by rw [nA2, List.length_append, hlA])
    rw [eA] at hc
    rcases hcn : constructNonLeafTreeLevelsFromLeafNodes t1 fuel
      (freshPtrs hA (pp.length + 1)) hA2 with ⟨r, hA4⟩
    rw [hcn] at hc
    cases r with
    | error e => cases congrArg Prod.fst hc
    | ok root1 =>
      simp only at hc
      cases hc
      obtain ⟨hB3, e3, S3, tA3, tB3, hl3⟩ := constructNonLeaf_simDup hhf fuel _ hA2 hB2 S2
        (by rw [tree_congr tA2]; exact htA) (by rw [tree_congr tB2]; exact htB) hlv root hA3 hcn
      rw [freshPtrs_shift] at e3
      refine ⟨hB3, ?_, rfl, S3, by rw [tA3, tA2], by rw [tB3, tB2], hl3⟩
      rw [eB, e3]

theorem leafDigests_append_err [Payload P] {e : Error} (qq : List P) :
    ∀ (pp : List P), leafDigests pp = .error e → leafDigests (pp ++ qq) = .error e := by
  intro pp
  induction pp with
  | nil => intro hd; cases hd
  | cons p pp ih =>
    intro hd
    cases hq : Payload.CalculateHash p with
    | error e1 =>
      rw [leafDigests_cons_err pp hq] at hd
      rw [List.cons_append, leafDigests_cons_err _ hq]
      exact hd
    | ok d =>
      rw [leafDigests_cons_ok pp hq] at hd
      rw [List.cons_append, leafDigests_cons_ok _ hq]
      cases hr : leafDigests pp with
      | error e1 =>
        rw [hr] at hd
        rw [ih (by rw [hr]; exact congrArg _ (Except.error.inj hd))]
        rfl
      | ok rest => rw [hr] at hd; cases hd

theorem NewTree_of_padded [Payload P] (hf : HashFunc) {pp : List P} {last : P}
    (hodd : pp.length % 2 = 1) (hlast : pp.getLast? = some last) (fuel : Nat)
    (h0 h0b : Heap P) {m2 : Ptr} {h2 : Heap P}
    (hnew : NewTree fuel ((pp ++ [last]).map some) hf h0b = (.ok m2, h2)) :
    ∃ m1 h1, NewTree fuel (pp.map some) hf h0 = (.ok m1, h1) := by
  have hpp : pp ≠ [] := by
    intro q
    subst q
    simp at hodd
  have hpp2 : pp ++ [last] ≠ [] := by simp
  obtain ⟨hb, _, _, herrB, hokB⟩ := NewTree_spec hf fuel (pp ++ [last]) hpp2 h0b
  obtain ⟨ha, _, _, _, hokA⟩ := NewTree_spec hf fuel pp hpp h0
  cases hd : leafDigests pp with
  | error e =>
    rw [herrB e (leafDigests_append_err [last] pp hd)] at hnew
    cases congrArg Prod.fst hnew
  | ok ds =>
    have hd2 : leafDigests (pp ++ [last]) = .ok (padOdd ds) := by
      rw [← padLast_odd hodd hlast]
      exact leafDigests_padLast hd
    cases hr : refRootAux hf fuel (padOdd ds) with
    | error e =>
      rw [(hokB _ hd2).1 e (by rw [padOdd_idem]; exact hr)] at hnew
      cases congrArg Prod.fst hnew
    | ok d =>
      obtain ⟨r, e1, _⟩ := (hokA ds hd).2 d hr
      exact ⟨_, _, e1⟩

/-- C21: an odd-length list collides with its padded form.  For every payload
list `pp` of odd length with last element `last`, when `NewTree(pp)` returns a
tree then `NewTree(pp ++ [last])` returns a tree as well (from any state), the two
trees have the same `MerkleRootHash`, leaf lists of the same length `len(pp) + 1`
with the same sequence of leaf digests, roots at the same offset, and the nodes
the two calls allocated agree offset by offset in payload, digest, flags and
links, except for the `isDuplicate` flag of the last leaf, which is set in the
tree of `pp` only.  Conversely `NewTree(pp)` returns a tree when
`NewTree(pp ++ [last])` does, and both do when the digests compute. -/
theorem C21_odd_list_collides_with_padded [Payload P] (hf : HashFunc) (pp : List P)
    (last : P) (hodd : pp.length % 2 = 1) (hlast : pp.getLast? = some last) (fuel : Nat)
    (h0 h0b : Heap P) :
    (∀ m1 h1, NewTree fuel (pp.map some) hf h0 = (.ok m1, h1) →
      ∃ m2 h2 tr1 tr2 cnt,
        NewTree fuel ((pp ++ [last]).map some) hf h0b = (.ok m2, h2) ∧
        h1.tree m1 = .ok tr1 ∧ h2.tree m2 = .ok tr2 ∧
        tr1.MerkleRootHash = tr2.MerkleRootHash ∧
        tr1.Leafs = (List.range' h0.nodes.length (pp.length + 1)).map some ∧
        tr2.Leafs = (List.range' h0b.nodes.length (pp.length + 1)).map some ∧
        tr1.Leafs.map (hashAt h1) = tr2.Leafs.map (hashAt h2) ∧
        (∃ k, k < cnt ∧ tr1.Root = some (h0.nodes.length + k) ∧
          tr2.Root = some (h0b.nodes.length + k)) ∧
        h1.nodes.length = h0.nodes.length + cnt ∧
        h2.nodes.length = h0b.nodes.length + cnt ∧
        ∀ k, k < cnt → ∃ n1 n2, h1.nodes[h0.nodes.length + k]? = some n1 ∧
          h2.nodes[h0b.nodes.length + k]? = some n2 ∧
          (k ≠ pp.length → SameNode h0.nodes.length h0b.nodes.length n1 n2) ∧
          (k = pp.length → n1.isDuplicate = true ∧ n2.isDuplicate = false ∧
            SameNode h0.nodes.length h0b.nodes.length { n1 with isDuplicate := false } n2)) ∧
    (∀ m2 h2, NewTree fuel ((pp ++ [last]).map some) hf h0b = (.ok m2, h2) →
      ∃ m1 h1, NewTree fuel (pp.map some) hf h0 = (.ok m1, h1)) ∧
    ((∀ p ∈ pp, ∃ d, Payload.CalculateHash p = .ok d) → (∀ b, ∃ d, hf.Calculate b = .ok d) →
      pp.length + 1 ≤ fuel → ∃ m1 h1, NewTree fuel (pp.map some) hf h0 = (.ok m1, h1)) := by
  have hpp : pp ≠ [] := by
    intro q
    subst q
    simp at hodd
  have hpp2 : pp ++ [last] ≠ [] := by simp
  refine ⟨?_, fun m2 h2 hnew => NewTree_of_padded hf hodd hlast fuel h0 h0b hnew,
    fun hc hh hfuel => NewTree_total hf pp hpp hc hh fuel hfuel h0⟩
  intro m1 h1 hnew
  obtain ⟨ds, r0, F, _⟩ := NewTree_ok hpp hnew
  have hd := F.nodes.digests
  have hd2 : leafDigests (pp ++ [last]) = .ok (padOdd ds) := by
    rw [← padLast_odd hodd hlast]
    exact leafDigests_padLast hd
  let t0 : MerkleTree := { HashFunc := hf, Root := none, Leafs := [], MerkleRootHash := [] }
  let tA : Ptr := some h0.trees.length
  let tB : Ptr := some h0b.trees.length
  let hA : Heap P := (h0.newTree t0).2
  let hB : Heap P := (h0b.newTree t0).2
  have htA : hA.tree tA = .ok t0 := newTree_tree h0 t0
  have htB : hB.tree tB = .ok t0 := newTree_tree h0b t0
  have hAn : hA.nodes.length = h0.nodes.length := rfl
  have hBn : hB.nodes.length = h0b.nodes.length := rfl
  have e0A : NewTree fuel (pp.map some) hf h0 =
      match installTree tA (constructTreeFromPayloads fuel (pp.map some) tA hA) with
      | (.error e, h1) => (.error e, h1)
      | (.ok _, h1) => (.ok tA, h1) := rfl
  have e0B : NewTree fuel ((pp ++ [last]).map some) hf h0b =
      match installTree tB (constructTreeFromPayloads fuel ((pp ++ [last]).map some) tB hB) with
      | (.error e, h1) => (.error e, h1)
      | (.ok _, h1) => (.ok tB, h1) := rfl
  have hnew0 := hnew
  rw [e0A] at hnew
  rcases hc : constructTreeFromPayloads fuel (pp.map some) tA hA with ⟨res, hA3⟩
  rw [hc] at hnew
  cases res with
  | error e =>
    simp only [installTree] at hnew
    cases congrArg Prod.fst hnew
  | ok v =>
    obtain ⟨root, leafs⟩ := v
    simp only [installTree] at hnew
    cases hrn : hA3.node root with
    | error e =>
      rw [hrn] at hnew
      cases congrArg Prod.fst hnew
    | ok rnA =>
      rw [hrn] at hnew
      simp only at hnew
      obtain ⟨e1, e2⟩ := Prod.mk.inj hnew
      have em : tA = m1 := Except.ok.inj e1
      have eh1 : h1 = hA3.setTree tA root leafs rnA.Hash := e2.symm
      obtain ⟨hB3, eB, eleafs, S, trA3, trB3, hlroot⟩ :=
        constructTree_simDup htA htB rfl fuel hodd hlast hc
      rw [hAn, hBn] at eB S
      rw [hAn] at hlroot
      obtain ⟨r, rfl, hNr, hrl⟩ := hlroot root (List.mem_singleton.2 rfl)
      have hrA : hA3.nodes[r]? = some rnA := (node_some_iff _ _ _).1 hrn
      have hrB : hB3.nodes[r - h0.nodes.length + h0b.nodes.length]? =
          some (clearDupAt pp.length (r - h0.nodes.length)
            (shiftNode h0.nodes.length h0b.nodes.length tB rnA)) := by
        rw [show r - h0.nodes.length + h0b.nodes.length =
          h0b.nodes.length + (r - h0.nodes.length) by omega, S.node,
          show h0.nodes.length + (r - h0.nodes.length) = r by omega, hrA]
        rfl
      have hnodeB := (node_some_iff _ _ _).2 hrB
      have htA3 : hA3.tree tA = .ok t0 := by rw [tree_congr trA3]; exact htA
      have htB3 : hB3.tree tB = .ok t0 := by rw [tree_congr trB3]; exact htB
      have hlenS := S.len
      have hb1 := S.base1
      have hnewB : NewTree fuel ((pp ++ [last]).map some) hf h0b =
          (.ok tB, hB3.setTree tB (some (r - h0.nodes.length + h0b.nodes.length))
            (freshPtrs hB (pp.length + 1)) rnA.Hash) := by
        rw [e0B, eB]
        simp only [installTree, shiftPtr, hnodeB, clearDupAt_hash]
        rfl
      obtain ⟨ds2, r2, F2, _⟩ := NewTree_ok hpp2 hnewB
      have hds2 : ds2 = padOdd ds := by
        have := F2.nodes.digests
        rw [hd2] at this
        exact (Except.ok.inj this).symm
      have htr1 := setTree_tree htA3 (some r) leafs rnA.Hash
      rw [← eh1, em] at htr1
      have htr2 := setTree_tree htB3 (some (r - h0.nodes.length + h0b.nodes.length))
        (freshPtrs hB (pp.length + 1)) rnA.Hash
      refine ⟨tB, _, _, _, hA3.nodes.length - h0.nodes.length, hnewB, htr1, htr2, rfl,
        eleafs, rfl, ?_, ?_, ?_, ?_, ?_⟩
      · have q1 := F.leaf_hashes htr1
        have q2 := F2.leaf_hashes htr2
        rw [q1, q2, hds2, padOdd_idem]
      · exact ⟨r - h0.nodes.length, by omega, by simp only; congr 1; omega,
          by simp only; congr 1; omega⟩
      · rw [eh1, setTree_nodes]; omega
      · rw [setTree_nodes]; omega
      · intro k hk
        have hlt : h0.nodes.length + k < hA3.nodes.length := by omega
        have hn1 : hA3.nodes[h0.nodes.length + k]? = some (hA3.nodes[h0.nodes.length + k]) :=
          List.getElem?_eq_getElem hlt
        have hn1F : h1.nodes[h0.nodes.length + k]? =
            some (hA3.nodes[h0.nodes.length + k]) := by
          rw [eh1, setTree_nodes]; exact hn1
        have hsame := sameNode_shift (F.nodes.built.nodes _ _ (by omega) hn1F)
          (by omega) h0b.nodes.length tB
        refine ⟨_, clearDupAt pp.length k (shiftNode h0.nodes.length h0b.nodes.length tB
          (hA3.nodes[h0.nodes.length + k])), hn1F, ?_, ?_, ?_⟩
        · rw [setTree_nodes, S.node, hn1]
          rfl
        · intro hne
          rw [clearDupAt_other hne]
          exact hsame
        · intro hke
          subst hke
          obtain ⟨p, d, _, _, eL⟩ := leafLayer_get_dup m1 hd hodd
          obtain ⟨n1, hn1L, en1⟩ := F.nodes.leaves pp.length _ eL
          rw [hn1F] at hn1L
          cases hn1L
          refine ⟨by rw [en1]; rfl, by simp [clearDupAt, shiftNode], ?_⟩
          simp only [clearDupAt, if_true]
          exact ⟨hsame.parent, hsame.left, hsame.right, hsame.isLeaf, rfl, hsame.hash,
            hsame.payload⟩

/-- C21 at a concrete input: the three payloads 1, 2, 3 next to 1, 2, 3, 3. -/
theorem C21_odd_list_collides_with_padded_witness :
    threeTx.length % 2 = 1 ∧ threeTx.getLast? = some (Tx.mk 3) ∧
    NewTree 4 (threeTx.map some) wrapHash emptyHeap = (.ok (some 0), builtThree.2) ∧
    ∃ m2 h2 tr1 tr2 cnt,
      NewTree 4 ((threeTx ++ [Tx.mk 3]).map some) wrapHash emptyHeap = (.ok m2, h2) ∧
      builtThree.2.tree (some 0) = .ok tr1 ∧ h2.tree m2 = .ok tr2 ∧
      tr1.MerkleRootHash = tr2.MerkleRootHash ∧
      tr1.Leafs = (List.range' (emptyHeap : Heap Tx).nodes.length
        (threeTx.length + 1)).map some ∧
      tr2.Leafs = (List.range' (emptyHeap : Heap Tx).nodes.length
        (threeTx.length + 1)).map some ∧
      tr1.Leafs.map (hashAt builtThree.2) = tr2.Leafs.map (hashAt h2) ∧
      (∃ k, k < cnt ∧ tr1.Root = some ((emptyHeap : Heap Tx).nodes.length + k) ∧
        tr2.Root = some ((emptyHeap : Heap Tx).nodes.length + k)) ∧
      builtThree.2.nodes.length = (emptyHeap : Heap Tx).nodes.length + cnt ∧
      h2.nodes.length = (emptyHeap : Heap Tx).nodes.length + cnt ∧
      ∀ k, k < cnt → ∃ n1 n2,
        builtThree.2.nodes[(emptyHeap : Heap Tx).nodes.length + k]? = some n1 ∧
        h2.nodes[(emptyHeap : Heap Tx).nodes.length + k]? = some n2 ∧
        (k ≠ threeTx.length → SameNode (emptyHeap : Heap Tx).nodes.length
          (emptyHeap : Heap Tx).nodes.length n1 n2) ∧
        (k = threeTx.length → n1.isDuplicate = true ∧ n2.isDuplicate = false ∧
          SameNode (emptyHeap : Heap Tx).nodes.length (emptyHeap : Heap Tx).nodes.length
            { n1 with isDuplicate := false } n2) :=
  ⟨rfl, rfl, rfl,
    (C21_odd_list_collides_with_padded wrapHash threeTx (Tx.mk 3) rfl rfl 4 emptyHeap
      emptyHeap).1 (some 0) builtThree.2 (by rfl)⟩

/-! ## The height of a construction -/

theorem foldPair_inv {N : Nat} {t : Ptr} {x y : Ptr} {h h1 : Heap P} {n : Ptr}
    (hx : Level N h [x]) (hy : Level N h [y]) (hfp : foldPair t x y h = (.ok n, h1)) :
    ∃ a b d, x = some a ∧ y = some b ∧ n = some h.nodes.length ∧ PairStep h h1 t a b d := by
  obtain ⟨a, na, rfl, _, hna, _⟩ := hx.lookup (List.mem_singleton.2 rfl)
  obtain ⟨b, nb, rfl, _, hnb, _⟩ := hy.lookup (List.mem_singleton.2 rfl)
  cases htr : h.tree t with
  | error e =>
    have e1 : foldPair t (some a) (some b) h = (.error .crash, h) := by
      simp [foldPair, htr]
    rw [e1] at hfp
    cases congrArg Prod.fst hfp
  | ok tr =>
    cases hd : tr.HashFunc.Calculate (na.Hash ++ nb.Hash) with
    | error e =>
      rw [foldPair_err htr hna hnb hd] at hfp
      cases congrArg Prod.fst hfp
    | ok d =>
      obtain ⟨h2, e1, s⟩ := foldPair_ok htr hna hnb hd
      rw [e1] at hfp
      cases hfp
      exact ⟨a, b, d, rfl, rfl, rfl, s⟩

theorem range_level {N s k : Nat} {h : Heap P} (hN : N ≤ s) (hs : s + k ≤ h.nodes.length) :
    Level N h ((List.range' s k).map some) := by
  intro x hx
  obtain ⟨a, ha, rfl⟩ := List.mem_map.1 hx
  rw [List.mem_range'_1] at ha
  exact ⟨a, rfl, by omega, by omega⟩

theorem foldLevel_grows {N : Nat} (t : Ptr) (len : Nat) :
    ∀ (k : Nat) (rest acc : List Ptr) (h : Heap P), rest.length ≤ k → Level N h rest →
      Grows N h (foldLevel t len rest acc h).2 := by
  intro k
  induction k with
  | zero =>
    intro rest acc h hk _
    have : rest = [] := List.length_eq_zero.1 (by omega)
    subst this
    exact Grows.same N h
  | succ k ih =>
    intro rest acc h hk hrest
    match rest, hk, hrest with
    | [], _, _ => exact Grows.same N h
    | [x], _, hrest =>
      obtain ⟨g, _⟩ := foldPair_frame t hrest hrest
      rcases hfp : foldPair t x x h with ⟨r, h1⟩
      rw [hfp] at g
      cases r with
      | error e =>
        simp only [foldLevel, hfp]
        exact g
      | ok n =>
        simp only [foldLevel, hfp]
        split <;> exact g
    | x :: y :: rest, hk, hrest =>
      have hx : Level N h [x] := fun z hz => hrest z (by
        rw [List.mem_singleton] at hz; simp [hz])
      have hy : Level N h [y] := fun z hz => hrest z (by
        rw [List.mem_singleton] at hz; simp [hz])
      have hr : Level N h rest := fun z hz => hrest z (by simp [hz])
      obtain ⟨g, _⟩ := foldPair_frame t hx hy
      rcases hfp : foldPair t x y h with ⟨r, h1⟩
      rw [hfp] at g
      cases r with
      | error e =>
        simp only [foldLevel, hfp]
        exact g
      | ok n =>
        simp only [foldLevel, hfp]
        split
        · exact g
        · have hk1 : rest.length ≤ k := by
            simp only [List.length_cons] at hk
            omega
          exact g.chain (ih rest _ h1 hk1 (hr.mono g.length))

theorem foldLevel_parents {t : Ptr} {len : Nat} (hlen : len ≠ 2) :
    ∀ (K k s : Nat) (acc : List Ptr) (h h1 : Heap P) (v : Ptr ⊕ List Ptr), k ≤ K →
      s + k ≤ h.nodes.length →
      foldLevel t len ((List.range' s k).map some) acc h = (.ok v, h1) →
      v = .inr (acc ++ freshPtrs h ((k + 1) / 2)) ∧
      h1.nodes.length = h.nodes.length + (k + 1) / 2 ∧
      ∀ i, i < k → ∃ n, h1.nodes[s + i]? = some n ∧
        n.Parent = some (h.nodes.length + i / 2) := by
  intro K
  induction K with
  | zero =>
    intro k s acc h h1 v hk _ hfl
    have : k = 0 := by omega
    subst this
    simp only [List.range'_zero, List.map_nil, foldLevel] at hfl
    cases hfl
    exact ⟨by simp [freshPtrs_zero], rfl, fun i hi => by omega⟩
  | succ K ih =>
    intro k s acc h h1 v hk hs hfl
    match k, hk, hs, hfl with
    | 0, _, _, hfl =>
      simp only [List.range'_zero, List.map_nil, foldLevel] at hfl
      cases hfl
      exact ⟨by simp [freshPtrs_zero], rfl, fun i hi => by omega⟩
    | 1, _, hs, hfl =>
      have hl : Level 0 h [some s] := Level.one (Nat.zero_le _) (by omega)
      have e0 : (List.range' s 1).map some = [some s] := rfl
      rw [e0] at hfl
      rcases hfp : foldPair t (some s) (some s) h with ⟨r, h2⟩
      simp only [foldLevel, hfp] at hfl
      cases r with
      | error e => cases congrArg Prod.fst hfl
      | ok n =>
        simp only [hlen, if_false] at hfl
        cases hfl
        obtain ⟨a, b, d, ea, eb, en, st⟩ := foldPair_inv hl hl hfp
        cases ea
        cases eb
        subst en
        refine ⟨by rw [show (1 + 1) / 2 = 1 by rfl, freshPtrs_one], st.2.1, ?_⟩
        intro i hi
        have : i = 0 := by omega
        subst this
        have hlt : s < h.nodes.length := by omega
        have hn : h.nodes[s]? = some (h.nodes[s]) := List.getElem?_eq_getElem hlt
        refine ⟨_, st.keep hn, ?_⟩
        simp
    | k + 2, hk, hs, hfl =>
      have hlx : Level 0 h [some s] := Level.one (Nat.zero_le _) (by omega)
      have hly : Level 0 h [some (s + 1)] := Level.one (Nat.zero_le _) (by omega)
      have e0 : (List.range' s (k + 2)).map some =
          some s :: some (s + 1) :: (List.range' (s + 2) k).map some := by
        simp [List.range'_succ]
      rw [e0] at hfl
      rcases hfp : foldPair t (some s) (some (s + 1)) h with ⟨r, h2⟩
      simp only [foldLevel, hfp] at hfl
      cases r with
      | error e => cases congrArg Prod.fst hfl
      | ok n =>
        simp only [hlen, if_false] at hfl
        obtain ⟨a, b, d, ea, eb, en, st⟩ := foldPair_inv hlx hly hfp
        cases ea
        cases eb
        subst en
        have hl2 : h2.nodes.length = h.nodes.length + 1 := st.2.1
        obtain ⟨ev, el, hp⟩ := ih k (s + 2) (acc ++ [some h.nodes.length]) h2 h1 v (by omega)
          (by omega) hfl
        have hq : (k + 2 + 1) / 2 = (k + 1) / 2 + 1 := by omega
        have hfr := foldLevel_grows (N := s + 2) t len k ((List.range' (s + 2) k).map some)
          (acc ++ [some h.nodes.length]) h2 (by simp)
          (range_level (Nat.le_refl _) (by omega))
        rw [hfl] at hfr
        refine ⟨?_, by rw [el, hl2, hq]; omega, ?_⟩
        · rw [ev, hq, freshPtrs_succ h h2 _ hl2]
          simp
        · intro i hi
          by_cases h2i : i < 2
          · have hlt : s + i < h.nodes.length := by omega
            have hn : h.nodes[s + i]? = some (h.nodes[s + i]) := List.getElem?_eq_getElem hlt
            have hk2 := hfr.below (s + i) _ (by omega) (st.keep hn)
            refine ⟨_, hk2, ?_⟩
            have hc : s + i = s ∨ s + i = s + 1 := by omega
            have hi2 : i / 2 = 0 := by omega
            rw [if_pos hc, hi2]
            rfl
          · obtain ⟨n, hn, hpn⟩ := hp (i - 2) (by omega)
            refine ⟨n, by rw [← hn]; congr 1; omega, ?_⟩
            rw [hpn, hl2]
            congr 1
            omega

theorem constructNonLeaf_climb (t : Ptr) :
    ∀ (fuel s l : Nat) (h h1 : Heap P) (root : Ptr), 2 ≤ l → s + l ≤ h.nodes.length →
      constructNonLeafTreeLevelsFromLeafNodes t fuel ((List.range' s l).map some) h =
        (.ok root, h1) →
      ∃ r rn, root = some r ∧ h.nodes.length ≤ r ∧ h1.nodes[r]? = some rn ∧
        rn.Parent = none ∧
        ∀ i, i < l → ∃ ns, AncestorPath h1 (some (s + i)) ns (some r) ∧
          ns.length = Nat.clog 2 l := by
  intro fuel
  induction fuel with
  | zero =>
    intro s l h h1 root _ _ hc
    cases congrArg Prod.fst hc
  | succ fuel ih =>
    intro s l h h1 root hl hs hc
    have hlen : ((List.range' s l).map some).length = l := by simp
    by_cases hl2 : l = 2
    · subst hl2
      have e0 : (List.range' s 2).map some = [some s, some (s + 1)] := rfl
      rw [e0] at hc
      have hlx : Level 0 h [some s] := Level.one (Nat.zero_le _) (by omega)
      have hly : Level 0 h [some (s + 1)] := Level.one (Nat.zero_le _) (by omega)
      rcases hfp : foldPair t (some s) (some (s + 1)) h with ⟨r, h2⟩
      cases r with
      | error e =>
        simp [constructNonLeafTreeLevelsFromLeafNodes, foldLevel, hfp] at hc
      | ok n =>
        simp only [constructNonLeafTreeLevelsFromLeafNodes, foldLevel, hfp, List.length_cons,
          List.length_nil, if_true] at hc
        cases hc
        obtain ⟨a, b, d, ea, eb, en, st⟩ := foldPair_inv hlx hly hfp
        cases ea
        cases eb
        subst en
        refine ⟨h.nodes.length, pairNode t s (s + 1) d, rfl, Nat.le_refl _, st.new, rfl, ?_⟩
        intro i hi
        have hlt : s + i < h.nodes.length := by omega
        have hn : h.nodes[s + i]? = some (h.nodes[s + i]) := List.getElem?_eq_getElem hlt
        have hk := st.keep hn
        have hc : s + i = s ∨ s + i = s + 1 := by omega
        rw [if_pos hc] at hk
        have hp := AncestorPath.step ((node_some_iff _ _ _).2 hk) (AncestorPath.done _)
        refine ⟨_, hp, ?_⟩
        rw [Nat.clog_of_two_le (by omega) (Nat.le_refl 2),
          show (2 + 2 - 1) / 2 = 1 by norm_num, Nat.clog_one_right]
        rfl
    · rcases hfl : foldLevel t l ((List.range' s l).map some) [] h with ⟨res, h2⟩
      simp only [constructNonLeafTreeLevelsFromLeafNodes, hlen, hfl] at hc
      cases res with
      | error e => cases congrArg Prod.fst hc
      | ok v =>
        obtain ⟨ev, el, hp⟩ := foldLevel_parents hl2 l l s [] h h2 v (Nat.le_refl _) hs hfl
        subst ev
        simp only [List.nil_append] at hc
        have hk2 : 2 ≤ (l + 1) / 2 := by omega
        have hc2 : constructNonLeafTreeLevelsFromLeafNodes t fuel
            ((List.range' h.nodes.length ((l + 1) / 2)).map some) h2 = (.ok root, h1) := hc
        obtain ⟨r, rn, er, hr, hrn, hpar, hpaths⟩ := ih h.nodes.length ((l + 1) / 2) h2 h1 root
          hk2 (by omega) hc2
        have g := constructNonLeaf_frame (N := h.nodes.length) t fuel
          ((List.range' h.nodes.length ((l + 1) / 2)).map some) h2
          (range_level (Nat.le_refl _) (by omega))
        rw [hc2] at g
        refine ⟨r, rn, er, by omega, hrn, hpar, ?_⟩
        intro i hi
        obtain ⟨n, hn, hpn⟩ := hp i hi
        have hn1 : h1.nodes[s + i]? = some n := g.below _ _ (by omega) hn
        obtain ⟨ns, hns, hnl⟩ := hpaths (i / 2) (by omega)
        rw [← hpn] at hns
        refine ⟨n :: ns, AncestorPath.step ((node_some_iff _ _ _).2 hn1) hns, ?_⟩
        rw [Nat.clog_of_two_le (by omega) hl, List.length_cons, hnl]
        have : (l + 2 - 1) / 2 = (l + 1) / 2 := by omega
        rw [this]

theorem AncestorPath.join {h : Heap P} {p q r : Ptr} {ns ms : List (Node P)}
    (a : AncestorPath h p ns q) (b : AncestorPath h q ms r) :
    AncestorPath h p (ns ++ ms) r := by
  induction a with
  | done p => exact b
  | step hn _ ih => exact AncestorPath.step hn (ih b)

theorem merklePathLoop_length {h : Heap P} {p : Ptr} {ns : List (Node P)}
    (hp : AncestorPath h p ns none) :
    ∀ (fuel : Nat) (cur : Ptr) (accP : List Bytes) (accI : List Int)
      (path : List Bytes) (idx : List Int),
      merklePathLoop h fuel cur p accP accI = .ok (path, idx) →
      path.length = accP.length + ns.length ∧ idx.length = accI.length + ns.length := by
  generalize hq : (none : Ptr) = q at hp
  induction hp with
  | done p =>
    intro fuel cur accP accI path idx hm
    subst hq
    cases fuel with
    | zero => cases hm
    | succ fuel =>
      simp only [merklePathLoop] at hm
      cases hm
      exact ⟨rfl, rfl⟩
  | @step a n ns q hn _ ih =>
    intro fuel cur accP accI path idx hm
    cases fuel with
    | zero => cases hm
    | succ fuel =>
      simp only [merklePathLoop, hn, bind, Except.bind] at hm
      cases hl : h.node n.Left with
      | error e => rw [hl] at hm; cases hm
      | ok left =>
        rw [hl] at hm
        simp only at hm
        cases hcur : h.node cur with
        | error e => rw [hcur] at hm; cases hm
        | ok c =>
          rw [hcur] at hm
          simp only at hm
          split at hm
          · cases hr : h.node n.Right with
            | error e => rw [hr] at hm; cases hm
            | ok right =>
              rw [hr] at hm
              obtain ⟨e1, e2⟩ := ih hq fuel _ _ _ _ _ hm
              simp only [List.length_append, List.length_cons, List.length_nil] at e1 e2 ⊢
              omega
          · obtain ⟨e1, e2⟩ := ih hq fuel _ _ _ _ _ hm
            simp only [List.length_append, List.length_cons, List.length_nil] at e1 e2 ⊢
            omega

theorem AncestorPath.same_nodes {h h1 : Heap P} (e : h1.nodes = h.nodes) {p q : Ptr}
    {ns : List (Node P)} (a : AncestorPath h p ns q) : AncestorPath h1 p ns q := by
  induction a with
  | done p => exact AncestorPath.done p
  | step hn _ ih =>
    refine AncestorPath.step ?_ ih
    rw [← hn]
    unfold Heap.node
    rw [e]

theorem NewTree_climb [Payload P] {hf : HashFunc} {fuel : Nat} {pp : List P} {h0 h : Heap P}
    {m : Ptr} (hpp : pp ≠ []) (hnew : NewTree fuel (pp.map some) hf h0 = (.ok m, h)) :
    ∃ tr r rn, h.tree m = .ok tr ∧ tr.Root = some r ∧ h.nodes[r]? = some rn ∧
      rn.Parent = none ∧
      tr.Leafs = (List.range' h0.nodes.length (pp.length + pp.length % 2)).map some ∧
      ∀ i, i < pp.length + pp.length % 2 →
        ∃ ns, AncestorPath h (some (h0.nodes.length + i)) ns (some r) ∧
          ns.length = Nat.clog 2 (pp.length + pp.length % 2) := by
  obtain ⟨ds, _, F, _⟩ := NewTree_ok hpp hnew
  have hd := F.nodes.digests
  let t0 : MerkleTree := { HashFunc := hf, Root := none, Leafs := [], MerkleRootHash := [] }
  let t : Ptr := some h0.trees.length
  let hB : Heap P := (h0.newTree t0).2
  have htB : hB.tree t = .ok t0 := newTree_tree h0 t0
  have e0 : NewTree fuel (pp.map some) hf h0 =
      match installTree t (constructTreeFromPayloads fuel (pp.map some) t hB) with
      | (.error e, h1) => (.error e, h1)
      | (.ok _, h1) => (.ok t, h1) := rfl
  obtain ⟨h2, t2, n2, ec⟩ := constructTree_leaves fuel hpp hd t hB
  have hL : (leafLayer t pp ds).length = pp.length + pp.length % 2 := leafLayer_length t hd
  rw [hL] at ec
  have hlen2 : h2.nodes.length = h0.nodes.length + (pp.length + pp.length % 2) := by
    rw [n2, List.length_append, hL]
    rfl
  have hpos : 0 < pp.length := List.length_pos.2 hpp
  rw [e0, ec] at hnew
  rcases hcn : constructNonLeafTreeLevelsFromLeafNodes t fuel
    (freshPtrs hB (pp.length + pp.length % 2)) h2 with ⟨res, h3⟩
  rw [hcn] at hnew
  cases res with
  | error e =>
    simp only [installTree] at hnew
    cases congrArg Prod.fst hnew
  | ok root =>
    simp only [installTree] at hnew
    cases hrn : h3.node root with
    | error e =>
      rw [hrn] at hnew
      cases congrArg Prod.fst hnew
    | ok rn0 =>
      rw [hrn] at hnew
      simp only at hnew
      obtain ⟨e1, e2⟩ := Prod.mk.inj hnew
      have em : t = m := Except.ok.inj e1
      subst em
      subst e2
      have hcn2 : constructNonLeafTreeLevelsFromLeafNodes t fuel
          ((List.range' h0.nodes.length (pp.length + pp.length % 2)).map some) h2 =
            (.ok root, h3) := hcn
      obtain ⟨r, rn, er, _, hrn1, hpar, hpaths⟩ := constructNonLeaf_climb t fuel h0.nodes.length
        (pp.length + pp.length % 2) h2 h3 root (by omega) (by omega) hcn2
      have g := constructNonLeaf_frame (N := h0.nodes.length) t fuel
        ((List.range' h0.nodes.length (pp.length + pp.length % 2)).map some) h2
        (range_level (Nat.le_refl _) (by omega))
      rw [hcn2] at g
      have htr3 : h3.tree t = .ok t0 := by
        rw [tree_congr g.trees, tree_congr t2]; exact htB
      subst er
      refine ⟨_, r, rn, setTree_tree htr3 _ _ _, rfl, by rw [setTree_nodes]; exact hrn1,
        hpar, rfl, ?_⟩
      intro i hi
      obtain ⟨ns, hns, hl⟩ := hpaths i hi
      exact ⟨ns, hns.same_nodes (setTree_nodes _ _ _ _ _), hl⟩

theorem depth_least (n : Nat) (hn : 0 < n) :
    1 ≤ Nat.clog 2 (n + n % 2) ∧ n ≤ 2 ^ Nat.clog 2 (n + n % 2) ∧
    ∀ d, 1 ≤ d → n ≤ 2 ^ d → Nat.clog 2 (n + n % 2) ≤ d := by
  refine ⟨Nat.clog_pos (by omega) (by omega), ?_, ?_⟩
  · have := Nat.le_pow_clog (show 1 < 2 by omega) (n + n % 2)
    omega
  · intro d hd hle
    obtain ⟨e, rfl⟩ : ∃ e, d = e + 1 := ⟨d - 1, by omega⟩
    rw [← Nat.le_pow_iff_clog_le (by omega)]
    rw [pow_succ] at hle ⊢
    omega

/-- C22 as stated fails: in the tree of two payloads of different kinds (so
`n = 2` and the depth is 1) the second payload matches the second leaf, yet
`GetMerklePath` of it returns the comparison error of the first leaf, for every
fuel, and no sibling and direction lists of length 1. -/
theorem C22_counterexample :
    builtKinds.1 = .ok (some 0) ∧ kindTxs.length = 2 ∧
    (builtKinds.2.tree (some 0)).map (fun t => t.Leafs) = .ok [some 0, some 1] ∧
    (builtKinds.2.node (some 1)).map (fun n => n.Payload) = .ok (some (KindTx.mk 1 0)) ∧
    Payload.Equals (KindTx.mk 1 0) (KindTx.mk 1 0) = .ok true ∧
    ∀ fuel, GetMerklePath fuel (some 0) (KindTx.mk 1 0) builtKinds.2 =
      .error (.err "payload of another kind") :=
  ⟨rfl, rfl, rfl, rfl, rfl, fun _ => rfl⟩

/-- C22, amended: in the tree `NewTree` returns for a non-empty list of `n`
payloads, let `d` be the smallest integer `d >= 1` with `2^d >= n`.  Following
`Parent` from any leaf reaches the root in exactly `d` steps, and the root has
no `Parent`; and for every payload matching a leaf that the leaf scan reaches
(no comparison of an earlier payload with it returns an error), `GetMerklePath`
returns a sibling list and a direction list both of length `d`, every direction
being 0 or 1.  And `NewTree` does return a tree when the digests compute. -/
theorem C22_proof_length_is_depth [Payload P] (hf : HashFunc) (pp : List P) (hpp : pp ≠ [])
    (fuel : Nat) (h0 : Heap P) :
    (∀ m h, NewTree fuel (pp.map some) hf h0 = (.ok m, h) →
      ∃ tr r d, h.tree m = .ok tr ∧ tr.Root = some r ∧
        1 ≤ d ∧ pp.length ≤ 2 ^ d ∧ (∀ d1, 1 ≤ d1 → pp.length ≤ 2 ^ d1 → d ≤ d1) ∧
        (∃ rn, h.node (some r) = .ok rn ∧ rn.Parent = none) ∧
        (∀ x ∈ tr.Leafs, ∃ ns, AncestorPath h x ns (some r) ∧ ns.length = d) ∧
        (∀ (i : Nat) (c cand : P), pp[i]? = some c → Payload.Equals c cand = .ok true →
          (∀ j q, j < i → pp[j]? = some q → ∃ b, Payload.Equals q cand = .ok b) →
          ∀ fuel1, h.nodes.length ≤ fuel1 →
            ∃ path idx, GetMerklePath fuel1 m cand h = .ok (path, idx) ∧
              path.length = d ∧ idx.length = d ∧ ∀ x ∈ idx, x = 0 ∨ x = 1)) ∧
    ((∀ p ∈ pp, ∃ d, Payload.CalculateHash p = .ok d) → (∀ b, ∃ d, hf.Calculate b = .ok d) →
      pp.length + 1 ≤ fuel → ∃ m h, NewTree fuel (pp.map some) hf h0 = (.ok m, h)) := by
  refine ⟨?_, fun hc hh hfuel => NewTree_total hf pp hpp hc hh fuel hfuel h0⟩
  intro m h hnew
  have hpos : 0 < pp.length := List.length_pos.2 hpp
  obtain ⟨tr, r, rn, htr, hroot, hrn, hpar, hleafs, hpaths⟩ := NewTree_climb hpp hnew
  obtain ⟨ds, r0, F, _⟩ := NewTree_ok hpp hnew
  obtain ⟨d1, d2, d3⟩ := depth_least pp.length hpos
  have hrnode : h.node (some r) = .ok rn := (node_some_iff _ _ _).2 hrn
  refine ⟨tr, r, Nat.clog 2 (pp.length + pp.length % 2), htr, hroot, d1, d2, d3,
    ⟨rn, hrnode, hpar⟩, ?_, ?_⟩
  · intro x hx
    rw [hleafs] at hx
    obtain ⟨a, ha, rfl⟩ := List.mem_map.1 hx
    rw [List.mem_range'_1] at ha
    obtain ⟨ns, hns, hl⟩ := hpaths (a - h0.nodes.length) (by omega)
    rw [show h0.nodes.length + (a - h0.nodes.length) = a by omega] at hns
    exact ⟨ns, hns, hl⟩
  · intro i c cand hi he hno fuel1 hf1
    have hlt : i < pp.length := by
      by_contra hc
      rw [List.getElem?_eq_none (by omega)] at hi
      cases hi
    obtain ⟨q, path, idx, start, _, _, _, hg, hlen, hdir, _⟩ :=
      F.merklePath_match htr hi he hno fuel1 hf1
    obtain ⟨j, q1, n, hj, _, _, hn, _, _, _, hscan⟩ := F.scan_first htr (fun a n hn _ => hn)
      hi he hno (fun l leaf => merklePathLoop h fuel1 l leaf.Parent [] []) (.ok ([], []))
    rw [GetMerklePath_scan htr, hscan] at hg
    obtain ⟨ns, hns, hl⟩ := hpaths j (by omega)
    have hup : AncestorPath h n.Parent (ns.tail ++ [rn]) none ∧
        (ns.tail ++ [rn]).length = ns.length := by
      cases hns with
      | done p =>
        simp only [List.length_nil] at hl
        omega
      | step hn1 hrest =>
        rw [(node_some_iff _ _ _).2 hn] at hn1
        cases hn1
        have hr1 : AncestorPath h (some r) [rn] none := by
          have := AncestorPath.step hrnode (AncestorPath.done rn.Parent)
          rw [hpar] at this
          exact this
        exact ⟨hrest.join hr1, by simp⟩
    obtain ⟨e1, e2⟩ := merklePathLoop_length hup.1 fuel1 _ _ _ _ _ hg
    rw [hup.2, hl] at e1 e2
    refine ⟨path, idx, ?_, by simpa using e1, by simpa using e2, hdir⟩
    rw [GetMerklePath_scan htr, hscan]
    exact hg

/-- C22, amended, at a concrete input: five payloads, the last one; the depth is 3. -/
theorem C22_proof_length_is_depth_witness :
    NewTree 6 (fiveTx.map some) wrapHash emptyHeap =
      (.ok (some 0), (NewTree 6 (fiveTx.map some) wrapHash emptyHeap).2) ∧
    ∃ tr r d, (NewTree 6 (fiveTx.map some) wrapHash emptyHeap).2.tree (some 0) = .ok tr ∧
      tr.Root = some r ∧
      1 ≤ d ∧ fiveTx.length ≤ 2 ^ d ∧ (∀ d1, 1 ≤ d1 → fiveTx.length ≤ 2 ^ d1 → d ≤ d1) ∧
      (∃ rn, (NewTree 6 (fiveTx.map some) wrapHash emptyHeap).2.node (some r) = .ok rn ∧
        rn.Parent = none) ∧
      (∀ x ∈ tr.Leafs, ∃ ns,
        AncestorPath (NewTree 6 (fiveTx.map some) wrapHash emptyHeap).2 x ns (some r) ∧
        ns.length = d) ∧
      (∀ (i : Nat) (c cand : Tx), fiveTx[i]? = some c → Payload.Equals c cand = .ok true →
        (∀ j q, j < i → fiveTx[j]? = some q → ∃ b, Payload.Equals q cand = .ok b) →
        ∀ fuel1, (NewTree 6 (fiveTx.map some) wrapHash emptyHeap).2.nodes.length ≤ fuel1 →
          ∃ path idx, GetMerklePath fuel1 (some 0) cand
              (NewTree 6 (fiveTx.map some) wrapHash emptyHeap).2 = .ok (path, idx) ∧
            path.length = d ∧ idx.length = d ∧ ∀ x ∈ idx, x = 0 ∨ x = 1) :=
  ⟨by rfl, (C22_proof_length_is_depth wrapHash fiveTx (by decide) 6 emptyHeap).1 (some 0)
    (NewTree 6 (fiveTx.map some) wrapHash emptyHeap).2 (by rfl)⟩

end merkletree
